import Mathlib

/-!
B+ tree of `lleo/go-bptree`: shallow embedding and verification.

The Go package keeps a B+ tree as a graph of heap nodes (`*leafNodeS`,
`*interiorNodeS`) that the tree mutates in place.  The embedding keeps the
same functions with the same control flow over values:

* a slice is a list; reading `s[i]` outside the list is a failure (`none`),
  as are the explicit `lgr.Panic` branches and the failing type assertions;
* a pointer is the address `addr` the node received when it was allocated;
  `equals` compares addresses, as the Go code compares pointers.  `nextAddr`
  in the tree is the address the next allocation returns;
* `cap` is the capacity `mkLeaf`/`mkNode` gave the key slice (the order);
  a leaf's value slice has the same capacity and an interior node's child
  slice one more.  No `append` of the package exceeds these capacities on a
  tree the package can build, so the capacity of a node never changes;
* the keys are a type with a linear order: `Equals` is `=`, `LessThan` is `<`
  (the contract the package asks of a `BptKey`);
* Go mutates a node through a pointer and every holder of the pointer sees
  the change.  Here a changed node is stored back into the slot of its parent
  that holds its address (`nodeI.store`), and from there up the recorded path
  (`pathT.commit`);
* the Go `int` of `numEnts` is an unbounded integer (the count is the number
  of entries held in memory).

Plan of the development.

`nodeI.items` reads a subtree in order, separators included; the invariant
`Inv` asks that this reading is strictly ordered (which is both the ordering of
the leaf keys and the separator property), that the tree has the shape `WF`
(balance, parallel slices, fill bounds), that addresses are distinct and that
`numEnts` counts the entries.  `Put_spec`, `Get_spec` and `Del_spec` say what
the three operations do to a tree that meets `Inv`, against the association
list `ents t.root.items`; `Reachable.inv` gives `Inv` for every tree the
package builds.  The properties of the package follow in the sections
`Claims`, `Claims2`, `Claims3` and `Claims4`.

The sections `Claims5` to `Claims10` are about single steps of the operations:
what `split()` returns (sections `Splits`, `Claims5`, `Claims6`), what the
steal-or-merge block of `Del` and `delUp` does to a pair of adjacent siblings
and the separator between them (sections `PairBlock`, `Claims7`, `Moves`,
`Claims8`, evaluated on the sample trees of section `Abs4` in `Samples` and
`Claims9`), and where the height of the tree changes (sections `Height`,
`HeightOps`, `PutTrace`, `PutTrace2`, `DelTrace`, `DelTrace2`, `DelTrace3`,
`Samples2`, `Claims10`).  For the height, section `Abs6` holds `Put` and `Del`
run up to the statement that replaces the root (`tree.PutRoot`,
`tree.DelRoot`): the control flow of `tree.Put` and `tree.Del`, and for result
the node the run stands at when it comes to `t.root = t.newNode(...)` or to
the test `t.isRoot(parent)` of `delUp`.

The sections `Claims11` to `Claims16` close the development: the two `insert`
methods (sections `InsertOps`, `LeafInsert`, `Claims11`, `Claims12`), the
descent of `findLeaf` against the documented one, `Descent` (sections
`DescentPath`, `Claims13`), the bound on the height (sections `Count`,
`Claims14`), `Put` of a key that is present (sections `Replace`, `Claims15`)
and the scenario of a steal followed by a merge (sections `Scenario`,
`Claims16`).

The key type the package provides, `ByteSliceKey`, is embedded on its own
(section `Abs3`, with the byte loops of `Equals` and `LessThan` as they are
written); section `Keys` evaluates it against the order it documents.
-/

namespace bptree

/-- The two node variants behind the Go interface `nodeI`. -/
inductive nodeI (K V : Type) where
  | leafNodeS (addr cap : Nat) (keys : List K) (vals : List V)
  | interiorNodeS (addr cap : Nat) (keys : List K) (vals : List (nodeI K V))

/-- The tree: `root`, `order`, `numEnts` as in Go, and the allocator state. -/
structure tree (K V : Type) where
  root : nodeI K V
  order : Nat
  numEnts : Int
  nextAddr : Nat

/-- The descent path `pathT`, a stack of interior nodes; the head is the top. -/
abbrev pathT (K V : Type) := List (nodeI K V)

section Defs

variable {K V : Type}

/-- `mkLeaf(order)`, allocated at `addr`. -/
def mkLeaf (addr order : Nat) : nodeI K V := .leafNodeS addr order [] []

/-- `mkNode(order)`, allocated at `addr`. -/
def mkNode (addr order : Nat) : nodeI K V := .interiorNodeS addr order [] []

/-- The pointer value of a node. -/
def nodeI.addr : nodeI K V → Nat
  | .leafNodeS a _ _ _ => a
  | .interiorNodeS a _ _ _ => a

/-- `isLeaf()`. -/
def nodeI.isLeaf : nodeI K V → Bool
  | .leafNodeS _ _ _ _ => true
  | .interiorNodeS _ _ _ _ => false

/-- `order()`: `cap(n.keys)`. -/
def nodeI.order : nodeI K V → Nat
  | .leafNodeS _ c _ _ => c
  | .interiorNodeS _ c _ _ => c

/-- `size()`: `len(n.vals)`. -/
def nodeI.size : nodeI K V → Nat
  | .leafNodeS _ _ _ vals => vals.length
  | .interiorNodeS _ _ _ vals => vals.length

/-- `halfFullSize()`: `cap(n.vals) / 2`. -/
def nodeI.halfFullSize : nodeI K V → Nat
  | .leafNodeS _ c _ _ => c / 2
  | .interiorNodeS _ c _ _ => (c + 1) / 2

/-- `isToBig()`: `len(n.keys) == cap(n.keys)`. -/
def nodeI.isToBig : nodeI K V → Bool
  | .leafNodeS _ c keys _ => keys.length == c
  | .interiorNodeS _ c keys _ => keys.length == c

/-- `equals`: pointer equality.  `leafNodeS.equals` asserts that its argument
is a leaf and panics when it is not; `interiorNodeS.equals` answers false. -/
def nodeI.equals : nodeI K V → nodeI K V → Option Bool
  | .leafNodeS a _ _ _, .leafNodeS b _ _ _ => some (a == b)
  | .leafNodeS _ _ _ _, .interiorNodeS _ _ _ _ => none
  | .interiorNodeS a _ _ _, .interiorNodeS b _ _ _ => some (a == b)
  | .interiorNodeS _ _ _ _, .leafNodeS _ _ _ _ => some false

/-- The loop `for i, k := range keys { if key.Equals(k) ... }`: the first
index whose key equals `key`. -/
def keyIndex [DecidableEq K] (key : K) : List K → Option Nat
  | [] => none
  | k :: ks => if key = k then some 0 else (keyIndex key ks).map (· + 1)

/-- The loop `for i = 0; i < len(keys); i++ { if key.LessThan(keys[i]) ... }`:
the first index whose key is greater than `key`, `len(keys)` if there is none. -/
def ltIndex [LinearOrder K] (key : K) : List K → Nat
  | [] => 0
  | k :: ks => if key < k then 0 else ltIndex key ks + 1

/-- The loop of `leafNodeS.insert`: `some (i, true)` when `key` equals
`keys[i]`, `some (i, false)` when `key` is less than `keys[i]`, whichever
comes first; `none` when the loop runs off the end. -/
def insertScan [LinearOrder K] (key : K) : List K → Option (Nat × Bool)
  | [] => none
  | k :: ks =>
    if key = k then some (0, true)
    else if key < k then some (0, false)
    else (insertScan key ks).map fun r => (r.1 + 1, r.2)

/-- The loop `for i = 0; i < len(vals); i++ { if n.equals(vals[i]) ... }`:
the first index holding the pointer `n`; the inner option is `none` when the
loop ends without a match, the outer one when `equals` panics. -/
def nodeIndex (n : nodeI K V) : List (nodeI K V) → Option (Option Nat)
  | [] => some none
  | c :: cs =>
    match n.equals c with
    | none => none
    | some true => some (some 0)
    | some false => (nodeIndex n cs).map fun r => r.map (· + 1)

mutual
/-- `findLeftMostKey()`: down the first children to a leaf, then `keys[0]`. -/
def nodeI.findLeftMostKey : nodeI K V → Option K
  | .leafNodeS _ _ keys _ => keys.head?
  | .interiorNodeS _ _ _ vals => findLeftMostKeyFirst vals
/-- The step `node = node_.vals[0]` of `findLeftMostKey`. -/
def findLeftMostKeyFirst : List (nodeI K V) → Option K
  | [] => none
  | c :: _ => nodeI.findLeftMostKey c
end

/-- `leafNodeS.insert(key, val)`: the changed leaf and whether a new pair
was inserted. -/
def leafNodeS.insert [LinearOrder K] (key : K) (val : V) :
    nodeI K V → Option (nodeI K V × Bool)
  | .leafNodeS a c keys vals =>
    match insertScan key keys with
    | some (i, true) =>
      if i < vals.length then some (.leafNodeS a c keys (vals.set i val), false) else none
    | some (i, false) =>
      if i ≤ vals.length then
        some (.leafNodeS a c (keys.take i ++ key :: keys.drop i)
          (vals.take i ++ val :: vals.drop i), true)
      else none
    | none => some (.leafNodeS a c (keys ++ [key]) (vals ++ [val]), true)
  | .interiorNodeS _ _ _ _ => none

/-- `leafNodeS.split()`: the shrunk receiver, the new right leaf (allocated at
`newAddr`) and its first key. -/
def leafNodeS.split (newAddr : Nat) : nodeI K V → Option (nodeI K V × nodeI K V × K)
  | .leafNodeS a c keys vals =>
    let keySplitIdx := keys.length / 2
    let valSplitIdx := vals.length / 2
    let rkeys := keys.drop keySplitIdx
    let rvals := vals.drop valSplitIdx
    match rkeys.head? with
    | none => none
    | some k0 =>
      some (.leafNodeS a c (keys.take keySplitIdx) (vals.take valSplitIdx),
        .leafNodeS newAddr c rkeys rvals, k0)
  | .interiorNodeS _ _ _ _ => none

/-- `interiorNodeS.insert(key, val)`; the Go method always returns true. -/
def interiorNodeS.insert [LinearOrder K] (key : K) (val : nodeI K V) :
    nodeI K V → Option (nodeI K V)
  | .interiorNodeS a c keys vals =>
    let i := ltIndex key keys
    if i < keys.length then
      if i + 1 ≤ vals.length then
        some (.interiorNodeS a c (keys.take i ++ key :: keys.drop i)
          (vals.take (i + 1) ++ val :: vals.drop (i + 1)))
      else none
    else some (.interiorNodeS a c (keys ++ [key]) (vals ++ [val]))
  | .leafNodeS _ _ _ _ => none

/-- `interiorNodeS.split()`: the shrunk receiver, the new right node (allocated
at `newAddr`) and the promoted key. -/
def interiorNodeS.split (newAddr : Nat) : nodeI K V → Option (nodeI K V × nodeI K V × K)
  | .interiorNodeS a c keys vals =>
    let keySplitIdx := keys.length / 2
    let valSplitIdx := vals.length / 2
    if keys.length % 2 = 1 then
      match keys[keySplitIdx]? with
      | none => none
      | some newKey =>
        some (.interiorNodeS a c (keys.take keySplitIdx) (vals.take valSplitIdx),
          .interiorNodeS newAddr c (keys.drop (keySplitIdx + 1)) (vals.drop valSplitIdx),
          newKey)
    else
      if keySplitIdx = 0 then none
      else
        match keys[keySplitIdx - 1]? with
        | none => none
        | some newKey =>
          some (.interiorNodeS a c (keys.take (keySplitIdx - 1)) (vals.take valSplitIdx),
            .interiorNodeS newAddr c (keys.drop keySplitIdx) (vals.drop valSplitIdx),
            newKey)
  | .leafNodeS _ _ _ _ => none

/-- `findPeerLeft(parent)`: `some none` is Go's `(nil, nil)`. -/
def nodeI.findPeerLeft (rNode parent : nodeI K V) : Option (Option (nodeI K V × K)) :=
  match parent with
  | .interiorNodeS _ _ pkeys pvals =>
    match nodeIndex rNode pvals with
    | none => none
    | some none => none
    | some (some 0) => some none
    | some (some (i + 1)) =>
      match pvals[i]?, pkeys[i]? with
      | some n, some k => some (some (n, k))
      | _, _ => none
  | .leafNodeS _ _ _ _ => none

/-- `findPeerRight(parent)`: `some none` is Go's `(nil, nil)`. -/
def nodeI.findPeerRight (lNode parent : nodeI K V) : Option (Option (nodeI K V × K)) :=
  match parent with
  | .interiorNodeS _ _ pkeys pvals =>
    match nodeIndex lNode pvals with
    | none => none
    | some none => none
    | some (some i) =>
      if i + 1 = pvals.length then some none
      else
        match pvals[i + 1]?, pkeys[i]? with
        | some n, some k => some (some (n, k))
        | _, _ => none
  | .leafNodeS _ _ _ _ => none

/-- `interiorNodeS.swapKeys(oldKey, newKey)`. -/
def interiorNodeS.swapKeys [DecidableEq K] (oldKey newKey : K) : nodeI K V → Option (nodeI K V)
  | .interiorNodeS a c keys vals =>
    match keyIndex oldKey keys with
    | some i => some (.interiorNodeS a c (keys.set i newKey) vals)
    | none => none
  | .leafNodeS _ _ _ _ => none

/-- `rNode.stealLeft(lNode)`: the receiver and the left peer after the steal. -/
def nodeI.stealLeft : nodeI K V → nodeI K V → Option (nodeI K V × nodeI K V)
  | .leafNodeS ra rc rkeys rvals, .leafNodeS la lc lkeys lvals =>
    match lkeys.getLast?, lvals.getLast? with
    | some stolenKey, some stolenVal =>
      some (.leafNodeS ra rc (stolenKey :: rkeys) (stolenVal :: rvals),
        .leafNodeS la lc lkeys.dropLast lvals.dropLast)
    | _, _ => none
  | .interiorNodeS ra rc rkeys rvals, .interiorNodeS la lc lkeys lvals =>
    match lvals.getLast?, lkeys with
    | some stolenVal, _ :: _ =>
      match findLeftMostKeyFirst rvals with
      | some leastKey =>
        some (.interiorNodeS ra rc (leastKey :: rkeys) (stolenVal :: rvals),
          .interiorNodeS la lc lkeys.dropLast lvals.dropLast)
      | none => none
    | _, _ => none
  | _, _ => none

/-- `lNode.stealRight(rNode)`: the receiver and the right peer after the steal. -/
def nodeI.stealRight : nodeI K V → nodeI K V → Option (nodeI K V × nodeI K V)
  | .leafNodeS la lc lkeys lvals, .leafNodeS ra rc rkeys rvals =>
    match rkeys, rvals with
    | stolenKey :: rkeys1, stolenVal :: rvals1 =>
      some (.leafNodeS la lc (lkeys ++ [stolenKey]) (lvals ++ [stolenVal]),
        .leafNodeS ra rc rkeys1 rvals1)
    | _, _ => none
  | .interiorNodeS la lc lkeys lvals, .interiorNodeS ra rc rkeys rvals =>
    match rvals, rkeys with
    | stolenNode :: rvals1, _ :: rkeys1 =>
      match stolenNode.findLeftMostKey with
      | some leastKey =>
        some (.interiorNodeS la lc (lkeys ++ [leastKey]) (lvals ++ [stolenNode]),
          .interiorNodeS ra rc rkeys1 rvals1)
      | none => none
    | _, _ => none
  | _, _ => none

/-- `lNode.mergeRight(rNode)`: the receiver after it absorbed `rNode`. -/
def nodeI.mergeRight : nodeI K V → nodeI K V → Option (nodeI K V)
  | .leafNodeS la lc lkeys lvals, .leafNodeS _ _ rkeys rvals =>
    some (.leafNodeS la lc (lkeys ++ rkeys) (lvals ++ rvals))
  | .interiorNodeS la lc lkeys lvals, .interiorNodeS _ _ rkeys rvals =>
    match findLeftMostKeyFirst rvals with
    | some leastKey => some (.interiorNodeS la lc (lkeys ++ leastKey :: rkeys) (lvals ++ rvals))
    | none => none
  | _, _ => none

/-- Pointer aliasing: the parent sees the node `c` it points to in its
current state. -/
def nodeI.store (p c : nodeI K V) : nodeI K V :=
  match p with
  | .interiorNodeS a cap keys vals =>
    .interiorNodeS a cap keys (vals.map fun x => if x.addr = c.addr then c else x)
  | .leafNodeS a cap keys vals => .leafNodeS a cap keys vals

/-- Pointer aliasing along the path: the root as seen after `n`, reached
through `path`, changed. -/
def pathT.commit : pathT K V → nodeI K V → nodeI K V
  | [], n => n
  | p :: path, n => pathT.commit path (p.store n)

/-- `newPathT()`. -/
def newPathT : pathT K V := []

/-- `path.push(node)`. -/
def pathT.push (path : pathT K V) (node : nodeI K V) : pathT K V := node :: path

/-- `path.pop()`: the top entry (Go's nil when the path is empty) and the rest. -/
def pathT.pop : pathT K V → Option (nodeI K V) × pathT K V
  | [] => (none, [])
  | node :: path => (some node, path)

/-- `path.isEmpty()`. -/
def pathT.isEmpty (path : pathT K V) : Bool := path.length == 0

/-- `mkTree(order)`; the root leaf is the first allocation. -/
def mkTree (order : Nat) : tree K V :=
  { root := mkLeaf 0 order, order := order, numEnts := 0, nextAddr := 1 }

/-- `NewBpTree(order)`: panics below order 3. -/
def NewBpTree (order : Int) : Option (tree K V) :=
  if order < 3 then none else some (mkTree order.toNat)

/-- `t.newNode(k, l, r)`, allocated at `addr`. -/
def tree.newNode (t : tree K V) (addr : Nat) (k : K) (l r : nodeI K V) : nodeI K V :=
  match (mkNode addr t.order : nodeI K V) with
  | .interiorNodeS a c keys vals => .interiorNodeS a c (keys ++ [k]) (vals ++ [l, r])
  | n => n

/-- `Order()`. -/
def tree.Order (t : tree K V) : Int := t.order

/-- `NumberOfEntries()`. -/
def tree.NumberOfEntries (t : tree K V) : Int := t.numEnts

/-- `t.isRoot(node)`: `t.root.equals(node)`. -/
def tree.isRoot (t : tree K V) (node : nodeI K V) : Option Bool := t.root.equals node

mutual
/-- The descent loop of `findLeaf`, started at `nextNode` with the path built
so far: the leaf reached and the path, every interior node visited pushed. -/
def findLeafFrom [LinearOrder K] (key : K) : nodeI K V → pathT K V → Option (nodeI K V × pathT K V)
  | .leafNodeS a c keys vals, path => some (.leafNodeS a c keys vals, path)
  | .interiorNodeS a c keys vals, path =>
    findLeafAt key vals (ltIndex key keys) (pathT.push path (.interiorNodeS a c keys vals))
/-- The step `nextNode = curNode.vals[i]` of `findLeaf`, then on with the loop. -/
def findLeafAt [LinearOrder K] (key : K) :
    List (nodeI K V) → Nat → pathT K V → Option (nodeI K V × pathT K V)
  | [], _, _ => none
  | c :: _, 0, path => findLeafFrom key c path
  | _ :: cs, i + 1, path => findLeafAt key cs i path
end

/-- `t.findLeaf(key, &path)`. -/
def tree.findLeaf [LinearOrder K] (t : tree K V) (key : K) (path : pathT K V) :
    Option (nodeI K V × pathT K V) :=
  findLeafFrom key t.root path

/-- The scan of a leaf for `key` in `Get`: Go's `(leaf.vals[i], true)` or
`(nil, false)`. -/
def leafNodeS.get [DecidableEq K] (key : K) : nodeI K V → Option (Option V × Bool)
  | .leafNodeS _ _ keys vals =>
    match keyIndex key keys with
    | some i =>
      match vals[i]? with
      | some v => some (some v, true)
      | none => none
    | none => some (none, false)
  | .interiorNodeS _ _ _ _ => none

/-- `t.Get(key)`. -/
def tree.Get [LinearOrder K] (t : tree K V) (key : K) : Option (Option V × Bool) :=
  match t.findLeaf key newPathT with
  | none => none
  | some (leaf, _) => leafNodeS.get key leaf

/-- The loop `for parent.isToBig() { ... }` of `Put`: the new root and the
allocator state. -/
def tree.putLoop [LinearOrder K] (t : tree K V) :
    nodeI K V → pathT K V → Nat → Option (nodeI K V × Nat)
  | parent, path, next =>
    if parent.isToBig then
      match interiorNodeS.split next parent with
      | none => none
      | some (parent, rightNode, rightKey) =>
        match path with
        | [] => some (t.newNode (next + 1) rightKey parent rightNode, next + 2)
        | gp :: path =>
          match interiorNodeS.insert rightKey rightNode (gp.store parent) with
          | none => none
          | some gp => tree.putLoop t gp path (next + 1)
    else some (pathT.commit path parent, next)

/-- `t.Put(key, val)`: the tree after the call and the boolean it returns. -/
def tree.Put [LinearOrder K] (t : tree K V) (key : K) (val : V) : Option (tree K V × Bool) :=
  match t.findLeaf key newPathT with
  | none => none
  | some (leaf, path) =>
    match leafNodeS.insert key val leaf with
    | none => none
    | some (leaf, added) =>
      let numEnts := if added then t.numEnts + 1 else t.numEnts
      if leaf.isToBig then
        match leafNodeS.split t.nextAddr leaf with
        | none => none
        | some (leaf, rightLeaf, rightKey) =>
          match path with
          | [] =>
            some ({ t with root := t.newNode (t.nextAddr + 1) rightKey leaf rightLeaf,
                           numEnts := numEnts, nextAddr := t.nextAddr + 2 }, added)
          | parent :: path =>
            match interiorNodeS.insert rightKey rightLeaf (parent.store leaf) with
            | none => none
            | some parent =>
              match t.putLoop parent path (t.nextAddr + 1) with
              | none => none
              | some (root, next) =>
                some ({ t with root := root, numEnts := numEnts, nextAddr := next }, added)
      else
        some ({ t with root := pathT.commit path leaf, numEnts := numEnts }, added)

/-- The loop of `Del` that removes `key` from the leaf: the changed leaf, the
value found (Go's nil when there is none) and `found`. -/
def leafNodeS.remove [DecidableEq K] (key : K) :
    nodeI K V → Option (nodeI K V × Option V × Bool)
  | .leafNodeS a c keys vals =>
    match keyIndex key keys with
    | some i =>
      match vals[i]? with
      | some v =>
        some (.leafNodeS a c (keys.take i ++ keys.drop (i + 1))
          (vals.take i ++ vals.drop (i + 1)), some v, true)
      | none => none
    | none => some (.leafNodeS a c keys vals, none, false)
  | .interiorNodeS _ _ _ _ => none

/-- The steal-or-merge block that `Del` runs on an under-full leaf and its
parent, and `delUp` on an under-full interior node and its parent (the same
statements in both): try to steal from the left peer, then from the right
peer, else merge.  The result is the parent after the block and, when the
block merged, the pair `(mergedNode, deadNode)` handed to `delUp`; without a
merge the operation returns. -/
def stealOrMerge [DecidableEq K] (node parent : nodeI K V) :
    Option (nodeI K V × Option (nodeI K V × nodeI K V)) :=
  match node.findPeerLeft parent with
  | none => none
  | some left =>
    match left.filter fun p => p.1.size > p.1.halfFullSize with
    | some (leftNode, leftKey) =>
      match node.stealLeft leftNode with
      | none => none
      | some (node, leftNode) =>
        match node.findLeftMostKey with
        | none => none
        | some newKey =>
          match interiorNodeS.swapKeys leftKey newKey ((parent.store node).store leftNode) with
          | none => none
          | some parent => some (parent, none)
    | none =>
      match node.findPeerRight parent with
      | none => none
      | some right =>
        match right.filter fun p => p.1.size > p.1.halfFullSize with
        | some (rightNode, rightKey) =>
          match node.stealRight rightNode with
          | none => none
          | some (node, rightNode) =>
            match rightNode.findLeftMostKey with
            | none => none
            | some newKey =>
              match interiorNodeS.swapKeys rightKey newKey
                  ((parent.store node).store rightNode) with
              | none => none
              | some parent => some (parent, none)
        | none =>
          match left, right with
          | none, none => none
          | some (leftNode, _), _ =>
            match leftNode.mergeRight node with
            | none => none
            | some leftNode => some (parent.store leftNode, some (leftNode, node))
          | none, some (rightNode, _) =>
            match node.mergeRight rightNode with
            | none => none
            | some node => some (parent.store node, some (node, rightNode))

/-- The loop at the head of `delUp`: drop `deadNode` and the key left of it
from `parent`. -/
def removeDead (deadNode : nodeI K V) : nodeI K V → Option (nodeI K V)
  | .interiorNodeS a c keys vals =>
    match nodeIndex deadNode vals with
    | none => none
    | some none => some (.interiorNodeS a c keys vals)
    | some (some 0) => none
    | some (some (i + 1)) =>
      if i + 1 ≤ keys.length then
        some (.interiorNodeS a c (keys.take i ++ keys.drop (i + 1))
          (vals.take (i + 1) ++ vals.drop (i + 2)))
      else none
  | .leafNodeS _ _ _ _ => none

/-- The statement `t.root = parent.vals[0]` guarded by `len(parent.keys) == 0`
in `delUp`: the root after the operation when `parent` is the root. -/
def shrinkRoot : nodeI K V → Option (nodeI K V)
  | .interiorNodeS a c keys vals =>
    if keys.length = 0 then vals.head? else some (.interiorNodeS a c keys vals)
  | .leafNodeS _ _ _ _ => none

/-- `t.delUp(parent, mergedNode, deadNode, path)`: the root after the call. -/
def tree.delUp [DecidableEq K] (t : tree K V) :
    nodeI K V → nodeI K V → nodeI K V → pathT K V → Option (nodeI K V)
  | parent, _mergedNode, deadNode, path =>
    match removeDead deadNode parent with
    | none => none
    | some parent =>
      match t.isRoot parent with
      | none => none
      | some true => shrinkRoot parent
      | some false =>
        if parent.size ≥ parent.halfFullSize then some (pathT.commit path parent)
        else
          match path with
          | [] => none
          | grandParent :: path =>
            match stealOrMerge parent (grandParent.store parent) with
            | none => none
            | some (grandParent, none) => some (pathT.commit path grandParent)
            | some (grandParent, some (mNode, dNode)) =>
              tree.delUp t grandParent mNode dNode path

/-- `t.Del(key)`: the tree after the call and the pair it returns. -/
def tree.Del [LinearOrder K] (t : tree K V) (key : K) :
    Option (tree K V × Option V × Bool) :=
  match t.findLeaf key newPathT with
  | none => none
  | some (leaf, path) =>
    match leafNodeS.remove key leaf with
    | none => none
    | some (leaf, val, found) =>
      let numEnts := if found then t.numEnts - 1 else t.numEnts
      match t.isRoot leaf with
      | none => none
      | some true => some ({ t with root := leaf, numEnts := numEnts }, val, found)
      | some false =>
        if leaf.size ≥ leaf.halfFullSize then
          some ({ t with root := pathT.commit path leaf, numEnts := numEnts }, val, found)
        else
          match path with
          | [] => none
          | parent :: path =>
            match stealOrMerge leaf (parent.store leaf) with
            | none => none
            | some (parent, none) =>
              some ({ t with root := pathT.commit path parent, numEnts := numEnts }, val, found)
            | some (parent, some (mergedLeaf, deadLeaf)) =>
              match t.delUp parent mergedLeaf deadLeaf path with
              | none => none
              | some root => some ({ t with root := root, numEnts := numEnts }, val, found)

end Defs

section Abs

variable {K V : Type}

/-- The trees the package can build: `NewBpTree`, then any calls of `Put` and
`Del` that return. -/
inductive Reachable [LinearOrder K] : tree K V → Prop where
  | new (order : Int) (t : tree K V) : NewBpTree order = some t → Reachable t
  | put (t t' : tree K V) (key : K) (val : V) (added : Bool) :
      Reachable t → t.Put key val = some (t', added) → Reachable t'
  | del (t t' : tree K V) (key : K) (r : Option V × Bool) :
      Reachable t → t.Del key = some (t', r) → Reachable t'

/-- An element of the in-order reading of a tree: a separator key of an
interior node or a key/value entry of a leaf. -/
inductive Item (K V : Type) where
  | sep (k : K)
  | ent (k : K) (v : V)

/-- The key of an item. -/
def Item.key : Item K V → K
  | .sep k => k
  | .ent k _ => k

/-- Separators come before the entry of the same key. -/
def Item.rank : Item K V → Nat
  | .sep _ => 0
  | .ent _ _ => 1

/-- The order of the in-order reading: by key, a separator before an entry of
the same key (a separator is at most the keys right of it). -/
def Item.lt [LinearOrder K] (a b : Item K V) : Prop :=
  a.key < b.key ∨ (a.key = b.key ∧ a.rank < b.rank)

/-- An item that stands left of where `key` belongs: it is below an entry of
`key`. -/
def Item.below [LinearOrder K] (key : K) (a : Item K V) : Prop :=
  a.key < key ∨ (a.key = key ∧ a.rank = 0)

/-- An item that stands right of where `key` belongs: it is above an entry of
`key`. -/
def Item.above [LinearOrder K] (key : K) (a : Item K V) : Prop := key < a.key

/-- The reading `new` may stand wherever the reading `old` stands in an
ordered reading. -/
def Refines0 [LinearOrder K] (new old : List (Item K V)) : Prop :=
  ∀ pre post, (pre ++ old ++ post).Pairwise Item.lt → (pre ++ new ++ post).Pairwise Item.lt

/-- The reading `new` may stand wherever the reading `old` stands in an
ordered reading, between items below `key` and items above `key`. -/
def Refines [LinearOrder K] (key : K) (new old : List (Item K V)) : Prop :=
  ∀ pre post, (pre ++ old ++ post).Pairwise Item.lt →
    (∀ a ∈ pre, a.below key) → (∀ b ∈ post, b.above key) →
    (pre ++ new ++ post).Pairwise Item.lt

/-- The association list after `key` became bound to `val`: the entries below
`key`, the new entry, the entries above `key`. -/
def insertSpec [LinearOrder K] (key : K) (val : V) (l : List (K × V)) : List (K × V) :=
  l.filter (fun e => decide (e.1 < key)) ++ (key, val) :: l.filter (fun e => decide (key < e.1))

/-- The association list after `key` was removed. -/
def eraseSpec [DecidableEq K] (key : K) (l : List (K × V)) : List (K × V) :=
  l.filter (fun e => decide (e.1 ≠ key))

/-- The value an association list binds to `key`. -/
def lookupEnt [DecidableEq K] (key : K) : List (K × V) → Option V
  | [] => none
  | e :: l => if key = e.1 then some e.2 else lookupEnt key l

/-- The pair `Get` and `Del` return for a binding: Go's `(v, true)` or
`(nil, false)`. -/
def getResult : Option V → Option V × Bool
  | some v => (some v, true)
  | none => (none, false)

/-- The entries among a list of items. -/
def ents (l : List (Item K V)) : List (K × V) :=
  l.filterMap fun
    | .sep _ => none
    | .ent k v => some (k, v)

/-- Children readings `c₀, c₁, …` with the separators between them:
`c₀ ++ s₀ :: c₁ ++ s₁ :: …`. -/
def interleave : List K → List (List (Item K V)) → List (Item K V)
  | _, [] => []
  | [], c :: _ => c
  | k :: ks, c :: cs => c ++ Item.sep k :: interleave ks cs

/-- The readings `c₀ ++ [s₀] ++ c₁ ++ [s₁] ++ …` left of a child. -/
def preI : List K → List (List (Item K V)) → List (Item K V)
  | k :: ks, c :: cs => c ++ Item.sep k :: preI ks cs
  | _, _ => []

/-- The readings `[s₀] ++ c₀ ++ [s₁] ++ c₁ ++ …` right of a child. -/
def postI : List K → List (List (Item K V)) → List (Item K V)
  | k :: ks, c :: cs => Item.sep k :: c ++ postI ks cs
  | _, _ => []

mutual
/-- The in-order reading of a subtree: leaf entries and separators. -/
def nodeI.items : nodeI K V → List (Item K V)
  | .leafNodeS _ _ keys vals => List.zipWith Item.ent keys vals
  | .interiorNodeS _ _ keys vals => interleave keys (itemsList vals)
/-- The readings of a list of children. -/
def itemsList : List (nodeI K V) → List (List (Item K V))
  | [] => []
  | c :: cs => c.items :: itemsList cs
end

mutual
/-- The keys of all leaves of a subtree, left to right. -/
def nodeI.leafKeys : nodeI K V → List K
  | .leafNodeS _ _ keys _ => keys
  | .interiorNodeS _ _ _ vals => leafKeysList vals
/-- The leaf keys under a list of children, left to right. -/
def leafKeysList : List (nodeI K V) → List K
  | [] => []
  | c :: cs => c.leafKeys ++ leafKeysList cs
end

mutual
/-- The depth of every leaf below a node, left to right. -/
def nodeI.leafDepths : nodeI K V → List Nat
  | .leafNodeS _ _ _ _ => [0]
  | .interiorNodeS _ _ _ vals => (leafDepthsList vals).map (· + 1)
/-- The leaf depths under a list of children. -/
def leafDepthsList : List (nodeI K V) → List Nat
  | [] => []
  | c :: cs => c.leafDepths ++ leafDepthsList cs
end

mutual
/-- The addresses of all nodes of a subtree. -/
def nodeI.addrs : nodeI K V → List Nat
  | .leafNodeS a _ _ _ => [a]
  | .interiorNodeS a _ _ vals => a :: addrsList vals
/-- The addresses of all nodes under a list of children. -/
def addrsList : List (nodeI K V) → List Nat
  | [] => []
  | c :: cs => c.addrs ++ addrsList cs
end

mutual
/-- The separator property I5 at every interior node of a subtree: the leaf
keys under child `i` are below separator `i`, those under child `i+1` are at
least separator `i`. -/
def nodeI.separatorOK [LinearOrder K] : nodeI K V → Prop
  | .leafNodeS _ _ _ _ => True
  | .interiorNodeS _ _ keys vals =>
    (∀ (i : Nat) (s : K) (c : nodeI K V),
      keys[i]? = some s → vals[i]? = some c → ∀ k ∈ c.leafKeys, k < s) ∧
    (∀ (i : Nat) (s : K) (c : nodeI K V),
      keys[i]? = some s → vals[i + 1]? = some c → ∀ k ∈ c.leafKeys, s ≤ k) ∧
    separatorOKList vals
/-- The separator property in every child of a list. -/
def separatorOKList [LinearOrder K] : List (nodeI K V) → Prop
  | [] => True
  | c :: cs => c.separatorOK ∧ separatorOKList cs
end

/-- A node holds at least its minimum: `size() >= halfFullSize()`. -/
def MinFill (n : nodeI K V) : Prop := n.halfFullSize ≤ n.size

/-- The shape of a subtree of height `h` in a tree of order `order`: the
capacity is the order, keys and values (children) are parallel, no node is
over-full, all leaves are `h` levels down, and every node below the top one
holds its minimum. -/
inductive WF (order : Nat) : Nat → nodeI K V → Prop where
  | leaf (a c : Nat) (keys : List K) (vals : List V) :
      c = order → keys.length = vals.length → keys.length < order →
      WF order 0 (.leafNodeS a c keys vals)
  | interior (h a c : Nat) (keys : List K) (vals : List (nodeI K V)) :
      c = order → vals.length = keys.length + 1 → keys.length < order →
      (∀ x ∈ vals, WF order h x) → (∀ x ∈ vals, MinFill x) →
      WF order (h + 1) (.interiorNodeS a c keys vals)

/-- An interior root has at least two children. -/
def RootFill (n : nodeI K V) : Prop := n.isLeaf = true ∨ 2 ≤ n.size

/-- The invariant of the trees the package builds. -/
structure Inv [LinearOrder K] (t : tree K V) : Prop where
  order_ge : 3 ≤ t.order
  wf : ∃ h, WF t.order h t.root
  rootFill : RootFill t.root
  sorted : (t.root.items).Pairwise Item.lt
  nodup : t.root.addrs.Nodup
  fresh : ∀ a ∈ t.root.addrs, a < t.nextAddr
  count : t.numEnts = ((ents t.root.items).length : Int)

/-- What a level of `Put` hands to the level above it: the node in place and,
when the node split, the separator and the new right node. -/
abbrev PutOut (K V : Type) := nodeI K V × Option (K × nodeI K V)

/-- The separators (none or one) of what a level of `Put` hands up. -/
def PutOut.keys : PutOut K V → List K
  | (_, none) => []
  | (_, some (s, _)) => [s]

/-- The nodes (one or two) of what a level of `Put` hands up. -/
def PutOut.nodes : PutOut K V → List (nodeI K V)
  | (n, none) => [n]
  | (l, some (_, r)) => [l, r]

/-- The in-order reading of what a level of `Put` hands up. -/
def PutOut.items : PutOut K V → List (Item K V)
  | (n, none) => n.items
  | (l, some (s, r)) => l.items ++ Item.sep s :: r.items

/-- The addresses of what a level of `Put` hands up. -/
def PutOut.addrs : PutOut K V → List Nat
  | (n, none) => n.addrs
  | (l, some (_, r)) => l.addrs ++ r.addrs

/-- What a level of `Put` hands up, against the subtree `X` it started from:
the nodes are well-formed and keep the height, the reading stays ordered and
binds `key` to `val`, the node in place keeps its address and new nodes have
fresh addresses. -/
structure PutPost [LinearOrder K] (order h : Nat) (key : K) (val : V) (X : nodeI K V)
    (out : PutOut K V) (added : Bool) (next0 next1 : Nat) : Prop where
  wf : ∀ n ∈ out.nodes, WF order h n
  fill : (out.2.isSome = true ∨ MinFill X) → ∀ n ∈ out.nodes, MinFill n
  addr : out.1.addr = X.addr
  size : out.2 = none → X.size ≤ out.1.size
  refines : Refines key out.items X.items
  ents_eq : ents out.items = insertSpec key val (ents X.items)
  added_eq : added = !(lookupEnt key (ents X.items)).isSome
  next_le : next0 ≤ next1
  addrs_mem : ∀ a ∈ out.addrs, a ∈ X.addrs ∨ (next0 ≤ a ∧ a < next1)
  addrs_nodup : X.addrs.Nodup → (∀ a ∈ X.addrs, a < next0) → out.addrs.Nodup

/-- The test `isToBig()` and the `split()` that follows it in `Put`, on a leaf. -/
def leafSplitIfBig (next : Nat) (n : nodeI K V) : Option (PutOut K V × Nat) :=
  if n.isToBig then
    (leafNodeS.split next n).map fun r => ((r.1, some (r.2.2, r.2.1)), next + 1)
  else some ((n, none), next)

/-- The test `isToBig()` and the `split()` that follows it in `Put`, on an
interior node. -/
def splitIfBig (next : Nat) (n : nodeI K V) : Option (PutOut K V × Nat) :=
  if n.isToBig then
    (interiorNodeS.split next n).map fun r => ((r.1, some (r.2.2, r.2.1)), next + 1)
  else some ((n, none), next)

/-- The way up of `Put` from one level: what the level hands up is taken into
the nodes of the path, top first; the result is the root. -/
def tree.putUp [LinearOrder K] (t : tree K V) :
    PutOut K V → pathT K V → Nat → Option (nodeI K V × Nat)
  | out, [], next =>
    match out with
    | (n, none) => some (n, next)
    | (l, some (s, r)) => some (t.newNode next s l r, next + 1)
  | out, p :: path, next =>
    match out with
    | (n, none) => tree.putUp t (p.store n, none) path next
    | (l, some (s, r)) =>
      match interiorNodeS.insert s r (p.store l) with
      | none => none
      | some p' =>
        match splitIfBig next p' with
        | none => none
        | some (out', next') => tree.putUp t out' path next'

/-- How the node `X'` that `Del` leaves in place of the subtree `X` reads: it
keeps the address, its reading stays ordered and no longer binds `key`, the
pair returned is the binding `key` had, and no address is new. -/
structure DelRel [LinearOrder K] (key : K) (X X' : nodeI K V) (val : Option V) (found : Bool) :
    Prop where
  addr : X'.addr = X.addr
  refines : Refines0 X'.items X.items
  ents_eq : ents X'.items = eraseSpec key (ents X.items)
  val_eq : val = lookupEnt key (ents X.items)
  found_eq : found = (lookupEnt key (ents X.items)).isSome
  addrs_mem : ∀ a ∈ X'.addrs, a ∈ X.addrs
  addrs_nodup : X.addrs.Nodup → X'.addrs.Nodup
  unchanged : found = false → X' = X

/-- What a level of `Del` hands to the level above it, against the subtree `X`
it started from: the node `X'` in place is well-formed but for its own minimum
and lost at most one entry or child. -/
structure DelPost [LinearOrder K] (order h : Nat) (key : K) (X X' : nodeI K V)
    (val : Option V) (found : Bool) extends DelRel key X X' val found : Prop where
  wf : WF order h X'
  size : X.size ≤ X'.size + 1

/-- A node rebuilt by a steal or a merge among its children: it keeps the
address, its reading stays ordered and keeps its entries, and no address is
new. -/
structure Same [LinearOrder K] (P P' : nodeI K V) : Prop where
  addr : P'.addr = P.addr
  refines : Refines0 P'.items P.items
  ents_eq : ents P'.items = ents P.items
  addrs_mem : ∀ a ∈ P'.addrs, a ∈ P.addrs
  addrs_nodup : P.addrs.Nodup → P'.addrs.Nodup

/-- A steal between the adjacent siblings `A` and `B` with separator `s`
between them, that leaves `A'`, `s'`, `B'`: both nodes are well-formed and hold
their minimum, the reading stays ordered and keeps its entries, the addresses
are the same. -/
structure PairSteal [LinearOrder K] (order h : Nat) (A : nodeI K V) (s : K) (B A' : nodeI K V)
    (s' : K) (B' : nodeI K V) : Prop where
  wfA : WF order h A'
  wfB : WF order h B'
  fillA : MinFill A'
  fillB : MinFill B'
  addrA : A'.addr = A.addr
  addrB : B'.addr = B.addr
  refines : Refines0 (A'.items ++ Item.sep s' :: B'.items) (A.items ++ Item.sep s :: B.items)
  ents_eq : ents (A'.items ++ B'.items) = ents (A.items ++ B.items)
  addrs : List.Perm (A'.addrs ++ B'.addrs) (A.addrs ++ B.addrs)

/-- A merge of the adjacent siblings `A` and `B` with separator `s` between
them into `M`: the node is well-formed and holds its minimum, the reading stays
ordered and keeps its entries, no address is new. -/
structure PairMerge [LinearOrder K] (order h : Nat) (A : nodeI K V) (s : K) (B M : nodeI K V) :
    Prop where
  wf : WF order h M
  fill : MinFill M
  addr : M.addr = A.addr
  refines : Refines0 M.items (A.items ++ Item.sep s :: B.items)
  ents_eq : ents M.items = ents (A.items ++ B.items)
  addrs : List.Sublist M.addrs (A.addrs ++ B.addrs)

/-- Where a node stands in the tree during `Del`: it is the root (and the
path above it is empty), or it is below the root and holds its minimum. -/
def Pos (t : tree K V) (X : nodeI K V) (p0 : pathT K V) : Prop :=
  (t.root.addr = X.addr ∧ t.root.isLeaf = X.isLeaf ∧ RootFill X ∧ p0 = []) ∨
  (t.root.isLeaf = false ∧ t.root.addr ∉ X.addrs ∧ MinFill X)

/-- The root `Del` leaves when the node that lost an entry is the root. -/
def rootAfter : nodeI K V → Option (nodeI K V)
  | .leafNodeS a c keys vals => some (.leafNodeS a c keys vals)
  | .interiorNodeS a c keys vals => shrinkRoot (.interiorNodeS a c keys vals)

/-- The way up of `Del` from a node that lost an entry or a child: the root
test, the fill test, the steal-or-merge block, and on with the parent after a
merge; the result is the root. -/
def tree.delFix [DecidableEq K] (t : tree K V) : nodeI K V → pathT K V → Option (nodeI K V)
  | n, path =>
    match t.isRoot n with
    | none => none
    | some true => rootAfter n
    | some false =>
      if n.size ≥ n.halfFullSize then some (pathT.commit path n)
      else
        match path with
        | [] => none
        | p :: path =>
          match stealOrMerge n (p.store n) with
          | none => none
          | some (p', none) => some (pathT.commit path p')
          | some (p', some (_, d)) =>
            match removeDead d p' with
            | none => none
            | some p'' => tree.delFix t p'' path

end Abs

section Abs2

variable {K V : Type}

/-- The loop `for _, ent := range ents { bpt.Put(ent.key, ent.val) }` of the
tests: the tree after the calls. -/
def putEnts [LinearOrder K] (t : tree K V) : List (K × V) → Option (tree K V)
  | [] => some t
  | ent :: ents =>
    match t.Put ent.1 ent.2 with
    | none => none
    | some (t', _) => putEnts t' ents

/-- The tree `NewBpTree(3)` returns. -/
def demo0 : tree Nat Nat := mkTree 3

/-- The tree `demo0` after `Put(1, 10)`. -/
def demo1 : tree Nat Nat :=
  { root := .leafNodeS 0 3 [1] [10], order := 3, numEnts := 1, nextAddr := 1 }

/-- The tree `demo1` after `Put(2, 20)`. -/
def demo2 : tree Nat Nat :=
  { root := .leafNodeS 0 3 [1, 2] [10, 20], order := 3, numEnts := 2, nextAddr := 1 }

/-- The tree `demo2` after `Put(3, 30)`: the root leaf split. -/
def demo3 : tree Nat Nat :=
  { root := .interiorNodeS 2 3 [2]
      [.leafNodeS 0 3 [1] [10], .leafNodeS 1 3 [2, 3] [20, 30]],
    order := 3, numEnts := 3, nextAddr := 3 }

end Abs2

section Abs3

variable {K V : Type}

/-- The loop `for _, ent := range ents { bpt.Del(ent.key) }` of the tests: the
tree after the calls. -/
def delEnts [LinearOrder K] (t : tree K V) : List K → Option (tree K V)
  | [] => some t
  | key :: keys =>
    match t.Del key with
    | none => none
    | some (t', _) => delEnts t' keys

/-- `len(n.keys)`. -/
def nodeI.numKeys : nodeI K V → Nat
  | .leafNodeS _ _ keys _ => keys.length
  | .interiorNodeS _ _ keys _ => keys.length

/-- The children of a node: `vals` of an interior node; a leaf has none. -/
def nodeI.children : nodeI K V → List (nodeI K V)
  | .leafNodeS _ _ _ _ => []
  | .interiorNodeS _ _ _ vals => vals

mutual
/-- A node and all the nodes below it. -/
def nodeI.nodes : nodeI K V → List (nodeI K V)
  | .leafNodeS a c keys vals => [.leafNodeS a c keys vals]
  | .interiorNodeS a c keys vals => .interiorNodeS a c keys vals :: nodesList vals
/-- The nodes of a list of subtrees.  `nodesList t.root.children` is the
work list `nodes` of `_validTree`: every node but the root. -/
def nodesList : List (nodeI K V) → List (nodeI K V)
  | [] => []
  | c :: cs => c.nodes ++ nodesList cs
end

/-- The ceiling of `n / 2`. -/
def ceilHalf (n : Nat) : Nat := (n + 1) / 2

/-- I6 at one node: a leaf has as many values as keys, an interior node one
child more than separators. -/
def nodeI.parallel : nodeI K V → Prop
  | .leafNodeS _ _ keys vals => keys.length = vals.length
  | .interiorNodeS _ _ keys vals => keys.length + 1 = vals.length

mutual
/-- The number of key/value entries stored in the leaves of a subtree. -/
def nodeI.entryCount : nodeI K V → Nat
  | .leafNodeS _ _ _ vals => vals.length
  | .interiorNodeS _ _ _ vals => entryCountList vals
/-- The number of entries stored in the leaves of a list of subtrees. -/
def entryCountList : List (nodeI K V) → Nat
  | [] => 0
  | c :: cs => c.entryCount + entryCountList cs
end

/-- `ByteSliceKey`, a `[]byte`.  A byte is a natural number (below 256); the
methods only compare bytes. -/
abbrev ByteSliceKey := List Nat

/-- The loop `for i := range k0 { if k0[i] != k1[i] { return false } }` of
`Equals` and the `return true` after it; the loop runs on slices of equal
length. -/
def ByteSliceKey.equalsLoop : List Nat → List Nat → Bool
  | a :: k0, b :: k1 => if a ≠ b then false else ByteSliceKey.equalsLoop k0 k1
  | _, _ => true

/-- `k0.Equals(k1)` on two `ByteSliceKey` values. -/
def ByteSliceKey.Equals (k0 k1 : ByteSliceKey) : Bool :=
  if k0.length ≠ k1.length then false else ByteSliceKey.equalsLoop k0 k1

/-- The loop `for i := range k0 { if k0[i] < k1[i] { return true } }` of
`LessThan` and the `return false` after it; the loop runs on slices of equal
length. -/
def ByteSliceKey.lessLoop : List Nat → List Nat → Bool
  | a :: k0, b :: k1 => if a < b then true else ByteSliceKey.lessLoop k0 k1
  | _, _ => false

/-- `k0.LessThan(k1)` on two `ByteSliceKey` values. -/
def ByteSliceKey.LessThan (k0 k1 : ByteSliceKey) : Bool :=
  if k0.length < k1.length then true
  else if k0.length > k1.length then false
  else ByteSliceKey.lessLoop k0 k1

/-- The bytes of two sequences at the first index where they differ. -/
def firstDiff : List Nat → List Nat → Option (Nat × Nat)
  | a :: k0, b :: k1 => if a ≠ b then some (a, b) else firstDiff k0 k1
  | _, _ => none

/-- The order the package documents for `ByteSliceKey`: by length first, then
by the byte at the first index where the sequences differ. -/
def lengthFirstLess (a b : List Nat) : Bool :=
  decide (a.length < b.length) ||
    (decide (a.length = b.length) &&
      match firstDiff a b with
      | some (x, y) => decide (x < y)
      | none => false)

end Abs3

section Abs4

variable {K V : Type}

/-- `n.keys`: the keys of a leaf, the separators of an interior node. -/
def nodeI.keys : nodeI K V → List K
  | .leafNodeS _ _ keys _ => keys
  | .interiorNodeS _ _ keys _ => keys

mutual
/-- The height of a subtree: the number of interior nodes on the way from its
top down the first children to a leaf. -/
def nodeI.height : nodeI K V → Nat
  | .leafNodeS _ _ _ _ => 0
  | .interiorNodeS _ _ _ vals => heightFirst vals + 1
/-- The height below the first child of a list of children. -/
def heightFirst : List (nodeI K V) → Nat
  | [] => 0
  | c :: _ => c.height
end

/-- The tree `demo3` after `Put(4, 40)`. -/
def demo4 : tree Nat Nat :=
  { root := .interiorNodeS 2 3 [2, 3]
      [.leafNodeS 0 3 [1] [10], .leafNodeS 1 3 [2] [20], .leafNodeS 3 3 [3, 4] [30, 40]],
    order := 3, numEnts := 4, nextAddr := 4 }

/-- The root of `demo4` during `Put(5, 50)`, after the right half of its last
leaf went in: three separators, four children. -/
def demo4Big : nodeI Nat Nat :=
  .interiorNodeS 2 3 [2, 3, 4]
    [.leafNodeS 0 3 [1] [10], .leafNodeS 1 3 [2] [20], .leafNodeS 3 3 [3] [30],
      .leafNodeS 4 3 [4, 5] [40, 50]]

/-- The tree `demo4` after `Put(5, 50)`: the root split, the tree grew. -/
def demo5 : tree Nat Nat :=
  { root := .interiorNodeS 6 3 [3]
      [.interiorNodeS 2 3 [2] [.leafNodeS 0 3 [1] [10], .leafNodeS 1 3 [2] [20]],
       .interiorNodeS 5 3 [4] [.leafNodeS 3 3 [3] [30], .leafNodeS 4 3 [4, 5] [40, 50]]],
    order := 3, numEnts := 5, nextAddr := 7 }

/-- The tree `demo5` after `Put(6, 60)`. -/
def demo6 : tree Nat Nat :=
  { root := .interiorNodeS 6 3 [3]
      [.interiorNodeS 2 3 [2] [.leafNodeS 0 3 [1] [10], .leafNodeS 1 3 [2] [20]],
       .interiorNodeS 5 3 [4, 5]
         [.leafNodeS 3 3 [3] [30], .leafNodeS 4 3 [4] [40], .leafNodeS 7 3 [5, 6] [50, 60]]],
    order := 3, numEnts := 6, nextAddr := 8 }

/-- The tree `demo6` after `Put(7, 70)`. -/
def demo7 : tree Nat Nat :=
  { root := .interiorNodeS 6 3 [3, 5]
      [.interiorNodeS 2 3 [2] [.leafNodeS 0 3 [1] [10], .leafNodeS 1 3 [2] [20]],
       .interiorNodeS 5 3 [4] [.leafNodeS 3 3 [3] [30], .leafNodeS 4 3 [4] [40]],
       .interiorNodeS 9 3 [6] [.leafNodeS 7 3 [5] [50], .leafNodeS 8 3 [6, 7] [60, 70]]],
    order := 3, numEnts := 7, nextAddr := 10 }

/-- The tree `demo7` after `Del(5)`: the separator 5 of the root is no longer
a key of the tree. -/
def demo8 : tree Nat Nat :=
  { root := .interiorNodeS 6 3 [3, 5]
      [.interiorNodeS 2 3 [2] [.leafNodeS 0 3 [1] [10], .leafNodeS 1 3 [2] [20]],
       .interiorNodeS 5 3 [4] [.leafNodeS 3 3 [3] [30], .leafNodeS 4 3 [4] [40]],
       .interiorNodeS 9 3 [7] [.leafNodeS 7 3 [6] [60], .leafNodeS 8 3 [7] [70]]],
    order := 3, numEnts := 6, nextAddr := 10 }

/-- The node at address 2 of `demo6` during `Del(1)`: its two leaves merged,
the dead leaf and its separator removed. -/
def demo6Under : nodeI Nat Nat :=
  .interiorNodeS 2 3 [] [.leafNodeS 0 3 [2] [20]]

/-- The right peer of `demo6Under`: the node at address 5 of `demo6`. -/
def demo6Peer : nodeI Nat Nat :=
  .interiorNodeS 5 3 [4, 5]
    [.leafNodeS 3 3 [3] [30], .leafNodeS 4 3 [4] [40], .leafNodeS 7 3 [5, 6] [50, 60]]

/-- The tree `demo6` after `Del(1)`: the node at address 2 stole a child from
its right peer. -/
def demo9 : tree Nat Nat :=
  { root := .interiorNodeS 6 3 [4]
      [.interiorNodeS 2 3 [3] [.leafNodeS 0 3 [2] [20], .leafNodeS 3 3 [3] [30]],
       .interiorNodeS 5 3 [5] [.leafNodeS 4 3 [4] [40], .leafNodeS 7 3 [5, 6] [50, 60]]],
    order := 3, numEnts := 5, nextAddr := 8 }

/-- The first child of the root of `demo8`. -/
def demo8First : nodeI Nat Nat :=
  .interiorNodeS 2 3 [2] [.leafNodeS 0 3 [1] [10], .leafNodeS 1 3 [2] [20]]

/-- The second child of the root of `demo8`. -/
def demo8Left : nodeI Nat Nat :=
  .interiorNodeS 5 3 [4] [.leafNodeS 3 3 [3] [30], .leafNodeS 4 3 [4] [40]]

/-- The third child of the root of `demo8` during `Del(7)`: its two leaves
merged, the dead leaf and its separator removed. -/
def demo8Under : nodeI Nat Nat :=
  .interiorNodeS 9 3 [] [.leafNodeS 7 3 [6] [60]]

/-- The tree `demo8` after `Del(7)`: the node at address 5 absorbed its right
peer. -/
def demo10 : tree Nat Nat :=
  { root := .interiorNodeS 6 3 [3]
      [.interiorNodeS 2 3 [2] [.leafNodeS 0 3 [1] [10], .leafNodeS 1 3 [2] [20]],
       .interiorNodeS 5 3 [4, 6]
         [.leafNodeS 3 3 [3] [30], .leafNodeS 4 3 [4] [40], .leafNodeS 7 3 [6] [60]]],
    order := 3, numEnts := 5, nextAddr := 10 }

/-- The tree `demo3` after `Del(1)`: the first leaf stole from its right
peer. -/
def demo11 : tree Nat Nat :=
  { root := .interiorNodeS 2 3 [3]
      [.leafNodeS 0 3 [2] [20], .leafNodeS 1 3 [3] [30]],
    order := 3, numEnts := 2, nextAddr := 3 }

/-- The address of the node at the bottom of a path (the first node pushed),
`d` when the path is empty. -/
def pathT.bottomAddr : pathT K V → Nat → Nat
  | [], d => d
  | p :: path, _ => pathT.bottomAddr path p.addr

/-- What a level of `Put` hands up is the outcome of a `split()`: when it
holds a separator `s` and a right node `r`, the node in place and `r` are what
`split()` made of an over-full node at the address of the node in place. -/
def SplitOf (out : PutOut K V) : Prop :=
  ∀ s r, out.2 = some (s, r) →
    ∃ big next, big.isToBig = true ∧ big.addr = out.1.addr ∧
      (leafNodeS.split next big = some (out.1, r, s) ∨
        interiorNodeS.split next big = some (out.1, r, s))

end Abs4

section Abs5

variable {K V : Type}

/-- The descent the package documents, from a node to a leaf: at an interior
node with `len(keys)` separators the way goes into child `i`, the smallest
index with `key < keys[i]`, or `len(keys)` when there is none.  The list holds
the interior nodes on the way, the start first. -/
inductive Descent [LinearOrder K] (key : K) :
    nodeI K V → List (nodeI K V) → nodeI K V → Prop where
  | leaf (a c : Nat) (keys : List K) (vals : List V) :
      Descent key (.leafNodeS a c keys vals) [] (.leafNodeS a c keys vals)
  | step (a c : Nat) (keys : List K) (vals : List (nodeI K V)) (i : Nat)
      (child : nodeI K V) (visited : List (nodeI K V)) (leaf : nodeI K V) :
      i ≤ keys.length → (∀ j s, j < i → keys[j]? = some s → ¬ key < s) →
      (∀ s, keys[i]? = some s → key < s) → vals[i]? = some child →
      Descent key child visited leaf →
      Descent key (.interiorNodeS a c keys vals) (.interiorNodeS a c keys vals :: visited) leaf

/-- `interiorNodeS.insert(key, val)` with the boolean the Go method returns:
the changed node and `true`. -/
def interiorNodeS.insertBool [LinearOrder K] (key : K) (val : nodeI K V) :
    nodeI K V → Option (nodeI K V × Bool)
  | .interiorNodeS a c keys vals =>
    let i := ltIndex key keys
    if i < keys.length then
      if i + 1 ≤ vals.length then
        some (.interiorNodeS a c (keys.take i ++ key :: keys.drop i)
          (vals.take (i + 1) ++ val :: vals.drop (i + 1)), true)
      else none
    else some (.interiorNodeS a c (keys ++ [key]) (vals ++ [val]), true)
  | .leafNodeS _ _ _ _ => none

/-- The node `n'` is the node `n` with the value beside `key` in one leaf
replaced by `val`: the same addresses, capacities, keys and children
everywhere, and the same values in every other slot. -/
inductive ValueReplaced (key : K) (val : V) : nodeI K V → nodeI K V → Prop where
  | leaf (a c : Nat) (keys : List K) (vals : List V) (i : Nat) :
      keys[i]? = some key → i < vals.length →
      ValueReplaced key val (.leafNodeS a c keys vals) (.leafNodeS a c keys (vals.set i val))
  | interior (a c : Nat) (keys : List K) (lv rv : List (nodeI K V)) (X X' : nodeI K V) :
      ValueReplaced key val X X' →
      ValueReplaced key val (.interiorNodeS a c keys (lv ++ X :: rv))
        (.interiorNodeS a c keys (lv ++ X' :: rv))

/-- The tree of the scenario: order 3, an interior root at address `ra` with
the separator `kb` over the leaf `[ka]` at address `la` and the leaf
`[kb, kc]` at address `lb`. -/
def scenarioTree (ra la lb next : Nat) (ka kb kc : K) (va vb vc : V) : tree K V :=
  { root := .interiorNodeS ra 3 [kb]
      [.leafNodeS la 3 [ka] [va], .leafNodeS lb 3 [kb, kc] [vb, vc]],
    order := 3, numEnts := 3, nextAddr := next }

end Abs5

section Abs6

variable {K V : Type}

/-- The loop `for parent.isToBig() { ... }` of `Put`, run up to the `split()`
that comes before `t.root = t.newNode(...)`: `some (some (parent, next))` is
the over-full `parent` that is split with the path empty, and the address its
right half is allocated at; `some none` when the loop ends without a new
root. -/
def tree.putLoopRoot [LinearOrder K] (t : tree K V) :
    nodeI K V → pathT K V → Nat → Option (Option (nodeI K V × Nat))
  | parent, path, next =>
    if parent.isToBig then
      match interiorNodeS.split next parent with
      | none => none
      | some (parent', rightNode, rightKey) =>
        match path with
        | [] => some (some (parent, next))
        | gp :: path =>
          match interiorNodeS.insert rightKey rightNode (gp.store parent') with
          | none => none
          | some gp => tree.putLoopRoot t gp path (next + 1)
    else some none

/-- `t.Put(key, val)`, run up to the `split()` that comes before
`t.root = t.newNode(...)`: `some (some (n, next))` is the over-full node `n`
that is split with the path empty (the leaf when the root is a leaf, `parent`
of the loop otherwise), and the address its right half is allocated at;
`some none` when `Put` installs no new root. -/
def tree.PutRoot [LinearOrder K] (t : tree K V) (key : K) (val : V) :
    Option (Option (nodeI K V × Nat)) :=
  match t.findLeaf key newPathT with
  | none => none
  | some (leaf, path) =>
    match leafNodeS.insert key val leaf with
    | none => none
    | some (leaf, _) =>
      if leaf.isToBig then
        match leafNodeS.split t.nextAddr leaf with
        | none => none
        | some (leaf', rightLeaf, rightKey) =>
          match path with
          | [] => some (some (leaf, t.nextAddr))
          | parent :: path =>
            match interiorNodeS.insert rightKey rightLeaf (parent.store leaf') with
            | none => none
            | some parent => t.putLoopRoot parent path (t.nextAddr + 1)
      else some none

/-- `t.delUp(parent, mergedNode, deadNode, path)`, run up to the test
`t.isRoot(parent)`: `some (some parent)` is the root as the test finds it, the
dead node and its key removed; `some none` when `delUp` returns before it
comes to the root. -/
def tree.delUpRoot [DecidableEq K] (t : tree K V) :
    nodeI K V → nodeI K V → nodeI K V → pathT K V → Option (Option (nodeI K V))
  | parent, _mergedNode, deadNode, path =>
    match removeDead deadNode parent with
    | none => none
    | some parent =>
      match t.isRoot parent with
      | none => none
      | some true => some (some parent)
      | some false =>
        if parent.size ≥ parent.halfFullSize then some none
        else
          match path with
          | [] => none
          | grandParent :: path =>
            match stealOrMerge parent (grandParent.store parent) with
            | none => none
            | some (_, none) => some none
            | some (grandParent, some (mNode, dNode)) =>
              tree.delUpRoot t grandParent mNode dNode path

/-- `t.Del(key)`, run up to the test `t.isRoot(parent)` of `delUp`:
`some (some parent)` is the root as `delUp` finds it; `some none` when `Del`
returns without `delUp` coming to the root. -/
def tree.DelRoot [LinearOrder K] (t : tree K V) (key : K) : Option (Option (nodeI K V)) :=
  match t.findLeaf key newPathT with
  | none => none
  | some (leaf, path) =>
    match leafNodeS.remove key leaf with
    | none => none
    | some (leaf, _, _) =>
      match t.isRoot leaf with
      | none => none
      | some true => some none
      | some false =>
        if leaf.size ≥ leaf.halfFullSize then some none
        else
          match path with
          | [] => none
          | parent :: path =>
            match stealOrMerge leaf (parent.store leaf) with
            | none => none
            | some (_, none) => some none
            | some (parent, some (mergedLeaf, deadLeaf)) =>
              t.delUpRoot parent mergedLeaf deadLeaf path

/-- The way up of `Del` (as `tree.delFix`), run up to the root test: the node
the test succeeds at, `some none` when the way up ends below the root. -/
def tree.delTop [DecidableEq K] (t : tree K V) :
    nodeI K V → pathT K V → Option (Option (nodeI K V))
  | n, path =>
    match t.isRoot n with
    | none => none
    | some true => some (some n)
    | some false =>
      if n.size ≥ n.halfFullSize then some none
      else
        match path with
        | [] => none
        | p :: path =>
          match stealOrMerge n (p.store n) with
          | none => none
          | some (_, none) => some none
          | some (p', some (_, d)) =>
            match removeDead d p' with
            | none => none
            | some p'' => tree.delTop t p'' path

end Abs6

section ItemOrder

variable {K V : Type} [LinearOrder K]

@[simp] theorem Item.lt_sep_sep (a b : K) :
    Item.lt (Item.sep a : Item K V) (Item.sep b) ↔ a < b := by
  simp [Item.lt, Item.key, Item.rank]

@[simp] theorem Item.lt_sep_ent (a b : K) (v : V) :
    Item.lt (Item.sep a : Item K V) (Item.ent b v) ↔ a ≤ b := by
  simp [Item.lt, Item.key, Item.rank, le_iff_lt_or_eq]

@[simp] theorem Item.lt_ent_sep (a b : K) (v : V) :
    Item.lt (Item.ent a v : Item K V) (Item.sep b) ↔ a < b := by
  simp [Item.lt, Item.key, Item.rank]

@[simp] theorem Item.lt_ent_ent (a b : K) (v w : V) :
    Item.lt (Item.ent a v : Item K V) (Item.ent b w) ↔ a < b := by
  simp [Item.lt, Item.key, Item.rank]

theorem Item.ltTrans {a b c : Item K V} (h1 : Item.lt a b) (h2 : Item.lt b c) :
    Item.lt a c := by
  unfold Item.lt at *
  rcases h1 with h1 | ⟨h1, r1⟩ <;> rcases h2 with h2 | ⟨h2, r2⟩
  · exact Or.inl (h1.trans h2)
  · exact Or.inl (h2 ▸ h1)
  · exact Or.inl (h1 ▸ h2)
  · exact Or.inr ⟨h1.trans h2, Nat.lt_trans r1 r2⟩

/-- An item below a separator has a smaller key. -/
theorem Item.key_lt_of_lt_sep {a : Item K V} {s : K} (h : Item.lt a (Item.sep s)) :
    a.key < s := by
  cases a <;> simpa using h

/-- An item above an entry has a larger key. -/
theorem Item.key_lt_of_ent_lt {a : Item K V} {k : K} {v : V} (h : Item.lt (Item.ent k v) a) :
    k < a.key := by
  cases a <;> simpa using h

/-- An item below an entry has at most its key. -/
theorem Item.key_le_of_lt_ent {a : Item K V} {k : K} {v : V} (h : Item.lt a (Item.ent k v)) :
    a.key ≤ k := by
  cases a
  · simpa using h
  · exact le_of_lt (by simpa using h)

/-- An item above a separator has at least its key. -/
theorem Item.key_le_of_sep_lt {a : Item K V} {s : K} (h : Item.lt (Item.sep s) a) :
    s ≤ a.key := by
  cases a
  · exact le_of_lt (by simpa using h)
  · simpa using h

theorem Item.lt_sep_of_key_lt {a : Item K V} {s : K} (h : a.key < s) :
    Item.lt a (Item.sep s) := Or.inl h

theorem Item.ent_lt_of_key_lt {a : Item K V} {k : K} {v : V} (h : k < a.key) :
    Item.lt (Item.ent k v) a := Or.inl h

theorem Item.below_iff (key : K) (v : V) {a : Item K V} :
    a.below key ↔ Item.lt a (Item.ent key v) := by
  cases a <;> simp [Item.below, Item.lt, Item.key, Item.rank]

theorem Item.above_iff (key : K) (v : V) {a : Item K V} :
    a.above key ↔ Item.lt (Item.ent key v) a := by
  cases a <;> simp [Item.above, Item.lt, Item.key, Item.rank]

/-- The order of items does not look at the values. -/
theorem Item.lt_ent_val {a : Item K V} {k : K} (v w : V) :
    Item.lt a (Item.ent k v) ↔ Item.lt a (Item.ent k w) := by
  simp [Item.lt, Item.key, Item.rank]

theorem Item.ent_lt_val {a : Item K V} {k : K} (v w : V) :
    Item.lt (Item.ent k v) a ↔ Item.lt (Item.ent k w) a := by
  simp [Item.lt, Item.key, Item.rank]

end ItemOrder

section Interleave

variable {K V : Type}

@[simp] theorem interleave_nil_right (ks : List K) :
    interleave ks ([] : List (List (Item K V))) = [] := by
  cases ks <;> rfl

@[simp] theorem interleave_single (c : List (Item K V)) :
    interleave ([] : List K) [c] = c := rfl

theorem interleave_cons_cons (k : K) (ks : List K) (c : List (Item K V))
    (cs : List (List (Item K V))) :
    interleave (k :: ks) (c :: cs) = c ++ Item.sep k :: interleave ks cs := rfl

/-- Reading a node as its first child and what stands right of it. -/
theorem interleave_eq_postI : ∀ (ks : List K) (c : List (Item K V)) (cs : List (List (Item K V))),
    cs.length = ks.length → interleave ks (c :: cs) = c ++ postI ks cs
  | [], c, [], _ => by simp [interleave, postI]
  | [], _, _ :: _, h => by simp at h
  | _ :: _, _, [], h => by simp at h
  | k :: ks, c, d :: cs, h => by
    have ih := interleave_eq_postI ks d cs (by simpa using h)
    simp [interleave, postI, ih]

@[simp] theorem preI_nil_left (cs : List (List (Item K V))) : preI ([] : List K) cs = [] := by
  cases cs <;> rfl

@[simp] theorem preI_nil_right (ks : List K) : preI ks ([] : List (List (Item K V))) = [] := by
  cases ks <;> rfl

@[simp] theorem postI_nil_left (cs : List (List (Item K V))) : postI ([] : List K) cs = [] := by
  cases cs <;> rfl

@[simp] theorem postI_nil_right (ks : List K) : postI ks ([] : List (List (Item K V))) = [] := by
  cases ks <;> rfl

@[simp] theorem preI_cons (k : K) (ks : List K) (c : List (Item K V))
    (cs : List (List (Item K V))) :
    preI (k :: ks) (c :: cs) = c ++ Item.sep k :: preI ks cs := rfl

@[simp] theorem postI_cons (k : K) (ks : List K) (c : List (Item K V))
    (cs : List (List (Item K V))) :
    postI (k :: ks) (c :: cs) = Item.sep k :: c ++ postI ks cs := rfl

/-- Reading a node around one of its children: what stands left of the child,
the child, what stands right of it. -/
theorem interleave_zoom : ∀ (lk rk : List K) (lc : List (List (Item K V))) (x : List (Item K V))
    (rc : List (List (Item K V))), lc.length = lk.length → rc.length = rk.length →
    interleave (lk ++ rk) (lc ++ x :: rc) = preI lk lc ++ x ++ postI rk rc
  | [], rk, [], x, rc, _, h => by simpa using interleave_eq_postI rk x rc h
  | [], _, _ :: _, _, _, h, _ => by simp at h
  | _ :: _, _, [], _, _, h, _ => by simp at h
  | k :: lk, rk, c :: lc, x, rc, h, h2 => by
    have ih := interleave_zoom lk rk lc x rc (by simpa using h) h2
    simp [interleave, ih]

theorem preI_append : ∀ (lk rk : List K) (lc rc : List (List (Item K V))),
    lc.length = lk.length → preI (lk ++ rk) (lc ++ rc) = preI lk lc ++ preI rk rc
  | [], rk, [], rc, _ => by simp
  | [], _, _ :: _, _, h => by simp at h
  | _ :: _, _, [], _, h => by simp at h
  | k :: lk, rk, c :: lc, rc, h => by
    have ih := preI_append lk rk lc rc (by simpa using h)
    simp [ih]

theorem postI_append : ∀ (lk rk : List K) (lc rc : List (List (Item K V))),
    lc.length = lk.length → postI (lk ++ rk) (lc ++ rc) = postI lk lc ++ postI rk rc
  | [], rk, [], rc, _ => by simp
  | [], _, _ :: _, _, h => by simp at h
  | _ :: _, _, [], _, h => by simp at h
  | k :: lk, rk, c :: lc, rc, h => by
    have ih := postI_append lk rk lc rc (by simpa using h)
    simp [ih]

/-- Reading a node as what stands left of its last child, and that child. -/
theorem interleave_eq_preI (ks : List K) (cs : List (List (Item K V))) (c : List (Item K V))
    (h : cs.length = ks.length) : interleave ks (cs ++ [c]) = preI ks cs ++ c := by
  have := interleave_zoom ks [] cs c [] h rfl
  simpa using this

/-- Reading a node cut at a separator: the left part, the separator, the right
part. -/
theorem interleave_append (lk rk : List K) (s : K) (lc rc : List (List (Item K V)))
    (h : lc.length = lk.length + 1) (h2 : rc.length = rk.length + 1) :
    interleave (lk ++ s :: rk) (lc ++ rc) = interleave lk lc ++ Item.sep s :: interleave rk rc := by
  obtain ⟨lc', x, rfl⟩ : ∃ lc' x, lc = lc' ++ [x] := by
    rcases List.eq_nil_or_concat lc with h0 | ⟨l, x, hx⟩
    · subst h0; simp at h
    · exact ⟨l, x, by simpa using hx⟩
  obtain ⟨y, rc', rfl⟩ : ∃ y rc', rc = y :: rc' := by
    cases rc with
    | nil => simp at h2
    | cons y rc' => exact ⟨y, rc', rfl⟩
  have hl : lc'.length = lk.length := by simpa using h
  have hr : rc'.length = rk.length := by simpa using h2
  have e1 : interleave (lk ++ s :: rk) ((lc' ++ [x]) ++ y :: rc')
      = preI lk lc' ++ x ++ postI (s :: rk) (y :: rc') := by
    have := interleave_zoom lk (s :: rk) lc' x (y :: rc') hl (by simpa using hr)
    simpa using this
  rw [e1, interleave_eq_preI lk lc' x hl, interleave_eq_postI rk y rc' hr]
  simp

end Interleave

section PairwiseList

/-- An item of an ordered list may be replaced by one that compares the same
way with the others. -/
theorem pairwise_replace {α : Type} {R : α → α → Prop} (pre post : List α)
    (x y : α) (h : (pre ++ x :: post).Pairwise R)
    (hl : ∀ a ∈ pre, R a x → R a y) (hr : ∀ b ∈ post, R x b → R y b) :
    (pre ++ y :: post).Pairwise R := by
  rw [List.pairwise_append] at h ⊢
  obtain ⟨h1, h2, h3⟩ := h
  rw [List.pairwise_cons] at h2 ⊢
  refine ⟨h1, ⟨fun b hb => hr b hb (h2.1 b hb), h2.2⟩, ?_⟩
  intro a ha b hb
  rcases List.mem_cons.1 hb with rfl | hb
  · exact hl a ha (h3 a ha x (List.mem_cons_self _ _))
  · exact h3 a ha b (List.mem_cons_of_mem _ hb)

/-- An item may be put into an ordered list where it is above what stands
left and below what stands right. -/
theorem pairwise_insert {α : Type} {R : α → α → Prop} (pre post : List α)
    (y : α) (h : (pre ++ post).Pairwise R)
    (hl : ∀ a ∈ pre, R a y) (hr : ∀ b ∈ post, R y b) :
    (pre ++ y :: post).Pairwise R := by
  rw [List.pairwise_append] at h ⊢
  obtain ⟨h1, h2, h3⟩ := h
  rw [List.pairwise_cons]
  refine ⟨h1, ⟨hr, h2⟩, ?_⟩
  intro a ha b hb
  rcases List.mem_cons.1 hb with rfl | hb
  · exact hl a ha
  · exact h3 a ha b hb

/-- In an ordered list, what stands left of an element is below it. -/
theorem pairwise_left {α : Type} {R : α → α → Prop} {pre post : List α}
    {x : α} (h : (pre ++ x :: post).Pairwise R) : ∀ a ∈ pre, R a x := by
  intro a ha
  exact (List.pairwise_append.1 h).2.2 a ha x (List.mem_cons_self _ _)

/-- In an ordered list, what stands right of an element is above it. -/
theorem pairwise_right {α : Type} {R : α → α → Prop} {pre post : List α}
    {x : α} (h : (pre ++ x :: post).Pairwise R) : ∀ b ∈ post, R x b := by
  intro b hb
  exact (List.pairwise_cons.1 (List.pairwise_append.1 h).2.1).1 b hb

end PairwiseList

section Refine

variable {K V : Type} [LinearOrder K]

theorem Refines0.refl (l : List (Item K V)) : Refines0 l l := fun _ _ h => h

theorem Refines0.trans {a b c : List (Item K V)} (h1 : Refines0 a b) (h2 : Refines0 b c) :
    Refines0 a c := fun pre post h => h1 pre post (h2 pre post h)

/-- A refinement holds inside any context. -/
theorem Refines0.ctx {new old : List (Item K V)} (h : Refines0 new old) (l r : List (Item K V)) :
    Refines0 (l ++ new ++ r) (l ++ old ++ r) := by
  intro pre post hp
  have := h (pre ++ l) (r ++ post) (by simpa [List.append_assoc] using hp)
  simpa [List.append_assoc] using this

theorem Refines0.ctx_left {new old : List (Item K V)} (h : Refines0 new old)
    (l : List (Item K V)) : Refines0 (l ++ new) (l ++ old) := by
  simpa using h.ctx l []

theorem Refines0.ctx_right {new old : List (Item K V)} (h : Refines0 new old)
    (r : List (Item K V)) : Refines0 (new ++ r) (old ++ r) := by
  simpa using h.ctx [] r

theorem Refines0.toRefines {new old : List (Item K V)} (h : Refines0 new old) (key : K) :
    Refines key new old := fun pre post hp _ _ => h pre post hp

theorem Refines.trans0 {key : K} {a b c : List (Item K V)} (h1 : Refines0 a b)
    (h2 : Refines key b c) : Refines key a c :=
  fun pre post h hb ha => h1 pre post (h2 pre post h hb ha)

theorem Refines.ctxAt {key : K} {new old : List (Item K V)} (h : Refines key new old)
    (l r : List (Item K V)) (hl : ∀ a ∈ l, a.below key) (hr : ∀ b ∈ r, b.above key) :
    Refines key (l ++ new ++ r) (l ++ old ++ r) := by
  intro pre post hp hb ha
  have := h (pre ++ l) (r ++ post) (by simpa [List.append_assoc] using hp)
    (by
      intro a hmem
      rcases List.mem_append.1 hmem with h1 | h1
      · exact hb a h1
      · exact hl a h1)
    (by
      intro b hmem
      rcases List.mem_append.1 hmem with h1 | h1
      · exact hr b h1
      · exact ha b h1)
  simpa [List.append_assoc] using this

/-- Leaving items out keeps a reading ordered. -/
theorem Refines0.of_sublist {new old : List (Item K V)} (h : new.Sublist old) :
    Refines0 new old := by
  intro pre post hp
  exact hp.sublist (((List.Sublist.refl pre).append h).append (List.Sublist.refl post))

/-- The separator in front of an entry may be rewritten to that entry's key. -/
theorem Refines0.swap_sep (s k : K) (v : V) (B : List (Item K V)) :
    Refines0 (Item.sep k :: Item.ent k v :: B) (Item.sep s :: Item.ent k v :: B) := by
  intro pre post hp
  have hp' : (pre ++ Item.sep s :: (Item.ent k v :: B ++ post)).Pairwise Item.lt := by
    simpa [List.append_assoc] using hp
  have hsk : s ≤ k := by
    have := pairwise_right hp' (Item.ent k v) (by simp)
    simpa using this
  have := pairwise_replace pre (Item.ent k v :: B ++ post) (Item.sep s) (Item.sep k) hp'
    (fun a _ h => Item.lt_sep_of_key_lt (lt_of_lt_of_le (Item.key_lt_of_lt_sep h) hsk))
    (fun b hb _ => by
      rcases List.mem_cons.1 hb with rfl | hb'
      · simp
      · have h2 : ((pre ++ [Item.sep s]) ++ Item.ent k v :: (B ++ post)).Pairwise Item.lt := by
          simpa [List.append_assoc] using hp
        exact Item.ltTrans (by simp) (pairwise_right h2 b hb'))
  simpa [List.append_assoc] using this

/-- A separator of the key of an entry may be put in front of the entry when
another entry stands right before. -/
theorem Refines0.insert_sep (k0 k : K) (v0 v : V) (B : List (Item K V)) :
    Refines0 (Item.ent k0 v0 :: Item.sep k :: Item.ent k v :: B)
      (Item.ent k0 v0 :: Item.ent k v :: B) := by
  intro pre post hp
  have hp' : ((pre ++ [Item.ent k0 v0]) ++ (Item.ent k v :: B ++ post)).Pairwise Item.lt := by
    simpa [List.append_assoc] using hp
  have hp0 : (pre ++ Item.ent k0 v0 :: (Item.ent k v :: B ++ post)).Pairwise Item.lt := by
    simpa [List.append_assoc] using hp
  have h0k : k0 < k := by
    have := pairwise_right hp0 (Item.ent k v) (by simp)
    simpa using this
  have := pairwise_insert (pre ++ [Item.ent k0 v0]) (Item.ent k v :: B ++ post) (Item.sep k) hp'
    (fun a ha => by
      rcases List.mem_append.1 ha with h1 | h1
      · exact Item.lt_sep_of_key_lt
          (lt_of_le_of_lt (Item.key_le_of_lt_ent (pairwise_left hp0 a h1)) h0k)
      · simp at h1; subst h1; simpa using h0k)
    (fun b hb => by
      rcases List.mem_cons.1 hb with rfl | hb'
      · simp
      · have h2 : ((pre ++ [Item.ent k0 v0]) ++ Item.ent k v :: (B ++ post)).Pairwise
            Item.lt := by
          simpa [List.append_assoc] using hp
        exact Item.ltTrans (by simp) (pairwise_right h2 b hb'))
  simpa [List.append_assoc] using this

end Refine

section Ents

variable {K V : Type}

@[simp] theorem ents_nil : ents ([] : List (Item K V)) = [] := rfl

@[simp] theorem ents_cons_sep (k : K) (l : List (Item K V)) :
    ents (Item.sep k :: l) = ents l := by
  simp [ents]

@[simp] theorem ents_cons_ent (k : K) (v : V) (l : List (Item K V)) :
    ents (Item.ent k v :: l) = (k, v) :: ents l := by
  simp [ents]

@[simp] theorem ents_append (a b : List (Item K V)) : ents (a ++ b) = ents a ++ ents b := by
  simp [ents, List.filterMap_append]

theorem ents_zipWith : ∀ (ks : List K) (vs : List V),
    ents (List.zipWith Item.ent ks vs) = List.zip ks vs
  | [], _ => by simp
  | _ :: _, [] => by simp
  | k :: ks, v :: vs => by simp [ents_zipWith ks vs]

theorem mem_ents {l : List (Item K V)} {e : K × V} :
    e ∈ ents l ↔ Item.ent e.1 e.2 ∈ l := by
  induction l with
  | nil => simp
  | cons a l ih =>
    cases a with
    | sep k => simp [ih]
    | ent k v =>
      simp only [ents_cons_ent, List.mem_cons, ih, Item.ent.injEq]
      constructor
      · rintro (h | h)
        · left; rw [h]; exact ⟨rfl, rfl⟩
        · exact Or.inr h
      · rintro (⟨h1, h2⟩ | h)
        · left; exact Prod.ext h1 h2
        · exact Or.inr h

theorem ents_pairwise [LinearOrder K] {l : List (Item K V)} (h : l.Pairwise Item.lt) :
    (ents l).Pairwise (fun a b => a.1 < b.1) := by
  induction l with
  | nil => simp
  | cons a l ih =>
    rw [List.pairwise_cons] at h
    cases a with
    | sep k => simpa using ih h.2
    | ent k v =>
      rw [ents_cons_ent, List.pairwise_cons]
      refine ⟨?_, ih h.2⟩
      intro e he
      have := h.1 _ (mem_ents.1 he)
      simpa using this

end Ents

section Lookup

variable {K V : Type} [LinearOrder K]

@[simp] theorem lookupEnt_nil (key : K) : lookupEnt key ([] : List (K × V)) = none := rfl

theorem lookupEnt_cons (key : K) (e : K × V) (l : List (K × V)) :
    lookupEnt key (e :: l) = if key = e.1 then some e.2 else lookupEnt key l := rfl

theorem lookupEnt_eq_none {key : K} {l : List (K × V)} :
    lookupEnt key l = none ↔ ∀ e ∈ l, e.1 ≠ key := by
  induction l with
  | nil => simp
  | cons e l ih =>
    rw [lookupEnt_cons]
    by_cases h : key = e.1
    · simp [h]
    · simp [h, ih, Ne.symm h]

theorem lookupEnt_append (key : K) (a b : List (K × V)) :
    lookupEnt key (a ++ b) = match lookupEnt key a with
      | some v => some v
      | none => lookupEnt key b := by
  induction a with
  | nil => simp
  | cons e a ih =>
    simp only [List.cons_append, lookupEnt_cons]
    by_cases h : key = e.1
    · simp [h]
    · simp [h, ih]

theorem lookupEnt_append_left {key : K} {a b : List (K × V)} (h : ∀ e ∈ a, e.1 ≠ key) :
    lookupEnt key (a ++ b) = lookupEnt key b := by
  rw [lookupEnt_append, lookupEnt_eq_none.2 h]

theorem lookupEnt_append_right {key : K} {a b : List (K × V)} (h : ∀ e ∈ b, e.1 ≠ key) :
    lookupEnt key (a ++ b) = lookupEnt key a := by
  rw [lookupEnt_append, lookupEnt_eq_none.2 h]
  cases lookupEnt key a <;> rfl

theorem lookupEnt_filter {key : K} (p : K → Bool) (l : List (K × V)) (h : p key = true) :
    lookupEnt key (l.filter fun e => p e.1) = lookupEnt key l := by
  induction l with
  | nil => rfl
  | cons e l ih =>
    by_cases he : p e.1 = true
    · rw [List.filter_cons_of_pos (by simpa using he)]
      simp [lookupEnt_cons, ih]
    · rw [List.filter_cons_of_neg (by simpa using he), lookupEnt_cons, ih]
      have : key ≠ e.1 := by
        rintro rfl
        exact he h
      simp [this]

theorem lookupEnt_filter_none {key : K} (p : K → Bool) (l : List (K × V)) (h : p key = false) :
    lookupEnt key (l.filter fun e => p e.1) = none := by
  rw [lookupEnt_eq_none]
  intro e he
  rw [List.mem_filter] at he
  rintro rfl
  rw [h] at he
  exact Bool.false_ne_true he.2

theorem lookupEnt_insertSpec_self (key : K) (val : V) (l : List (K × V)) :
    lookupEnt key (insertSpec key val l) = some val := by
  unfold insertSpec
  rw [lookupEnt_append, lookupEnt_filter_none (fun k => decide (k < key)) l (by simp)]
  simp [lookupEnt_cons]

theorem lookupEnt_insertSpec_ne {key k : K} (val : V) (l : List (K × V)) (h : k ≠ key) :
    lookupEnt k (insertSpec key val l) = lookupEnt k l := by
  unfold insertSpec
  rw [lookupEnt_append, lookupEnt_cons]
  rcases lt_or_gt_of_ne h with h1 | h1
  · rw [lookupEnt_filter (fun k => decide (k < key)) l (by simpa using h1)]
    rw [lookupEnt_filter_none (fun k => decide (key < k)) l (by simpa using le_of_lt h1)]
    simp [h]
    cases lookupEnt k l <;> rfl
  · rw [lookupEnt_filter_none (fun k => decide (k < key)) l (by simpa using le_of_lt h1)]
    rw [lookupEnt_filter (fun k => decide (key < k)) l (by simpa using h1)]
    simp [h]

theorem lookupEnt_eraseSpec_self (key : K) (l : List (K × V)) :
    lookupEnt key (eraseSpec key l) = none := by
  unfold eraseSpec
  exact lookupEnt_filter_none (fun k => decide (k ≠ key)) l (by simp)

theorem lookupEnt_eraseSpec_ne {key k : K} (l : List (K × V)) (h : k ≠ key) :
    lookupEnt k (eraseSpec key l) = lookupEnt k l := by
  unfold eraseSpec
  exact lookupEnt_filter (fun k => decide (k ≠ key)) l (by simpa using h)

theorem eraseSpec_of_not_mem {key : K} {l : List (K × V)} (h : ∀ e ∈ l, e.1 ≠ key) :
    eraseSpec key l = l := by
  unfold eraseSpec
  rw [List.filter_eq_self]
  intro e he
  simpa using h e he

theorem eraseSpec_append (key : K) (a b : List (K × V)) :
    eraseSpec key (a ++ b) = eraseSpec key a ++ eraseSpec key b := by
  simp [eraseSpec]

/-- Removing a key takes one entry away when the key is bound, none otherwise. -/
theorem length_eraseSpec {key : K} {l : List (K × V)}
    (h : l.Pairwise (fun a b => a.1 < b.1)) :
    (eraseSpec key l).length + (if (lookupEnt key l).isSome then 1 else 0) = l.length := by
  induction l with
  | nil => simp [eraseSpec]
  | cons e l ih =>
    rw [List.pairwise_cons] at h
    have ih := ih h.2
    by_cases he : key = e.1
    · have hne : ∀ x ∈ l, x.1 ≠ key := fun x hx => by
        have := h.1 x hx
        rw [he]
        exact ne_of_gt this
      have e1 : eraseSpec key (e :: l) = l := by
        have : eraseSpec key (e :: l) = eraseSpec key l := by
          simp [eraseSpec, he]
        rw [this, eraseSpec_of_not_mem hne]
      rw [e1, lookupEnt_cons]
      simp [he]
    · have e1 : eraseSpec key (e :: l) = e :: eraseSpec key l := by
        simp [eraseSpec, Ne.symm he]
      rw [e1, lookupEnt_cons]
      simp only [he, if_false, List.length_cons]
      omega

theorem insertSpec_ctx {key : K} (val : V) (pre l post : List (K × V))
    (hpre : ∀ e ∈ pre, e.1 < key) (hpost : ∀ e ∈ post, key < e.1) :
    insertSpec key val (pre ++ l ++ post) = pre ++ insertSpec key val l ++ post := by
  have a1 : pre.filter (fun e => decide (e.1 < key)) = pre :=
    List.filter_eq_self.2 fun e he => by simpa using hpre e he
  have a2 : pre.filter (fun e => decide (key < e.1)) = [] :=
    List.filter_eq_nil_iff.2 fun e he => by simpa using le_of_lt (hpre e he)
  have a3 : post.filter (fun e => decide (e.1 < key)) = [] :=
    List.filter_eq_nil_iff.2 fun e he => by simpa using le_of_lt (hpost e he)
  have a4 : post.filter (fun e => decide (key < e.1)) = post :=
    List.filter_eq_self.2 fun e he => by simpa using hpost e he
  simp [insertSpec, List.filter_append, a1, a2, a3, a4]

/-- Binding a key adds one entry when the key was not bound, none otherwise. -/
theorem length_insertSpec {key : K} (val : V) {l : List (K × V)}
    (h : l.Pairwise (fun a b => a.1 < b.1)) :
    (insertSpec key val l).length = l.length + (if (lookupEnt key l).isSome then 0 else 1) := by
  induction l with
  | nil => simp [insertSpec]
  | cons e l ih =>
    rw [List.pairwise_cons] at h
    have ih := ih h.2
    rcases lt_trichotomy e.1 key with h1 | h1 | h1
    · have := insertSpec_ctx val [e] l [] (by simpa using h1) (by simp)
      simp only [List.singleton_append, List.append_nil] at this
      rw [this, lookupEnt_cons]
      simp only [List.length_cons, if_neg (ne_of_gt h1)]
      omega
    · have hgt : ∀ x ∈ l, key < x.1 := fun x hx => h1 ▸ h.1 x hx
      have e1 : insertSpec key val (e :: l) = (key, val) :: l := by
        have a1 : l.filter (fun e => decide (e.1 < key)) = [] :=
          List.filter_eq_nil_iff.2 fun x hx => by simpa using le_of_lt (hgt x hx)
        have a2 : l.filter (fun e => decide (key < e.1)) = l :=
          List.filter_eq_self.2 fun x hx => by simpa using hgt x hx
        simp [insertSpec, h1, a1, a2]
      rw [e1, lookupEnt_cons]
      simp [h1]
    · have hgt : ∀ x ∈ l, key < x.1 := fun x hx => lt_trans h1 (h.1 x hx)
      have hl : lookupEnt key l = none := lookupEnt_eq_none.2 fun x hx => ne_of_gt (hgt x hx)
      have e1 : insertSpec key val (e :: l) = (key, val) :: e :: l := by
        have a1 : l.filter (fun e => decide (e.1 < key)) = [] :=
          List.filter_eq_nil_iff.2 fun x hx => by simpa using le_of_lt (hgt x hx)
        have a2 : l.filter (fun e => decide (key < e.1)) = l :=
          List.filter_eq_self.2 fun x hx => by simpa using hgt x hx
        simp [insertSpec, h1, le_of_lt h1, not_lt_of_gt h1, a1, a2]
      rw [e1, lookupEnt_cons, hl]
      simp [ne_of_lt h1]

end Lookup

section Structure

variable {K V : Type}

theorem itemsList_eq_map : ∀ (vs : List (nodeI K V)), itemsList vs = vs.map nodeI.items
  | [] => rfl
  | c :: cs => by simp [itemsList, itemsList_eq_map cs]

theorem addrsList_eq : ∀ (vs : List (nodeI K V)), addrsList vs = (vs.map nodeI.addrs).flatten
  | [] => rfl
  | c :: cs => by simp [addrsList, addrsList_eq cs]

theorem leafKeysList_eq : ∀ (vs : List (nodeI K V)),
    leafKeysList vs = (vs.map nodeI.leafKeys).flatten
  | [] => rfl
  | c :: cs => by simp [leafKeysList, leafKeysList_eq cs]

theorem leafDepthsList_eq : ∀ (vs : List (nodeI K V)),
    leafDepthsList vs = (vs.map nodeI.leafDepths).flatten
  | [] => rfl
  | c :: cs => by simp [leafDepthsList, leafDepthsList_eq cs]

@[simp] theorem addrsList_append (a b : List (nodeI K V)) :
    addrsList (a ++ b) = addrsList a ++ addrsList b := by
  simp [addrsList_eq]

@[simp] theorem addrsList_cons (c : nodeI K V) (cs : List (nodeI K V)) :
    addrsList (c :: cs) = c.addrs ++ addrsList cs := rfl

@[simp] theorem addrsList_nil : addrsList ([] : List (nodeI K V)) = [] := rfl

theorem items_leaf (a c : Nat) (keys : List K) (vals : List V) :
    (nodeI.leafNodeS a c keys vals).items = List.zipWith Item.ent keys vals := by
  simp [nodeI.items]

theorem items_interior (a c : Nat) (keys : List K) (vals : List (nodeI K V)) :
    (nodeI.interiorNodeS a c keys vals).items = interleave keys (vals.map nodeI.items) := by
  simp [nodeI.items, itemsList_eq_map]

theorem addrs_leaf (a c : Nat) (keys : List K) (vals : List V) :
    (nodeI.leafNodeS a c keys vals).addrs = [a] := by
  simp [nodeI.addrs]

theorem addrs_interior (a c : Nat) (keys : List K) (vals : List (nodeI K V)) :
    (nodeI.interiorNodeS a c keys vals).addrs = a :: addrsList vals := by
  simp [nodeI.addrs]

theorem addr_mem_addrs (n : nodeI K V) : n.addr ∈ n.addrs := by
  cases n <;> simp [nodeI.addr, nodeI.addrs]

theorem addrs_subset_addrsList {x : nodeI K V} {vs : List (nodeI K V)} (h : x ∈ vs) :
    ∀ a ∈ x.addrs, a ∈ addrsList vs := by
  intro a ha
  rw [addrsList_eq, List.mem_flatten]
  exact ⟨x.addrs, List.mem_map_of_mem _ h, ha⟩

/-- Reading an interior node around one of its children. -/
theorem items_zoom (a c : Nat) (lk rk : List K) (lv rv : List (nodeI K V)) (x : nodeI K V)
    (hl : lv.length = lk.length) (hr : rv.length = rk.length) :
    (nodeI.interiorNodeS a c (lk ++ rk) (lv ++ x :: rv)).items
      = preI lk (lv.map nodeI.items) ++ x.items ++ postI rk (rv.map nodeI.items) := by
  rw [items_interior, List.map_append, List.map_cons]
  exact interleave_zoom lk rk _ _ _ (by simpa using hl) (by simpa using hr)

/-- A list cut at an index below its length. -/
theorem list_cut {α : Type} (l : List α) (i : Nat) (h : i < l.length) :
    ∃ a x b, l = a ++ x :: b ∧ a.length = i ∧ l[i]? = some x := by
  refine ⟨l.take i, l[i], l.drop (i + 1), ?_, ?_, ?_⟩
  · rw [← List.drop_eq_getElem_cons h, List.take_append_drop]
  · simp [List.length_take, Nat.min_eq_left (Nat.le_of_lt h)]
  · simp [h]

theorem list_cut_le {α : Type} (l : List α) (i : Nat) (h : i ≤ l.length) :
    ∃ a b, l = a ++ b ∧ a.length = i :=
  ⟨l.take i, l.drop i, (List.take_append_drop i l).symm, by simp [List.length_take, h]⟩

end Structure

section Index

variable {K V : Type} [LinearOrder K]

theorem ltIndex_le (key : K) : ∀ keys : List K, ltIndex key keys ≤ keys.length
  | [] => by simp [ltIndex]
  | k :: ks => by
    unfold ltIndex
    split
    · simp
    · simpa using ltIndex_le key ks

/-- The index `findLeaf` descends at cuts the separators into those at most the
key and those above it (the first of these is above the key by the loop test). -/
theorem ltIndex_spec (key : K) : ∀ keys : List K, ∃ lk rk, keys = lk ++ rk ∧
    lk.length = ltIndex key keys ∧ (∀ k ∈ lk, k ≤ key) ∧ (∀ k ∈ rk.head?, key < k)
  | [] => ⟨[], [], by simp [ltIndex]⟩
  | k :: ks => by
    by_cases h : key < k
    · exact ⟨[], k :: ks, by simp [ltIndex, h]⟩
    · obtain ⟨lk, rk, e, hl, h1, h2⟩ := ltIndex_spec key ks
      refine ⟨k :: lk, rk, by simp [e], by simp [ltIndex, h, hl], ?_, h2⟩
      intro x hx
      rcases List.mem_cons.1 hx with rfl | hx
      · exact not_lt.1 h
      · exact h1 x hx

theorem ltIndex_append (key : K) : ∀ (lk rk : List K), (∀ k ∈ lk, k ≤ key) →
    (∀ k ∈ rk.head?, key < k) → ltIndex key (lk ++ rk) = lk.length
  | [], [], _, _ => rfl
  | [], k :: rk, _, h => by
    have : key < k := h k (by simp)
    simp [ltIndex, this]
  | k :: lk, rk, h1, h2 => by
    have hk : ¬ key < k := not_lt.2 (h1 k (by simp))
    have := ltIndex_append key lk rk (fun x hx => h1 x (List.mem_cons_of_mem _ hx)) h2
    simp [ltIndex, hk, this]

theorem keyIndex_append_of_not_mem (key : K) : ∀ (lk rk : List K), (∀ k ∈ lk, k ≠ key) →
    keyIndex key (lk ++ rk) = (keyIndex key rk).map (· + lk.length)
  | [], rk, _ => by
    simp
  | k :: lk, rk, h => by
    have hk : ¬ key = k := fun e => h k (by simp) e.symm
    have := keyIndex_append_of_not_mem key lk rk (fun x hx => h x (List.mem_cons_of_mem _ hx))
    rw [List.cons_append]
    simp only [keyIndex, hk, if_false, List.length_cons]
    rw [this]
    cases keyIndex key rk <;> simp [Nat.add_assoc]

theorem keyIndex_cons_self (key : K) (rk : List K) : keyIndex key (key :: rk) = some 0 := by
  simp [keyIndex]

theorem keyIndex_eq_none {key : K} : ∀ {keys : List K}, (∀ k ∈ keys, k ≠ key) →
    keyIndex key keys = none
  | [], _ => rfl
  | k :: ks, h => by
    have hk : ¬ key = k := fun e => h k (by simp) e.symm
    simp [keyIndex, hk, keyIndex_eq_none fun x hx => h x (List.mem_cons_of_mem _ hx)]

end Index

section Pointers

variable {K V : Type}

theorem equals_of_isLeaf_eq {n x : nodeI K V} (h : n.isLeaf = x.isLeaf) :
    n.equals x = some (n.addr == x.addr) := by
  cases n <;> cases x <;> simp [nodeI.isLeaf] at h <;> simp [nodeI.equals, nodeI.addr]

/-- The pointer search finds the slot of the node when no slot left of it holds
the same address. -/
theorem nodeIndex_append (n x : nodeI K V) : ∀ (lv rv : List (nodeI K V)),
    (∀ y ∈ lv, y.isLeaf = n.isLeaf ∧ y.addr ≠ n.addr) → x.isLeaf = n.isLeaf → x.addr = n.addr →
    nodeIndex n (lv ++ x :: rv) = some (some lv.length)
  | [], rv, _, h2, h3 => by
    have := equals_of_isLeaf_eq h2.symm
    simp [nodeIndex, this, h3]
  | y :: lv, rv, h1, h2, h3 => by
    have hy := h1 y (by simp)
    have e := equals_of_isLeaf_eq hy.1.symm
    have ih := nodeIndex_append n x lv rv (fun z hz => h1 z (List.mem_cons_of_mem _ hz)) h2 h3
    have hne : (n.addr == y.addr) = false := by simpa using (Ne.symm hy.2)
    simp [nodeIndex, e, hne, ih]

/-- The parent sees the changed node in the slot that holds its address. -/
theorem store_append (a c : Nat) (keys : List K) (lv rv : List (nodeI K V)) (x n : nodeI K V)
    (hx : x.addr = n.addr) (hl : ∀ y ∈ lv, y.addr ≠ n.addr) (hr : ∀ y ∈ rv, y.addr ≠ n.addr) :
    (nodeI.interiorNodeS a c keys (lv ++ x :: rv)).store n
      = nodeI.interiorNodeS a c keys (lv ++ n :: rv) := by
  have e2 : rv.map (fun y => if y.addr = n.addr then n else y) = rv := by
    conv_rhs => rw [← List.map_id rv]
    apply List.map_congr_left
    intro y hy
    simp [hr y hy]
  have e1' : lv.map (fun y => if y.addr = n.addr then n else y) = lv := by
    conv_rhs => rw [← List.map_id lv]
    apply List.map_congr_left
    intro y hy
    simp [hl y hy]
  simp [nodeI.store, e1', e2, hx]

end Pointers

section Shape

variable {K V : Type}

theorem WF.leaf_inv {order h a c : Nat} {keys : List K} {vals : List V}
    (w : WF order h (nodeI.leafNodeS a c keys vals)) :
    h = 0 ∧ c = order ∧ keys.length = vals.length ∧ keys.length < order := by
  cases w with
  | leaf _ _ _ _ h1 h2 h3 => exact ⟨rfl, h1, h2, h3⟩

theorem WF.interior_inv {order h a c : Nat} {keys : List K} {vals : List (nodeI K V)}
    (w : WF order h (nodeI.interiorNodeS a c keys vals)) :
    ∃ h', h = h' + 1 ∧ c = order ∧ vals.length = keys.length + 1 ∧ keys.length < order ∧
      (∀ x ∈ vals, WF order h' x) ∧ (∀ x ∈ vals, MinFill x) := by
  cases w with
  | interior h' _ _ _ _ h1 h2 h3 h4 h5 => exact ⟨h', rfl, h1, h2, h3, h4, h5⟩

theorem WF.isLeaf_zero {order : Nat} {n : nodeI K V} (w : WF order 0 n) : n.isLeaf = true := by
  cases w with
  | leaf _ _ _ _ h1 h2 h3 => rfl

theorem WF.isLeaf_succ {order h : Nat} {n : nodeI K V} (w : WF order (h + 1) n) :
    n.isLeaf = false := by
  cases w with
  | interior h' _ _ _ _ h1 h2 h3 h4 h5 => rfl

/-- Nodes of the same height are of the same variant. -/
theorem WF.isLeaf_eq {order h : Nat} {n m : nodeI K V} (w1 : WF order h n) (w2 : WF order h m) :
    n.isLeaf = m.isLeaf := by
  cases h with
  | zero => rw [w1.isLeaf_zero, w2.isLeaf_zero]
  | succ h => rw [w1.isLeaf_succ, w2.isLeaf_succ]

theorem WF.order_eq {order h : Nat} {n : nodeI K V} (w : WF order h n) : n.order = order := by
  cases w with
  | leaf _ _ _ _ h1 h2 h3 => exact h1
  | interior h' _ _ _ _ h1 h2 h3 h4 h5 => exact h1

/-- A leaf of height zero, taken apart. -/
theorem WF.zero_inv {order : Nat} {n : nodeI K V} (w : WF order 0 n) :
    ∃ a keys vals, n = nodeI.leafNodeS a order keys vals ∧ keys.length = vals.length ∧
      keys.length < order := by
  cases w with
  | leaf a c keys vals h1 h2 h3 => exact ⟨a, keys, vals, by rw [h1], h2, h3⟩

/-- An interior node of height `h + 1`, taken apart. -/
theorem WF.succ_inv {order h : Nat} {n : nodeI K V} (w : WF order (h + 1) n) :
    ∃ a keys vals, n = nodeI.interiorNodeS a order keys vals ∧
      vals.length = keys.length + 1 ∧ keys.length < order ∧
      (∀ x ∈ vals, WF order h x) ∧ (∀ x ∈ vals, MinFill x) := by
  cases w with
  | interior h' a c keys vals h1 h2 h3 h4 h5 => exact ⟨a, keys, vals, by rw [h1], h2, h3, h4, h5⟩

theorem MinFill.leaf_pos {order a : Nat} {keys : List K} {vals : List V} (ho : 2 ≤ order)
    (m : MinFill (nodeI.leafNodeS a order keys vals)) : 1 ≤ vals.length := by
  simp only [MinFill, nodeI.halfFullSize, nodeI.size] at m
  have : 1 ≤ order / 2 := by omega
  omega

/-- The leftmost key of a subtree with no empty leaf is the key of the first
entry of its reading. -/
theorem WF.leftMost {order : Nat} (ho : 2 ≤ order) : ∀ {h : Nat} {n : nodeI K V},
    WF order h n → (h = 0 → 1 ≤ n.size) →
    ∃ k v B, n.findLeftMostKey = some k ∧ n.items = Item.ent k v :: B := by
  intro h
  induction h with
  | zero =>
    intro n w hs
    obtain ⟨a, keys, vals, rfl, h1, _⟩ := w.zero_inv
    have hs := hs rfl
    simp only [nodeI.size] at hs
    cases keys with
    | nil => simp at h1; omega
    | cons k ks =>
      cases vals with
      | nil => simp at h1
      | cons v vs => exact ⟨k, v, List.zipWith Item.ent ks vs, by simp [nodeI.findLeftMostKey], by simp [items_leaf]⟩
  | succ h ih =>
    intro n w _
    obtain ⟨a, keys, vals, rfl, h1, _, h4, h5⟩ := w.succ_inv
    cases vals with
    | nil => simp at h1
    | cons c0 rest =>
      have w0 := h4 c0 (by simp)
      have m0 := h5 c0 (by simp)
      obtain ⟨k, v, B, e1, e2⟩ := ih w0 (by
        intro h0
        subst h0
        obtain ⟨a', ks', vs', rfl, _, _⟩ := w0.zero_inv
        simpa [nodeI.size] using MinFill.leaf_pos ho m0)
      refine ⟨k, v, B ++ postI keys (rest.map nodeI.items), ?_, ?_⟩
      · simpa [nodeI.findLeftMostKey, findLeftMostKeyFirst] using e1
      · rw [items_interior, List.map_cons, interleave_eq_postI _ _ _ (by simpa using h1), e2]
        simp

end Shape

section LeafOps

variable {K V : Type} [LinearOrder K]

/-- The three ways the loop of `leafNodeS.insert` ends on sorted keys. -/
theorem insertScan_cases (key : K) : ∀ (keys : List K), keys.Pairwise (· < ·) →
    (∃ lk rk, keys = lk ++ key :: rk ∧ insertScan key keys = some (lk.length, true) ∧
      (∀ k ∈ lk, k < key) ∧ (∀ k ∈ rk, key < k)) ∨
    (∃ lk r0 rk, keys = lk ++ r0 :: rk ∧ insertScan key keys = some (lk.length, false) ∧
      (∀ k ∈ lk, k < key) ∧ key < r0 ∧ ∀ k ∈ rk, key < k) ∨
    (insertScan key keys = none ∧ ∀ k ∈ keys, k < key)
  | [], _ => Or.inr (Or.inr ⟨rfl, by simp⟩)
  | k :: ks, hs => by
    rw [List.pairwise_cons] at hs
    by_cases h1 : key = k
    · subst h1
      exact Or.inl ⟨[], ks, rfl, by simp [insertScan], by simp, hs.1⟩
    · by_cases h2 : key < k
      · refine Or.inr (Or.inl ⟨[], k, ks, rfl, by simp [insertScan, h1, h2], by simp, h2, ?_⟩)
        intro x hx
        exact lt_trans h2 (hs.1 x hx)
      · have hk : k < key := lt_of_le_of_ne (not_lt.1 h2) (Ne.symm h1)
        rcases insertScan_cases key ks hs.2 with ⟨lk, rk, e, e2, a1, a2⟩ |
            ⟨lk, r0, rk, e, e2, a1, a2, a3⟩ | ⟨e2, a1⟩
        · refine Or.inl ⟨k :: lk, rk, by simp [e], by simp [insertScan, h1, h2, e2], ?_, a2⟩
          intro x hx
          rcases List.mem_cons.1 hx with rfl | hx
          · exact hk
          · exact a1 x hx
        · refine Or.inr (Or.inl ⟨k :: lk, r0, rk, by simp [e],
            by simp [insertScan, h1, h2, e2], ?_, a2, a3⟩)
          intro x hx
          rcases List.mem_cons.1 hx with rfl | hx
          · exact hk
          · exact a1 x hx
        · refine Or.inr (Or.inr ⟨by simp [insertScan, h1, h2, e2], ?_⟩)
          intro x hx
          rcases List.mem_cons.1 hx with rfl | hx
          · exact hk
          · exact a1 x hx

omit [LinearOrder K] in
theorem mem_zipWith_ent {keys : List K} {vals : List V} {x : Item K V}
    (h : x ∈ List.zipWith Item.ent keys vals) : ∃ k v, x = Item.ent k v ∧ k ∈ keys := by
  induction keys generalizing vals with
  | nil => simp at h
  | cons k ks ih =>
    cases vals with
    | nil => simp at h
    | cons v vs =>
      rw [List.zipWith_cons_cons, List.mem_cons] at h
      rcases h with rfl | h
      · exact ⟨k, v, rfl, by simp⟩
      · obtain ⟨k', v', e, hm⟩ := ih h
        exact ⟨k', v', e, List.mem_cons_of_mem _ hm⟩

/-- The entries of a leaf are ordered exactly when its keys are. -/
theorem pairwise_zipWith_ent : ∀ {keys : List K} {vals : List V}, keys.length = vals.length →
    ((List.zipWith Item.ent keys vals).Pairwise Item.lt ↔ keys.Pairwise (· < ·))
  | [], [], _ => by simp
  | [], _ :: _, h => by simp at h
  | _ :: _, [], h => by simp at h
  | k :: ks, v :: vs, h => by
    have hl : ks.length = vs.length := by simpa using h
    rw [List.zipWith_cons_cons, List.pairwise_cons, List.pairwise_cons,
      pairwise_zipWith_ent hl]
    constructor
    · rintro ⟨h1, h2⟩
      refine ⟨?_, h2⟩
      intro x hx
      obtain ⟨i, hi, rfl⟩ := List.getElem_of_mem hx
      have hi' : i < vs.length := hl ▸ hi
      have := h1 (Item.ent ks[i] vs[i]) (by
        rw [List.mem_iff_getElem]
        exact ⟨i, by simpa using ⟨hi, hi'⟩, by simp⟩)
      simpa using this
    · rintro ⟨h1, h2⟩
      refine ⟨?_, h2⟩
      intro x hx
      obtain ⟨k', v', rfl, hm⟩ := mem_zipWith_ent hx
      simpa using h1 k' hm

theorem set_append_cons {α : Type} (lv rv : List α) (v0 v : α) :
    (lv ++ v0 :: rv).set lv.length v = lv ++ v :: rv := by
  induction lv with
  | nil => rfl
  | cons x lv ih => simp [ih]

/-- What `leafNodeS.insert` does to a leaf with parallel, sorted keys. -/
theorem leafInsert_spec (key : K) (val : V) (a c : Nat) (keys : List K) (vals : List V)
    (hlen : keys.length = vals.length) (hs : keys.Pairwise (· < ·)) :
    ∃ keys' vals' added,
      leafNodeS.insert key val (nodeI.leafNodeS a c keys vals)
        = some (nodeI.leafNodeS a c keys' vals', added) ∧
      keys'.length = vals'.length ∧
      keys'.length = keys.length + (if added then 1 else 0) ∧
      List.zip keys' vals' = insertSpec key val (List.zip keys vals) ∧
      added = !(lookupEnt key (List.zip keys vals)).isSome ∧
      Refines key (List.zipWith Item.ent keys' vals') (List.zipWith Item.ent keys vals) := by
  rcases insertScan_cases key keys hs with ⟨lk, rk, e, e2, a1, a2⟩ |
      ⟨lk, r0, rk, e, e2, a1, a2, a3⟩ | ⟨e2, a1⟩
  · -- replace
    subst e
    obtain ⟨lv, v0, rv, rfl, hl, _⟩ := list_cut vals lk.length (by rw [← hlen]; simp)
    have hr : rk.length = rv.length := by simp at hlen; omega
    have hz1 : ∀ e ∈ List.zip lk lv, e.1 < key := fun e he => a1 _ (List.of_mem_zip he).1
    have hz2 : ∀ e ∈ List.zip rk rv, key < e.1 := fun e he => a2 _ (List.of_mem_zip he).1
    refine ⟨lk ++ key :: rk, lv ++ val :: rv, false, ?_, by simp [hl, hr], by simp, ?_, ?_, ?_⟩
    · have hlt : lk.length < (lv ++ v0 :: rv).length := by simp [hl]
      simp only [leafNodeS.insert, e2, hlt, if_true]
      rw [← hl, set_append_cons]
    · rw [List.zip_append hl.symm, List.zip_append hl.symm, List.zip_cons_cons,
        List.zip_cons_cons]
      have := insertSpec_ctx val (List.zip lk lv) [(key, v0)] (List.zip rk rv) hz1 hz2
      simp only [List.append_assoc, List.singleton_append] at this
      rw [this]
      simp [insertSpec]
    · rw [List.zip_append hl.symm, List.zip_cons_cons,
        lookupEnt_append_left (fun e he => ne_of_lt (hz1 e he))]
      simp [lookupEnt_cons]
    · intro pre post hp _ _
      rw [List.zipWith_append _ _ _ _ _ hl.symm, List.zipWith_cons_cons] at hp ⊢
      have hp' : ((pre ++ List.zipWith Item.ent lk lv) ++
          Item.ent key v0 :: (List.zipWith Item.ent rk rv ++ post)).Pairwise Item.lt := by
        simpa [List.append_assoc] using hp
      have := pairwise_replace _ _ (Item.ent key v0) (Item.ent key val) hp'
        (fun x _ h => (Item.lt_ent_val v0 val).1 h) (fun x _ h => (Item.ent_lt_val v0 val).1 h)
      simpa [List.append_assoc] using this
  · -- insert before `r0`
    subst e
    obtain ⟨lv, rv, rfl, hl⟩ := list_cut_le vals lk.length (by rw [← hlen]; simp)
    have hr : (r0 :: rk).length = rv.length := by simp at hlen ⊢; omega
    have hz1 : ∀ e ∈ List.zip lk lv, e.1 < key := fun e he => a1 _ (List.of_mem_zip he).1
    have hz2 : ∀ e ∈ List.zip (r0 :: rk) rv, key < e.1 := fun e he => by
      rcases List.mem_cons.1 (List.of_mem_zip he).1 with h | h
      · rw [h]; exact a2
      · exact a3 _ h
    refine ⟨lk ++ key :: r0 :: rk, lv ++ val :: rv, true, ?_, ?_, ?_, ?_, ?_, ?_⟩
    · have hle : lk.length ≤ (lv ++ rv).length := by simp [hl]
      simp only [leafNodeS.insert, e2, hle, if_true]
      rw [List.take_left, List.drop_left, ← hl, List.take_left, List.drop_left]
    · simp at hr ⊢; omega
    · simp; omega
    · rw [List.zip_append hl.symm, List.zip_append hl.symm, List.zip_cons_cons]
      have := insertSpec_ctx val (List.zip lk lv) [] (List.zip (r0 :: rk) rv) hz1 hz2
      simp only [List.append_nil] at this
      rw [this]
      simp [insertSpec]
    · rw [List.zip_append hl.symm, lookupEnt_append_left (fun e he => ne_of_lt (hz1 e he)),
        lookupEnt_eq_none.2 (fun e he => ne_of_gt (hz2 e he))]
      rfl
    · intro pre post hp hb ha
      rw [List.zipWith_append _ _ _ _ _ hl.symm] at hp ⊢
      rw [List.zipWith_cons_cons]
      have hp' : ((pre ++ List.zipWith Item.ent lk lv) ++
          (List.zipWith Item.ent (r0 :: rk) rv ++ post)).Pairwise Item.lt := by
        simpa [List.append_assoc] using hp
      have := pairwise_insert _ _ (Item.ent key val) hp'
        (fun x hx => by
          rcases List.mem_append.1 hx with h | h
          · exact (Item.below_iff key val).1 (hb x h)
          · obtain ⟨k', v', rfl, hm⟩ := mem_zipWith_ent h
            simpa using a1 k' hm)
        (fun x hx => by
          rcases List.mem_append.1 hx with h | h
          · obtain ⟨k', v', rfl, hm⟩ := mem_zipWith_ent h
            rcases List.mem_cons.1 hm with h | h
            · rw [h]; simpa using a2
            · simpa using a3 k' h
          · exact Item.ent_lt_of_key_lt (ha x h))
      simpa [List.append_assoc] using this
  · -- append
    have hz1 : ∀ e ∈ List.zip keys vals, e.1 < key := fun e he => a1 _ (List.of_mem_zip he).1
    refine ⟨keys ++ [key], vals ++ [val], true, ?_, by simp [hlen], by simp, ?_, ?_, ?_⟩
    · simp only [leafNodeS.insert, e2]
    · rw [List.zip_append hlen]
      have := insertSpec_ctx val (List.zip keys vals) [] [] hz1 (by simp)
      simp only [List.append_nil] at this
      rw [this]
      simp [insertSpec]
    · rw [lookupEnt_eq_none.2 (fun e he => ne_of_lt (hz1 e he))]
      rfl
    · intro pre post hp hb ha
      rw [List.zipWith_append _ _ _ _ _ hlen]
      have hp' : ((pre ++ List.zipWith Item.ent keys vals) ++ post).Pairwise Item.lt := hp
      have := pairwise_insert _ _ (Item.ent key val) hp'
        (fun x hx => by
          rcases List.mem_append.1 hx with h | h
          · exact (Item.below_iff key val).1 (hb x h)
          · obtain ⟨k', v', rfl, hm⟩ := mem_zipWith_ent h
            simpa using a1 k' hm)
        (fun x hx => Item.ent_lt_of_key_lt (ha x hx))
      simpa [List.append_assoc] using this

end LeafOps

section Zoom

variable {K V : Type}

/-- Reading a node around a run of its children and the separators between
them. -/
theorem interleave_zoom3 : ∀ (lk mk rk : List K) (lc mc rc : List (List (Item K V))),
    lc.length = lk.length → mc.length = mk.length + 1 → rc.length = rk.length →
    interleave (lk ++ mk ++ rk) (lc ++ mc ++ rc) = preI lk lc ++ interleave mk mc ++ postI rk rc
  | [], mk, rk, [], mc, rc, _, h2, h3 => by
    obtain ⟨mc', x, rfl⟩ : ∃ mc' x, mc = mc' ++ [x] := by
      rcases List.eq_nil_or_concat mc with h0 | ⟨l, x, hx⟩
      · subst h0; simp at h2
      · exact ⟨l, x, by simpa using hx⟩
    have hm : mc'.length = mk.length := by simpa using h2
    have := interleave_zoom mk rk mc' x rc hm h3
    simp only [List.nil_append, preI_nil_left, List.append_assoc, List.singleton_append]
    rw [this, interleave_eq_preI mk mc' x hm]
  | [], _, _, _ :: _, _, _, h, _, _ => by simp at h
  | _ :: _, _, _, [], _, _, h, _, _ => by simp at h
  | k :: lk, mk, rk, c :: lc, mc, rc, h, h2, h3 => by
    have ih := interleave_zoom3 lk mk rk lc mc rc (by simpa using h) h2 h3
    simp only [List.cons_append, interleave_cons_cons, preI_cons, List.append_assoc] at ih ⊢
    rw [ih]

theorem sep_mem_preI : ∀ (lk : List K) (lc : List (List (Item K V))), lc.length = lk.length →
    ∀ k ∈ lk, Item.sep k ∈ preI lk lc
  | [], _, _, k, hk => by simp at hk
  | _ :: _, [], h, _, _ => by simp at h
  | k0 :: lk, c :: lc, h, k, hk => by
    rw [preI_cons]
    rcases List.mem_cons.1 hk with rfl | hk
    · simp
    · have := sep_mem_preI lk lc (by simpa using h) k hk
      simp [this]

theorem postI_head : ∀ (rk : List K) (rc : List (List (Item K V))), rc.length = rk.length →
    ∀ k ∈ rk.head?, ∃ B, postI rk rc = Item.sep k :: B
  | [], _, _, k, hk => by simp at hk
  | _ :: _, [], h, _, _ => by simp at h
  | k0 :: rk, c :: rc, _, k, hk => by
    simp only [List.head?_cons, Option.mem_def, Option.some.injEq] at hk
    subst hk
    exact ⟨c ++ postI rk rc, rfl⟩

end Zoom

section Descent

variable {K V : Type} [LinearOrder K]

/-- What stands left of the child `findLeaf` descends into is below the key. -/
theorem preI_below (key : K) : ∀ (lk : List K) (lc : List (List (Item K V))),
    (preI lk lc).Pairwise Item.lt → (∀ k ∈ lk, k ≤ key) → ∀ a ∈ preI lk lc, a.below key
  | [], _, _, _, a, ha => by simp at ha
  | _ :: _, [], _, _, a, ha => by simp at ha
  | k :: lk, c :: lc, hp, hk, a, ha => by
    rw [preI_cons] at hp ha
    have hkk : k ≤ key := hk k (by simp)
    rcases List.mem_append.1 ha with h | h
    · have := Item.key_lt_of_lt_sep (pairwise_left hp a h)
      exact Or.inl (lt_of_lt_of_le this hkk)
    · rcases List.mem_cons.1 h with rfl | h
      · rcases lt_or_eq_of_le hkk with h1 | h1
        · exact Or.inl h1
        · exact Or.inr ⟨h1, rfl⟩
      · have hp2 : (preI lk lc).Pairwise Item.lt :=
          (List.pairwise_cons.1 (List.pairwise_append.1 hp).2.1).2
        exact preI_below key lk lc hp2 (fun x hx => hk x (List.mem_cons_of_mem _ hx)) a h

/-- What stands right of the child `findLeaf` descends into is above the key. -/
theorem postI_above (key : K) : ∀ (rk : List K) (rc : List (List (Item K V))),
    (postI rk rc).Pairwise Item.lt → (∀ k ∈ rk.head?, key < k) → ∀ b ∈ postI rk rc, b.above key
  | [], _, _, _, b, hb => by simp at hb
  | _ :: _, [], _, _, b, hb => by simp at hb
  | k :: rk, c :: rc, hp, hk, b, hb => by
    rw [postI_cons] at hp hb
    have hkk : key < k := hk k (by simp)
    rcases List.mem_cons.1 hb with rfl | h
    · exact hkk
    · have := Item.key_le_of_sep_lt ((List.pairwise_cons.1 hp).1 b h)
      exact lt_of_lt_of_le hkk this

theorem below_ents {key : K} {l : List (Item K V)} (h : ∀ a ∈ l, a.below key) :
    ∀ e ∈ ents l, e.1 < key := by
  intro e he
  have := h _ (mem_ents.1 he)
  rcases this with h1 | ⟨_, h2⟩
  · exact h1
  · simp [Item.rank] at h2

theorem above_ents {key : K} {l : List (Item K V)} (h : ∀ a ∈ l, a.above key) :
    ∀ e ∈ ents l, key < e.1 := by
  intro e he
  exact h _ (mem_ents.1 he)

end Descent

section InteriorOps

variable {K V : Type} [LinearOrder K]

omit [LinearOrder K] in
theorem halfFullSize_interior (a c : Nat) (keys : List K) (vals : List (nodeI K V)) :
    (nodeI.interiorNodeS a c keys vals).halfFullSize = (c + 1) / 2 := rfl

omit [LinearOrder K] in
theorem halfFullSize_leaf (a c : Nat) (keys : List K) (vals : List V) :
    (nodeI.leafNodeS a c keys vals).halfFullSize = c / 2 := rfl

/-- Where `interiorNodeS.insert` puts the separator and the right half of a
child that split. -/
theorem interiorInsert_spec (s : K) (R L : nodeI K V) (a c : Nat) (lk rk : List K)
    (lv rv : List (nodeI K V)) (hl : lv.length = lk.length) (hr : rv.length = rk.length)
    (h1 : ∀ k ∈ lk, k ≤ s) (h2 : ∀ k ∈ rk.head?, s < k) :
    interiorNodeS.insert s R (nodeI.interiorNodeS a c (lk ++ rk) (lv ++ L :: rv))
      = some (nodeI.interiorNodeS a c (lk ++ s :: rk) (lv ++ L :: R :: rv)) := by
  have hi := ltIndex_append s lk rk h1 h2
  simp only [interiorNodeS.insert, hi]
  cases rk with
  | nil =>
    have : rv = [] := by simpa using hr
    subst this
    simp
  | cons r0 rk =>
    have e1 : lk.length < (lk ++ r0 :: rk).length := by simp
    have e2 : lk.length + 1 ≤ (lv ++ L :: rv).length := by simp [hl]
    simp only [e1, e2, if_true]
    have t1 : List.take (lk.length + 1) (lv ++ L :: rv) = lv ++ [L] := by
      rw [← hl]
      have := @List.take_append _ (lv) (L :: rv) 1
      simpa using this
    have t2 : List.drop (lk.length + 1) (lv ++ L :: rv) = rv := by
      rw [← hl]
      simp
    rw [List.take_left, List.drop_left, t1, t2]
    simp

omit [LinearOrder K] in
/-- What the test `isToBig()` and `interiorNodeS.split()` make of an interior
node that holds at most one key too many. -/
theorem splitIfBig_spec {order : Nat} (ho : 3 ≤ order) (a : Nat) (keys : List K)
    (vals : List (nodeI K V)) (next : Nat) (hlen : vals.length = keys.length + 1)
    (hle : keys.length ≤ order) :
    ∃ out next', splitIfBig next (nodeI.interiorNodeS a order keys vals) = some (out, next') ∧
      ((out = (nodeI.interiorNodeS a order keys vals, none) ∧ keys.length < order ∧
          next' = next) ∨
       (∃ kl s kr vl vr, out = (nodeI.interiorNodeS a order kl vl,
            some (s, nodeI.interiorNodeS next order kr vr)) ∧
          keys = kl ++ s :: kr ∧ vals = vl ++ vr ∧ vl.length = kl.length + 1 ∧
          vr.length = kr.length + 1 ∧ (order + 1) / 2 ≤ vl.length ∧
          (order + 1) / 2 ≤ vr.length ∧ kl.length < order ∧ kr.length < order ∧
          next' = next + 1)) := by
  by_cases hbig : keys.length = order
  · have hb : (nodeI.interiorNodeS a order keys vals).isToBig = true := by
      simp [nodeI.isToBig, hbig]
    obtain ⟨j, hj⟩ : ∃ j, j = keys.length / 2 := ⟨_, rfl⟩
    obtain ⟨w, hw⟩ : ∃ w, w = vals.length / 2 := ⟨_, rfl⟩
    have hvl : (vals.take w).length = w := by
      rw [List.length_take]; omega
    have hvr : (vals.drop w).length = vals.length - w := List.length_drop _ _
    by_cases hodd : keys.length % 2 = 1
    · obtain ⟨kl, s, kr, e, hkl, hget⟩ := list_cut keys j (by omega)
      have hkr : kl.length + kr.length + 1 = keys.length := by
        have := congrArg List.length e
        simp at this; omega
      have t1 : List.take j keys = kl := by
        rw [e]; exact List.take_left' hkl
      have t2 : List.drop (j + 1) keys = kr := by
        have := @List.drop_append _ (kl) (s :: kr) 1
        rw [hkl] at this
        rw [e]
        simpa using this
      refine ⟨_, _, ?_, Or.inr ⟨kl, s, kr, vals.take w, vals.drop w, rfl, e,
        (List.take_append_drop _ _).symm, ?_, ?_, ?_, ?_, ?_, ?_, rfl⟩⟩
      · simp only [splitIfBig, hb, if_true, interiorNodeS.split, hodd, ← hj, ← hw, hget]
        simp [t1, t2]
      · omega
      · omega
      · omega
      · omega
      · omega
      · omega
    · have hpos : j ≠ 0 := by omega
      obtain ⟨kl, s, kr, e, hkl, hget⟩ := list_cut keys (j - 1) (by omega)
      have hkr : kl.length + kr.length + 1 = keys.length := by
        have := congrArg List.length e
        simp at this; omega
      have t1 : List.take (j - 1) keys = kl := by
        rw [e]; exact List.take_left' hkl
      have t2 : List.drop j keys = kr := by
        have := @List.drop_append _ (kl) (s :: kr) 1
        rw [hkl] at this
        have h3 : j - 1 + 1 = j := by omega
        rw [h3] at this
        rw [e]
        simpa using this
      refine ⟨_, _, ?_, Or.inr ⟨kl, s, kr, vals.take w, vals.drop w, rfl, e,
        (List.take_append_drop _ _).symm, ?_, ?_, ?_, ?_, ?_, ?_, rfl⟩⟩
      · simp only [splitIfBig, hb, if_true, interiorNodeS.split, hodd, if_false, ← hj, ← hw,
          hpos, hget]
        simp [t1, t2]
      · omega
      · omega
      · omega
      · omega
      · omega
      · omega
  · have hb : (nodeI.interiorNodeS a order keys vals).isToBig = false := by
      simp [nodeI.isToBig, hbig]
    exact ⟨_, _, by simp [splitIfBig, hb], Or.inl ⟨rfl, by omega, rfl⟩⟩

end InteriorOps

section LeafSplit

variable {K V : Type}

/-- What the test `isToBig()` and `leafNodeS.split()` make of a leaf that holds
at most one entry too many. -/
theorem leafSplitIfBig_spec {order : Nat} (ho : 2 ≤ order) (a : Nat) (keys : List K)
    (vals : List V) (next : Nat) (hlen : keys.length = vals.length)
    (hle : keys.length ≤ order) :
    ∃ out next', leafSplitIfBig next (nodeI.leafNodeS a order keys vals) = some (out, next') ∧
      ((out = (nodeI.leafNodeS a order keys vals, none) ∧ keys.length < order ∧
          next' = next) ∨
       (∃ kl k0 s kr vl v0 vs vr, out = (nodeI.leafNodeS a order (kl ++ [k0]) (vl ++ [v0]),
            some (s, nodeI.leafNodeS next order (s :: kr) (vs :: vr))) ∧
          keys = kl ++ k0 :: s :: kr ∧ vals = vl ++ v0 :: vs :: vr ∧
          kl.length = vl.length ∧ kr.length = vr.length ∧
          order / 2 ≤ kl.length + 1 ∧ order / 2 ≤ kr.length + 1 ∧
          kl.length + 1 < order ∧ kr.length + 1 < order ∧ next' = next + 1)) := by
  by_cases hbig : keys.length = order
  · have hb : (nodeI.leafNodeS a order keys vals).isToBig = true := by
      simp [nodeI.isToBig, hbig]
    obtain ⟨j, hj⟩ : ∃ j, j + 1 = keys.length / 2 := ⟨keys.length / 2 - 1, by omega⟩
    obtain ⟨kl, k0, kr', e, hkl, _⟩ := list_cut keys j (by omega)
    obtain ⟨vl, v0, vr', e', hvl, _⟩ := list_cut vals j (by omega)
    have hk2 : kl.length + kr'.length + 1 = keys.length := by
      have := congrArg List.length e
      simp at this; omega
    have hv2 : vl.length + vr'.length + 1 = vals.length := by
      have := congrArg List.length e'
      simp at this; omega
    cases kr' with
    | nil => simp at hk2; omega
    | cons s kr =>
      cases vr' with
      | nil => simp at hv2; omega
      | cons vs vr =>
        simp only [List.length_cons] at hk2 hv2
        have tk : List.take (j + 1) keys = kl ++ [k0] := by
          have := @List.take_append _ (kl) (k0 :: s :: kr) 1
          rw [hkl] at this
          rw [e]; simpa using this
        have dk : List.drop (j + 1) keys = s :: kr := by
          have := @List.drop_append _ (kl) (k0 :: s :: kr) 1
          rw [hkl] at this
          rw [e]; simpa using this
        have tv : List.take (j + 1) vals = vl ++ [v0] := by
          have := @List.take_append _ (vl) (v0 :: vs :: vr) 1
          rw [hvl] at this
          rw [e']; simpa using this
        have dv : List.drop (j + 1) vals = vs :: vr := by
          have := @List.drop_append _ (vl) (v0 :: vs :: vr) 1
          rw [hvl] at this
          rw [e']; simpa using this
        refine ⟨_, _, ?_, Or.inr ⟨kl, k0, s, kr, vl, v0, vs, vr, rfl, e, e', by omega, by omega,
          by omega, by omega, by omega, by omega, rfl⟩⟩
        have hj' : vals.length / 2 = j + 1 := by omega
        simp only [leafSplitIfBig, hb, if_true, leafNodeS.split, ← hj, hj', tk, dk, tv, dv]
        simp
  · have hb : (nodeI.leafNodeS a order keys vals).isToBig = false := by
      simp [nodeI.isToBig, hbig]
    exact ⟨_, _, by simp [leafSplitIfBig, hb], Or.inl ⟨rfl, by omega, rfl⟩⟩

end LeafSplit

section Addrs

/-- Addresses stay distinct when the addresses of a subtree are replaced by
distinct ones that are old addresses of the subtree or fresh. -/
theorem nodup_subst {pre X O post : List Nat} {next0 : Nat} (h : (pre ++ X ++ post).Nodup)
    (hO : O.Nodup) (hm : ∀ x ∈ O, x ∈ X ∨ next0 ≤ x)
    (hf : ∀ x ∈ pre ++ post, x < next0) : (pre ++ O ++ post).Nodup := by
  rw [List.append_assoc, List.nodup_append] at h ⊢
  obtain ⟨h1, h2, h3⟩ := h
  rw [List.nodup_append] at h2 ⊢
  obtain ⟨h4, h5, h6⟩ := h2
  refine ⟨h1, ⟨hO, h5, ?_⟩, ?_⟩
  · intro x hx hx'
    rcases hm x hx with h7 | h7
    · exact h6 h7 hx'
    · have := hf x (List.mem_append_right _ hx')
      omega
  · intro x hx hx'
    rcases List.mem_append.1 hx' with h8 | h8
    · rcases hm x h8 with h7 | h7
      · exact h3 hx (List.mem_append_left _ h7)
      · have := hf x (List.mem_append_left _ hx)
        omega
    · exact h3 hx (List.mem_append_right _ h8)

end Addrs

section PutLeaf

variable {K V : Type} [LinearOrder K]

omit [LinearOrder K] in
@[simp] theorem PutOut.nodes_none (n : nodeI K V) : PutOut.nodes (n, none) = [n] := rfl

omit [LinearOrder K] in
@[simp] theorem PutOut.nodes_some (l r : nodeI K V) (s : K) :
    PutOut.nodes (l, some (s, r)) = [l, r] := rfl

omit [LinearOrder K] in
@[simp] theorem PutOut.keys_none (n : nodeI K V) : PutOut.keys (n, none) = [] := rfl

omit [LinearOrder K] in
@[simp] theorem PutOut.keys_some (l r : nodeI K V) (s : K) :
    PutOut.keys (l, some (s, r)) = [s] := rfl

omit [LinearOrder K] in
@[simp] theorem PutOut.items_none (n : nodeI K V) : PutOut.items (n, none) = n.items := rfl

omit [LinearOrder K] in
@[simp] theorem PutOut.items_some (l r : nodeI K V) (s : K) :
    PutOut.items (l, some (s, r)) = l.items ++ Item.sep s :: r.items := rfl

omit [LinearOrder K] in
@[simp] theorem PutOut.addrs_none (n : nodeI K V) : PutOut.addrs (n, none) = n.addrs := rfl

omit [LinearOrder K] in
@[simp] theorem PutOut.addrs_some (l r : nodeI K V) (s : K) :
    PutOut.addrs (l, some (s, r)) = l.addrs ++ r.addrs := rfl

omit [LinearOrder K] in
theorem PutOut.items_eq_interleave (out : PutOut K V) :
    out.items = interleave out.keys (out.nodes.map nodeI.items) := by
  rcases out with ⟨n, _ | ⟨s, r⟩⟩ <;> simp [PutOut.items, PutOut.keys, PutOut.nodes, interleave]

omit [LinearOrder K] in
theorem PutOut.addrs_eq (out : PutOut K V) : out.addrs = addrsList out.nodes := by
  rcases out with ⟨n, _ | ⟨s, r⟩⟩ <;> simp [PutOut.addrs, PutOut.nodes]

omit [LinearOrder K] in
theorem PutOut.nodes_length (out : PutOut K V) : out.nodes.length = out.keys.length + 1 := by
  rcases out with ⟨n, _ | ⟨s, r⟩⟩ <;> simp [PutOut.keys, PutOut.nodes]

/-- The leaf level of `Put`: insert, then split if over-full. -/
theorem put_leaf {order : Nat} (ho : 2 ≤ order) (key : K) (val : V) (a : Nat) (keys : List K)
    (vals : List V) (next0 : Nat) (w : WF order 0 (nodeI.leafNodeS a order keys vals))
    (hs : (nodeI.leafNodeS a order keys vals).items.Pairwise Item.lt) :
    ∃ leaf' added out next1,
      leafNodeS.insert key val (nodeI.leafNodeS a order keys vals) = some (leaf', added) ∧
      leafSplitIfBig next0 leaf' = some (out, next1) ∧
      PutPost order 0 key val (nodeI.leafNodeS a order keys vals) out added next0 next1 := by
  obtain ⟨_, _, hlen, hlt⟩ := w.leaf_inv
  rw [items_leaf] at hs
  have hks := (pairwise_zipWith_ent hlen).1 hs
  obtain ⟨keys', vals', added, e1, hlen', hcnt, hzip, hadd, href⟩ :=
    leafInsert_spec key val a order keys vals hlen hks
  have hle : keys'.length ≤ order := by
    rw [hcnt]; split <;> omega
  obtain ⟨out, next1, e2, hcase⟩ := leafSplitIfBig_spec ho a keys' vals' next0 hlen' hle
  refine ⟨_, added, out, next1, e1, e2, ?_⟩
  rcases hcase with ⟨rfl, hlt', rfl⟩ | ⟨kl, k0, s, kr, vl, v0, vs, vr, rfl, ek, ev, hl1, hl2, b1,
      b2, b3, b4, rfl⟩
  · refine ⟨?_, ?_, rfl, ?_, ?_, ?_, ?_, le_refl _, ?_, ?_⟩
    · intro n hn
      simp only [PutOut.nodes, List.mem_singleton] at hn
      subst hn
      exact WF.leaf _ _ _ _ rfl hlen' hlt'
    · rintro (h | h)
      · simp at h
      · intro n hn
        simp only [PutOut.nodes, List.mem_singleton] at hn
        subst hn
        simp only [MinFill, nodeI.halfFullSize, nodeI.size] at h ⊢
        have : vals.length ≤ vals'.length := by
          rw [← hlen, ← hlen', hcnt]; omega
        omega
    · intro _
      simp only [nodeI.size]
      rw [← hlen, ← hlen', hcnt]; omega
    · simpa [PutOut.items, items_leaf] using href
    · simp only [PutOut.items, items_leaf, ents_zipWith]
      exact hzip
    · simpa [items_leaf, ents_zipWith] using hadd
    · intro x hx
      simp only [PutOut.addrs, addrs_leaf] at hx ⊢
      exact Or.inl hx
    · intro _ _
      simp [PutOut.addrs, addrs_leaf]
  · have hital : (nodeI.leafNodeS a order keys' vals').items
        = List.zipWith Item.ent kl vl ++
          (Item.ent k0 v0 :: Item.ent s vs :: List.zipWith Item.ent kr vr) := by
      rw [items_leaf, ek, ev, List.zipWith_append _ _ _ _ _ hl1]
      simp
    have hiout : PutOut.items (nodeI.leafNodeS a order (kl ++ [k0]) (vl ++ [v0]),
        some (s, nodeI.leafNodeS next0 order (s :: kr) (vs :: vr)))
        = List.zipWith Item.ent kl vl ++
          (Item.ent k0 v0 :: Item.sep s :: Item.ent s vs :: List.zipWith Item.ent kr vr) := by
      simp only [PutOut.items, items_leaf]
      rw [List.zipWith_append _ _ _ _ _ hl1]
      simp
    refine ⟨?_, ?_, rfl, ?_, ?_, ?_, ?_, Nat.le_succ _, ?_, ?_⟩
    · intro n hn
      simp only [PutOut.nodes, List.mem_cons, List.mem_singleton, List.not_mem_nil,
        or_false] at hn
      rcases hn with rfl | rfl
      · exact WF.leaf _ _ _ _ rfl (by simp [hl1]) (by simpa using b3)
      · exact WF.leaf _ _ _ _ rfl (by simp [hl2]) (by simpa using b4)
    · intro _ n hn
      simp only [PutOut.nodes, List.mem_cons, List.mem_singleton, List.not_mem_nil,
        or_false] at hn
      rcases hn with rfl | rfl
      · simp only [MinFill, nodeI.halfFullSize, nodeI.size, List.length_append,
          List.length_singleton]
        omega
      · simp only [MinFill, nodeI.halfFullSize, nodeI.size, List.length_cons]
        omega
    · intro h; simp at h
    · rw [hiout]
      have h0 : Refines0 (List.zipWith Item.ent kl vl ++
          (Item.ent k0 v0 :: Item.sep s :: Item.ent s vs :: List.zipWith Item.ent kr vr))
          (nodeI.leafNodeS a order keys' vals').items := by
        rw [hital]
        exact (Refines0.insert_sep k0 s v0 vs _).ctx_left _
      have h1 : Refines key (nodeI.leafNodeS a order keys' vals').items
          (nodeI.leafNodeS a order keys vals).items := by
        simpa [items_leaf] using href
      exact Refines.trans0 h0 h1
    · rw [hiout]
      have : ents (nodeI.leafNodeS a order keys' vals').items
          = insertSpec key val (ents (nodeI.leafNodeS a order keys vals).items) := by
        simpa [items_leaf, ents_zipWith] using hzip
      rw [← this, hital]
      simp
    · simpa [items_leaf, ents_zipWith] using hadd
    · intro x hx
      simp only [PutOut.addrs, addrs_leaf, List.mem_append, List.mem_singleton] at hx ⊢
      rcases hx with rfl | rfl
      · exact Or.inl rfl
      · exact Or.inr ⟨le_refl _, Nat.lt_succ_self _⟩
    · intro _ hf
      have := hf a (by simp [addrs_leaf])
      simp only [PutOut.addrs, addrs_leaf, List.singleton_append, List.nodup_cons,
        List.mem_singleton, List.not_mem_nil, not_false_eq_true, List.nodup_nil, and_true]
      omega

end PutLeaf

section PutStep

variable {K V : Type} [LinearOrder K]

omit [LinearOrder K] in
theorem splitIfBig_small (next a c : Nat) (keys : List K) (vals : List (nodeI K V))
    (h : keys.length ≠ c) :
    splitIfBig next (nodeI.interiorNodeS a c keys vals)
      = some ((nodeI.interiorNodeS a c keys vals, none), next) := by
  simp [splitIfBig, nodeI.isToBig, h]

omit [LinearOrder K] in
theorem pairwise_mid {α : Type} {R : α → α → Prop} {a b c : List α}
    (h : (a ++ b ++ c).Pairwise R) : a.Pairwise R ∧ b.Pairwise R ∧ c.Pairwise R := by
  rw [List.pairwise_append, List.pairwise_append] at h
  exact ⟨h.1.1, h.1.2.1, h.2.1⟩

omit [LinearOrder K] in
/-- Siblings of a node in a tree with distinct addresses have other addresses. -/
theorem sibling_addr_ne {a c : Nat} {keys : List K} {lv rv : List (nodeI K V)} {X : nodeI K V}
    (hnd : (nodeI.interiorNodeS a c keys (lv ++ X :: rv)).addrs.Nodup) :
    (∀ y ∈ lv, y.addr ≠ X.addr) ∧ (∀ y ∈ rv, y.addr ≠ X.addr) ∧ X.addrs.Nodup ∧
      a ∉ X.addrs := by
  rw [addrs_interior, addrsList_append, addrsList_cons, List.nodup_cons, List.nodup_append,
    List.nodup_append] at hnd
  obtain ⟨h0, h1, ⟨h2, h3, h4⟩, h5⟩ := hnd
  refine ⟨?_, ?_, h2, ?_⟩
  · intro y hy e
    exact h5 (addrs_subset_addrsList hy _ (addr_mem_addrs y))
      (List.mem_append_left _ (e ▸ addr_mem_addrs X))
  · intro y hy e
    exact h4 (addr_mem_addrs X) (e ▸ addrs_subset_addrsList hy _ (addr_mem_addrs y))
  · intro hx
    exact h0 (List.mem_append_right _ (List.mem_append_left _ hx))

/-- One level of the way up of `Put`: the parent takes in what its child
handed up, and splits when that made it over-full. -/
theorem put_step {order : Nat} (ho : 3 ≤ order) (t : tree K V) (key : K) (val : V) (h a : Nat)
    (lk rk : List K) (lv rv : List (nodeI K V)) (X : nodeI K V)
    (hl : lv.length = lk.length) (hr : rv.length = rk.length)
    (hkeys : (lk ++ rk).length < order)
    (hch : ∀ x ∈ lv ++ X :: rv, WF order h x) (hmf : ∀ x ∈ lv ++ X :: rv, MinFill x)
    (hsort : (nodeI.interiorNodeS a order (lk ++ rk) (lv ++ X :: rv)).items.Pairwise Item.lt)
    (hlk : ∀ k ∈ lk, k ≤ key) (hrk : ∀ k ∈ rk.head?, key < k)
    (outc : PutOut K V) (added : Bool) (next0 next1 : Nat)
    (hnd : (nodeI.interiorNodeS a order (lk ++ rk) (lv ++ X :: rv)).addrs.Nodup)
    (hfresh : ∀ x ∈ (nodeI.interiorNodeS a order (lk ++ rk) (lv ++ X :: rv)).addrs, x < next0)
    (post : PutPost order h key val X outc added next0 next1) :
    ∃ out next2,
      (∀ p0, t.putUp outc (nodeI.interiorNodeS a order (lk ++ rk) (lv ++ X :: rv) :: p0) next1
        = t.putUp out p0 next2) ∧
      PutPost order (h + 1) key val (nodeI.interiorNodeS a order (lk ++ rk) (lv ++ X :: rv))
        out added next0 next2 := by
  obtain ⟨hsl, hsr, hXnd, haX⟩ := sibling_addr_ne hnd
  have hz := items_zoom a order lk rk lv rv X hl hr
  rw [hz] at hsort
  obtain ⟨hp1, _, hp3⟩ := pairwise_mid hsort
  have hpre := preI_below key _ _ hp1 hlk
  have hpost := postI_above key _ _ hp3 hrk
  have hsort1 := post.refines _ _ hsort hpre hpost
  have hXfresh : ∀ x ∈ X.addrs, x < next0 := fun x hx => hfresh x (by
    rw [addrs_interior, addrsList_append, addrsList_cons]
    simp [hx])
  have hOnd := post.addrs_nodup hXnd hXfresh
  -- the parent after it took in what the child handed up
  have hlen1 : (lv ++ outc.nodes ++ rv).length = (lk ++ outc.keys ++ rk).length + 1 := by
    simp only [List.length_append, outc.nodes_length]; omega
  have hkl1 : outc.keys.length ≤ 1 := by
    rcases outc with ⟨n, _ | ⟨s, r⟩⟩ <;> simp [PutOut.keys]
  have hle1 : (lk ++ outc.keys ++ rk).length ≤ order := by
    simp only [List.length_append] at hkeys ⊢; omega
  have hz1 : (nodeI.interiorNodeS a order (lk ++ outc.keys ++ rk) (lv ++ outc.nodes ++ rv)).items
      = preI lk (lv.map nodeI.items) ++ outc.items ++ postI rk (rv.map nodeI.items) := by
    rw [items_interior, List.map_append, List.map_append, outc.items_eq_interleave]
    exact interleave_zoom3 _ _ _ _ _ _ (by simpa using hl) (by simp [outc.nodes_length])
      (by simpa using hr)
  have hch1 : ∀ x ∈ lv ++ outc.nodes ++ rv, WF order h x ∧ MinFill x := by
    intro x hx
    rcases List.mem_append.1 hx with hx | hx
    · rcases List.mem_append.1 hx with hx | hx
      · exact ⟨hch x (by simp [hx]), hmf x (by simp [hx])⟩
      · exact ⟨post.wf x hx, post.fill (Or.inr (hmf X (by simp))) x hx⟩
    · exact ⟨hch x (by simp [hx]), hmf x (by simp [hx])⟩
  -- addresses
  have hZmem : ∀ x ∈ a :: addrsList (lv ++ outc.nodes ++ rv),
      x ∈ (nodeI.interiorNodeS a order (lk ++ rk) (lv ++ X :: rv)).addrs ∨
        (next0 ≤ x ∧ x < next1) := by
    intro x hx
    rw [addrs_interior, addrsList_append, addrsList_cons]
    rw [addrsList_append, addrsList_append, ← outc.addrs_eq] at hx
    simp only [List.mem_cons, List.mem_append] at hx ⊢
    rcases hx with hx | (hx | hx) | hx
    · exact Or.inl (Or.inl hx)
    · exact Or.inl (Or.inr (Or.inl hx))
    · rcases post.addrs_mem x hx with h1 | h1
      · exact Or.inl (Or.inr (Or.inr (Or.inl h1)))
      · exact Or.inr h1
    · exact Or.inl (Or.inr (Or.inr (Or.inr hx)))
  have hZnd : (a :: addrsList (lv ++ outc.nodes ++ rv)).Nodup := by
    rw [addrsList_append, addrsList_append, ← outc.addrs_eq]
    have h0 : ((a :: addrsList lv) ++ X.addrs ++ addrsList rv).Nodup := by
      simpa [addrs_interior] using hnd
    have := @nodup_subst _ _ _ _ next0 h0 hOnd
      (fun x hx => (post.addrs_mem x hx).imp id (fun h => h.1))
      (fun x hx => hfresh x (by
        rw [addrs_interior, addrsList_append, addrsList_cons]
        simp only [List.mem_cons, List.mem_append] at hx ⊢
        tauto))
    simpa using this
  have hents : ents (nodeI.interiorNodeS a order (lk ++ outc.keys ++ rk)
      (lv ++ outc.nodes ++ rv)).items
      = insertSpec key val (ents (nodeI.interiorNodeS a order (lk ++ rk) (lv ++ X :: rv)).items) := by
    rw [hz1, hz, ents_append, ents_append, ents_append, ents_append, post.ents_eq,
      insertSpec_ctx val _ _ _ (below_ents hpre) (above_ents hpost)]
  have hadded : added = !(lookupEnt key
      (ents (nodeI.interiorNodeS a order (lk ++ rk) (lv ++ X :: rv)).items)).isSome := by
    rw [hz, ents_append, ents_append,
      lookupEnt_append_right (fun e he => ne_of_gt (above_ents hpost e he)),
      lookupEnt_append_left (fun e he => ne_of_lt (below_ents hpre e he))]
    exact post.added_eq
  have hrefines : Refines key (nodeI.interiorNodeS a order (lk ++ outc.keys ++ rk)
      (lv ++ outc.nodes ++ rv)).items
      (nodeI.interiorNodeS a order (lk ++ rk) (lv ++ X :: rv)).items := by
    rw [hz1, hz]
    exact post.refines.ctxAt _ _ hpre hpost
  obtain ⟨out, next2, e2, hcase⟩ := splitIfBig_spec ho a (lk ++ outc.keys ++ rk)
    (lv ++ outc.nodes ++ rv) next1 hlen1 hle1
  refine ⟨out, next2, ?_, ?_⟩
  · -- the step of `putUp`
    intro p0
    rcases outc with ⟨X', _ | ⟨s, R⟩⟩
    · have hst := store_append a order (lk ++ rk) lv rv X X' post.addr.symm
        (fun y hy => post.addr ▸ hsl y hy) (fun y hy => post.addr ▸ hsr y hy)
      have hsm := splitIfBig_small next1 a order (lk ++ rk) (lv ++ X' :: rv)
        (by omega)
      simp only [PutOut.keys, PutOut.nodes, List.append_nil, List.append_assoc,
        List.singleton_append] at e2
      rw [hsm] at e2
      simp only [Option.some.injEq, Prod.mk.injEq] at e2
      obtain ⟨rfl, rfl⟩ := e2
      simp only [tree.putUp, hst]
    · have hst := store_append a order (lk ++ rk) lv rv X X' post.addr.symm
        (fun y hy => post.addr ▸ hsl y hy) (fun y hy => post.addr ▸ hsr y hy)
      have hs1 : ∀ k ∈ lk, k ≤ s := by
        intro k hk
        have h1 := sep_mem_preI lk (lv.map nodeI.items) (by simpa using hl) k hk
        have h2 : (Item.sep s : Item K V) ∈ PutOut.items (X', some (s, R)) := by
          simp [PutOut.items]
        have := (List.pairwise_append.1 (List.pairwise_append.1 hsort1).1).2.2 _ h1 _ h2
        exact le_of_lt (by simpa using this)
      have hs2 : ∀ k ∈ rk.head?, s < k := by
        intro k hk
        obtain ⟨B, hB⟩ := postI_head rk (rv.map nodeI.items) (by simpa using hr) k hk
        have h2 : (Item.sep s : Item K V) ∈ preI lk (lv.map nodeI.items) ++
            PutOut.items (X', some (s, R)) := by
          simp [PutOut.items]
        have := (List.pairwise_append.1 hsort1).2.2 _ h2 (Item.sep k) (by rw [hB]; simp)
        simpa using this
      have hin := interiorInsert_spec s R X' a order lk rk lv rv hl hr hs1 hs2
      simp only [PutOut.keys, PutOut.nodes, List.append_assoc, List.singleton_append,
        List.cons_append, List.nil_append] at e2
      simp only [tree.putUp, hst, hin, e2]
  · rcases hcase with ⟨rfl, hlt, rfl⟩ | ⟨kl, s', kr, vl, vr, rfl, ek, ev, hvl, hvr, b1, b2, b3,
      b4, rfl⟩
    · refine ⟨?_, ?_, rfl, ?_, ?_, ?_, hadded, post.next_le, ?_, ?_⟩
      · intro n hn
        simp only [PutOut.nodes_none, List.mem_singleton] at hn
        subst hn
        exact WF.interior h a order _ _ rfl hlen1 hlt (fun x hx => (hch1 x hx).1)
          (fun x hx => (hch1 x hx).2)
      · rintro (h1 | h1)
        · simp at h1
        · intro n hn
          simp only [PutOut.nodes_none, List.mem_singleton] at hn
          subst hn
          simp only [MinFill, nodeI.halfFullSize, nodeI.size, List.length_append,
            List.length_cons, outc.nodes_length] at h1 ⊢
          omega
      · intro _
        simp only [nodeI.size, List.length_append, List.length_cons, outc.nodes_length]
        omega
      · simpa using hrefines
      · simpa using hents
      · intro x hx
        simp only [PutOut.addrs_none, addrs_interior] at hx
        exact hZmem x hx
      · intro _ _
        simpa [addrs_interior] using hZnd
    · have hio : PutOut.items (nodeI.interiorNodeS a order kl vl,
          some (s', nodeI.interiorNodeS next1 order kr vr))
          = (nodeI.interiorNodeS a order (lk ++ outc.keys ++ rk)
              (lv ++ outc.nodes ++ rv)).items := by
        simp only [PutOut.items_some, items_interior]
        rw [ek, ev, List.map_append]
        exact (interleave_append kl kr s' _ _ (by simpa using hvl) (by simpa using hvr)).symm
      have hsub : ∀ x, x ∈ vl ∨ x ∈ vr → x ∈ lv ++ outc.nodes ++ rv := by
        intro x hx
        rw [ev]
        exact List.mem_append.2 hx
      have hZ : (a :: addrsList (lv ++ outc.nodes ++ rv)) = a :: (addrsList vl ++ addrsList vr) := by
        rw [ev, addrsList_append]
      refine ⟨?_, ?_, rfl, ?_, ?_, ?_, hadded, Nat.le_succ_of_le post.next_le, ?_, ?_⟩
      · intro n hn
        simp only [PutOut.nodes_some, List.mem_cons, List.mem_singleton, List.not_mem_nil,
          or_false] at hn
        rcases hn with rfl | rfl
        · exact WF.interior h a order _ _ rfl hvl b3
            (fun x hx => (hch1 x (hsub x (Or.inl hx))).1)
            (fun x hx => (hch1 x (hsub x (Or.inl hx))).2)
        · exact WF.interior h next1 order _ _ rfl hvr b4
            (fun x hx => (hch1 x (hsub x (Or.inr hx))).1)
            (fun x hx => (hch1 x (hsub x (Or.inr hx))).2)
      · intro _ n hn
        simp only [PutOut.nodes_some, List.mem_cons, List.mem_singleton, List.not_mem_nil,
          or_false] at hn
        rcases hn with rfl | rfl
        · simpa [MinFill, nodeI.halfFullSize, nodeI.size] using b1
        · simpa [MinFill, nodeI.halfFullSize, nodeI.size] using b2
      · intro h1; simp at h1
      · rw [hio]; exact hrefines
      · rw [hio]; exact hents
      · intro x hx
        simp only [PutOut.addrs_some, addrs_interior, List.mem_append, List.mem_cons] at hx
        have hmem : x = next1 ∨ x ∈ a :: addrsList (lv ++ outc.nodes ++ rv) := by
          rw [hZ]
          simp only [List.mem_cons, List.mem_append]
          tauto
        rcases hmem with rfl | hmem
        · exact Or.inr ⟨post.next_le, Nat.lt_succ_self _⟩
        · rcases hZmem x hmem with h1 | h1
          · exact Or.inl h1
          · exact Or.inr ⟨h1.1, Nat.lt_succ_of_lt h1.2⟩
      · intro _ _
        have hlt1 : ∀ x ∈ a :: addrsList (lv ++ outc.nodes ++ rv), x < next1 := by
          intro x hx
          rcases hZmem x hx with h1 | h1
          · exact lt_of_lt_of_le (hfresh x h1) post.next_le
          · exact h1.2
        have hnd2 : (next1 :: a :: (addrsList vl ++ addrsList vr)).Nodup := by
          rw [← hZ, List.nodup_cons]
          exact ⟨fun hm => Nat.lt_irrefl _ (hlt1 _ hm), hZnd⟩
        have hperm : List.Perm ((a :: addrsList vl) ++ (next1 :: addrsList vr))
            (next1 :: a :: (addrsList vl ++ addrsList vr)) := by
          have := @List.perm_middle _ next1 (a :: addrsList vl) (addrsList vr)
          simpa using this
        simpa [addrs_interior] using hperm.nodup_iff.2 hnd2

end PutStep

section PutMain

variable {K V : Type} [LinearOrder K]

/-- The step `nextNode = curNode.vals[i]` of `findLeaf` goes on from child `i`. -/
theorem findLeafAt_eq (key : K) : ∀ (vals : List (nodeI K V)) (i : Nat) (path : pathT K V),
    findLeafAt key vals i path = match vals[i]? with
      | none => none
      | some c => findLeafFrom key c path
  | [], _, _ => by simp [findLeafAt]
  | c :: _, 0, _ => by simp [findLeafAt]
  | _ :: cs, i + 1, path => by
    simpa [findLeafAt] using findLeafAt_eq key cs i path

theorem findLeafFrom_interior (key : K) (a c : Nat) (keys : List K) (vals : List (nodeI K V))
    (path : pathT K V) (x : nodeI K V) (h : vals[ltIndex key keys]? = some x) :
    findLeafFrom key (nodeI.interiorNodeS a c keys vals) path
      = findLeafFrom key x (nodeI.interiorNodeS a c keys vals :: path) := by
  rw [findLeafFrom, findLeafAt_eq, pathT.push, h]

/-- The way `findLeaf` takes through an interior node: the cut of its
separators and children at the child it descends into. -/
theorem descent_cut (key : K) {keys : List K} {vals : List (nodeI K V)}
    (hlen : vals.length = keys.length + 1) :
    ∃ lk rk lv X rv, keys = lk ++ rk ∧ vals = lv ++ X :: rv ∧ lv.length = lk.length ∧
      rv.length = rk.length ∧ (∀ k ∈ lk, k ≤ key) ∧ (∀ k ∈ rk.head?, key < k) ∧
      vals[ltIndex key keys]? = some X := by
  obtain ⟨lk, rk, ek, hi, hlk, hrk⟩ := ltIndex_spec key keys
  have hle := ltIndex_le key keys
  obtain ⟨lv, X, rv, ev, hlv, hget⟩ := list_cut vals (ltIndex key keys) (by omega)
  refine ⟨lk, rk, lv, X, rv, ek, ev, by omega, ?_, hlk, hrk, hget⟩
  have h1 := congrArg List.length ek
  have h2 := congrArg List.length ev
  simp at h1 h2
  omega

/-- The whole of `Put` below and at a subtree `X`: the descent reaches a leaf,
the leaf takes the entry, and the way up through the nodes of `X` recorded on
the path hands up a result that meets `PutPost`. -/
theorem put_main {order : Nat} (ho : 3 ≤ order) (t : tree K V) (key : K) (val : V) :
    ∀ {h : Nat} {X : nodeI K V}, WF order h X → ∀ (p0 : pathT K V) (next0 : Nat),
    X.items.Pairwise Item.lt → X.addrs.Nodup → (∀ a ∈ X.addrs, a < next0) →
    ∃ leaf path leaf' added out0 nextL out next1,
      findLeafFrom key X p0 = some (leaf, path) ∧
      leafNodeS.insert key val leaf = some (leaf', added) ∧
      leafSplitIfBig next0 leaf' = some (out0, nextL) ∧
      t.putUp out0 path nextL = t.putUp out p0 next1 ∧
      PutPost order h key val X out added next0 next1 := by
  intro h X w
  induction w with
  | leaf a c keys vals h1 h2 h3 =>
    intro p0 next0 hs _ _
    subst h1
    obtain ⟨leaf', added, out, next1, e1, e2, post⟩ :=
      put_leaf (by omega) key val a keys vals next0 (WF.leaf _ _ _ _ rfl h2 h3) hs
    exact ⟨_, p0, leaf', added, out, next1, out, next1, by simp [findLeafFrom], e1, e2, rfl, post⟩
  | interior h a c keys vals h1 h2 h3 h4 h5 ih =>
    intro p0 next0 hs hnd hfresh
    subst h1
    obtain ⟨lk, rk, lv, X, rv, rfl, rfl, hl, hr, hlk, hrk, hget⟩ := descent_cut key h2
    have hXs : X.items.Pairwise Item.lt := by
      have := hs
      rw [items_zoom a c lk rk lv rv X hl hr] at this
      exact (pairwise_mid this).2.1
    obtain ⟨_, _, hXnd, _⟩ := sibling_addr_ne hnd
    have hXfresh : ∀ x ∈ X.addrs, x < next0 := fun x hx => hfresh x (by
      rw [addrs_interior, addrsList_append, addrsList_cons]
      simp [hx])
    obtain ⟨leaf, path, leaf', added, out0, nextL, outc, next1, e1, e2, e3, e4, post⟩ :=
      ih X (by simp) (nodeI.interiorNodeS a c (lk ++ rk) (lv ++ X :: rv) :: p0) next0 hXs hXnd
        hXfresh
    obtain ⟨out, next2, e5, post'⟩ := put_step ho t key val h a lk rk lv rv X hl hr h3 h4 h5 hs
      hlk hrk outc added next0 next1 hnd hfresh post
    refine ⟨leaf, path, leaf', added, out0, nextL, out, next2, ?_, e2, e3, ?_, post'⟩
    · rw [findLeafFrom_interior key a c _ _ p0 X hget]
      exact e1
    · rw [e4, e5]

omit [LinearOrder K] in
theorem commit_eq_self (n : nodeI K V) : pathT.commit ([] : pathT K V) n = n := rfl

theorem putUp_none (t : tree K V) (n : nodeI K V) : ∀ (path : pathT K V) (next : Nat),
    t.putUp (n, none) path next = some (pathT.commit path n, next)
  | [], _ => by simp [tree.putUp, pathT.commit]
  | p :: path, next => by
    simp only [tree.putUp, pathT.commit]
    exact putUp_none t (p.store n) path next
termination_by path => path.length

/-- The loop `for parent.isToBig() { ... }` of `Put` is the way up from the
parent. -/
theorem putLoop_eq (t : tree K V) : ∀ (path : pathT K V) (parent : nodeI K V) (next : Nat),
    t.putLoop parent path next = match splitIfBig next parent with
      | none => none
      | some (out, next') => t.putUp out path next'
  | [], parent, next => by
    unfold tree.putLoop splitIfBig
    by_cases hb : parent.isToBig = true
    · simp only [hb, if_true]
      cases interiorNodeS.split next parent with
      | none => simp
      | some r =>
        obtain ⟨l, r, s⟩ := r
        simp [tree.putUp]
    · simp only [hb]
      simp [putUp_none]
  | gp :: path, parent, next => by
    unfold tree.putLoop splitIfBig
    by_cases hb : parent.isToBig = true
    · simp only [hb, if_true]
      cases interiorNodeS.split next parent with
      | none => simp
      | some r =>
        obtain ⟨l, r, s⟩ := r
        simp only [Option.map_some', tree.putUp]
        cases interiorNodeS.insert s r (gp.store l) with
        | none => simp
        | some gp' =>
          simp only
          exact putLoop_eq t path gp' (next + 1)
    · simp only [hb]
      simp [putUp_none]

/-- The function `Put` is the descent, the insert into the leaf and the way up. -/
theorem Put_eq (t : tree K V) (key : K) (val : V) :
    t.Put key val = match findLeafFrom key t.root [] with
      | none => none
      | some (leaf, path) =>
        match leafNodeS.insert key val leaf with
        | none => none
        | some (leaf', added) =>
          match leafSplitIfBig t.nextAddr leaf' with
          | none => none
          | some (out0, nextL) =>
            match t.putUp out0 path nextL with
            | none => none
            | some (root, next) =>
              some ({ t with root := root,
                             numEnts := if added then t.numEnts + 1 else t.numEnts,
                             nextAddr := next }, added) := by
  unfold tree.Put tree.findLeaf newPathT
  cases findLeafFrom key t.root [] with
  | none => rfl
  | some r =>
    obtain ⟨leaf, path⟩ := r
    simp only
    cases leafNodeS.insert key val leaf with
    | none => rfl
    | some r2 =>
      obtain ⟨leaf', added⟩ := r2
      simp only [leafSplitIfBig]
      by_cases hb : leaf'.isToBig = true
      · simp only [hb, if_true]
        cases leafNodeS.split t.nextAddr leaf' with
        | none => rfl
        | some r3 =>
          obtain ⟨l, r, s⟩ := r3
          simp only [Option.map_some']
          cases path with
          | nil => simp [tree.putUp]
          | cons parent path =>
            simp only [tree.putUp]
            cases interiorNodeS.insert s r (parent.store l) with
            | none => rfl
            | some parent' =>
              simp only [putLoop_eq]
      · simp only [hb]
        simp [putUp_none]

end PutMain

section PutSpec

variable {K V : Type} [LinearOrder K]

omit [LinearOrder K] in
theorem newNode_eq (t : tree K V) (addr : Nat) (k : K) (l r : nodeI K V) :
    t.newNode addr k l r = nodeI.interiorNodeS addr t.order [k] [l, r] := by
  simp [tree.newNode, mkNode]

omit [LinearOrder K] in
theorem RootFill.of_size {order h : Nat} {n m : nodeI K V} (wn : WF order h n)
    (wm : WF order h m) (hs : n.size ≤ m.size) (r : RootFill n) : RootFill m := by
  rcases r with r | r
  · exact Or.inl (by rw [← WF.isLeaf_eq wn wm]; exact r)
  · exact Or.inr (le_trans r hs)

/-- What `Put` does to a tree that meets the invariant: it returns, the tree
it leaves meets the invariant, binds `key` to `val` and every other key as
before, and the boolean tells whether `key` was new. -/
theorem Put_spec (t : tree K V) (inv : Inv t) (key : K) (val : V) :
    ∃ t' added, t.Put key val = some (t', added) ∧ Inv t' ∧ t'.order = t.order ∧
      ents t'.root.items = insertSpec key val (ents t.root.items) ∧
      added = !(lookupEnt key (ents t.root.items)).isSome ∧
      t'.numEnts = (if added then t.numEnts + 1 else t.numEnts) := by
  obtain ⟨h, w⟩ := inv.wf
  obtain ⟨leaf, path, leaf', added, out0, nextL, out, next1, e1, e2, e3, e4, post⟩ :=
    put_main inv.order_ge t key val w [] t.nextAddr inv.sorted inv.nodup inv.fresh
  have hcount : ((ents out.items).length : Int) = if added then t.numEnts + 1 else t.numEnts := by
    rw [post.ents_eq, length_insertSpec val (ents_pairwise inv.sorted), inv.count,
      post.added_eq]
    cases (lookupEnt key (ents t.root.items)).isSome <;> simp
  have hfresh : ∀ a ∈ out.addrs, a < next1 := by
    intro a ha
    rcases post.addrs_mem a ha with h1 | h1
    · exact lt_of_lt_of_le (inv.fresh a h1) post.next_le
    · exact h1.2
  have hsorted : out.items.Pairwise Item.lt := by
    have := post.refines [] [] (by simpa using inv.sorted) (by simp) (by simp)
    simpa using this
  have hnd := post.addrs_nodup inv.nodup inv.fresh
  rw [Put_eq, e1]
  simp only [e2, e3, e4]
  rcases out with ⟨n, _ | ⟨s, r⟩⟩
  · refine ⟨{ t with root := n, numEnts := if added then t.numEnts + 1 else t.numEnts,
                       nextAddr := next1 }, added, by simp only [tree.putUp], ?_, rfl,
      post.ents_eq, post.added_eq, rfl⟩
    have wn := post.wf n (by simp)
    exact {
      order_ge := inv.order_ge
      wf := ⟨h, wn⟩
      rootFill := RootFill.of_size w wn (post.size rfl) inv.rootFill
      sorted := hsorted
      nodup := hnd
      fresh := hfresh
      count := by simpa using hcount.symm }
  · refine ⟨{ t with root := t.newNode next1 s n r,
                       numEnts := if added then t.numEnts + 1 else t.numEnts,
                       nextAddr := next1 + 1 }, added, by simp only [tree.putUp], ?_, rfl, ?_,
      post.added_eq, rfl⟩
    · have wl := post.wf n (by simp)
      have wr := post.wf r (by simp)
      have hitems : (nodeI.interiorNodeS next1 t.order [s] [n, r]).items
          = n.items ++ Item.sep s :: r.items := by
        simp [items_interior, interleave]
      exact {
        order_ge := inv.order_ge
        wf := ⟨h + 1, by
          simp only [newNode_eq]
          refine WF.interior h next1 t.order [s] [n, r] rfl rfl ?_ ?_ ?_
          · have := inv.order_ge
            simp; omega
          · intro x hx
            exact post.wf x (by simpa using hx)
          · intro x hx
            exact post.fill (Or.inl rfl) x (by simpa using hx)⟩
        rootFill := Or.inr (by simp [newNode_eq, nodeI.size])
        sorted := by
          simp only [newNode_eq, hitems]
          simpa using hsorted
        nodup := by
          simp only [newNode_eq, addrs_interior, addrsList_cons, addrsList_nil,
            List.append_nil, List.nodup_cons]
          refine ⟨fun hm => Nat.lt_irrefl _ (hfresh _ (by simpa using hm)), ?_⟩
          simpa using hnd
        fresh := by
          intro a ha
          simp only [newNode_eq, addrs_interior, addrsList_cons, addrsList_nil,
            List.append_nil, List.mem_cons] at ha
          rcases ha with rfl | ha
          · exact Nat.lt_succ_self _
          · exact Nat.lt_succ_of_lt (hfresh a (by simpa using ha))
        count := by
          simp only [newNode_eq, hitems]
          simpa using hcount.symm }
    · simp only [newNode_eq]
      have hitems : (nodeI.interiorNodeS next1 t.order [s] [n, r]).items
          = n.items ++ Item.sep s :: r.items := by
        simp [items_interior, interleave]
      rw [hitems]
      simpa using post.ents_eq

end PutSpec

section GetSpec

variable {K V : Type} [LinearOrder K]

/-- The reading of an interior node around the child `findLeaf` descends into:
what stands left is below the key, what stands right is above it. -/
theorem descent_bounds (key : K) (a c : Nat) (lk rk : List K) (lv rv : List (nodeI K V))
    (X : nodeI K V) (hl : lv.length = lk.length) (hr : rv.length = rk.length)
    (hs : (nodeI.interiorNodeS a c (lk ++ rk) (lv ++ X :: rv)).items.Pairwise Item.lt)
    (hlk : ∀ k ∈ lk, k ≤ key) (hrk : ∀ k ∈ rk.head?, key < k) :
    (∀ x ∈ preI lk (lv.map nodeI.items), x.below key) ∧
    (∀ x ∈ postI rk (rv.map nodeI.items), x.above key) ∧ X.items.Pairwise Item.lt := by
  rw [items_zoom a c lk rk lv rv X hl hr] at hs
  obtain ⟨hp1, hp2, hp3⟩ := pairwise_mid hs
  exact ⟨preI_below key _ _ hp1 hlk, postI_above key _ _ hp3 hrk, hp2⟩

/-- The binding of the key in an interior node is its binding in the child
`findLeaf` descends into. -/
theorem lookup_zoom (key : K) (a c : Nat) (lk rk : List K) (lv rv : List (nodeI K V))
    (X : nodeI K V) (hl : lv.length = lk.length) (hr : rv.length = rk.length)
    (hs : (nodeI.interiorNodeS a c (lk ++ rk) (lv ++ X :: rv)).items.Pairwise Item.lt)
    (hlk : ∀ k ∈ lk, k ≤ key) (hrk : ∀ k ∈ rk.head?, key < k) :
    lookupEnt key (ents (nodeI.interiorNodeS a c (lk ++ rk) (lv ++ X :: rv)).items)
      = lookupEnt key (ents X.items) := by
  obtain ⟨hpre, hpost, _⟩ := descent_bounds key a c lk rk lv rv X hl hr hs hlk hrk
  rw [items_zoom a c lk rk lv rv X hl hr, ents_append, ents_append,
    lookupEnt_append_right (fun e he => ne_of_gt (above_ents hpost e he)),
    lookupEnt_append_left (fun e he => ne_of_lt (below_ents hpre e he))]

theorem leafScan_spec (key : K) : ∀ (keys : List K) (vals : List V),
    keys.length = vals.length →
    (match keyIndex key keys with
      | some i =>
        match vals[i]? with
        | some v => some (some v, true)
        | none => none
      | none => some (none, false)) = some (getResult (lookupEnt key (List.zip keys vals)))
  | [], [], _ => rfl
  | [], _ :: _, h => by simp at h
  | _ :: _, [], h => by simp at h
  | k :: ks, v :: vs, h => by
    have ih := leafScan_spec key ks vs (by simpa using h)
    by_cases hk : key = k
    · simp [keyIndex, hk, lookupEnt_cons, getResult]
    · simp only [keyIndex, hk, if_false, List.zip_cons_cons, lookupEnt_cons]
      rw [← ih]
      cases keyIndex key ks <;> simp

/-- The scan of a leaf for a key finds the binding of the key in the leaf. -/
theorem leafGet_spec (key : K) (a c : Nat) (keys : List K) (vals : List V)
    (h : keys.length = vals.length) :
    leafNodeS.get key (nodeI.leafNodeS a c keys vals)
      = some (getResult (lookupEnt key (ents (nodeI.leafNodeS a c keys vals).items))) := by
  rw [items_leaf, ents_zipWith, ← leafScan_spec key keys vals h]
  rfl

/-- The descent from a subtree reaches the leaf that holds the binding of the
key in the subtree. -/
theorem get_main {order : Nat} (key : K) : ∀ {h : Nat} {X : nodeI K V}, WF order h X →
    ∀ (p0 : pathT K V), X.items.Pairwise Item.lt →
    ∃ leaf path, findLeafFrom key X p0 = some (leaf, path) ∧
      leafNodeS.get key leaf = some (getResult (lookupEnt key (ents X.items))) := by
  intro h X w
  induction w with
  | leaf a c keys vals h1 h2 h3 =>
    intro p0 _
    exact ⟨_, p0, by simp [findLeafFrom], leafGet_spec key a c keys vals h2⟩
  | interior h a c keys vals h1 h2 h3 h4 h5 ih =>
    intro p0 hs
    obtain ⟨lk, rk, lv, X, rv, rfl, rfl, hl, hr, hlk, hrk, hget⟩ := descent_cut key h2
    obtain ⟨_, _, hXs⟩ := descent_bounds key a c lk rk lv rv X hl hr hs hlk hrk
    obtain ⟨leaf, path, e1, e2⟩ :=
      ih X (by simp) (nodeI.interiorNodeS a c (lk ++ rk) (lv ++ X :: rv) :: p0) hXs
    refine ⟨leaf, path, ?_, ?_⟩
    · rw [findLeafFrom_interior key a c _ _ p0 X hget]
      exact e1
    · rw [e2, lookup_zoom key a c lk rk lv rv X hl hr hs hlk hrk]

/-- The function `Get` returns the binding of the key in the reading of the
tree. -/
theorem Get_spec (t : tree K V) (inv : Inv t) (key : K) :
    t.Get key = some (getResult (lookupEnt key (ents t.root.items))) := by
  obtain ⟨h, w⟩ := inv.wf
  obtain ⟨leaf, path, e1, e2⟩ := get_main key w [] inv.sorted
  simp only [tree.Get, tree.findLeaf, newPathT, e1, e2]

end GetSpec

section PairLeaf

variable {K V : Type} [LinearOrder K]

omit [LinearOrder K] in
theorem list_snoc {α : Type} {l : List α} (h : 0 < l.length) :
    ∃ l' x, l = l' ++ [x] ∧ l'.length + 1 = l.length := by
  rcases List.eq_nil_or_concat l with h0 | ⟨l', x, hx⟩
  · subst h0; simp at h
  · refine ⟨l', x, by simpa using hx, ?_⟩
    rw [hx]; simp

omit [LinearOrder K] in
theorem list_cons_of_length_pos {α : Type} {l : List α} (h : 0 < l.length) :
    ∃ x l', l = x :: l' ∧ l'.length + 1 = l.length := by
  cases l with
  | nil => simp at h
  | cons x l' => exact ⟨x, l', rfl, rfl⟩

/-- The leaf `B` steals the last entry of its left peer `A`. -/
theorem stealLeft_leaf {order : Nat} (s : K) (la ra : Nat) (ak bk : List K)
    (av bv : List V) (wA : WF order 0 (nodeI.leafNodeS la order ak av))
    (wB : WF order 0 (nodeI.leafNodeS ra order bk bv))
    (hA : order / 2 < av.length) (hB : bv.length + 1 = order / 2) :
    ∃ A' B' s', (nodeI.leafNodeS ra order bk bv).stealLeft (nodeI.leafNodeS la order ak av)
        = some (B', A') ∧ B'.findLeftMostKey = some s' ∧
      PairSteal order 0 (nodeI.leafNodeS la order ak av) s (nodeI.leafNodeS ra order bk bv)
        A' s' B' := by
  obtain ⟨_, _, hla, hlta⟩ := wA.leaf_inv
  obtain ⟨_, _, hlb, hltb⟩ := wB.leaf_inv
  have h2 : 1 ≤ order / 2 := by omega
  obtain ⟨ak1, k, rfl, hk1⟩ := list_snoc (l := ak) (by omega)
  obtain ⟨av1, v, rfl, hv1⟩ := list_snoc (l := av) (by omega)
  obtain ⟨ak2, k0, rfl, hk2⟩ := list_snoc (l := ak1) (by omega)
  obtain ⟨av2, v0, rfl, hv2⟩ := list_snoc (l := av1) (by omega)
  have hl2 : ak2.length = av2.length := by omega
  simp only [List.length_append, List.length_singleton] at hA hla hlta
  refine ⟨nodeI.leafNodeS la order (ak2 ++ [k0]) (av2 ++ [v0]),
    nodeI.leafNodeS ra order (k :: bk) (v :: bv), k, ?_, ?_, ?_⟩
  · simp [nodeI.stealLeft, List.getLast?_concat, List.dropLast_concat]
  · simp [nodeI.findLeftMostKey]
  · have iA : (nodeI.leafNodeS la order (ak2 ++ [k0] ++ [k]) (av2 ++ [v0] ++ [v])).items
        = List.zipWith Item.ent ak2 av2 ++ [Item.ent k0 v0, Item.ent k v] := by
      rw [items_leaf, List.append_assoc, List.append_assoc,
        List.zipWith_append _ _ _ _ _ hl2]
      simp
    have iA' : (nodeI.leafNodeS la order (ak2 ++ [k0]) (av2 ++ [v0])).items
        = List.zipWith Item.ent ak2 av2 ++ [Item.ent k0 v0] := by
      rw [items_leaf, List.zipWith_append _ _ _ _ _ hl2]
      simp
    have iB' : (nodeI.leafNodeS ra order (k :: bk) (v :: bv)).items
        = Item.ent k v :: (nodeI.leafNodeS ra order bk bv).items := by
      simp [items_leaf]
    refine ⟨?_, ?_, ?_, ?_, rfl, rfl, ?_, ?_, ?_⟩
    · exact WF.leaf _ _ _ _ rfl (by simp [hl2]) (by simp; omega)
    · exact WF.leaf _ _ _ _ rfl (by simp [hlb]) (by simp; omega)
    · simp only [MinFill, nodeI.halfFullSize, nodeI.size, List.length_append,
        List.length_singleton]
      omega
    · simp only [MinFill, nodeI.halfFullSize, nodeI.size, List.length_cons]
      omega
    · rw [iA, iA', iB']
      have h1 : Refines0
          (List.zipWith Item.ent ak2 av2 ++
            (Item.ent k0 v0 :: Item.ent k v :: (nodeI.leafNodeS ra order bk bv).items))
          (List.zipWith Item.ent ak2 av2 ++ [Item.ent k0 v0, Item.ent k v] ++
            Item.sep s :: (nodeI.leafNodeS ra order bk bv).items) := by
        apply Refines0.of_sublist
        simp only [List.append_assoc, List.cons_append, List.nil_append]
        exact (List.Sublist.refl _).append
          (((List.sublist_cons_self _ _).cons₂ _).cons₂ _)
      have h3 := (Refines0.insert_sep k0 k v0 v (nodeI.leafNodeS ra order bk bv).items).ctx_left
        (List.zipWith Item.ent ak2 av2)
      have := Refines0.trans h3 h1
      simpa [List.append_assoc] using this
    · rw [iA, iA', iB']
      simp
    · simp [addrs_leaf]

/-- The leaf `A` steals the first entry of its right peer `B`. -/
theorem stealRight_leaf {order : Nat} (ho : 3 ≤ order) (s : K) (la ra : Nat) (ak bk : List K)
    (av bv : List V) (wA : WF order 0 (nodeI.leafNodeS la order ak av))
    (wB : WF order 0 (nodeI.leafNodeS ra order bk bv))
    (hB : order / 2 < bv.length) (hA : av.length + 1 = order / 2) :
    ∃ A' B' s', (nodeI.leafNodeS la order ak av).stealRight (nodeI.leafNodeS ra order bk bv)
        = some (A', B') ∧ B'.findLeftMostKey = some s' ∧
      PairSteal order 0 (nodeI.leafNodeS la order ak av) s (nodeI.leafNodeS ra order bk bv)
        A' s' B' := by
  obtain ⟨_, _, hla, hlta⟩ := wA.leaf_inv
  obtain ⟨_, _, hlb, hltb⟩ := wB.leaf_inv
  have h2 : 1 ≤ order / 2 := by omega
  obtain ⟨k, bk1, rfl, hk1⟩ := list_cons_of_length_pos (l := bk) (by omega)
  obtain ⟨v, bv1, rfl, hv1⟩ := list_cons_of_length_pos (l := bv) (by omega)
  obtain ⟨k1, bk2, rfl, hk2⟩ := list_cons_of_length_pos (l := bk1) (by omega)
  obtain ⟨v1, bv2, rfl, hv2⟩ := list_cons_of_length_pos (l := bv1) (by omega)
  simp only [List.length_cons] at hB hlb hltb
  have hl2 : bk2.length = bv2.length := by omega
  refine ⟨nodeI.leafNodeS la order (ak ++ [k]) (av ++ [v]),
    nodeI.leafNodeS ra order (k1 :: bk2) (v1 :: bv2), k1, ?_, ?_, ?_⟩
  · simp [nodeI.stealRight]
  · simp [nodeI.findLeftMostKey]
  · have iA' : (nodeI.leafNodeS la order (ak ++ [k]) (av ++ [v])).items
        = (nodeI.leafNodeS la order ak av).items ++ [Item.ent k v] := by
      rw [items_leaf, items_leaf, List.zipWith_append _ _ _ _ _ hla]
      simp
    have iB : (nodeI.leafNodeS ra order (k :: k1 :: bk2) (v :: v1 :: bv2)).items
        = Item.ent k v :: Item.ent k1 v1 :: List.zipWith Item.ent bk2 bv2 := by
      simp [items_leaf]
    have iB' : (nodeI.leafNodeS ra order (k1 :: bk2) (v1 :: bv2)).items
        = Item.ent k1 v1 :: List.zipWith Item.ent bk2 bv2 := by
      simp [items_leaf]
    refine ⟨?_, ?_, ?_, ?_, rfl, rfl, ?_, ?_, ?_⟩
    · exact WF.leaf _ _ _ _ rfl (by simp [hla]) (by simp; omega)
    · exact WF.leaf _ _ _ _ rfl (by simp [hl2]) (by simp; omega)
    · simp only [MinFill, nodeI.halfFullSize, nodeI.size, List.length_append,
        List.length_singleton]
      omega
    · simp only [MinFill, nodeI.halfFullSize, nodeI.size, List.length_cons]
      omega
    · rw [iA', iB, iB']
      have h1 : Refines0
          ((nodeI.leafNodeS la order ak av).items ++
            (Item.ent k v :: Item.ent k1 v1 :: List.zipWith Item.ent bk2 bv2))
          ((nodeI.leafNodeS la order ak av).items ++
            Item.sep s :: Item.ent k v :: Item.ent k1 v1 :: List.zipWith Item.ent bk2 bv2) := by
        apply Refines0.of_sublist
        exact (List.Sublist.refl _).append (List.sublist_cons_self _ _)
      have h3 := (Refines0.insert_sep k k1 v v1 (List.zipWith Item.ent bk2 bv2)).ctx_left
        (nodeI.leafNodeS la order ak av).items
      have := Refines0.trans h3 h1
      simpa [List.append_assoc] using this
    · rw [iA', iB, iB']
      simp
    · simp [addrs_leaf]

/-- The leaf `A` absorbs its right peer `B`. -/
theorem mergeRight_leaf {order : Nat} (s : K) (la ra : Nat) (ak bk : List K)
    (av bv : List V) (wA : WF order 0 (nodeI.leafNodeS la order ak av))
    (wB : WF order 0 (nodeI.leafNodeS ra order bk bv))
    (hAB : av.length + bv.length + 1 = 2 * (order / 2)) :
    ∃ M, (nodeI.leafNodeS la order ak av).mergeRight (nodeI.leafNodeS ra order bk bv) = some M ∧
      PairMerge order 0 (nodeI.leafNodeS la order ak av) s (nodeI.leafNodeS ra order bk bv) M := by
  obtain ⟨_, _, hla, hlta⟩ := wA.leaf_inv
  obtain ⟨_, _, hlb, hltb⟩ := wB.leaf_inv
  have h2 : 1 ≤ order / 2 := by omega
  refine ⟨nodeI.leafNodeS la order (ak ++ bk) (av ++ bv), by simp [nodeI.mergeRight], ?_⟩
  have iM : (nodeI.leafNodeS la order (ak ++ bk) (av ++ bv)).items
      = (nodeI.leafNodeS la order ak av).items ++ (nodeI.leafNodeS ra order bk bv).items := by
    rw [items_leaf, items_leaf, items_leaf, List.zipWith_append _ _ _ _ _ hla]
  refine ⟨?_, ?_, rfl, ?_, ?_, ?_⟩
  · exact WF.leaf _ _ _ _ rfl (by simp [hla, hlb]) (by simp; omega)
  · simp only [MinFill, nodeI.halfFullSize, nodeI.size, List.length_append]
    omega
  · rw [iM]
    apply Refines0.of_sublist
    exact (List.Sublist.refl _).append (List.sublist_cons_self _ _)
  · rw [iM]
  · simp [addrs_leaf]

end PairLeaf

section PairInterior

variable {K V : Type} [LinearOrder K]

omit [LinearOrder K] in
/-- The leftmost key of a child that holds its minimum is the key of the first
entry of its reading. -/
theorem child_leftMost {order h : Nat} (ho : 2 ≤ order) {c : nodeI K V} (w : WF order h c)
    (m : MinFill c) : ∃ k v B, c.findLeftMostKey = some k ∧ c.items = Item.ent k v :: B := by
  apply WF.leftMost ho w
  intro h0
  subst h0
  obtain ⟨a, ks, vs, rfl, _, _⟩ := w.zero_inv
  simpa [nodeI.size] using MinFill.leaf_pos ho m

/-- The interior node `B` steals the last child of its left peer `A`. -/
theorem stealLeft_interior {order h : Nat} (ho : 3 ≤ order) (s : K) (la ra : Nat)
    (ak bk : List K) (av bv : List (nodeI K V))
    (wA : WF order (h + 1) (nodeI.interiorNodeS la order ak av))
    (wB : WF order (h + 1) (nodeI.interiorNodeS ra order bk bv))
    (hA : (order + 1) / 2 < av.length) (hB : bv.length + 1 = (order + 1) / 2) :
    ∃ A' B' s', (nodeI.interiorNodeS ra order bk bv).stealLeft (nodeI.interiorNodeS la order ak av)
        = some (B', A') ∧ B'.findLeftMostKey = some s' ∧
      PairSteal order (h + 1) (nodeI.interiorNodeS la order ak av) s
        (nodeI.interiorNodeS ra order bk bv) A' s' B' := by
  obtain ⟨h', hh, _, hla, hlta, hca, hma⟩ := wA.interior_inv
  obtain ⟨h'', hh', _, hlb, hltb, hcb, hmb⟩ := wB.interior_inv
  have e1 : h = h' := by omega
  have e2 : h = h'' := by omega
  subst e1; subst e2
  obtain ⟨av1, cl, rfl, hv1⟩ := list_snoc (l := av) (by omega)
  obtain ⟨c0, bv1, rfl, hb1⟩ := list_cons_of_length_pos (l := bv) (by omega)
  obtain ⟨kh, kt, rfl, _⟩ := list_cons_of_length_pos (l := ak) (by omega)
  obtain ⟨ak1, kl, ek, hk1⟩ := list_snoc (l := kh :: kt) (by simp)
  simp only [List.length_append, List.length_singleton, List.length_cons, List.length_nil]
    at hA hB hla hlb hltb hlta hk1
  obtain ⟨ml, vl, Bl, fl, il⟩ := child_leftMost (by omega) (hca cl (by simp)) (hma cl (by simp))
  obtain ⟨m0, v0, B0, f0, i0⟩ := child_leftMost (by omega) (hcb c0 (by simp)) (hmb c0 (by simp))
  refine ⟨nodeI.interiorNodeS la order ak1 av1,
    nodeI.interiorNodeS ra order (m0 :: bk) (cl :: c0 :: bv1), ml, ?_, ?_, ?_⟩
  · simp only [nodeI.stealLeft, List.getLast?_concat, findLeftMostKeyFirst, f0,
      List.dropLast_concat]
    rw [ek, List.dropLast_concat]
  · simpa [nodeI.findLeftMostKey, findLeftMostKeyFirst] using fl
  · have iA : (nodeI.interiorNodeS la order (kh :: kt) (av1 ++ [cl])).items
        = (nodeI.interiorNodeS la order ak1 av1).items ++ Item.sep kl :: cl.items := by
      rw [items_interior, items_interior, ek, List.map_append]
      have := interleave_append ak1 [] kl (av1.map nodeI.items) ([cl].map nodeI.items)
        (by simp; omega) (by simp)
      simpa using this
    have iB' : (nodeI.interiorNodeS ra order (m0 :: bk) (cl :: c0 :: bv1)).items
        = cl.items ++ Item.sep m0 :: (nodeI.interiorNodeS ra order bk (c0 :: bv1)).items := by
      simp [items_interior, interleave]
    have iB : (nodeI.interiorNodeS ra order bk (c0 :: bv1)).items
        = Item.ent m0 v0 :: (B0 ++ postI bk (bv1.map nodeI.items)) := by
      rw [items_interior, List.map_cons, interleave_eq_postI _ _ _ (by simp; omega), i0]
      simp
    refine ⟨?_, ?_, ?_, ?_, rfl, rfl, ?_, ?_, ?_⟩
    · exact WF.interior h la order _ _ rfl (by omega) (by omega)
        (fun x hx => hca x (by simp [hx])) (fun x hx => hma x (by simp [hx]))
    · refine WF.interior h ra order _ _ rfl (by simp; omega) (by simp; omega) ?_ ?_
      · intro x hx
        rcases List.mem_cons.1 hx with rfl | hx
        · exact hca _ (by simp)
        · exact hcb x hx
      · intro x hx
        rcases List.mem_cons.1 hx with rfl | hx
        · exact hma _ (by simp)
        · exact hmb x hx
    · simp only [MinFill, nodeI.halfFullSize, nodeI.size]
      omega
    · simp only [MinFill, nodeI.halfFullSize, nodeI.size, List.length_cons]
      omega
    · rw [iA, iB', iB, il]
      have s1 := (Refines0.swap_sep kl ml vl
        (Bl ++ Item.sep s :: Item.ent m0 v0 :: (B0 ++ postI bk (bv1.map nodeI.items)))).ctx_left
        (nodeI.interiorNodeS la order ak1 av1).items
      have s2 := (Refines0.swap_sep s m0 v0 (B0 ++ postI bk (bv1.map nodeI.items))).ctx_left
        ((nodeI.interiorNodeS la order ak1 av1).items ++ Item.sep ml :: Item.ent ml vl :: Bl)
      have := Refines0.trans s2 (by simpa [List.append_assoc] using s1)
      simpa [List.append_assoc] using this
    · rw [iA, iB', iB]
      simp
    · simp only [addrs_interior, addrsList_append, addrsList_cons, addrsList_nil,
        List.append_nil]
      have := @List.perm_middle _ ra (cl.addrs) (c0.addrs ++ addrsList bv1)
      have h3 := (this.symm.append_left (la :: addrsList av1))
      simpa [List.append_assoc] using h3

/-- The interior node `A` steals the first child of its right peer `B`. -/
theorem stealRight_interior {order h : Nat} (ho : 3 ≤ order) (s : K) (la ra : Nat)
    (ak bk : List K) (av bv : List (nodeI K V))
    (wA : WF order (h + 1) (nodeI.interiorNodeS la order ak av))
    (wB : WF order (h + 1) (nodeI.interiorNodeS ra order bk bv))
    (hB : (order + 1) / 2 < bv.length) (hA : av.length + 1 = (order + 1) / 2) :
    ∃ A' B' s', (nodeI.interiorNodeS la order ak av).stealRight
        (nodeI.interiorNodeS ra order bk bv) = some (A', B') ∧ B'.findLeftMostKey = some s' ∧
      PairSteal order (h + 1) (nodeI.interiorNodeS la order ak av) s
        (nodeI.interiorNodeS ra order bk bv) A' s' B' := by
  obtain ⟨h', hh, _, hla, hlta, hca, hma⟩ := wA.interior_inv
  obtain ⟨h'', hh', _, hlb, hltb, hcb, hmb⟩ := wB.interior_inv
  have e1 : h = h' := by omega
  have e2 : h = h'' := by omega
  subst e1; subst e2
  obtain ⟨c0, bv1, rfl, hb1⟩ := list_cons_of_length_pos (l := bv) (by omega)
  obtain ⟨c1, bv2, rfl, hb2⟩ := list_cons_of_length_pos (l := bv1) (by omega)
  obtain ⟨k0, bk1, rfl, hk1⟩ := list_cons_of_length_pos (l := bk) (by omega)
  simp only [List.length_cons] at hB hlb hltb
  obtain ⟨m0, v0, B0, f0, i0⟩ := child_leftMost (by omega) (hcb c0 (by simp)) (hmb c0 (by simp))
  obtain ⟨m1, v1, B1, f1, i1⟩ := child_leftMost (by omega) (hcb c1 (by simp)) (hmb c1 (by simp))
  refine ⟨nodeI.interiorNodeS la order (ak ++ [m0]) (av ++ [c0]),
    nodeI.interiorNodeS ra order bk1 (c1 :: bv2), m1, ?_, ?_, ?_⟩
  · simp only [nodeI.stealRight, f0]
  · simpa [nodeI.findLeftMostKey, findLeftMostKeyFirst] using f1
  · have iA' : (nodeI.interiorNodeS la order (ak ++ [m0]) (av ++ [c0])).items
        = (nodeI.interiorNodeS la order ak av).items ++ Item.sep m0 :: c0.items := by
      rw [items_interior, items_interior, List.map_append]
      have := interleave_append ak [] m0 (av.map nodeI.items) ([c0].map nodeI.items)
        (by simp; omega) (by simp)
      simpa using this
    have iB : (nodeI.interiorNodeS ra order (k0 :: bk1) (c0 :: c1 :: bv2)).items
        = c0.items ++ Item.sep k0 :: (nodeI.interiorNodeS ra order bk1 (c1 :: bv2)).items := by
      simp [items_interior, interleave]
    have iB' : (nodeI.interiorNodeS ra order bk1 (c1 :: bv2)).items
        = Item.ent m1 v1 :: (B1 ++ postI bk1 (bv2.map nodeI.items)) := by
      rw [items_interior, List.map_cons, interleave_eq_postI _ _ _ (by simp; omega), i1]
      simp
    refine ⟨?_, ?_, ?_, ?_, rfl, rfl, ?_, ?_, ?_⟩
    · refine WF.interior h la order _ _ rfl (by simp; omega) (by simp; omega) ?_ ?_
      · intro x hx
        rcases List.mem_append.1 hx with hx | hx
        · exact hca x hx
        · simp at hx; subst hx; exact hcb _ (by simp)
      · intro x hx
        rcases List.mem_append.1 hx with hx | hx
        · exact hma x hx
        · simp at hx; subst hx; exact hmb _ (by simp)
    · exact WF.interior h ra order _ _ rfl (by simp; omega) (by omega)
        (fun x hx => hcb x (by simp at hx ⊢; tauto)) (fun x hx => hmb x (by simp at hx ⊢; tauto))
    · simp only [MinFill, nodeI.halfFullSize, nodeI.size, List.length_append,
        List.length_singleton]
      omega
    · simp only [MinFill, nodeI.halfFullSize, nodeI.size, List.length_cons]
      omega
    · rw [iA', iB, iB', i0]
      have s1 := (Refines0.swap_sep s m0 v0
        (B0 ++ Item.sep k0 :: Item.ent m1 v1 :: (B1 ++ postI bk1 (bv2.map nodeI.items)))).ctx_left
        (nodeI.interiorNodeS la order ak av).items
      have s2 := (Refines0.swap_sep k0 m1 v1 (B1 ++ postI bk1 (bv2.map nodeI.items))).ctx_left
        ((nodeI.interiorNodeS la order ak av).items ++ Item.sep m0 :: Item.ent m0 v0 :: B0)
      have := Refines0.trans s2 (by simpa [List.append_assoc] using s1)
      simpa [List.append_assoc] using this
    · rw [iA', iB]
      simp
    · simp only [addrs_interior, addrsList_append, addrsList_cons, addrsList_nil,
        List.append_nil]
      have := @List.perm_middle _ ra (c0.addrs) (c1.addrs ++ addrsList bv2)
      have h3 := (this.append_left (la :: addrsList av))
      simpa [List.append_assoc] using h3

/-- The interior node `A` absorbs its right peer `B`. -/
theorem mergeRight_interior {order h : Nat} (ho : 3 ≤ order) (s : K) (la ra : Nat)
    (ak bk : List K) (av bv : List (nodeI K V))
    (wA : WF order (h + 1) (nodeI.interiorNodeS la order ak av))
    (wB : WF order (h + 1) (nodeI.interiorNodeS ra order bk bv))
    (hAB : av.length + bv.length + 1 = 2 * ((order + 1) / 2)) :
    ∃ M, (nodeI.interiorNodeS la order ak av).mergeRight (nodeI.interiorNodeS ra order bk bv)
        = some M ∧
      PairMerge order (h + 1) (nodeI.interiorNodeS la order ak av) s
        (nodeI.interiorNodeS ra order bk bv) M := by
  obtain ⟨h', hh, _, hla, hlta, hca, hma⟩ := wA.interior_inv
  obtain ⟨h'', hh', _, hlb, hltb, hcb, hmb⟩ := wB.interior_inv
  have e1 : h = h' := by omega
  have e2 : h = h'' := by omega
  subst e1; subst e2
  obtain ⟨c0, bv1, rfl, hb1⟩ := list_cons_of_length_pos (l := bv) (by omega)
  obtain ⟨m0, v0, B0, f0, i0⟩ := child_leftMost (by omega) (hcb c0 (by simp)) (hmb c0 (by simp))
  refine ⟨nodeI.interiorNodeS la order (ak ++ m0 :: bk) (av ++ c0 :: bv1), ?_, ?_⟩
  · simp only [nodeI.mergeRight, findLeftMostKeyFirst, f0]
  · have iM : (nodeI.interiorNodeS la order (ak ++ m0 :: bk) (av ++ c0 :: bv1)).items
        = (nodeI.interiorNodeS la order ak av).items ++
          Item.sep m0 :: (nodeI.interiorNodeS ra order bk (c0 :: bv1)).items := by
      rw [items_interior, items_interior, items_interior, List.map_append]
      exact interleave_append ak bk m0 _ _ (by simp; omega) (by simp at hlb ⊢; omega)
    have iB : (nodeI.interiorNodeS ra order bk (c0 :: bv1)).items
        = Item.ent m0 v0 :: (B0 ++ postI bk (bv1.map nodeI.items)) := by
      rw [items_interior, List.map_cons, interleave_eq_postI _ _ _ (by simp at hlb ⊢; omega), i0]
      simp
    simp only [List.length_cons] at hAB hlb
    refine ⟨?_, ?_, rfl, ?_, ?_, ?_⟩
    · refine WF.interior h la order _ _ rfl (by simp; omega) (by simp; omega) ?_ ?_
      · intro x hx
        rcases List.mem_append.1 hx with hx | hx
        · exact hca x hx
        · exact hcb x hx
      · intro x hx
        rcases List.mem_append.1 hx with hx | hx
        · exact hma x hx
        · exact hmb x hx
    · simp only [MinFill, nodeI.halfFullSize, nodeI.size, List.length_append, List.length_cons]
      omega
    · rw [iM, iB]
      exact (Refines0.swap_sep s m0 v0 _).ctx_left _
    · rw [iM]
      simp
    · simp only [addrs_interior, addrsList_append, addrsList_cons]
      exact ((List.Sublist.refl _).append (List.sublist_cons_self _ _)).cons₂ _

end PairInterior

section PairAny

variable {K V : Type} [LinearOrder K]

/-- A node steals from its left peer `A`: leaf or interior alike. -/
theorem stealLeft_pair {order h : Nat} (ho : 3 ≤ order) (s : K) {A B : nodeI K V}
    (wA : WF order h A) (wB : WF order h B) (hA : A.halfFullSize < A.size)
    (hB : B.size + 1 = B.halfFullSize) :
    ∃ A' B' s', B.stealLeft A = some (B', A') ∧ B'.findLeftMostKey = some s' ∧
      PairSteal order h A s B A' s' B' := by
  cases h with
  | zero =>
    obtain ⟨la, ak, av, rfl, _, _⟩ := wA.zero_inv
    obtain ⟨ra, bk, bv, rfl, _, _⟩ := wB.zero_inv
    exact stealLeft_leaf s la ra ak bk av bv wA wB hA hB
  | succ h =>
    obtain ⟨la, ak, av, rfl, _, _⟩ := wA.succ_inv
    obtain ⟨ra, bk, bv, rfl, _, _⟩ := wB.succ_inv
    exact stealLeft_interior ho s la ra ak bk av bv wA wB hA hB

/-- A node steals from its right peer `B`: leaf or interior alike. -/
theorem stealRight_pair {order h : Nat} (ho : 3 ≤ order) (s : K) {A B : nodeI K V}
    (wA : WF order h A) (wB : WF order h B) (hB : B.halfFullSize < B.size)
    (hA : A.size + 1 = A.halfFullSize) :
    ∃ A' B' s', A.stealRight B = some (A', B') ∧ B'.findLeftMostKey = some s' ∧
      PairSteal order h A s B A' s' B' := by
  cases h with
  | zero =>
    obtain ⟨la, ak, av, rfl, _, _⟩ := wA.zero_inv
    obtain ⟨ra, bk, bv, rfl, _, _⟩ := wB.zero_inv
    exact stealRight_leaf ho s la ra ak bk av bv wA wB hB hA
  | succ h =>
    obtain ⟨la, ak, av, rfl, _, _⟩ := wA.succ_inv
    obtain ⟨ra, bk, bv, rfl, _, _⟩ := wB.succ_inv
    exact stealRight_interior ho s la ra ak bk av bv wA wB hB hA

/-- A node absorbs its right peer: leaf or interior alike. -/
theorem mergeRight_pair {order h : Nat} (ho : 3 ≤ order) (s : K) {A B : nodeI K V}
    (wA : WF order h A) (wB : WF order h B)
    (hAB : A.size + B.size + 1 = 2 * A.halfFullSize) :
    ∃ M, A.mergeRight B = some M ∧ PairMerge order h A s B M := by
  cases h with
  | zero =>
    obtain ⟨la, ak, av, rfl, _, _⟩ := wA.zero_inv
    obtain ⟨ra, bk, bv, rfl, _, _⟩ := wB.zero_inv
    exact mergeRight_leaf s la ra ak bk av bv wA wB hAB
  | succ h =>
    obtain ⟨la, ak, av, rfl, _, _⟩ := wA.succ_inv
    obtain ⟨ra, bk, bv, rfl, _, _⟩ := wB.succ_inv
    exact mergeRight_interior ho s la ra ak bk av bv wA wB hAB

omit [LinearOrder K] in
theorem WF.halfFullSize_eq {order h : Nat} {A B : nodeI K V} (wA : WF order h A)
    (wB : WF order h B) : A.halfFullSize = B.halfFullSize := by
  cases h with
  | zero =>
    obtain ⟨la, ak, av, rfl, _, _⟩ := wA.zero_inv
    obtain ⟨ra, bk, bv, rfl, _, _⟩ := wB.zero_inv
    rfl
  | succ h =>
    obtain ⟨la, ak, av, rfl, _, _⟩ := wA.succ_inv
    obtain ⟨ra, bk, bv, rfl, _, _⟩ := wB.succ_inv
    rfl

omit [LinearOrder K] in
theorem WF.halfFullSize_pos {order h : Nat} (ho : 3 ≤ order) {A : nodeI K V}
    (wA : WF order h A) : 1 ≤ A.halfFullSize := by
  cases h with
  | zero =>
    obtain ⟨la, ak, av, rfl, _, _⟩ := wA.zero_inv
    simp only [nodeI.halfFullSize]; omega
  | succ h =>
    obtain ⟨la, ak, av, rfl, _, _⟩ := wA.succ_inv
    simp only [nodeI.halfFullSize]; omega

end PairAny

section Peers

variable {K V : Type}

theorem getElem?_append_cons {α : Type} (l r : List α) (x : α) :
    (l ++ x :: r)[l.length]? = some x := by
  rw [List.getElem?_append_right (le_refl _)]
  simp

/-- The children of a node have distinct addresses when all addresses below
the node are distinct. -/
theorem nodup_map_addr : ∀ {vs : List (nodeI K V)}, (addrsList vs).Nodup →
    (vs.map nodeI.addr).Nodup
  | [], _ => by simp
  | c :: cs, h => by
    rw [addrsList_cons, List.nodup_append] at h
    rw [List.map_cons, List.nodup_cons]
    refine ⟨?_, nodup_map_addr h.2.1⟩
    intro hm
    obtain ⟨y, hy, e⟩ := List.mem_map.1 hm
    exact h.2.2 (addr_mem_addrs c) (e ▸ addrs_subset_addrsList hy _ (addr_mem_addrs y))

theorem nodup_map_addr_split {l r : List (nodeI K V)} {x : nodeI K V}
    (h : ((l ++ x :: r).map nodeI.addr).Nodup) :
    (∀ y ∈ l, y.addr ≠ x.addr) ∧ (∀ y ∈ r, y.addr ≠ x.addr) := by
  rw [List.map_append, List.map_cons, List.nodup_append, List.nodup_cons] at h
  obtain ⟨_, ⟨h2, _⟩, h3⟩ := h
  constructor
  · intro y hy e
    exact h3 (List.mem_map_of_mem _ hy) (e ▸ List.mem_cons_self _ _)
  · intro y hy e
    exact h2 (e ▸ List.mem_map_of_mem _ hy)

/-- The left peer `findPeerLeft` finds for the child right of the children `lv`. -/
theorem findPeerLeft_spec (n x : nodeI K V) (a c : Nat) (lk rk : List K)
    (lv rv : List (nodeI K V)) (hl : lv.length = lk.length)
    (hd : ∀ y ∈ lv, y.isLeaf = n.isLeaf ∧ y.addr ≠ n.addr) (hx : x.isLeaf = n.isLeaf)
    (ha : x.addr = n.addr) :
    n.findPeerLeft (nodeI.interiorNodeS a c (lk ++ rk) (lv ++ x :: rv))
      = some (match lv.getLast?, lk.getLast? with
        | some l, some s => some (l, s)
        | _, _ => none) := by
  have hi := nodeIndex_append n x lv rv hd hx ha
  rcases List.eq_nil_or_concat lv with h0 | ⟨lv', Lf, h0⟩
  · subst h0
    simp only [List.length_nil] at hi
    simp only [nodeI.findPeerLeft, hi]
    simp
  · rw [List.concat_eq_append] at h0
    subst h0
    rcases List.eq_nil_or_concat lk with h1 | ⟨lk', s, h1⟩
    · subst h1; simp at hl
    · rw [List.concat_eq_append] at h1
      subst h1
      have hl' : lv'.length = lk'.length := by simpa using hl
      have e1 : (lv' ++ [Lf] ++ x :: rv)[lv'.length]? = some Lf := by
        rw [List.append_assoc]
        exact getElem?_append_cons _ _ _
      have e2 : (lk' ++ [s] ++ rk)[lv'.length]? = some s := by
        rw [List.append_assoc, hl']
        exact getElem?_append_cons _ _ _
      simp only [List.length_append, List.length_singleton] at hi
      simp only [nodeI.findPeerLeft, hi, e1, e2, List.getLast?_concat]

/-- The right peer `findPeerRight` finds for the child left of the children `rv`. -/
theorem findPeerRight_spec (n x : nodeI K V) (a c : Nat) (lk rk : List K)
    (lv rv : List (nodeI K V)) (hl : lv.length = lk.length) (hr : rv.length = rk.length)
    (hd : ∀ y ∈ lv, y.isLeaf = n.isLeaf ∧ y.addr ≠ n.addr) (hx : x.isLeaf = n.isLeaf)
    (ha : x.addr = n.addr) :
    n.findPeerRight (nodeI.interiorNodeS a c (lk ++ rk) (lv ++ x :: rv))
      = some (match rv.head?, rk.head? with
        | some r, some s => some (r, s)
        | _, _ => none) := by
  have hi := nodeIndex_append n x lv rv hd hx ha
  simp only [nodeI.findPeerRight, hi]
  cases rv with
  | nil => simp
  | cons Rt rv' =>
    cases rk with
    | nil => simp at hr
    | cons s rk' =>
      have e1 : (lv ++ x :: Rt :: rv')[lv.length + 1]? = some Rt := by
        have := getElem?_append_cons (lv ++ [x]) rv' Rt
        simpa using this
      have e2 : (lk ++ s :: rk')[lv.length]? = some s := by
        rw [hl]
        exact getElem?_append_cons _ _ _
      have hne : ¬ (lv.length + 1 = (lv ++ x :: Rt :: rv').length) := by
        simp
      simp only [hne, if_false, e1, e2, List.head?_cons]

/-- Whatever `findPeerLeft` finds is the child right before the node. -/
theorem findPeerLeft_mem (n x : nodeI K V) (a c : Nat) (lk rk : List K)
    (lv rv : List (nodeI K V)) (hl : lv.length = lk.length)
    (hd : ∀ y ∈ lv, y.isLeaf = n.isLeaf ∧ y.addr ≠ n.addr) (hx : x.isLeaf = n.isLeaf)
    (ha : x.addr = n.addr) :
    ∃ o, n.findPeerLeft (nodeI.interiorNodeS a c (lk ++ rk) (lv ++ x :: rv)) = some o ∧
      ∀ p ∈ o, p.1 ∈ lv.getLast? := by
  refine ⟨_, findPeerLeft_spec n x a c lk rk lv rv hl hd hx ha, ?_⟩
  intro p hp
  cases h1 : lv.getLast? with
  | none => simp [h1] at hp
  | some l =>
    cases h2 : lk.getLast? with
    | none => simp [h1, h2] at hp
    | some s =>
      simp only [h1, h2, Option.mem_def, Option.some.injEq] at hp
      subst hp
      simp

/-- Whatever `findPeerRight` finds is the child right after the node. -/
theorem findPeerRight_mem (n x : nodeI K V) (a c : Nat) (lk rk : List K)
    (lv rv : List (nodeI K V)) (hl : lv.length = lk.length) (hr : rv.length = rk.length)
    (hd : ∀ y ∈ lv, y.isLeaf = n.isLeaf ∧ y.addr ≠ n.addr) (hx : x.isLeaf = n.isLeaf)
    (ha : x.addr = n.addr) :
    ∃ o, n.findPeerRight (nodeI.interiorNodeS a c (lk ++ rk) (lv ++ x :: rv)) = some o ∧
      ∀ p ∈ o, p.1 ∈ rv.head? := by
  refine ⟨_, findPeerRight_spec n x a c lk rk lv rv hl hr hd hx ha, ?_⟩
  intro p hp
  cases h1 : rv.head? with
  | none => simp [h1] at hp
  | some l =>
    cases h2 : rk.head? with
    | none => simp [h1, h2] at hp
    | some s =>
      simp only [h1, h2, Option.mem_def, Option.some.injEq] at hp
      subst hp
      simp

/-- The test `size() > halfFullSize()` lets no peer through that is at its
minimum. -/
theorem filter_none_of_not_big (o : Option (nodeI K V × K))
    (h : ∀ p ∈ o, ¬ p.1.halfFullSize < p.1.size) :
    o.filter (fun p : nodeI K V × K => decide (p.1.size > p.1.halfFullSize)) = none := by
  cases o with
  | none => rfl
  | some p =>
    have := h p rfl
    simp [Option.filter, this]

/-- The key `swapKeys` rewrites is the first one equal to the old key. -/
theorem swapKeys_spec [DecidableEq K] (s s' : K) (a c : Nat) (lk rk : List K)
    (vals : List (nodeI K V)) (h : ∀ k ∈ lk, k ≠ s) :
    interiorNodeS.swapKeys s s' (nodeI.interiorNodeS a c (lk ++ s :: rk) vals)
      = some (nodeI.interiorNodeS a c (lk ++ s' :: rk) vals) := by
  have : keyIndex s (lk ++ s :: rk) = some lk.length := by
    induction lk with
    | nil => simp [keyIndex]
    | cons k lk ih =>
      have hk : ¬ s = k := fun e => h k (by simp) e.symm
      have := ih (fun x hx => h x (List.mem_cons_of_mem _ hx))
      rw [List.cons_append]
      simp only [keyIndex, hk, if_false, this]
      simp
  simp only [interiorNodeS.swapKeys, this, set_append_cons]

/-- The loop at the head of `delUp` drops the dead node and the separator left
of it. -/
theorem removeDead_spec (d M D : nodeI K V) (a c : Nat) (lk rk : List K) (s : K)
    (lv rv : List (nodeI K V)) (hl : lv.length = lk.length)
    (hd : ∀ y ∈ lv ++ [M], y.isLeaf = d.isLeaf ∧ y.addr ≠ d.addr) (hx : D.isLeaf = d.isLeaf)
    (ha : D.addr = d.addr) :
    removeDead d (nodeI.interiorNodeS a c (lk ++ s :: rk) (lv ++ M :: D :: rv))
      = some (nodeI.interiorNodeS a c (lk ++ rk) (lv ++ M :: rv)) := by
  have hi := nodeIndex_append d D (lv ++ [M]) rv hd hx ha
  have e0 : lv ++ M :: D :: rv = (lv ++ [M]) ++ D :: rv := by simp
  have hlen : (lv ++ [M]).length = lv.length + 1 := by simp
  rw [hlen] at hi
  have hle : lv.length + 1 ≤ (lk ++ s :: rk).length := by simp; omega
  have t1 : List.take lv.length (lk ++ s :: rk) = lk := List.take_left' hl.symm
  have t2 : List.drop (lv.length + 1) (lk ++ s :: rk) = rk := by
    have := @List.drop_append _ (lk) (s :: rk) 1
    rw [← hl] at this
    simpa using this
  have t3 : List.take (lv.length + 1) ((lv ++ [M]) ++ D :: rv) = lv ++ [M] :=
    List.take_left' hlen
  have t4 : List.drop (lv.length + 2) ((lv ++ [M]) ++ D :: rv) = rv := by
    simp
  rw [e0]
  simp only [removeDead, hi, hle, if_true, t1, t2, t3, t4]
  simp

end Peers

section Parent

variable {K V : Type} [LinearOrder K]

omit [LinearOrder K] in
/-- Addresses stay distinct when the addresses of a subtree are replaced by
distinct ones among them. -/
theorem nodup_subst_sub {pre X O post : List Nat} (h : (pre ++ X ++ post).Nodup)
    (hO : O.Nodup) (hm : ∀ x ∈ O, x ∈ X) : (pre ++ O ++ post).Nodup := by
  rw [List.append_assoc, List.nodup_append] at h ⊢
  obtain ⟨h1, h2, h3⟩ := h
  rw [List.nodup_append] at h2 ⊢
  obtain ⟨h4, h5, h6⟩ := h2
  refine ⟨h1, ⟨hO, h5, ?_⟩, ?_⟩
  · intro x hx hx'
    exact h6 (hm x hx) hx'
  · intro x hx hx'
    rcases List.mem_append.1 hx' with h8 | h8
    · exact h3 hx (List.mem_append_left _ (hm x h8))
    · exact h3 hx (List.mem_append_right _ h8)

/-- The parent after the changed child was stored back into it. -/
theorem del_store (key : K) (a c : Nat) (lk rk : List K) (lv rv : List (nodeI K V))
    (X X' : nodeI K V) (val : Option V) (found : Bool)
    (hl : lv.length = lk.length) (hr : rv.length = rk.length)
    (hsort : (nodeI.interiorNodeS a c (lk ++ rk) (lv ++ X :: rv)).items.Pairwise Item.lt)
    (hlk : ∀ k ∈ lk, k ≤ key) (hrk : ∀ k ∈ rk.head?, key < k)
    (hnd : (nodeI.interiorNodeS a c (lk ++ rk) (lv ++ X :: rv)).addrs.Nodup)
    (rel : DelRel key X X' val found) :
    (nodeI.interiorNodeS a c (lk ++ rk) (lv ++ X :: rv)).store X'
        = nodeI.interiorNodeS a c (lk ++ rk) (lv ++ X' :: rv) ∧
      DelRel key (nodeI.interiorNodeS a c (lk ++ rk) (lv ++ X :: rv))
        (nodeI.interiorNodeS a c (lk ++ rk) (lv ++ X' :: rv)) val found := by
  obtain ⟨hsl, hsr, hXnd, haX⟩ := sibling_addr_ne hnd
  obtain ⟨hpre, hpost, _⟩ := descent_bounds key a c lk rk lv rv X hl hr hsort hlk hrk
  have hz := items_zoom a c lk rk lv rv X hl hr
  have hz' := items_zoom a c lk rk lv rv X' hl hr
  refine ⟨store_append a c (lk ++ rk) lv rv X X' rel.addr.symm
    (fun y hy => rel.addr ▸ hsl y hy) (fun y hy => rel.addr ▸ hsr y hy), ?_⟩
  refine ⟨rfl, ?_, ?_, ?_, ?_, ?_, ?_, ?_⟩
  · rw [hz, hz']
    exact rel.refines.ctx _ _
  · rw [hz, hz', ents_append, ents_append, ents_append, ents_append, eraseSpec_append,
      eraseSpec_append, rel.ents_eq,
      eraseSpec_of_not_mem (fun e he => ne_of_lt (below_ents hpre e he)),
      eraseSpec_of_not_mem (fun e he => ne_of_gt (above_ents hpost e he))]
  · rw [lookup_zoom key a c lk rk lv rv X hl hr hsort hlk hrk]
    exact rel.val_eq
  · rw [lookup_zoom key a c lk rk lv rv X hl hr hsort hlk hrk]
    exact rel.found_eq
  · intro x hx
    rw [addrs_interior, addrsList_append, addrsList_cons] at hx ⊢
    simp only [List.mem_cons, List.mem_append] at hx ⊢
    rcases hx with hx | hx | hx | hx
    · exact Or.inl hx
    · exact Or.inr (Or.inl hx)
    · exact Or.inr (Or.inr (Or.inl (rel.addrs_mem x hx)))
    · exact Or.inr (Or.inr (Or.inr hx))
  · intro _
    have h0 : ((a :: addrsList lv) ++ X.addrs ++ addrsList rv).Nodup := by
      simpa [addrs_interior] using hnd
    have := nodup_subst_sub h0 (rel.addrs_nodup hXnd) rel.addrs_mem
    simpa [addrs_interior] using this
  · intro hf
    rw [rel.unchanged hf]

omit [LinearOrder K] in
theorem items_pair (a c : Nat) (k1 k2 : List K) (s : K) (v1 v2 : List (nodeI K V))
    (A B : nodeI K V) (hl1 : v1.length = k1.length) (hl2 : v2.length = k2.length) :
    (nodeI.interiorNodeS a c (k1 ++ s :: k2) (v1 ++ A :: B :: v2)).items
      = preI k1 (v1.map nodeI.items) ++ (A.items ++ Item.sep s :: B.items) ++
        postI k2 (v2.map nodeI.items) := by
  rw [items_interior]
  have := interleave_zoom3 k1 [s] k2 (v1.map nodeI.items) [A.items, B.items]
    (v2.map nodeI.items) (by simpa using hl1) (by simp) (by simpa using hl2)
  simpa [interleave] using this

/-- The parent after a steal between two adjacent children. -/
theorem pair_steal_parent {order h : Nat} (a : Nat) (k1 k2 : List K) (s s' : K)
    (v1 v2 : List (nodeI K V)) (A B A' B' : nodeI K V) (hl1 : v1.length = k1.length)
    (hl2 : v2.length = k2.length) (hk : (k1 ++ s :: k2).length < order)
    (hch : ∀ x ∈ v1 ++ v2, WF order h x ∧ MinFill x)
    (ps : PairSteal order h A s B A' s' B') :
    WF order (h + 1) (nodeI.interiorNodeS a order (k1 ++ s' :: k2) (v1 ++ A' :: B' :: v2)) ∧
      Same (nodeI.interiorNodeS a order (k1 ++ s :: k2) (v1 ++ A :: B :: v2))
        (nodeI.interiorNodeS a order (k1 ++ s' :: k2) (v1 ++ A' :: B' :: v2)) := by
  have hperm : List.Perm
      (nodeI.interiorNodeS a order (k1 ++ s' :: k2) (v1 ++ A' :: B' :: v2)).addrs
      (nodeI.interiorNodeS a order (k1 ++ s :: k2) (v1 ++ A :: B :: v2)).addrs := by
    simp only [addrs_interior, addrsList_append, addrsList_cons]
    have := ((ps.addrs.append_right (addrsList v2)).append_left (addrsList v1)).cons a
    simpa [List.append_assoc] using this
  refine ⟨?_, rfl, ?_, ?_, ?_, ?_⟩
  · refine WF.interior h a order _ _ rfl (by simp at hk ⊢; omega) (by simpa using hk) ?_ ?_
    · intro x hx
      simp only [List.mem_append, List.mem_cons] at hx
      rcases hx with hx | rfl | rfl | hx
      · exact (hch x (by simp [hx])).1
      · exact ps.wfA
      · exact ps.wfB
      · exact (hch x (by simp [hx])).1
    · intro x hx
      simp only [List.mem_append, List.mem_cons] at hx
      rcases hx with hx | rfl | rfl | hx
      · exact (hch x (by simp [hx])).2
      · exact ps.fillA
      · exact ps.fillB
      · exact (hch x (by simp [hx])).2
  · rw [items_pair a order k1 k2 s v1 v2 A B hl1 hl2,
      items_pair a order k1 k2 s' v1 v2 A' B' hl1 hl2]
    exact ps.refines.ctx _ _
  · rw [items_pair a order k1 k2 s v1 v2 A B hl1 hl2,
      items_pair a order k1 k2 s' v1 v2 A' B' hl1 hl2]
    have := ps.ents_eq
    simp only [ents_append, ents_cons_sep] at this ⊢
    rw [this]
  · intro x hx
    exact hperm.subset hx
  · intro hn
    exact hperm.nodup_iff.2 hn

/-- The parent after a merge of two adjacent children. -/
theorem pair_merge_parent {order h : Nat} (a : Nat) (k1 k2 : List K) (s : K)
    (v1 v2 : List (nodeI K V)) (A B M : nodeI K V) (hl1 : v1.length = k1.length)
    (hl2 : v2.length = k2.length) (hk : (k1 ++ s :: k2).length < order)
    (hch : ∀ x ∈ v1 ++ v2, WF order h x ∧ MinFill x)
    (pm : PairMerge order h A s B M) :
    WF order (h + 1) (nodeI.interiorNodeS a order (k1 ++ k2) (v1 ++ M :: v2)) ∧
      Same (nodeI.interiorNodeS a order (k1 ++ s :: k2) (v1 ++ A :: B :: v2))
        (nodeI.interiorNodeS a order (k1 ++ k2) (v1 ++ M :: v2)) := by
  have hsub : List.Sublist
      (nodeI.interiorNodeS a order (k1 ++ k2) (v1 ++ M :: v2)).addrs
      (nodeI.interiorNodeS a order (k1 ++ s :: k2) (v1 ++ A :: B :: v2)).addrs := by
    simp only [addrs_interior, addrsList_append, addrsList_cons]
    have := (((List.Sublist.refl (addrsList v1)).append
      (pm.addrs.append (List.Sublist.refl (addrsList v2))))).cons₂ a
    simpa [List.append_assoc] using this
  refine ⟨?_, rfl, ?_, ?_, ?_, ?_⟩
  · refine WF.interior h a order _ _ rfl (by simp at hk ⊢; omega) (by simp at hk ⊢; omega) ?_ ?_
    · intro x hx
      simp only [List.mem_append, List.mem_cons] at hx
      rcases hx with hx | rfl | hx
      · exact (hch x (by simp [hx])).1
      · exact pm.wf
      · exact (hch x (by simp [hx])).1
    · intro x hx
      simp only [List.mem_append, List.mem_cons] at hx
      rcases hx with hx | rfl | hx
      · exact (hch x (by simp [hx])).2
      · exact pm.fill
      · exact (hch x (by simp [hx])).2
  · rw [items_pair a order k1 k2 s v1 v2 A B hl1 hl2, items_zoom a order k1 k2 v1 v2 M hl1 hl2]
    exact pm.refines.ctx _ _
  · rw [items_pair a order k1 k2 s v1 v2 A B hl1 hl2, items_zoom a order k1 k2 v1 v2 M hl1 hl2]
    have := pm.ents_eq
    simp only [ents_append, ents_cons_sep] at this ⊢
    rw [this]
  · intro x hx
    exact hsub.subset hx
  · intro hn
    exact hn.sublist hsub

end Parent

section Scenarios

variable {K V : Type} [DecidableEq K]

/-- The block steals from the left peer when the left peer has more than its
minimum. -/
theorem stealOrMerge_stealLeft (a c : Nat) (lk rk : List K) (s s' : K)
    (lv rv : List (nodeI K V)) (Lf X' Lf' X'' : nodeI K V) (hl : lv.length = lk.length)
    (hnd : ((lv ++ Lf :: X' :: rv).map nodeI.addr).Nodup)
    (hleaf : ∀ y ∈ lv ++ Lf :: X' :: rv, y.isLeaf = X'.isLeaf)
    (hbig : Lf.halfFullSize < Lf.size) (hst : X'.stealLeft Lf = some (X'', Lf'))
    (hkey : X''.findLeftMostKey = some s') (haX : X''.addr = X'.addr)
    (haL : Lf'.addr = Lf.addr) (hks : ∀ k ∈ lk, k ≠ s) :
    stealOrMerge X' (nodeI.interiorNodeS a c (lk ++ s :: rk) (lv ++ Lf :: X' :: rv))
      = some (nodeI.interiorNodeS a c (lk ++ s' :: rk) (lv ++ Lf' :: X'' :: rv), none) := by
  have hnd1 : (((lv ++ [Lf]) ++ X' :: rv).map nodeI.addr).Nodup := by simpa using hnd
  obtain ⟨hd1, hd2⟩ := nodup_map_addr_split hnd1
  obtain ⟨hd3, hd4⟩ := nodup_map_addr_split hnd
  have hpl : X'.findPeerLeft (nodeI.interiorNodeS a c (lk ++ s :: rk) (lv ++ Lf :: X' :: rv))
      = some (some (Lf, s)) := by
    have := findPeerLeft_spec X' X' a c (lk ++ [s]) rk (lv ++ [Lf]) rv (by simp [hl])
      (fun y hy => ⟨hleaf y (by simp at hy ⊢; tauto), hd1 y hy⟩) rfl rfl
    simpa [List.getLast?_concat] using this
  have hs1 : (nodeI.interiorNodeS a c (lk ++ s :: rk) (lv ++ Lf :: X' :: rv)).store X''
      = nodeI.interiorNodeS a c (lk ++ s :: rk) (lv ++ Lf :: X'' :: rv) := by
    have := store_append a c (lk ++ s :: rk) (lv ++ [Lf]) rv X' X'' haX.symm
      (fun y hy => haX ▸ hd1 y hy) (fun y hy => haX ▸ hd2 y hy)
    simpa using this
  have hs2 : (nodeI.interiorNodeS a c (lk ++ s :: rk) (lv ++ Lf :: X'' :: rv)).store Lf'
      = nodeI.interiorNodeS a c (lk ++ s :: rk) (lv ++ Lf' :: X'' :: rv) := by
    apply store_append a c (lk ++ s :: rk) lv (X'' :: rv) Lf Lf' haL.symm
    · intro y hy
      exact haL ▸ hd3 y hy
    · intro y hy
      rw [haL]
      rcases List.mem_cons.1 hy with rfl | hy
      · rw [haX]
        exact hd4 X' (by simp)
      · exact hd4 y (by simp [hy])
  have hfl : (some (Lf, s)).filter
      (fun p : nodeI K V × K => decide (p.1.size > p.1.halfFullSize)) = some (Lf, s) := by
    simp [Option.filter, hbig]
  simp only [stealOrMerge, hpl, hfl, hst, hkey, hs1, hs2, swapKeys_spec s s' a c lk rk _ hks]

/-- The block steals from the right peer when the left peer is missing or at its
minimum and the right peer has more than its minimum. -/
theorem stealOrMerge_stealRight (a c : Nat) (lk rk : List K) (s s' : K)
    (lv rv : List (nodeI K V)) (X' Rt X'' Rt' : nodeI K V) (hl : lv.length = lk.length)
    (hr : rv.length = rk.length)
    (hnd : ((lv ++ X' :: Rt :: rv).map nodeI.addr).Nodup)
    (hleaf : ∀ y ∈ lv ++ X' :: Rt :: rv, y.isLeaf = X'.isLeaf)
    (hleft : ∀ Lf ∈ lv.getLast?, ¬ Lf.halfFullSize < Lf.size)
    (hbig : Rt.halfFullSize < Rt.size) (hst : X'.stealRight Rt = some (X'', Rt'))
    (hkey : Rt'.findLeftMostKey = some s') (haX : X''.addr = X'.addr)
    (haR : Rt'.addr = Rt.addr) (hks : ∀ k ∈ lk, k ≠ s) :
    stealOrMerge X' (nodeI.interiorNodeS a c (lk ++ s :: rk) (lv ++ X' :: Rt :: rv))
      = some (nodeI.interiorNodeS a c (lk ++ s' :: rk) (lv ++ X'' :: Rt' :: rv), none) := by
  obtain ⟨hd1, hd2⟩ := nodup_map_addr_split hnd
  have hnd1 : (((lv ++ [X']) ++ Rt :: rv).map nodeI.addr).Nodup := by simpa using hnd
  obtain ⟨hd3, hd4⟩ := nodup_map_addr_split hnd1
  have hdl : ∀ y ∈ lv, y.isLeaf = X'.isLeaf ∧ y.addr ≠ X'.addr :=
    fun y hy => ⟨hleaf y (by simp [hy]), hd1 y hy⟩
  obtain ⟨ol, hpl, hol⟩ := findPeerLeft_mem X' X' a c lk (s :: rk) lv (Rt :: rv) hl hdl rfl rfl
  have hpr : X'.findPeerRight (nodeI.interiorNodeS a c (lk ++ s :: rk) (lv ++ X' :: Rt :: rv))
      = some (some (Rt, s)) := by
    have := findPeerRight_spec X' X' a c lk (s :: rk) lv (Rt :: rv) hl (by simpa using hr) hdl
      rfl rfl
    simpa using this
  have hfl := filter_none_of_not_big ol (fun p hp => hleft p.1 (hol p hp))
  have hs1 : (nodeI.interiorNodeS a c (lk ++ s :: rk) (lv ++ X' :: Rt :: rv)).store X''
      = nodeI.interiorNodeS a c (lk ++ s :: rk) (lv ++ X'' :: Rt :: rv) :=
    store_append a c (lk ++ s :: rk) lv (Rt :: rv) X' X'' haX.symm
      (fun y hy => haX ▸ hd1 y hy) (fun y hy => haX ▸ hd2 y hy)
  have hs2 : (nodeI.interiorNodeS a c (lk ++ s :: rk) (lv ++ X'' :: Rt :: rv)).store Rt'
      = nodeI.interiorNodeS a c (lk ++ s :: rk) (lv ++ X'' :: Rt' :: rv) := by
    have := store_append a c (lk ++ s :: rk) (lv ++ [X'']) rv Rt Rt' haR.symm
      (fun y hy => by
        rw [haR]
        rcases List.mem_append.1 hy with hy | hy
        · exact hd3 y (by simp [hy])
        · simp at hy
          subst hy
          rw [haX]
          exact hd3 X' (by simp))
      (fun y hy => haR ▸ hd4 y hy)
    simpa using this
  have hfr : (some (Rt, s)).filter
      (fun p : nodeI K V × K => decide (p.1.size > p.1.halfFullSize)) = some (Rt, s) := by
    simp [Option.filter, hbig]
  simp only [stealOrMerge, hpl, hfl, hpr, hfr, hst, hkey, hs1, hs2,
    swapKeys_spec s s' a c lk rk _ hks]

/-- The block merges the node into its left peer when no peer has more than its
minimum; `delUp` then drops the node and the separator left of it. -/
theorem stealOrMerge_mergeLeft (a c : Nat) (lk rk : List K) (s : K)
    (lv rv : List (nodeI K V)) (Lf X' M : nodeI K V) (hl : lv.length = lk.length)
    (hr : rv.length = rk.length)
    (hnd : ((lv ++ Lf :: X' :: rv).map nodeI.addr).Nodup)
    (hleaf : ∀ y ∈ lv ++ Lf :: X' :: rv, y.isLeaf = X'.isLeaf)
    (hnl : ¬ Lf.halfFullSize < Lf.size)
    (hright : ∀ Rt ∈ rv.head?, ¬ Rt.halfFullSize < Rt.size)
    (hm : Lf.mergeRight X' = some M) (haM : M.addr = Lf.addr) (hlM : M.isLeaf = X'.isLeaf) :
    stealOrMerge X' (nodeI.interiorNodeS a c (lk ++ s :: rk) (lv ++ Lf :: X' :: rv))
        = some (nodeI.interiorNodeS a c (lk ++ s :: rk) (lv ++ M :: X' :: rv), some (M, X')) ∧
      removeDead X' (nodeI.interiorNodeS a c (lk ++ s :: rk) (lv ++ M :: X' :: rv))
        = some (nodeI.interiorNodeS a c (lk ++ rk) (lv ++ M :: rv)) := by
  have hnd1 : (((lv ++ [Lf]) ++ X' :: rv).map nodeI.addr).Nodup := by simpa using hnd
  obtain ⟨hd1, hd2⟩ := nodup_map_addr_split hnd1
  obtain ⟨hd3, hd4⟩ := nodup_map_addr_split hnd
  have hdl : ∀ y ∈ lv ++ [Lf], y.isLeaf = X'.isLeaf ∧ y.addr ≠ X'.addr :=
    fun y hy => ⟨hleaf y (by simp at hy ⊢; tauto), hd1 y hy⟩
  have hpl : X'.findPeerLeft (nodeI.interiorNodeS a c (lk ++ s :: rk) (lv ++ Lf :: X' :: rv))
      = some (some (Lf, s)) := by
    have := findPeerLeft_spec X' X' a c (lk ++ [s]) rk (lv ++ [Lf]) rv (by simp [hl]) hdl rfl rfl
    simpa [List.getLast?_concat] using this
  obtain ⟨or, hpr, hor⟩ : ∃ o, X'.findPeerRight
      (nodeI.interiorNodeS a c (lk ++ s :: rk) (lv ++ Lf :: X' :: rv)) = some o ∧
      ∀ p ∈ o, p.1 ∈ rv.head? := by
    have := findPeerRight_mem X' X' a c (lk ++ [s]) rk (lv ++ [Lf]) rv (by simp [hl]) hr hdl
      rfl rfl
    simpa using this
  have hfr := filter_none_of_not_big or (fun p hp => hright p.1 (hor p hp))
  have hs1 : (nodeI.interiorNodeS a c (lk ++ s :: rk) (lv ++ Lf :: X' :: rv)).store M
      = nodeI.interiorNodeS a c (lk ++ s :: rk) (lv ++ M :: X' :: rv) :=
    store_append a c (lk ++ s :: rk) lv (X' :: rv) Lf M haM.symm
      (fun y hy => haM ▸ hd3 y hy) (fun y hy => haM ▸ hd4 y hy)
  have hfl : (some (Lf, s)).filter
      (fun p : nodeI K V × K => decide (p.1.size > p.1.halfFullSize)) = none := by
    simp [Option.filter, hnl]
  constructor
  · simp only [stealOrMerge, hpl, hpr, hfr, hfl, hm, hs1]
  · apply removeDead_spec X' M X' a c lk rk s lv rv hl ?_ rfl rfl
    intro y hy
    rcases List.mem_append.1 hy with hy | hy
    · exact hdl y (by simp [hy])
    · simp at hy
      subst hy
      refine ⟨hlM, ?_⟩
      rw [haM]
      exact hd1 Lf (by simp)

/-- The leftmost child absorbs its right peer when that peer is at its minimum;
`delUp` then drops the peer and the separator left of it. -/
theorem stealOrMerge_mergeRight (a c : Nat) (rk : List K) (s : K)
    (rv : List (nodeI K V)) (X' Rt M : nodeI K V)
    (hr : rv.length = rk.length)
    (hnd : ((X' :: Rt :: rv).map nodeI.addr).Nodup)
    (hleaf : ∀ y ∈ X' :: Rt :: rv, y.isLeaf = X'.isLeaf)
    (hnr : ¬ Rt.halfFullSize < Rt.size)
    (hm : X'.mergeRight Rt = some M) (haM : M.addr = X'.addr) (hlM : M.isLeaf = X'.isLeaf) :
    stealOrMerge X' (nodeI.interiorNodeS a c (s :: rk) (X' :: Rt :: rv))
        = some (nodeI.interiorNodeS a c (s :: rk) (M :: Rt :: rv), some (M, Rt)) ∧
      removeDead Rt (nodeI.interiorNodeS a c (s :: rk) (M :: Rt :: rv))
        = some (nodeI.interiorNodeS a c rk (M :: rv)) := by
  have hnd0 : ((([] : List (nodeI K V)) ++ X' :: Rt :: rv).map nodeI.addr).Nodup := by
    simpa using hnd
  obtain ⟨_, hd2⟩ := nodup_map_addr_split hnd0
  have hpl := findPeerLeft_spec X' X' a c [] (s :: rk) [] (Rt :: rv) rfl (by simp) rfl rfl
  have hpr := findPeerRight_spec X' X' a c [] (s :: rk) [] (Rt :: rv) rfl (by simpa using hr)
    (by simp) rfl rfl
  simp only [List.nil_append, List.getLast?_nil, List.head?_cons] at hpl hpr
  have hs1 : (nodeI.interiorNodeS a c (s :: rk) (X' :: Rt :: rv)).store M
      = nodeI.interiorNodeS a c (s :: rk) (M :: Rt :: rv) := by
    have := store_append a c (s :: rk) [] (Rt :: rv) X' M haM.symm (by simp)
      (fun y hy => haM ▸ hd2 y hy)
    simpa using this
  have hfl : (none : Option (nodeI K V × K)).filter
      (fun p : nodeI K V × K => decide (p.1.size > p.1.halfFullSize)) = none := rfl
  have hfr : (some (Rt, s)).filter
      (fun p : nodeI K V × K => decide (p.1.size > p.1.halfFullSize)) = none := by
    simp [Option.filter, hnr]
  constructor
  · simp only [stealOrMerge, hpl, hpr, hfr, hfl, hm, hs1]
  · have := removeDead_spec Rt M Rt a c [] rk s [] rv rfl (by
      intro y hy
      simp at hy
      subst hy
      refine ⟨by rw [hlM, hleaf Rt (by simp)], ?_⟩
      rw [haM]
      exact (hd2 Rt (by simp)).symm) rfl rfl
    simpa using this

end Scenarios

section DelStep

variable {K V : Type} [LinearOrder K]

/-- A reading that refines an ordered reading is ordered. -/
theorem Refines0.pairwise {new old : List (Item K V)} (h : Refines0 new old)
    (hs : old.Pairwise Item.lt) : new.Pairwise Item.lt := by
  have := h [] [] (by simpa using hs)
  simpa using this

/-- The separators left of a separator of an ordered interior node differ
from it. -/
theorem keys_ne_of_sorted (a c : Nat) (k1 k2 : List K) (s : K) (v1 v2 : List (nodeI K V))
    (A B : nodeI K V) (hl1 : v1.length = k1.length) (hl2 : v2.length = k2.length)
    (hs : (nodeI.interiorNodeS a c (k1 ++ s :: k2) (v1 ++ A :: B :: v2)).items.Pairwise
      Item.lt) :
    ∀ k ∈ k1, k ≠ s := by
  intro k hk
  rw [items_pair a c k1 k2 s v1 v2 A B hl1 hl2, List.append_assoc, List.pairwise_append] at hs
  have := hs.2.2 (Item.sep k) (sep_mem_preI k1 (v1.map nodeI.items) (by simpa using hl1) k hk)
    (Item.sep s) (by simp)
  rw [Item.lt_sep_sep] at this
  exact ne_of_lt this

/-- The steal-or-merge block on a child that fell one below its minimum: the
block runs, and either it stole and the parent keeps its children, or it
merged and the parent, the dead node removed, has one child less.  Either way
the parent is well-formed and reads as before. -/
theorem stealOrMerge_spec {order h : Nat} (ho : 3 ≤ order) (a : Nat) (lk rk : List K)
    (lv rv : List (nodeI K V)) (X' : nodeI K V)
    (hl : lv.length = lk.length) (hr : rv.length = rk.length)
    (hkeys : (lk ++ rk).length < order)
    (hch : ∀ x ∈ lv ++ rv, WF order h x ∧ MinFill x)
    (wX : WF order h X') (hX : X'.size + 1 = X'.halfFullSize)
    (hsort : (nodeI.interiorNodeS a order (lk ++ rk) (lv ++ X' :: rv)).items.Pairwise Item.lt)
    (hnd : (nodeI.interiorNodeS a order (lk ++ rk) (lv ++ X' :: rv)).addrs.Nodup)
    (h2 : 2 ≤ (lv ++ X' :: rv).length) :
    ∃ P', WF order (h + 1) P' ∧
      Same (nodeI.interiorNodeS a order (lk ++ rk) (lv ++ X' :: rv)) P' ∧
      ((stealOrMerge X' (nodeI.interiorNodeS a order (lk ++ rk) (lv ++ X' :: rv))
          = some (P', none) ∧ P'.size = (lv ++ X' :: rv).length) ∨
       (∃ P1 M D, stealOrMerge X' (nodeI.interiorNodeS a order (lk ++ rk) (lv ++ X' :: rv))
          = some (P1, some (M, D)) ∧ removeDead D P1 = some P' ∧
          P'.size + 1 = (lv ++ X' :: rv).length)) := by
  have hndm : ((lv ++ X' :: rv).map nodeI.addr).Nodup := by
    rw [addrs_interior] at hnd
    exact nodup_map_addr (List.nodup_cons.1 hnd).2
  have hleaf : ∀ y ∈ lv ++ X' :: rv, y.isLeaf = X'.isLeaf := by
    intro y hy
    simp only [List.mem_append, List.mem_cons] at hy
    rcases hy with hy | rfl | hy
    · exact WF.isLeaf_eq (hch y (by simp [hy])).1 wX
    · rfl
    · exact WF.isLeaf_eq (hch y (by simp [hy])).1 wX
  by_cases hLbig : ∃ Lf ∈ lv.getLast?, Lf.halfFullSize < Lf.size
  · obtain ⟨Lf, hLf, hbig⟩ := hLbig
    obtain ⟨lv', rfl⟩ : ∃ lv', lv = lv' ++ [Lf] := by
      rw [Option.mem_def, List.getLast?_eq_some_iff] at hLf
      exact hLf
    obtain ⟨lk', s, rfl, hl'⟩ : ∃ lk' s, lk = lk' ++ [s] ∧ lv'.length = lk'.length := by
      have hp : 0 < lk.length := by
        simp at hl
        omega
      obtain ⟨lk', s, e, hlen⟩ := list_snoc hp
      refine ⟨lk', s, e, ?_⟩
      simp at hl
      omega
    simp only [List.append_assoc, List.singleton_append] at hkeys hch hsort hnd hndm hleaf h2 ⊢
    have wL := (hch Lf (by simp)).1
    obtain ⟨Lf', X'', s', hst, hkey, ps⟩ := stealLeft_pair ho s wL wX hbig hX
    obtain ⟨wP', same⟩ := pair_steal_parent a lk' rk s s' lv' rv Lf X' Lf' X'' hl' hr hkeys
      (fun x hx => hch x (by
        simp only [List.mem_append, List.mem_cons] at hx ⊢
        tauto)) ps
    refine ⟨_, wP', same, Or.inl ⟨?_, ?_⟩⟩
    · exact stealOrMerge_stealLeft a order lk' rk s s' lv' rv Lf X' Lf' X'' hl' hndm hleaf hbig
        hst hkey ps.addrB ps.addrA
        (keys_ne_of_sorted a order lk' rk s lv' rv Lf X' hl' hr hsort)
    · simp [nodeI.size]
  · have hleft : ∀ Lf ∈ lv.getLast?, ¬ Lf.halfFullSize < Lf.size :=
      fun Lf hLf hb => hLbig ⟨Lf, hLf, hb⟩
    by_cases hRbig : ∃ Rt ∈ rv.head?, Rt.halfFullSize < Rt.size
    · obtain ⟨Rt, hRt, hbig⟩ := hRbig
      obtain ⟨rv', rfl⟩ : ∃ rv', rv = Rt :: rv' := by
        cases rv with
        | nil => simp at hRt
        | cons x rv' =>
          simp only [List.head?_cons, Option.mem_def, Option.some.injEq] at hRt
          exact ⟨rv', by rw [hRt]⟩
      obtain ⟨s, rk', rfl⟩ : ∃ s rk', rk = s :: rk' := by
        cases rk with
        | nil => simp at hr
        | cons s rk' => exact ⟨s, rk', rfl⟩
      have hr' : rv'.length = rk'.length := by simpa using hr
      have wR := (hch Rt (by simp)).1
      obtain ⟨X'', Rt', s', hst, hkey, ps⟩ := stealRight_pair ho s wX wR hbig hX
      obtain ⟨wP', same⟩ := pair_steal_parent a lk rk' s s' lv rv' X' Rt X'' Rt' hl hr' hkeys
        (fun x hx => hch x (by
          simp only [List.mem_append, List.mem_cons] at hx ⊢
          tauto)) ps
      refine ⟨_, wP', same, Or.inl ⟨?_, ?_⟩⟩
      · exact stealOrMerge_stealRight a order lk rk' s s' lv rv' X' Rt X'' Rt' hl hr' hndm hleaf
          hleft hbig hst hkey ps.addrA ps.addrB
          (keys_ne_of_sorted a order lk rk' s lv rv' X' Rt hl hr' hsort)
      · simp [nodeI.size]
    · have hright : ∀ Rt ∈ rv.head?, ¬ Rt.halfFullSize < Rt.size :=
        fun Rt hRt hb => hRbig ⟨Rt, hRt, hb⟩
      rcases List.eq_nil_or_concat lv with rfl | ⟨lv', Lf, rfl⟩
      · have hlk : lk = [] := by
          cases lk with
          | nil => rfl
          | cons _ _ => simp at hl
        subst hlk
        obtain ⟨Rt, rv', rfl⟩ : ∃ Rt rv', rv = Rt :: rv' := by
          cases rv with
          | nil => simp at h2
          | cons x rv' => exact ⟨x, rv', rfl⟩
        obtain ⟨s, rk', rfl⟩ : ∃ s rk', rk = s :: rk' := by
          cases rk with
          | nil => simp at hr
          | cons s rk' => exact ⟨s, rk', rfl⟩
        have hr' : rv'.length = rk'.length := by simpa using hr
        simp only [List.nil_append] at hkeys hch hsort hnd hndm hleaf h2 ⊢
        obtain ⟨wR, mR⟩ := hch Rt (by simp)
        have hnr := hright Rt (by simp)
        have hAB : X'.size + Rt.size + 1 = 2 * X'.halfFullSize := by
          have := WF.halfFullSize_eq wX wR
          unfold MinFill at mR
          omega
        obtain ⟨M, hm, pm⟩ := mergeRight_pair ho s wX wR hAB
        obtain ⟨wP', same⟩ := pair_merge_parent a [] rk' s [] rv' X' Rt M rfl hr'
          (by simpa using hkeys) (fun x hx => hch x (by
            simp only [List.nil_append, List.mem_cons] at hx ⊢
            tauto)) pm
        obtain ⟨e1, e2⟩ := stealOrMerge_mergeRight a order rk' s rv' X' Rt M hr' hndm hleaf hnr
          hm pm.addr (WF.isLeaf_eq pm.wf wX)
        simp only [List.nil_append] at wP' same
        exact ⟨_, wP', same, Or.inr ⟨_, M, Rt, e1, e2, by simp [nodeI.size]⟩⟩
      · obtain ⟨lk', s, rfl, hl'⟩ : ∃ lk' s, lk = lk' ++ [s] ∧ lv'.length = lk'.length := by
          have hp : 0 < lk.length := by
            simp at hl
            omega
          obtain ⟨lk', s, e, hlen⟩ := list_snoc hp
          refine ⟨lk', s, e, ?_⟩
          simp at hl
          omega
        simp only [List.concat_eq_append, List.append_assoc, List.singleton_append]
          at hkeys hch hsort hnd hndm hleaf h2 hleft ⊢
        obtain ⟨wL, mL⟩ := hch Lf (by simp)
        have hnl : ¬ Lf.halfFullSize < Lf.size := hleft Lf (by simp)
        have hAB : Lf.size + X'.size + 1 = 2 * Lf.halfFullSize := by
          have := WF.halfFullSize_eq wX wL
          unfold MinFill at mL
          omega
        obtain ⟨M, hm, pm⟩ := mergeRight_pair ho s wL wX hAB
        obtain ⟨wP', same⟩ := pair_merge_parent a lk' rk s lv' rv Lf X' M hl' hr hkeys
          (fun x hx => hch x (by
            simp only [List.mem_append, List.mem_cons] at hx ⊢
            tauto)) pm
        obtain ⟨e1, e2⟩ := stealOrMerge_mergeLeft a order lk' rk s lv' rv Lf X' M hl' hr hndm
          hleaf hnl hright hm pm.addr (WF.isLeaf_eq pm.wf wX)
        exact ⟨_, wP', same, Or.inr ⟨_, M, X', e1, e2, by simp [nodeI.size]; omega⟩⟩

end DelStep

section Unfold

variable {K V : Type} [DecidableEq K]

/-- The way up of `Del`, one level unfolded. -/
theorem delFix_eq (t : tree K V) (n : nodeI K V) (path : pathT K V) :
    t.delFix n path =
    match t.isRoot n with
    | none => none
    | some true => rootAfter n
    | some false =>
      if n.size ≥ n.halfFullSize then some (pathT.commit path n)
      else
        match path with
        | [] => none
        | p :: path =>
          match stealOrMerge n (p.store n) with
          | none => none
          | some (p', none) => some (pathT.commit path p')
          | some (p', some (_, d)) =>
            match removeDead d p' with
            | none => none
            | some p'' => tree.delFix t p'' path := by
  cases path with
  | nil =>
    delta tree.delFix
    dsimp only [nodeI.brecOn_1]
  | cons p path =>
    delta tree.delFix
    dsimp only [nodeI.brecOn_1]

/-- The body of `delUp`. -/
theorem delUp_unfold (t : tree K V) (parent m deadNode : nodeI K V) (path : pathT K V) :
    t.delUp parent m deadNode path =
    match removeDead deadNode parent with
    | none => none
    | some parent =>
      match t.isRoot parent with
      | none => none
      | some true => shrinkRoot parent
      | some false =>
        if parent.size ≥ parent.halfFullSize then some (pathT.commit path parent)
        else
          match path with
          | [] => none
          | grandParent :: path =>
            match stealOrMerge parent (grandParent.store parent) with
            | none => none
            | some (grandParent, none) => some (pathT.commit path grandParent)
            | some (grandParent, some (mNode, dNode)) =>
              tree.delUp t grandParent mNode dNode path := by
  cases path with
  | nil =>
    delta tree.delUp
    dsimp only [nodeI.brecOn_1]
  | cons p path =>
    delta tree.delUp
    dsimp only [nodeI.brecOn_1]

end Unfold

section DelUp

variable {K V : Type} [LinearOrder K]

omit [LinearOrder K] in
/-- A node below an interior root is not the root. -/
theorem isRoot_below (t : tree K V) (n : nodeI K V) (hr : t.root.isLeaf = false)
    (ha : t.root.addr ≠ n.addr) : t.isRoot n = some false := by
  unfold tree.isRoot
  cases hroot : t.root with
  | leafNodeS _ _ _ _ => simp [hroot, nodeI.isLeaf] at hr
  | interiorNodeS a c ks vs =>
    rw [hroot] at ha
    cases n with
    | leafNodeS _ _ _ _ => rfl
    | interiorNodeS b _ _ _ => simpa [nodeI.equals, nodeI.addr] using ha

omit [LinearOrder K] in
/-- The node at the address of the root is the root. -/
theorem isRoot_self (t : tree K V) (n : nodeI K V) (hl : t.root.isLeaf = n.isLeaf)
    (ha : t.root.addr = n.addr) : t.isRoot n = some true := by
  unfold tree.isRoot
  rw [equals_of_isLeaf_eq hl]
  simp [ha]

omit [LinearOrder K] in
/-- A root that is a leaf or has two children stays. -/
theorem rootAfter_of_fill {order h : Nat} {P : nodeI K V} (w : WF order h P)
    (hf : RootFill P) : rootAfter P = some P := by
  cases w with
  | leaf a c keys vals h1 h2 h3 => rfl
  | interior h a c keys vals h1 h2 h3 h4 h5 =>
    rcases hf with hf | hf
    · simp [nodeI.isLeaf] at hf
    · simp only [nodeI.size] at hf
      have : keys.length ≠ 0 := by omega
      simp [rootAfter, shrinkRoot, this]

/-- The way up of `Del` ends at a node that kept its size. -/
theorem delFix_done (t : tree K V) {order h : Nat} (P P' : nodeI K V) (p0 : pathT K V)
    (pos : Pos t P p0) (w : WF order h P') (ha : P'.addr = P.addr)
    (hl : P'.isLeaf = P.isLeaf) (hs : P'.size = P.size)
    (hh : P'.halfFullSize = P.halfFullSize) :
    t.delFix P' p0 = some (pathT.commit p0 P') := by
  rcases pos with ⟨h1, h2, h3, rfl⟩ | ⟨h1, h2, h3⟩
  · have hr := isRoot_self t P' (by rw [h2, hl]) (by rw [h1, ha])
    have hf : RootFill P' := by
      rcases h3 with h3 | h3
      · exact Or.inl (by rw [hl]; exact h3)
      · exact Or.inr (by rw [hs]; exact h3)
    rw [delFix_eq]
    simp only [hr, rootAfter_of_fill w hf, pathT.commit]
  · have hne : t.root.addr ≠ P'.addr := by
      rw [ha]
      intro e
      exact h2 (e ▸ addr_mem_addrs P)
    have hr := isRoot_below t P' h1 hne
    have hf : P'.size ≥ P'.halfFullSize := by
      rw [hs, hh]
      exact h3
    rw [delFix_eq]
    simp only [hr, hf, if_true]

/-- A steal or a merge among the children after the removal below. -/
theorem DelRel.same {key : K} {P P0 P' : nodeI K V} {val : Option V} {found : Bool}
    (rel : DelRel key P P0 val found) (same : Same P0 P') (hf : found = true) :
    DelRel key P P' val found where
  addr := same.addr.trans rel.addr
  refines := Refines0.trans same.refines rel.refines
  ents_eq := same.ents_eq.trans rel.ents_eq
  val_eq := rel.val_eq
  found_eq := rel.found_eq
  addrs_mem := fun a ha => rel.addrs_mem a (same.addrs_mem a ha)
  addrs_nodup := fun hn => same.addrs_nodup (rel.addrs_nodup hn)
  unchanged := fun h => by simp [hf] at h

omit [LinearOrder K] in
/-- The children of a node on the way of `Del` are below the root. -/
theorem Pos.child {t : tree K V} {a c : Nat} {keys : List K} {lv rv : List (nodeI K V)}
    {X : nodeI K V} {p0 : pathT K V}
    (pos : Pos t (nodeI.interiorNodeS a c keys (lv ++ X :: rv)) p0)
    (hnd : (nodeI.interiorNodeS a c keys (lv ++ X :: rv)).addrs.Nodup) :
    t.root.isLeaf = false ∧ t.root.addr ∉ X.addrs := by
  obtain ⟨_, _, _, haX⟩ := sibling_addr_ne hnd
  rcases pos with ⟨h1, h2, _, _⟩ | ⟨h1, h2, _⟩
  · refine ⟨by rw [h2]; rfl, ?_⟩
    rw [h1]
    exact haX
  · refine ⟨h1, fun hm => h2 ?_⟩
    rw [addrs_interior, addrsList_append, addrsList_cons]
    simp [hm]

omit [LinearOrder K] in
/-- A node on the way of `Del` has two children. -/
theorem Pos.two {t : tree K V} {order h : Nat} (ho : 3 ≤ order) {P : nodeI K V}
    {p0 : pathT K V} (pos : Pos t P p0) (w : WF order (h + 1) P) : 2 ≤ P.size := by
  obtain ⟨a, keys, vals, rfl, _⟩ := w.succ_inv
  rcases pos with ⟨_, _, h3, _⟩ | ⟨_, _, h3⟩
  · rcases h3 with h3 | h3
    · simp [nodeI.isLeaf] at h3
    · exact h3
  · unfold MinFill at h3
    simp only [nodeI.halfFullSize] at h3
    omega

/-- One level of the way up of `Del`: from what the level below left in place
of the child to what this level leaves in place of the node. -/
theorem del_step {order h : Nat} (ho : 3 ≤ order) (t : tree K V) (key : K) (a : Nat)
    (lk rk : List K) (lv rv : List (nodeI K V)) (X X' : nodeI K V) (val : Option V)
    (found : Bool) (p0 : pathT K V)
    (hl : lv.length = lk.length) (hr : rv.length = rk.length)
    (wP : WF order (h + 1) (nodeI.interiorNodeS a order (lk ++ rk) (lv ++ X :: rv)))
    (hsort : (nodeI.interiorNodeS a order (lk ++ rk) (lv ++ X :: rv)).items.Pairwise Item.lt)
    (hlk : ∀ k ∈ lk, k ≤ key) (hrk : ∀ k ∈ rk.head?, key < k)
    (hnd : (nodeI.interiorNodeS a order (lk ++ rk) (lv ++ X :: rv)).addrs.Nodup)
    (pos : Pos t (nodeI.interiorNodeS a order (lk ++ rk) (lv ++ X :: rv)) p0)
    (post : DelPost order h key X X' val found) :
    ∃ P', t.delFix X' (nodeI.interiorNodeS a order (lk ++ rk) (lv ++ X :: rv) :: p0)
        = t.delFix P' p0 ∧
      DelPost order (h + 1) key (nodeI.interiorNodeS a order (lk ++ rk) (lv ++ X :: rv)) P'
        val found := by
  obtain ⟨h', eh, _, hlen, hkeys, hch, hmf⟩ := wP.interior_inv
  obtain rfl : h = h' := by omega
  obtain ⟨hst, rel0⟩ := del_store key a order lk rk lv rv X X' val found hl hr hsort hlk hrk hnd
    post.toDelRel
  obtain ⟨hroot, hra⟩ := pos.child hnd
  have hra' : t.root.addr ≠ X'.addr := by
    rw [post.addr]
    intro e
    exact hra (e ▸ addr_mem_addrs X)
  have hir := isRoot_below t X' hroot hra'
  have hP2 := pos.two ho wP
  have wXo : WF order h X := hch X (by simp)
  have mXo : MinFill X := hmf X (by simp)
  by_cases hfill : X'.size ≥ X'.halfFullSize
  · have wP0 : WF order (h + 1) (nodeI.interiorNodeS a order (lk ++ rk) (lv ++ X' :: rv)) := by
      refine WF.interior h a order _ _ rfl (by simpa using hlen) hkeys ?_ ?_
      · intro x hx
        simp only [List.mem_append, List.mem_cons] at hx
        rcases hx with hx | rfl | hx
        · exact hch x (by simp [hx])
        · exact post.wf
        · exact hch x (by simp [hx])
      · intro x hx
        simp only [List.mem_append, List.mem_cons] at hx
        rcases hx with hx | rfl | hx
        · exact hmf x (by simp [hx])
        · exact hfill
        · exact hmf x (by simp [hx])
    refine ⟨_, ?_, { toDelRel := rel0, wf := wP0, size := by simp [nodeI.size] }⟩
    rw [delFix_done t _ _ p0 pos wP0 rfl rfl (by simp [nodeI.size]) rfl, delFix_eq]
    simp only [hir, hfill, if_true, pathT.commit, hst]
  · have hfound : found = true := by
      cases hf : found with
      | true => rfl
      | false =>
        have := post.unchanged hf
        rw [this] at hfill
        exact absurd mXo hfill
    have hX : X'.size + 1 = X'.halfFullSize := by
      have h1 := post.size
      have h2 := WF.halfFullSize_eq post.wf wXo
      unfold MinFill at mXo
      omega
    obtain ⟨P', wP', same, hcase⟩ := stealOrMerge_spec ho a lk rk lv rv X' hl hr hkeys
      (fun x hx => ⟨hch x (by
          simp only [List.mem_append, List.mem_cons] at hx ⊢
          tauto), hmf x (by
          simp only [List.mem_append, List.mem_cons] at hx ⊢
          tauto)⟩)
      post.wf hX (rel0.refines.pairwise hsort) (rel0.addrs_nodup hnd) (by
        simp only [nodeI.size] at hP2
        simpa using hP2)
    refine ⟨P', ?_, { toDelRel := rel0.same same hfound, wf := wP', size := ?_ }⟩
    · rcases hcase with ⟨e, hs⟩ | ⟨P1, M, D, e, e2, hs⟩
      · rw [delFix_done t _ P' p0 pos wP' (same.addr.trans rel0.addr)
          ((WF.isLeaf_succ wP').trans (WF.isLeaf_succ wP).symm)
          (by rw [hs]; simp [nodeI.size]) (WF.halfFullSize_eq wP' wP), delFix_eq]
        simp only [hir, hfill, if_false, hst, e]
      · rw [delFix_eq]
        simp only [hir, hfill, if_false, hst, e, e2]
    · rcases hcase with ⟨e, hs⟩ | ⟨P1, M, D, e, e2, hs⟩
      · rw [hs]
        simp [nodeI.size]
      · show (lv ++ X :: rv).length ≤ P'.size + 1
        simp only [List.length_append, List.length_cons] at hs ⊢
        omega

end DelUp

section DelLeaf

variable {K V : Type} [LinearOrder K]

omit [LinearOrder K] in
/-- The loop `for i, k := range keys` stops at the first key equal to `key`. -/
theorem keyIndex_cases [DecidableEq K] (key : K) : ∀ keys : List K,
    (keyIndex key keys = none ∧ ∀ k ∈ keys, k ≠ key) ∨
    (∃ lk rk, keys = lk ++ key :: rk ∧ (∀ k ∈ lk, k ≠ key) ∧
      keyIndex key keys = some lk.length)
  | [] => Or.inl ⟨rfl, by simp⟩
  | k :: ks => by
    by_cases h : key = k
    · subst h
      exact Or.inr ⟨[], ks, rfl, by simp, by simp [keyIndex]⟩
    · rcases keyIndex_cases key ks with ⟨h1, h2⟩ | ⟨lk, rk, e, h1, h2⟩
      · refine Or.inl ⟨by simp [keyIndex, h, h1], ?_⟩
        intro x hx
        rcases List.mem_cons.1 hx with rfl | hx
        · exact fun e => h e.symm
        · exact h2 x hx
      · refine Or.inr ⟨k :: lk, rk, by simp [e], ?_, by simp [keyIndex, h, h2]⟩
        intro x hx
        rcases List.mem_cons.1 hx with rfl | hx
        · exact fun e => h e.symm
        · exact h1 x hx

/-- The removal loop of `Del` on the leaf `findLeaf` reached. -/
theorem del_leaf {order : Nat} (key : K) (a : Nat) (keys : List K) (vals : List V)
    (w : WF order 0 (nodeI.leafNodeS a order keys vals))
    (hs : (nodeI.leafNodeS a order keys vals).items.Pairwise Item.lt) :
    ∃ keys' vals' val found,
      leafNodeS.remove key (nodeI.leafNodeS a order keys vals)
        = some (nodeI.leafNodeS a order keys' vals', val, found) ∧
      DelPost order 0 key (nodeI.leafNodeS a order keys vals)
        (nodeI.leafNodeS a order keys' vals') val found := by
  obtain ⟨_, _, hlen, hlt⟩ := w.leaf_inv
  have hks : keys.Pairwise (· < ·) := by
    rw [items_leaf] at hs
    exact (pairwise_zipWith_ent hlen).1 hs
  rcases keyIndex_cases key keys with ⟨h1, h2⟩ | ⟨lk, rk, rfl, h1, h2⟩
  · refine ⟨keys, vals, none, false, by simp [leafNodeS.remove, h1], ?_⟩
    have hne : ∀ e ∈ ents (nodeI.leafNodeS a order keys vals).items, e.1 ≠ key := by
      rw [items_leaf, ents_zipWith]
      intro e he
      exact h2 e.1 (List.of_mem_zip he).1
    exact {
      addr := rfl
      refines := Refines0.refl _
      ents_eq := (eraseSpec_of_not_mem hne).symm
      val_eq := (lookupEnt_eq_none.2 hne).symm
      found_eq := by rw [lookupEnt_eq_none.2 hne]; rfl
      addrs_mem := fun _ h => h
      addrs_nodup := id
      unchanged := fun _ => rfl
      wf := w
      size := Nat.le_succ _ }
  · obtain ⟨lv, v, rv, rfl, hlv, hget⟩ := list_cut vals lk.length (by
      simp at hlen
      omega)
    have hrl : rk.length = rv.length := by
      simp at hlen
      omega
    have htk : (lk ++ key :: rk).take lk.length ++ (lk ++ key :: rk).drop (lk.length + 1)
        = lk ++ rk := by simp
    have htv : (lv ++ v :: rv).take lk.length ++ (lv ++ v :: rv).drop (lk.length + 1)
        = lv ++ rv := by
      rw [← hlv]
      simp
    refine ⟨lk ++ rk, lv ++ rv, some v, true, by simp [leafNodeS.remove, h2, hget, htk, htv], ?_⟩
    rw [List.pairwise_append, List.pairwise_cons] at hks
    have hrk : ∀ k ∈ rk, k ≠ key := fun k hk => (ne_of_lt (hks.2.1.1 k hk)).symm
    have hold : (nodeI.leafNodeS a order (lk ++ key :: rk) (lv ++ v :: rv)).items
        = List.zipWith Item.ent lk lv ++ Item.ent key v :: List.zipWith Item.ent rk rv := by
      rw [items_leaf, List.zipWith_append _ _ _ _ _ hlv.symm]
      rfl
    have hnew : (nodeI.leafNodeS a order (lk ++ rk) (lv ++ rv)).items
        = List.zipWith Item.ent lk lv ++ List.zipWith Item.ent rk rv := by
      rw [items_leaf, List.zipWith_append _ _ _ _ _ hlv.symm]
    have hl1 : ∀ e ∈ List.zip lk lv, e.1 ≠ key := fun e he => h1 e.1 (List.of_mem_zip he).1
    have hr1 : ∀ e ∈ List.zip rk rv, e.1 ≠ key := fun e he => hrk e.1 (List.of_mem_zip he).1
    have hlook : lookupEnt key
        (ents (nodeI.leafNodeS a order (lk ++ key :: rk) (lv ++ v :: rv)).items) = some v := by
      rw [hold, ents_append, ents_cons_ent, ents_zipWith, lookupEnt_append_left hl1,
        lookupEnt_cons]
      simp
    exact {
      addr := rfl
      refines := by
        rw [hold, hnew]
        exact Refines0.of_sublist
          ((List.Sublist.refl _).append ((List.Sublist.refl _).cons _))
      ents_eq := by
        rw [hold, hnew, ents_append, ents_append, ents_cons_ent, ents_zipWith, ents_zipWith,
          eraseSpec_append, eraseSpec_of_not_mem hl1]
        congr 1
        have : eraseSpec key ((key, v) :: List.zip rk rv) = eraseSpec key (List.zip rk rv) := by
          simp [eraseSpec]
        rw [this, eraseSpec_of_not_mem hr1]
      val_eq := hlook.symm
      found_eq := by rw [hlook]; rfl
      addrs_mem := fun _ h => h
      addrs_nodup := id
      unchanged := fun h => by simp at h
      wf := WF.leaf a order _ _ rfl (by simp [hlv, hrl]) (by
        simp at hlt ⊢
        omega)
      size := by
        simp only [nodeI.size, List.length_append, List.length_cons]
        omega }

/-- The way of `Del` down to the leaf and up again from a subtree: what the
operation leaves in place of the subtree. -/
theorem del_main {order : Nat} (ho : 3 ≤ order) (t : tree K V) (key : K) :
    ∀ {h : Nat} {X : nodeI K V}, WF order h X → ∀ (p0 : pathT K V), Pos t X p0 →
    X.items.Pairwise Item.lt → X.addrs.Nodup →
    ∃ leaf path la lc lkeys lvals val found X',
      findLeafFrom key X p0 = some (leaf, path) ∧
      leafNodeS.remove key leaf = some (nodeI.leafNodeS la lc lkeys lvals, val, found) ∧
      t.delFix (nodeI.leafNodeS la lc lkeys lvals) path = t.delFix X' p0 ∧
      DelPost order h key X X' val found := by
  intro h X w
  induction w with
  | leaf a c keys vals h1 h2 h3 =>
    intro p0 _ hs _
    subst h1
    obtain ⟨keys', vals', val, found, e1, post⟩ :=
      del_leaf key a keys vals (WF.leaf _ _ _ _ rfl h2 h3) hs
    exact ⟨_, p0, a, c, keys', vals', val, found, _, by simp [findLeafFrom], e1, rfl, post⟩
  | interior h a c keys vals h1 h2 h3 h4 h5 ih =>
    intro p0 pos hs hnd
    subst h1
    obtain ⟨lk, rk, lv, X, rv, rfl, rfl, hl, hr, hlk, hrk, hget⟩ := descent_cut key h2
    have hXs : X.items.Pairwise Item.lt := by
      have := hs
      rw [items_zoom a c lk rk lv rv X hl hr] at this
      exact (pairwise_mid this).2.1
    obtain ⟨_, _, hXnd, _⟩ := sibling_addr_ne hnd
    obtain ⟨hroot, hra⟩ := pos.child hnd
    obtain ⟨leaf, path, la, lc, lkeys, lvals, val, found, X', e1, e2, e3, post⟩ :=
      ih X (by simp) (nodeI.interiorNodeS a c (lk ++ rk) (lv ++ X :: rv) :: p0)
        (Or.inr ⟨hroot, hra, h5 X (by simp)⟩) hXs hXnd
    obtain ⟨P', e4, post'⟩ := del_step ho t key a lk rk lv rv X X' val found p0 hl hr
      (WF.interior h a c _ _ rfl h2 h3 h4 h5) hs hlk hrk hnd pos post
    refine ⟨leaf, path, la, lc, lkeys, lvals, val, found, P', ?_, e2, ?_, post'⟩
    · rw [findLeafFrom_interior key a c _ _ p0 X hget]
      exact e1
    · rw [e3, e4]

end DelLeaf

section DelSpec

variable {K V : Type} [LinearOrder K]

omit [LinearOrder K] in
/-- What `removeDead` returns is an interior node. -/
theorem removeDead_rootAfter {d parent p : nodeI K V} (h : removeDead d parent = some p) :
    rootAfter p = shrinkRoot p := by
  cases parent with
  | leafNodeS _ _ _ _ => simp [removeDead] at h
  | interiorNodeS a c keys vals =>
    simp only [removeDead] at h
    split at h
    · simp at h
    · simp only [Option.some.injEq] at h
      subst h
      rfl
    · simp at h
    · split at h
      · simp only [Option.some.injEq] at h
        subst h
        rfl
      · simp at h

/-- The recursion of `delUp` is the way up of `Del` from the parent, the dead
node removed. -/
theorem delUp_eq (t : tree K V) : ∀ (path : pathT K V) (parent m d : nodeI K V),
    t.delUp parent m d path = match removeDead d parent with
      | none => none
      | some p => t.delFix p path
  | [], parent, m, d => by
    rw [delUp_unfold]
    cases hrd : removeDead d parent with
    | none => rfl
    | some p =>
      simp only
      rw [delFix_eq, removeDead_rootAfter hrd]
  | gp :: path, parent, m, d => by
    rw [delUp_unfold]
    cases hrd : removeDead d parent with
    | none => rfl
    | some p =>
      simp only
      rw [delFix_eq, removeDead_rootAfter hrd]
      cases t.isRoot p with
      | none => rfl
      | some b =>
        cases b with
        | true => rfl
        | false =>
          simp only
          split
          · rfl
          · cases stealOrMerge p (gp.store p) with
            | none => rfl
            | some r =>
              obtain ⟨gp', _ | ⟨m', d'⟩⟩ := r
              · rfl
              · simp only
                rw [delUp_eq t path gp' m' d']

/-- `Del` is the descent, the removal at the leaf and the way up. -/
theorem Del_eq (t : tree K V) (key : K) :
    t.Del key = match findLeafFrom key t.root [] with
      | none => none
      | some (leaf, path) =>
        match leafNodeS.remove key leaf with
        | none => none
        | some (leaf', val, found) =>
          match t.delFix leaf' path with
          | none => none
          | some root =>
            some ({ t with root := root,
                           numEnts := if found then t.numEnts - 1 else t.numEnts },
              val, found) := by
  unfold tree.Del tree.findLeaf newPathT
  cases findLeafFrom key t.root [] with
  | none => rfl
  | some r =>
    obtain ⟨leaf, path⟩ := r
    simp only
    cases hrm : leafNodeS.remove key leaf with
    | none => rfl
    | some r2 =>
      obtain ⟨leaf', val, found⟩ := r2
      have hleaf : rootAfter leaf' = some leaf' := by
        cases leaf with
        | interiorNodeS _ _ _ _ => simp [leafNodeS.remove] at hrm
        | leafNodeS a c keys vals =>
          simp only [leafNodeS.remove] at hrm
          split at hrm
          · split at hrm
            · simp only [Option.some.injEq, Prod.mk.injEq] at hrm
              rw [← hrm.1]
              rfl
            · simp at hrm
          · simp only [Option.some.injEq, Prod.mk.injEq] at hrm
            rw [← hrm.1]
            rfl
      simp only
      rw [delFix_eq]
      cases t.isRoot leaf' with
      | none => rfl
      | some b =>
        cases b with
        | true => simp only [hleaf]
        | false =>
          simp only
          split
          · rfl
          · cases path with
            | nil => rfl
            | cons parent path =>
              simp only
              cases stealOrMerge leaf' (parent.store leaf') with
              | none => rfl
              | some r3 =>
                obtain ⟨p', _ | ⟨m', d'⟩⟩ := r3
                · rfl
                · simp only
                  rw [delUp_eq]

end DelSpec

section DelSpec2

variable {K V : Type} [LinearOrder K]

omit [LinearOrder K] in
/-- A node that holds its minimum may be the root. -/
theorem RootFill.of_minFill {order h : Nat} (ho : 3 ≤ order) {n : nodeI K V}
    (w : WF order h n) (m : MinFill n) : RootFill n := by
  cases w with
  | leaf a c keys vals h1 h2 h3 => exact Or.inl rfl
  | interior h a c keys vals h1 h2 h3 h4 h5 =>
    refine Or.inr ?_
    unfold MinFill at m
    simp only [nodeI.halfFullSize] at m
    omega

omit [LinearOrder K] in
/-- A tree whose root and count are its own is the tree. -/
theorem tree_eta (t : tree K V) : ({ t with root := t.root, numEnts := t.numEnts } : tree K V) = t := by
  cases t
  rfl

/-- What `Del` does to a tree that meets the invariant: it returns, the tree
it leaves meets the invariant, no longer binds `key` and binds every other key
as before, the pair returned is the binding `key` had, and a tree that did not
bind `key` is left as it was. -/
theorem Del_spec (t : tree K V) (inv : Inv t) (key : K) :
    ∃ t' val found, t.Del key = some (t', val, found) ∧ Inv t' ∧ t'.order = t.order ∧
      ents t'.root.items = eraseSpec key (ents t.root.items) ∧
      val = lookupEnt key (ents t.root.items) ∧
      found = (lookupEnt key (ents t.root.items)).isSome ∧
      t'.numEnts = (if found then t.numEnts - 1 else t.numEnts) ∧
      (found = false → t' = t) := by
  obtain ⟨h, w⟩ := inv.wf
  obtain ⟨leaf, path, la, lc, lkeys, lvals, val, found, X', e1, e2, e3, post⟩ :=
    del_main inv.order_ge t key w [] (Or.inl ⟨rfl, rfl, inv.rootFill, rfl⟩) inv.sorted
      inv.nodup
  have hir : t.isRoot X' = some true :=
    isRoot_self t X' (WF.isLeaf_eq w post.wf) post.addr.symm
  have hsorted : X'.items.Pairwise Item.lt := post.refines.pairwise inv.sorted
  have hnd := post.addrs_nodup inv.nodup
  have hfresh : ∀ a ∈ X'.addrs, a < t.nextAddr := fun a ha => inv.fresh a (post.addrs_mem a ha)
  have hcount : (if found then t.numEnts - 1 else t.numEnts)
      = ((ents X'.items).length : Int) := by
    have := @length_eraseSpec K V _ key _ (ents_pairwise inv.sorted)
    rw [post.ents_eq, inv.count, post.found_eq]
    cases hh : (lookupEnt key (ents t.root.items)).isSome
    · simp only [hh, Bool.false_eq_true, if_false] at this ⊢
      omega
    · simp only [hh, if_true] at this ⊢
      omega
  have hsame : found = false →
      ({ t with root := X', numEnts := if found then t.numEnts - 1 else t.numEnts } : tree K V)
        = t := by
    intro hf
    rw [post.unchanged hf, hf]
    exact tree_eta t
  rw [Del_eq, e1]
  simp only [e2, e3]
  rw [delFix_eq]
  simp only [hir]
  have hpw := post.wf
  have hents := post.ents_eq
  have hunch := post.unchanged
  rcases X' with ⟨a, c, keys, vals⟩ | ⟨a, c, keys, vals⟩
  · refine ⟨{ t with root := nodeI.leafNodeS a c keys vals,
                       numEnts := if found then t.numEnts - 1 else t.numEnts },
      val, found, rfl, ?_, rfl, hents, post.val_eq, post.found_eq, rfl, hsame⟩
    exact {
      order_ge := inv.order_ge
      wf := ⟨h, hpw⟩
      rootFill := Or.inl rfl
      sorted := hsorted
      nodup := hnd
      fresh := hfresh
      count := hcount }
  · obtain ⟨h', rfl, rfl, hlen, hkl, hch, hmf⟩ := hpw.interior_inv
    by_cases hk : keys.length = 0
    · obtain rfl : keys = [] := List.length_eq_zero.1 hk
      obtain ⟨c0, rfl⟩ : ∃ c0, vals = [c0] := by
        match vals, hlen with
        | [c0], _ => exact ⟨c0, rfl⟩
      have hitems : (nodeI.interiorNodeS a t.order ([] : List K) [c0]).items = c0.items := by
        simp [items_interior, interleave]
      have haddrs : (nodeI.interiorNodeS a t.order ([] : List K) [c0]).addrs
          = a :: c0.addrs := by
        simp [addrs_interior]
      refine ⟨{ t with root := c0, numEnts := if found then t.numEnts - 1 else t.numEnts },
        val, found, by simp [rootAfter, shrinkRoot], ?_, rfl, ?_, post.val_eq, post.found_eq,
        rfl, ?_⟩
      · exact {
          order_ge := inv.order_ge
          wf := ⟨h', hch c0 (by simp)⟩
          rootFill := RootFill.of_minFill inv.order_ge (hch c0 (by simp)) (hmf c0 (by simp))
          sorted := by
            rw [hitems] at hsorted
            exact hsorted
          nodup := by
            rw [haddrs] at hnd
            exact (List.nodup_cons.1 hnd).2
          fresh := fun x hx => hfresh x (by
            rw [haddrs]
            exact List.mem_cons_of_mem _ hx)
          count := by
            rw [hitems] at hcount
            exact hcount }
      · rw [hitems] at hents
        exact hents
      · intro hf
        have hroot := inv.rootFill
        rw [← hunch hf] at hroot
        rcases hroot with hroot | hroot
        · simp [nodeI.isLeaf] at hroot
        · simp [nodeI.size] at hroot
    · refine ⟨{ t with root := nodeI.interiorNodeS a t.order keys vals,
                         numEnts := if found then t.numEnts - 1 else t.numEnts },
        val, found, by simp [rootAfter, shrinkRoot, hk], ?_, rfl, hents,
        post.val_eq, post.found_eq, rfl, hsame⟩
      exact {
        order_ge := inv.order_ge
        wf := ⟨h' + 1, WF.interior h' a t.order keys vals rfl hlen hkl hch hmf⟩
        rootFill := Or.inr (by
          simp only [nodeI.size]
          omega)
        sorted := hsorted
        nodup := hnd
        fresh := hfresh
        count := hcount }

end DelSpec2

section Leaves

variable {K V : Type}

/-- The entries of an interior reading are the entries of the children. -/
theorem ents_interleave : ∀ (keys : List K) (cs : List (List (Item K V))),
    cs.length = keys.length + 1 → ents (interleave keys cs) = (cs.map ents).flatten
  | [], [], h => by simp at h
  | [], [c], _ => by simp [interleave]
  | [], _ :: _ :: _, h => by simp at h
  | _ :: _, [], h => by simp at h
  | k :: ks, c :: cs, h => by
    have ih := ents_interleave ks cs (by simpa using h)
    simp [interleave, ih]

/-- The leaf keys of a well-formed subtree are the keys of its entries. -/
theorem leafKeys_eq {order : Nat} : ∀ {h : Nat} {n : nodeI K V}, WF order h n →
    n.leafKeys = (ents n.items).map Prod.fst := by
  intro h n w
  induction w with
  | leaf a c keys vals h1 h2 h3 =>
    rw [items_leaf, ents_zipWith]
    simp only [nodeI.leafKeys]
    rw [← List.unzip_fst, List.unzip_zip h2]
  | interior h a c keys vals h1 h2 h3 h4 h5 ih =>
    simp only [nodeI.leafKeys]
    rw [leafKeysList_eq, items_interior, ents_interleave _ _ (by simpa using h2),
      List.map_flatten, List.map_map, List.map_map]
    congr 1
    apply List.map_congr_left
    intro x hx
    exact ih x hx

/-- All leaves of a well-formed subtree of height `h` are `h` levels down. -/
theorem leafDepths_eq {order : Nat} : ∀ {h : Nat} {n : nodeI K V}, WF order h n →
    ∀ d ∈ n.leafDepths, d = h := by
  intro h n w
  induction w with
  | leaf a c keys vals h1 h2 h3 =>
    intro d hd
    simpa [nodeI.leafDepths] using hd
  | interior h a c keys vals h1 h2 h3 h4 h5 ih =>
    intro d hd
    simp only [nodeI.leafDepths, leafDepthsList_eq, List.mem_map, List.mem_flatten] at hd
    obtain ⟨d', ⟨l, hl, hd'⟩, rfl⟩ := hd
    obtain ⟨x, hx, rfl⟩ := hl
    rw [ih x hx d' hd']

/-- The separator property holds in every child of a list that has it. -/
theorem separatorOKList_iff [LinearOrder K] : ∀ (vals : List (nodeI K V)),
    separatorOKList vals ↔ ∀ c ∈ vals, c.separatorOK
  | [] => by simp [separatorOKList]
  | c :: cs => by simp [separatorOKList, separatorOKList_iff cs]

/-- The reading of a well-formed subtree holds an entry for every leaf key. -/
theorem mem_leafKeys {order h : Nat} {n : nodeI K V} (w : WF order h n) {k : K}
    (hk : k ∈ n.leafKeys) : ∃ v, Item.ent k v ∈ n.items := by
  rw [leafKeys_eq w, List.mem_map] at hk
  obtain ⟨e, he, rfl⟩ := hk
  exact ⟨e.2, mem_ents.1 he⟩

/-- A separator with the children on its two sides. -/
theorem sep_cut {keys : List K} {vals : List (nodeI K V)} {i : Nat} {s : K}
    (hlen : vals.length = keys.length + 1) (hs : keys[i]? = some s) :
    ∃ k1 k2 v1 A B v2, keys = k1 ++ s :: k2 ∧ vals = v1 ++ A :: B :: v2 ∧
      v1.length = k1.length ∧ v2.length = k2.length ∧ k1.length = i := by
  have hi : i < keys.length := (List.getElem?_eq_some_iff.1 hs).1
  obtain ⟨k1, x, k2, rfl, hk1, hx⟩ := list_cut keys i hi
  obtain rfl : x = s := by
    rw [hs] at hx
    exact (Option.some.inj hx).symm
  obtain ⟨v1, A, r, rfl, hv1, _⟩ := list_cut vals i (by omega)
  have hr : 0 < r.length := by
    simp only [List.length_append, List.length_cons] at hlen
    omega
  obtain ⟨B, v2, rfl, hv2⟩ := list_cons_of_length_pos hr
  refine ⟨k1, k2, v1, A, B, v2, rfl, rfl, by omega, ?_, hk1⟩
  simp only [List.length_append, List.length_cons] at hlen
  omega

/-- An ordered reading gives the separator property at every interior node. -/
theorem separatorOK_of_sorted [LinearOrder K] {order : Nat} : ∀ {h : Nat} {n : nodeI K V},
    WF order h n → n.items.Pairwise Item.lt → n.separatorOK := by
  intro h n w
  induction w with
  | leaf a c keys vals h1 h2 h3 =>
    intro _
    simp [nodeI.separatorOK]
  | interior h a c keys vals h1 h2 h3 h4 h5 ih =>
    intro hs
    simp only [nodeI.separatorOK]
    refine ⟨?_, ?_, ?_⟩
    · intro i s x hks hvx k hk
      obtain ⟨k1, k2, v1, A, B, v2, rfl, rfl, hl1, hl2, hi⟩ := sep_cut h2 hks
      obtain rfl : A = x := by
        rw [← hi, ← hl1, List.getElem?_append_right (le_refl _)] at hvx
        simpa using hvx
      rw [items_pair a c k1 k2 s v1 v2 A B hl1 hl2] at hs
      have hmid := (pairwise_mid hs).2.1
      obtain ⟨v, hv⟩ := mem_leafKeys (h4 A (by simp)) hk
      have := pairwise_left hmid _ hv
      simpa using this
    · intro i s x hks hvx k hk
      obtain ⟨k1, k2, v1, A, B, v2, rfl, rfl, hl1, hl2, hi⟩ := sep_cut h2 hks
      obtain rfl : B = x := by
        have e : v1 ++ A :: B :: v2 = (v1 ++ [A]) ++ B :: v2 := by simp
        have hl : (v1 ++ [A]).length = i + 1 := by
          simp only [List.length_append, List.length_singleton]
          omega
        rw [e, ← hl, List.getElem?_append_right (le_refl _)] at hvx
        simpa using hvx
      rw [items_pair a c k1 k2 s v1 v2 A B hl1 hl2] at hs
      have hmid := (pairwise_mid hs).2.1
      obtain ⟨v, hv⟩ := mem_leafKeys (h4 B (by simp)) hk
      have := pairwise_right hmid _ hv
      simpa using this
    · rw [separatorOKList_iff]
      intro x hx
      obtain ⟨lv, rv, rfl⟩ := List.append_of_mem hx
      obtain ⟨lk, rk, rfl, hlk⟩ := list_cut_le keys lv.length (by
        simp only [List.length_append, List.length_cons] at h2
        omega)
      have hr : rv.length = rk.length := by
        simp only [List.length_append, List.length_cons] at h2
        omega
      rw [items_zoom a c lk rk lv rv x hlk.symm hr] at hs
      exact ih x hx (pairwise_mid hs).2.1

end Leaves

section Reach

variable {K V : Type} [LinearOrder K]

/-- The tree `mkTree` returns meets the invariant. -/
theorem inv_mkTree {order : Nat} (ho : 3 ≤ order) : Inv (mkTree order : tree K V) where
  order_ge := ho
  wf := ⟨0, WF.leaf 0 order [] [] rfl rfl (by
    simp only [mkTree, List.length_nil]
    omega)⟩
  rootFill := Or.inl rfl
  sorted := by simp [mkTree, mkLeaf, items_leaf]
  nodup := by simp [mkTree, mkLeaf, addrs_leaf]
  fresh := by simp [mkTree, mkLeaf, addrs_leaf]
  count := by simp [mkTree, mkLeaf, items_leaf]

/-- Every tree the package builds meets the invariant. -/
theorem Reachable.inv {t : tree K V} (hr : Reachable t) : Inv t := by
  induction hr with
  | new order t h =>
    unfold NewBpTree at h
    split at h
    · simp at h
    · simp only [Option.some.injEq] at h
      subst h
      exact inv_mkTree (by omega)
  | put t t' key val added _ h ih =>
    obtain ⟨t'', added', e, inv', _⟩ := Put_spec t ih key val
    rw [e] at h
    simp only [Option.some.injEq, Prod.mk.injEq] at h
    rw [← h.1]
    exact inv'
  | del t t' key r _ h ih =>
    obtain ⟨t'', val, found, e, inv', _⟩ := Del_spec t ih key
    rw [e] at h
    simp only [Option.some.injEq, Prod.mk.injEq] at h
    rw [← h.1]
    exact inv'

end Reach

section Results

variable {K V : Type} [LinearOrder K]

omit [LinearOrder K] in
theorem getResult_some (v : V) : getResult (some v) = (some v, true) := rfl

omit [LinearOrder K] in
theorem getResult_none : getResult (none : Option V) = (none, false) := rfl

omit [LinearOrder K] in
theorem getResult_eq_some {o : Option V} {v : V} (h : getResult o = (some v, true)) :
    o = some v := by
  cases o with
  | none => simp [getResult] at h
  | some x =>
    simp only [getResult, Prod.mk.injEq, Option.some.injEq, and_true] at h
    rw [h]

omit [LinearOrder K] in
theorem getResult_snd (o : Option V) : (getResult o).2 = o.isSome := by
  cases o <;> rfl

/-- Whether `Get` finds the key is whether the reading binds it. -/
theorem Get_found (t : tree K V) (inv : Inv t) (key : K) :
    (t.Get key).map Prod.snd = some (lookupEnt key (ents t.root.items)).isSome := by
  rw [Get_spec t inv key, Option.map_some', getResult_snd]

/-- The loop of `Put` calls over entries with distinct keys: it returns, the
tree it leaves meets the invariant, binds every entry put in, and binds every
other key as before. -/
theorem putEnts_spec : ∀ (l : List (K × V)) (t : tree K V), Inv t → (l.map Prod.fst).Nodup →
    ∃ t', putEnts t l = some t' ∧ Inv t' ∧
      (∀ e ∈ l, lookupEnt e.1 (ents t'.root.items) = some e.2) ∧
      (∀ k, k ∉ l.map Prod.fst →
        lookupEnt k (ents t'.root.items) = lookupEnt k (ents t.root.items))
  | [], t, inv, _ => ⟨t, rfl, inv, by simp, fun _ _ => rfl⟩
  | e :: l, t, inv, hnd => by
    rw [List.map_cons, List.nodup_cons] at hnd
    obtain ⟨t1, added, e1, inv1, _, hents, _⟩ := Put_spec t inv e.1 e.2
    obtain ⟨t', e2, inv', hin, hout⟩ := putEnts_spec l t1 inv1 hnd.2
    refine ⟨t', by simp only [putEnts, e1, e2], inv', ?_, ?_⟩
    · intro x hx
      rcases List.mem_cons.1 hx with rfl | hx
      · rw [hout _ hnd.1, hents, lookupEnt_insertSpec_self]
      · exact hin x hx
    · intro k hk
      rw [List.map_cons, List.mem_cons, not_or] at hk
      rw [hout k hk.2, hents, lookupEnt_insertSpec_ne _ _ hk.1]

/-- The sample tree `demo3` is built by three `Put` calls on `NewBpTree(3)`. -/
theorem demo3_reachable : Reachable demo3 :=
  Reachable.put demo2 demo3 3 30 true
    (Reachable.put demo1 demo2 2 20 true
      (Reachable.put demo0 demo1 1 10 true (Reachable.new 3 demo0 rfl) rfl) rfl) rfl

end Results

section Claims

variable {K V : Type} [LinearOrder K]

/-- C1: lookup after insert.  On every tree reachable from `NewBpTree(order)`,
`3 ≤ order`, by `Put` and `Del` calls, `Put(key, val)` returns and `Get(key)`
on the tree it leaves returns `(val, true)`, for every key and value (new or
present, with or without splits). -/
theorem put_then_get (t : tree K V) (hr : Reachable t) (key : K) (val : V) :
    ∃ t' added, t.Put key val = some (t', added) ∧ t'.Get key = some (some val, true) := by
  obtain ⟨t', added, e, inv', _, hents, _⟩ := Put_spec t hr.inv key val
  refine ⟨t', added, e, ?_⟩
  rw [Get_spec t' inv' key, hents, lookupEnt_insertSpec_self, getResult_some]

/-- The theorem `put_then_get` at the sample tree, key 7 and value 70. -/
theorem put_then_get_witness :
    Reachable demo3 ∧
      ∃ t' added, demo3.Put 7 70 = some (t', added) ∧ t'.Get 7 = some (some 70, true) :=
  ⟨demo3_reachable, put_then_get demo3 demo3_reachable 7 70⟩

/-- C2: `Put` leaves every other key untouched.  On every reachable tree,
`Get(k')` for `k' ≠ key` returns the same pair after `Put(key, val)` as before
it; and after the `Put` calls of any list of entries with distinct keys, `Get`
of each key returns its own value. -/
theorem put_frame (t : tree K V) (hr : Reachable t) :
    (∀ (key : K) (val : V), ∃ t' added, t.Put key val = some (t', added) ∧
      ∀ k', k' ≠ key → t'.Get k' = t.Get k') ∧
    (∀ l : List (K × V), (l.map Prod.fst).Nodup →
      ∃ t', putEnts t l = some t' ∧ ∀ e ∈ l, t'.Get e.1 = some (some e.2, true)) := by
  constructor
  · intro key val
    obtain ⟨t', added, e, inv', _, hents, _⟩ := Put_spec t hr.inv key val
    refine ⟨t', added, e, fun k' hk => ?_⟩
    rw [Get_spec t' inv' k', Get_spec t hr.inv k', hents, lookupEnt_insertSpec_ne _ _ hk]
  · intro l hnd
    obtain ⟨t', e, inv', hin, _⟩ := putEnts_spec l t hr.inv hnd
    refine ⟨t', e, fun x hx => ?_⟩
    rw [Get_spec t' inv' x.1, hin x hx, getResult_some]

/-- The theorem `put_frame` at the sample tree: `Put(7, 70)` and the entries
`(7, 70), (4, 40)`. -/
theorem put_frame_witness :
    Reachable demo3 ∧
      (∃ t' added, demo3.Put 7 70 = some (t', added) ∧
        ∀ k', k' ≠ 7 → t'.Get k' = demo3.Get k') ∧
      (∃ t', putEnts demo3 [(7, 70), (4, 40)] = some t' ∧
        ∀ e ∈ [(7, 70), (4, 40)], t'.Get e.1 = some (some e.2, true)) :=
  ⟨demo3_reachable, (put_frame demo3 demo3_reachable).1 7 70,
    (put_frame demo3 demo3_reachable).2 [(7, 70), (4, 40)] (by decide)⟩

/-- C3: `Del` returns the stored value.  On every reachable tree, when
`Get(key)` returns `(v, true)`, `Del(key)` returns `(v, true)`. -/
theorem del_returns_value (t : tree K V) (hr : Reachable t) (key : K) (v : V)
    (hg : t.Get key = some (some v, true)) :
    ∃ t', t.Del key = some (t', some v, true) := by
  obtain ⟨t', val, found, e, _, _, _, hval, hfound, _⟩ := Del_spec t hr.inv key
  rw [Get_spec t hr.inv key, Option.some.injEq] at hg
  have hl := getResult_eq_some hg
  rw [hl] at hval hfound
  subst hval
  simp only [Option.isSome_some] at hfound
  subst hfound
  exact ⟨t', e⟩

/-- The theorem `del_returns_value` at the sample tree and key 3. -/
theorem del_returns_value_witness :
    Reachable demo3 ∧ demo3.Get 3 = some (some 30, true) ∧
      ∃ t', demo3.Del 3 = some (t', some 30, true) :=
  ⟨demo3_reachable, rfl, del_returns_value demo3 demo3_reachable 3 30 rfl⟩

/-- C4: lookup after delete.  On every reachable tree, when `Get(key)` finds
the key, `Del(key)` returns, on the tree it leaves `Get(key)` returns
`(nil, false)`, and `NumberOfEntries()` is one less than before. -/
theorem del_then_get (t : tree K V) (hr : Reachable t) (key : K)
    (hp : (t.Get key).map Prod.snd = some true) :
    ∃ t' r, t.Del key = some (t', r) ∧ t'.Get key = some (none, false) ∧
      t'.NumberOfEntries = t.NumberOfEntries - 1 := by
  obtain ⟨t', val, found, e, inv', _, hents, _, hfound, hnum, _⟩ := Del_spec t hr.inv key
  rw [Get_found t hr.inv key, Option.some.injEq] at hp
  rw [hp] at hfound
  subst hfound
  refine ⟨t', (val, true), e, ?_, ?_⟩
  · rw [Get_spec t' inv' key, hents, lookupEnt_eraseSpec_self, getResult_none]
  · simpa [tree.NumberOfEntries] using hnum

/-- The theorem `del_then_get` at the sample tree and key 1. -/
theorem del_then_get_witness :
    Reachable demo3 ∧ (demo3.Get 1).map Prod.snd = some true ∧
      ∃ t' r, demo3.Del 1 = some (t', r) ∧ t'.Get 1 = some (none, false) ∧
        t'.NumberOfEntries = demo3.NumberOfEntries - 1 :=
  ⟨demo3_reachable, rfl, del_then_get demo3 demo3_reachable 1 rfl⟩

/-- C5: `Del` leaves every other key untouched.  On every reachable tree,
`Del(key)` returns and `Get(k')` for `k' ≠ key` returns the same pair after it
as before it (through steals, merges at any number of levels and the collapse
of the root). -/
theorem del_frame (t : tree K V) (hr : Reachable t) (key : K) :
    ∃ t' r, t.Del key = some (t', r) ∧ ∀ k', k' ≠ key → t'.Get k' = t.Get k' := by
  obtain ⟨t', val, found, e, inv', _, hents, _⟩ := Del_spec t hr.inv key
  refine ⟨t', (val, found), e, fun k' hk => ?_⟩
  rw [Get_spec t' inv' k', Get_spec t hr.inv k', hents, lookupEnt_eraseSpec_ne _ hk]

/-- The theorem `del_frame` at the sample tree and key 1 (the leaf left empty
steals from its right peer). -/
theorem del_frame_witness :
    Reachable demo3 ∧
      ∃ t' r, demo3.Del 1 = some (t', r) ∧ ∀ k', k' ≠ 1 → t'.Get k' = demo3.Get k' :=
  ⟨demo3_reachable, del_frame demo3 demo3_reachable 1⟩

/-- C6: the boolean `Put` returns.  On every reachable tree, `Put(key, val)`
returns true iff `Get(key)` had found = false before the call, and false iff
`Get(key)` had a value before the call (which the call replaced by `val`);
when it returns false `NumberOfEntries()` stays, when it returns true it grows
by one. -/
theorem put_result (t : tree K V) (hr : Reachable t) (key : K) (val : V) :
    ∃ t' added, t.Put key val = some (t', added) ∧
      (added = true ↔ (t.Get key).map Prod.snd = some false) ∧
      (added = false ↔ ∃ v0, t.Get key = some (some v0, true)) ∧
      t'.Get key = some (some val, true) ∧
      (added = false → t'.NumberOfEntries = t.NumberOfEntries) ∧
      (added = true → t'.NumberOfEntries = t.NumberOfEntries + 1) := by
  obtain ⟨t', added, e, inv', _, hents, hadd, hnum⟩ := Put_spec t hr.inv key val
  refine ⟨t', added, e, ?_, ?_, ?_, ?_, ?_⟩
  · rw [Get_found t hr.inv key, hadd]
    cases (lookupEnt key (ents t.root.items)).isSome <;> simp
  · rw [Get_spec t hr.inv key, hadd]
    cases lookupEnt key (ents t.root.items) with
    | none => simp [getResult]
    | some v0 => simp [getResult]
  · rw [Get_spec t' inv' key, hents, lookupEnt_insertSpec_self, getResult_some]
  · intro h
    simpa [tree.NumberOfEntries, h] using hnum
  · intro h
    simpa [tree.NumberOfEntries, h] using hnum

/-- The theorem `put_result` at the sample tree, key 3 and value 33. -/
theorem put_result_witness :
    Reachable demo3 ∧
      ∃ t' added, demo3.Put 3 33 = some (t', added) ∧
        (added = true ↔ (demo3.Get 3).map Prod.snd = some false) ∧
        (added = false ↔ ∃ v0, demo3.Get 3 = some (some v0, true)) ∧
        t'.Get 3 = some (some 33, true) ∧
        (added = false → t'.NumberOfEntries = demo3.NumberOfEntries) ∧
        (added = true → t'.NumberOfEntries = demo3.NumberOfEntries + 1) :=
  ⟨demo3_reachable, put_result demo3 demo3_reachable 3 33⟩

/-- C7: `Del` of an absent key.  On every reachable tree, when `Get(key)` has
found = false, `Del(key)` returns `(nil, false)` and leaves the tree as it
was: the same root with the same nodes, keys, values and children, and the
same `NumberOfEntries()`. -/
theorem del_absent (t : tree K V) (hr : Reachable t) (key : K)
    (hp : (t.Get key).map Prod.snd = some false) :
    t.Del key = some (t, none, false) := by
  obtain ⟨t', val, found, e, _, _, _, hval, hfound, _, hsame⟩ := Del_spec t hr.inv key
  rw [Get_found t hr.inv key, Option.some.injEq] at hp
  rw [hp] at hfound
  subst hfound
  have hnone : lookupEnt key (ents t.root.items) = none := by
    cases h : lookupEnt key (ents t.root.items) with
    | none => rfl
    | some v => simp [h] at hp
  rw [hnone] at hval
  rw [e, hsame rfl, hval]

/-- The theorem `del_absent` at the sample tree and key 9. -/
theorem del_absent_witness :
    Reachable demo3 ∧ (demo3.Get 9).map Prod.snd = some false ∧
      demo3.Del 9 = some (demo3, none, false) :=
  ⟨demo3_reachable, rfl, del_absent demo3 demo3_reachable 9 rfl⟩

/-- C8: I2 ordering.  On every reachable tree the leaf keys, read left to
right over all leaves, are strictly increasing, so no key occurs twice. -/
theorem ordering_invariant (t : tree K V) (hr : Reachable t) :
    t.root.leafKeys.Pairwise (· < ·) ∧ t.root.leafKeys.Nodup := by
  obtain ⟨h, w⟩ := hr.inv.wf
  have hp : t.root.leafKeys.Pairwise (· < ·) := by
    rw [leafKeys_eq w, List.pairwise_map]
    exact ents_pairwise hr.inv.sorted
  exact ⟨hp, hp.imp (fun h => ne_of_lt h)⟩

/-- The theorem `ordering_invariant` at the sample tree. -/
theorem ordering_invariant_witness :
    Reachable demo3 ∧ demo3.root.leafKeys.Pairwise (· < ·) ∧ demo3.root.leafKeys.Nodup :=
  ⟨demo3_reachable, ordering_invariant demo3 demo3_reachable⟩

/-- C9: I5 separators.  On every reachable tree, at every interior node with
separators `s[i]` and children `c[i]`, every key of a leaf under `c[i]` is
less than `s[i]` and every key of a leaf under `c[i+1]` is at least `s[i]`. -/
theorem separator_invariant (t : tree K V) (hr : Reachable t) : t.root.separatorOK := by
  obtain ⟨h, w⟩ := hr.inv.wf
  exact separatorOK_of_sorted w hr.inv.sorted

/-- The theorem `separator_invariant` at the sample tree. -/
theorem separator_invariant_witness : Reachable demo3 ∧ demo3.root.separatorOK :=
  ⟨demo3_reachable, separator_invariant demo3 demo3_reachable⟩

/-- C10: I1 balance.  On every reachable tree all leaves are at the same depth
from the root. -/
theorem balance_invariant (t : tree K V) (hr : Reachable t) :
    ∀ d1 ∈ t.root.leafDepths, ∀ d2 ∈ t.root.leafDepths, d1 = d2 := by
  obtain ⟨h, w⟩ := hr.inv.wf
  intro d1 h1 d2 h2
  rw [leafDepths_eq w d1 h1, leafDepths_eq w d2 h2]

/-- The theorem `balance_invariant` at the sample tree. -/
theorem balance_invariant_witness :
    Reachable demo3 ∧ ∀ d1 ∈ demo3.root.leafDepths, ∀ d2 ∈ demo3.root.leafDepths, d1 = d2 :=
  ⟨demo3_reachable, balance_invariant demo3 demo3_reachable⟩

end Claims

section Nodes

variable {K V : Type}

theorem ceilHalf_le_iff (n m : Nat) : ceilHalf n ≤ m ↔ n ≤ 2 * m := by
  unfold ceilHalf
  omega

theorem nodesList_eq : ∀ (vs : List (nodeI K V)), nodesList vs = (vs.map nodeI.nodes).flatten
  | [] => rfl
  | c :: cs => by simp [nodesList, nodesList_eq cs]

theorem entryCountList_eq : ∀ (vs : List (nodeI K V)),
    entryCountList vs = (vs.map nodeI.entryCount).sum
  | [] => rfl
  | c :: cs => by simp [entryCountList, entryCountList_eq cs]

theorem mem_nodesList {x : nodeI K V} {vs : List (nodeI K V)} :
    x ∈ nodesList vs ↔ ∃ c ∈ vs, x ∈ c.nodes := by
  rw [nodesList_eq]
  simp [List.mem_flatten]

/-- The nodes of a subtree are its top node and the nodes below its children. -/
theorem nodes_eq (n : nodeI K V) : n.nodes = n :: nodesList n.children := by
  cases n <;> simp [nodeI.nodes, nodeI.children, nodesList]

/-- Every node below the top of a well-formed subtree is well-formed and
holds its minimum. -/
theorem WF.of_below {order : Nat} : ∀ {h : Nat} {n : nodeI K V}, WF order h n →
    ∀ x ∈ nodesList n.children, ∃ h', WF order h' x ∧ MinFill x := by
  intro h n w
  induction w with
  | leaf a c keys vals h1 h2 h3 =>
    intro x hx
    simp [nodeI.children, nodesList] at hx
  | interior h a c keys vals h1 h2 h3 h4 h5 ih =>
    intro x hx
    simp only [nodeI.children] at hx
    obtain ⟨y, hy, hxy⟩ := mem_nodesList.1 hx
    rw [nodes_eq, List.mem_cons] at hxy
    rcases hxy with rfl | hxy
    · exact ⟨h, h4 x hy, h5 x hy⟩
    · exact ih y hy x hxy

/-- Every node of a well-formed subtree is well-formed. -/
theorem WF.of_mem_nodes {order h : Nat} {n : nodeI K V} (w : WF order h n) :
    ∀ x ∈ n.nodes, ∃ h', WF order h' x := by
  intro x hx
  rw [nodes_eq, List.mem_cons] at hx
  rcases hx with rfl | hx
  · exact ⟨h, w⟩
  · obtain ⟨h', w', _⟩ := w.of_below x hx
    exact ⟨h', w'⟩

/-- A well-formed node has parallel slices. -/
theorem WF.parallel {order h : Nat} {n : nodeI K V} (w : WF order h n) : n.parallel := by
  cases w with
  | leaf a c keys vals h1 h2 h3 => exact h2
  | interior h a c keys vals h1 h2 h3 h4 h5 => exact h2.symm

/-- The entries counted leaf by leaf are the entries of the reading. -/
theorem entryCount_eq {order : Nat} : ∀ {h : Nat} {n : nodeI K V}, WF order h n →
    n.entryCount = (ents n.items).length := by
  intro h n w
  induction w with
  | leaf a c keys vals h1 h2 h3 =>
    rw [items_leaf, ents_zipWith]
    simp [nodeI.entryCount, h2]
  | interior h a c keys vals h1 h2 h3 h4 h5 ih =>
    simp only [nodeI.entryCount]
    rw [entryCountList_eq, items_interior, ents_interleave _ _ (by simpa using h2),
      List.length_flatten, List.map_map, List.map_map]
    congr 1
    apply List.map_congr_left
    intro x hx
    exact ih x hx

end Nodes

section ParallelOps

variable {K V : Type}

/-- `leafNodeS.insert` keeps the slices of a leaf parallel. -/
theorem leafInsert_parallel [LinearOrder K] (key : K) (val : V) {n n' : nodeI K V} {b : Bool}
    (hp : n.parallel) (h : leafNodeS.insert key val n = some (n', b)) : n'.parallel := by
  cases n with
  | interiorNodeS a c keys vals => simp [leafNodeS.insert] at h
  | leafNodeS a c keys vals =>
    simp only [nodeI.parallel] at hp
    simp only [leafNodeS.insert] at h
    split at h
    · split at h
      · simp only [Option.some.injEq, Prod.mk.injEq] at h
        rw [← h.1]
        simpa [nodeI.parallel] using hp
      · simp at h
    · split at h
      · rename_i i _ hi
        simp only [Option.some.injEq, Prod.mk.injEq] at h
        rw [← h.1]
        simp only [nodeI.parallel, List.length_append, List.length_cons, List.length_take,
          List.length_drop]
        omega
      · simp at h
    · simp only [Option.some.injEq, Prod.mk.injEq] at h
      rw [← h.1]
      simp [nodeI.parallel, hp]

/-- `interiorNodeS.insert` keeps the slices of an interior node parallel. -/
theorem interiorInsert_parallel [LinearOrder K] (key : K) (val : nodeI K V) {n n' : nodeI K V}
    (hp : n.parallel) (h : interiorNodeS.insert key val n = some n') : n'.parallel := by
  cases n with
  | leafNodeS a c keys vals => simp [interiorNodeS.insert] at h
  | interiorNodeS a c keys vals =>
    simp only [nodeI.parallel] at hp
    simp only [interiorNodeS.insert] at h
    split at h
    · split at h
      · simp only [Option.some.injEq] at h
        rw [← h]
        simp only [nodeI.parallel, List.length_append, List.length_cons, List.length_take,
          List.length_drop]
        omega
      · simp at h
    · simp only [Option.some.injEq] at h
      rw [← h]
      simp [nodeI.parallel, hp]

/-- `leafNodeS.split` leaves two leaves with parallel slices. -/
theorem leafSplit_parallel (newAddr : Nat) {n l r : nodeI K V} {k : K}
    (hp : n.parallel) (h : leafNodeS.split newAddr n = some (l, r, k)) :
    l.parallel ∧ r.parallel := by
  cases n with
  | interiorNodeS a c keys vals => simp [leafNodeS.split] at h
  | leafNodeS a c keys vals =>
    simp only [nodeI.parallel] at hp
    simp only [leafNodeS.split] at h
    split at h
    · simp at h
    · simp only [Option.some.injEq, Prod.mk.injEq] at h
      rw [← h.1, ← h.2.1]
      simp only [nodeI.parallel, List.length_take, List.length_drop]
      omega

/-- `interiorNodeS.split` leaves two interior nodes with parallel slices. -/
theorem interiorSplit_parallel (newAddr : Nat) {n l r : nodeI K V} {k : K}
    (hp : n.parallel) (h : interiorNodeS.split newAddr n = some (l, r, k)) :
    l.parallel ∧ r.parallel := by
  cases n with
  | leafNodeS a c keys vals => simp [interiorNodeS.split] at h
  | interiorNodeS a c keys vals =>
    simp only [nodeI.parallel] at hp
    simp only [interiorNodeS.split] at h
    split at h
    · split at h
      · simp at h
      · simp only [Option.some.injEq, Prod.mk.injEq] at h
        rw [← h.1, ← h.2.1]
        simp only [nodeI.parallel, List.length_take, List.length_drop]
        omega
    · split at h
      · simp at h
      · split at h
        · simp at h
        · simp only [Option.some.injEq, Prod.mk.injEq] at h
          rw [← h.1, ← h.2.1]
          simp only [nodeI.parallel, List.length_take, List.length_drop]
          omega

/-- `stealLeft` leaves the receiver and the left peer with parallel slices. -/
theorem stealLeft_parallel {r l r' l' : nodeI K V} (hr : r.parallel) (hl : l.parallel)
    (h : r.stealLeft l = some (r', l')) : r'.parallel ∧ l'.parallel := by
  cases r with
  | leafNodeS ra rc rkeys rvals =>
    cases l with
    | interiorNodeS la lc lkeys lvals => simp [nodeI.stealLeft] at h
    | leafNodeS la lc lkeys lvals =>
      simp only [nodeI.parallel] at hr hl
      simp only [nodeI.stealLeft] at h
      split at h
      · simp only [Option.some.injEq, Prod.mk.injEq] at h
        rw [← h.1, ← h.2]
        simp [nodeI.parallel, hr, hl]
      · simp at h
  | interiorNodeS ra rc rkeys rvals =>
    cases l with
    | leafNodeS la lc lkeys lvals => simp [nodeI.stealLeft] at h
    | interiorNodeS la lc lkeys lvals =>
      simp only [nodeI.parallel] at hr hl
      simp only [nodeI.stealLeft] at h
      split at h
      · split at h
        · simp only [Option.some.injEq, Prod.mk.injEq] at h
          rw [← h.1, ← h.2]
          simp only [nodeI.parallel, List.length_cons, List.length_dropLast] at hl ⊢
          omega
        · simp at h
      · simp at h

/-- `stealRight` leaves the receiver and the right peer with parallel slices. -/
theorem stealRight_parallel {l r l' r' : nodeI K V} (hl : l.parallel) (hr : r.parallel)
    (h : l.stealRight r = some (l', r')) : l'.parallel ∧ r'.parallel := by
  cases l with
  | leafNodeS la lc lkeys lvals =>
    cases r with
    | interiorNodeS ra rc rkeys rvals => simp [nodeI.stealRight] at h
    | leafNodeS ra rc rkeys rvals =>
      simp only [nodeI.parallel] at hr hl
      simp only [nodeI.stealRight] at h
      split at h
      · simp only [Option.some.injEq, Prod.mk.injEq] at h
        rw [← h.1, ← h.2]
        simp only [nodeI.parallel, List.length_cons, List.length_append,
          List.length_singleton, List.length_nil] at hr ⊢
        omega
      · simp at h
  | interiorNodeS la lc lkeys lvals =>
    cases r with
    | leafNodeS ra rc rkeys rvals => simp [nodeI.stealRight] at h
    | interiorNodeS ra rc rkeys rvals =>
      simp only [nodeI.parallel] at hr hl
      simp only [nodeI.stealRight] at h
      split at h
      · split at h
        · simp only [Option.some.injEq, Prod.mk.injEq] at h
          rw [← h.1, ← h.2]
          simp only [nodeI.parallel, List.length_cons, List.length_append,
            List.length_singleton, List.length_nil] at hr ⊢
          omega
        · simp at h
      · simp at h

/-- `mergeRight` leaves the receiver with parallel slices. -/
theorem mergeRight_parallel {l r m : nodeI K V} (hl : l.parallel) (hr : r.parallel)
    (h : l.mergeRight r = some m) : m.parallel := by
  cases l with
  | leafNodeS la lc lkeys lvals =>
    cases r with
    | interiorNodeS ra rc rkeys rvals => simp [nodeI.mergeRight] at h
    | leafNodeS ra rc rkeys rvals =>
      simp only [nodeI.parallel] at hr hl
      simp only [nodeI.mergeRight, Option.some.injEq] at h
      rw [← h]
      simp [nodeI.parallel, hl, hr]
  | interiorNodeS la lc lkeys lvals =>
    cases r with
    | leafNodeS ra rc rkeys rvals => simp [nodeI.mergeRight] at h
    | interiorNodeS ra rc rkeys rvals =>
      simp only [nodeI.parallel] at hr hl
      simp only [nodeI.mergeRight] at h
      split at h
      · simp only [Option.some.injEq] at h
        rw [← h]
        simp only [nodeI.parallel, List.length_cons, List.length_append]
        omega
      · simp at h

/-- The index the loop of `delUp` stops at is an index of the slice. -/
theorem nodeIndex_lt (n : nodeI K V) : ∀ (vals : List (nodeI K V)) (i : Nat),
    nodeIndex n vals = some (some i) → i < vals.length
  | [], i, h => by simp [nodeIndex] at h
  | c :: cs, i, h => by
    simp only [nodeIndex] at h
    split at h
    · simp at h
    · simp only [Option.some.injEq] at h
      subst h
      simp
    · cases hcs : nodeIndex n cs with
      | none => simp [hcs] at h
      | some r =>
        cases r with
        | none => simp [hcs] at h
        | some j =>
          simp only [hcs, Option.map_some', Option.some.injEq] at h
          subst h
          have := nodeIndex_lt n cs j hcs
          simp
          omega

/-- The removal of the dead node and its separator in `delUp` leaves the
parent with parallel slices. -/
theorem removeDead_parallel {d p p' : nodeI K V} (hp : p.parallel)
    (h : removeDead d p = some p') : p'.parallel := by
  cases p with
  | leafNodeS a c keys vals => simp [removeDead] at h
  | interiorNodeS a c keys vals =>
    simp only [nodeI.parallel] at hp
    simp only [removeDead] at h
    split at h
    · simp at h
    · simp only [Option.some.injEq] at h
      rw [← h]
      exact hp
    · simp at h
    · rename_i i hi
      have hlt := nodeIndex_lt d vals (i + 1) hi
      split at h
      · simp only [Option.some.injEq] at h
        rw [← h]
        simp only [nodeI.parallel, List.length_append, List.length_take, List.length_drop]
        omega
      · simp at h

end ParallelOps

section Loops

variable {K V : Type} [LinearOrder K]

/-- The loop of `Put` calls over entries with distinct keys that the tree does
not bind: the count grows by the number of entries. -/
theorem putEnts_count : ∀ (l : List (K × V)) (t t' : tree K V), Inv t →
    (l.map Prod.fst).Nodup → (∀ e ∈ l, lookupEnt e.1 (ents t.root.items) = none) →
    putEnts t l = some t' → t'.numEnts = t.numEnts + (l.length : Int)
  | [], t, t', _, _, _, h => by
    simp only [putEnts, Option.some.injEq] at h
    rw [← h]
    simp
  | e :: l, t, t', inv, hnd, hfree, h => by
    rw [List.map_cons, List.nodup_cons] at hnd
    obtain ⟨t1, added, e1, inv1, _, hents, hadd, hnum⟩ := Put_spec t inv e.1 e.2
    simp only [putEnts, e1] at h
    have hfree1 : ∀ x ∈ l, lookupEnt x.1 (ents t1.root.items) = none := by
      intro x hx
      have hne : x.1 ≠ e.1 := fun he => hnd.1 (he ▸ List.mem_map_of_mem Prod.fst hx)
      rw [hents, lookupEnt_insertSpec_ne _ _ hne]
      exact hfree x (List.mem_cons_of_mem _ hx)
    have ih := putEnts_count l t1 t' inv1 hnd.2 hfree1 h
    rw [hfree e (List.mem_cons_self _ _)] at hadd
    simp only [Option.isSome_none, Bool.not_false] at hadd
    rw [hadd] at hnum
    simp only [if_true] at hnum
    rw [ih, hnum, List.length_cons]
    push_cast
    ring

/-- The loop of `Del` calls: it returns, the tree it leaves meets the
invariant and binds what the tree bound but for the keys deleted. -/
theorem delEnts_spec : ∀ (ks : List K) (t : tree K V), Inv t →
    ∃ t', delEnts t ks = some t' ∧ Inv t' ∧
      ents t'.root.items = (ents t.root.items).filter (fun e => decide (e.1 ∉ ks))
  | [], t, inv => ⟨t, rfl, inv, by simp⟩
  | k :: ks, t, inv => by
    obtain ⟨t1, val, found, e1, inv1, _, hents, _⟩ := Del_spec t inv k
    obtain ⟨t', e2, inv', hents'⟩ := delEnts_spec ks t1 inv1
    refine ⟨t', by simp only [delEnts, e1, e2], inv', ?_⟩
    rw [hents', hents, eraseSpec, List.filter_filter]
    apply List.filter_congr
    intro x _
    simp only [List.mem_cons, not_or, ne_eq, Bool.decide_and, Bool.and_comm]

omit [LinearOrder K] in
/-- A subtree that holds its minimum holds an entry. -/
theorem WF.ents_pos {order : Nat} (ho : 2 ≤ order) : ∀ {h : Nat} {n : nodeI K V},
    WF order h n → MinFill n → 0 < (ents n.items).length := by
  intro h n w
  induction w with
  | leaf a c keys vals h1 h2 h3 =>
    intro m
    subst h1
    have := MinFill.leaf_pos ho m
    rw [items_leaf, ents_zipWith]
    simp only [List.length_zip]
    omega
  | interior h a c keys vals h1 h2 h3 h4 h5 ih =>
    intro _
    obtain ⟨x, vs, rfl, _⟩ := list_cons_of_length_pos (show 0 < vals.length by omega)
    have hx := ih x (by simp) (h5 x (by simp))
    rw [items_interior, ents_interleave _ _ (by simpa using h2)]
    simp only [List.map_cons, List.flatten_cons, List.length_append]
    omega

/-- A tree that binds no key is an empty leaf. -/
theorem root_of_ents_nil {t : tree K V} (inv : Inv t) (h : ents t.root.items = []) :
    ∃ a, t.root = nodeI.leafNodeS a t.order [] [] := by
  obtain ⟨ht, w⟩ := inv.wf
  cases hroot : t.root with
  | leafNodeS a c keys vals =>
    rw [hroot] at w h
    obtain ⟨_, hc, hlen, _⟩ := w.leaf_inv
    rw [items_leaf, ents_zipWith] at h
    have h0 : (List.zip keys vals).length = 0 := by rw [h]; rfl
    simp only [List.length_zip] at h0
    have hk : keys = [] := List.length_eq_zero.1 (by omega)
    have hv : vals = [] := List.length_eq_zero.1 (by omega)
    exact ⟨a, by rw [hk, hv, hc]⟩
  | interiorNodeS a c keys vals =>
    exfalso
    rw [hroot] at w h
    obtain ⟨h', _, _, hlen, _, hch, hmf⟩ := w.interior_inv
    obtain ⟨x, vs, rfl, _⟩ := list_cons_of_length_pos (show 0 < vals.length by omega)
    have hx := WF.ents_pos (by have := inv.order_ge; omega) (hch x (by simp)) (hmf x (by simp))
    rw [items_interior, ents_interleave _ _ (by simpa using hlen)] at h
    simp only [List.map_cons, List.flatten_cons, List.append_eq_nil] at h
    rw [h.1] at hx
    simp at hx

omit [LinearOrder K] in
/-- The tree `NewBpTree` returns for an order of at least 3. -/
theorem NewBpTree_some (order : Int) (ho : 3 ≤ order) :
    (NewBpTree order : Option (tree K V)) = some (mkTree order.toNat) ∧ 3 ≤ order.toNat := by
  refine ⟨?_, by omega⟩
  unfold NewBpTree
  rw [if_neg (by omega)]

end Loops

section Claims2

variable {K V : Type} [LinearOrder K]

/-- C11: I3 leaf fill.  On every reachable tree, every leaf below the root
holds at least `⌈(order−1)/2⌉` and at most `order−1` entries (keys and values
alike), and a root that is a leaf holds at most `order−1`. -/
theorem leaf_fill_invariant (t : tree K V) (hr : Reachable t) :
    (∀ n ∈ nodesList t.root.children, n.isLeaf = true →
      ceilHalf (t.order - 1) ≤ n.size ∧ n.size ≤ t.order - 1 ∧ n.numKeys = n.size) ∧
    (t.root.isLeaf = true → t.root.size ≤ t.order - 1 ∧ t.root.numKeys = t.root.size) := by
  obtain ⟨h, w⟩ := hr.inv.wf
  have ho := hr.inv.order_ge
  constructor
  · intro n hn hl
    obtain ⟨h', w', m⟩ := w.of_below n hn
    cases w' with
    | interior h a c keys vals h1 h2 h3 h4 h5 => simp [nodeI.isLeaf] at hl
    | leaf a c keys vals h1 h2 h3 =>
      unfold MinFill at m
      simp only [nodeI.halfFullSize, nodeI.size] at m
      simp only [nodeI.size, nodeI.numKeys, ceilHalf]
      omega
  · intro hl
    generalize t.root = r at w hl ⊢
    cases w with
    | interior h a c keys vals h1 h2 h3 h4 h5 => simp [nodeI.isLeaf] at hl
    | leaf a c keys vals h1 h2 h3 =>
      simp only [nodeI.size, nodeI.numKeys]
      omega

/-- The theorem `leaf_fill_invariant` at the sample tree. -/
theorem leaf_fill_invariant_witness :
    Reachable demo3 ∧
      (∀ n ∈ nodesList demo3.root.children, n.isLeaf = true →
        ceilHalf (demo3.order - 1) ≤ n.size ∧ n.size ≤ demo3.order - 1 ∧
          n.numKeys = n.size) ∧
      (demo3.root.isLeaf = true →
        demo3.root.size ≤ demo3.order - 1 ∧ demo3.root.numKeys = demo3.root.size) :=
  ⟨demo3_reachable, leaf_fill_invariant demo3 demo3_reachable⟩

/-- C12: I4 interior fill.  On every reachable tree, every interior node below
the root has at least `⌈order/2⌉` and at most `order` children, and a root
that is an interior node has at least 2 and at most `order` children. -/
theorem interior_fill_invariant (t : tree K V) (hr : Reachable t) :
    (∀ n ∈ nodesList t.root.children, n.isLeaf = false →
      ceilHalf t.order ≤ n.size ∧ n.size ≤ t.order) ∧
    (t.root.isLeaf = false → 2 ≤ t.root.size ∧ t.root.size ≤ t.order) := by
  obtain ⟨h, w⟩ := hr.inv.wf
  constructor
  · intro n hn hl
    obtain ⟨h', w', m⟩ := w.of_below n hn
    cases w' with
    | leaf a c keys vals h1 h2 h3 => simp [nodeI.isLeaf] at hl
    | interior h a c keys vals h1 h2 h3 h4 h5 =>
      unfold MinFill at m
      simp only [nodeI.halfFullSize, nodeI.size] at m
      simp only [nodeI.size, ceilHalf]
      omega
  · intro hl
    have hf := hr.inv.rootFill
    generalize t.root = r at w hl hf ⊢
    cases w with
    | leaf a c keys vals h1 h2 h3 => simp [nodeI.isLeaf] at hl
    | interior h a c keys vals h1 h2 h3 h4 h5 =>
      rcases hf with hf | hf
      · simp [nodeI.isLeaf] at hf
      · simp only [nodeI.size] at hf ⊢
        omega

/-- The theorem `interior_fill_invariant` at the sample tree. -/
theorem interior_fill_invariant_witness :
    Reachable demo3 ∧
      (∀ n ∈ nodesList demo3.root.children, n.isLeaf = false →
        ceilHalf demo3.order ≤ n.size ∧ n.size ≤ demo3.order) ∧
      (demo3.root.isLeaf = false → 2 ≤ demo3.root.size ∧ demo3.root.size ≤ demo3.order) :=
  ⟨demo3_reachable, interior_fill_invariant demo3 demo3_reachable⟩

/-- C13: I6 parallelism.  On every reachable tree every leaf has as many
values as keys and every interior node one child more than separators; and
each node operation that returns keeps the slices of the nodes it leaves
parallel: leaf and interior insert, both splits, both steals, the merge, and
the removal of the dead node and its separator in `delUp`. -/
theorem parallel_invariant (t : tree K V) (hr : Reachable t) :
    (∀ n ∈ t.root.nodes, n.parallel) ∧
    (∀ (key : K) (val : V) (n n' : nodeI K V) (b : Bool), n.parallel →
      leafNodeS.insert key val n = some (n', b) → n'.parallel) ∧
    (∀ (key : K) (val n n' : nodeI K V), n.parallel →
      interiorNodeS.insert key val n = some n' → n'.parallel) ∧
    (∀ (newAddr : Nat) (n l r : nodeI K V) (k : K), n.parallel →
      leafNodeS.split newAddr n = some (l, r, k) → l.parallel ∧ r.parallel) ∧
    (∀ (newAddr : Nat) (n l r : nodeI K V) (k : K), n.parallel →
      interiorNodeS.split newAddr n = some (l, r, k) → l.parallel ∧ r.parallel) ∧
    (∀ (r l r' l' : nodeI K V), r.parallel → l.parallel →
      r.stealLeft l = some (r', l') → r'.parallel ∧ l'.parallel) ∧
    (∀ (l r l' r' : nodeI K V), l.parallel → r.parallel →
      l.stealRight r = some (l', r') → l'.parallel ∧ r'.parallel) ∧
    (∀ (l r m : nodeI K V), l.parallel → r.parallel →
      l.mergeRight r = some m → m.parallel) ∧
    (∀ (d p p' : nodeI K V), p.parallel → removeDead d p = some p' → p'.parallel) := by
  obtain ⟨h, w⟩ := hr.inv.wf
  refine ⟨?_, ?_, ?_, ?_, ?_, ?_, ?_, ?_, ?_⟩
  · intro n hn
    obtain ⟨h', w'⟩ := w.of_mem_nodes n hn
    exact w'.parallel
  · exact fun key val n n' b hp he => leafInsert_parallel key val hp he
  · exact fun key val n n' hp he => interiorInsert_parallel key val hp he
  · exact fun newAddr n l r k hp he => leafSplit_parallel newAddr hp he
  · exact fun newAddr n l r k hp he => interiorSplit_parallel newAddr hp he
  · exact fun r l r' l' h1 h2 he => stealLeft_parallel h1 h2 he
  · exact fun l r l' r' h1 h2 he => stealRight_parallel h1 h2 he
  · exact fun l r m h1 h2 he => mergeRight_parallel h1 h2 he
  · exact fun d p p' hp he => removeDead_parallel hp he

/-- The theorem `parallel_invariant` at the sample tree: its nodes. -/
theorem parallel_invariant_witness :
    Reachable demo3 ∧ ∀ n ∈ demo3.root.nodes, n.parallel :=
  ⟨demo3_reachable, (parallel_invariant demo3 demo3_reachable).1⟩

/-- C14: I7 size.  On every reachable tree `NumberOfEntries()` is the number
of entries stored in the leaves under the root (which is the number of leaf
keys); `Put` leaves one entry more exactly when it stored a new key, `Del` one
entry less exactly when it removed a key. -/
theorem size_invariant (t : tree K V) (hr : Reachable t) :
    t.NumberOfEntries = (t.root.entryCount : Int) ∧
    t.root.entryCount = t.root.leafKeys.length ∧
    (∀ (key : K) (val : V), ∃ t' added, t.Put key val = some (t', added) ∧
      t'.root.entryCount = t.root.entryCount + (if added then 1 else 0) ∧
      (added = true ↔ (t.Get key).map Prod.snd = some false)) ∧
    (∀ key : K, ∃ t' val found, t.Del key = some (t', val, found) ∧
      t'.root.entryCount + (if found then 1 else 0) = t.root.entryCount ∧
      (found = true ↔ (t.Get key).map Prod.snd = some true)) := by
  have inv := hr.inv
  obtain ⟨h, w⟩ := inv.wf
  have hcount : ∀ t1 : tree K V, Inv t1 → t1.numEnts = (t1.root.entryCount : Int) := by
    intro t1 inv1
    obtain ⟨h1, w1⟩ := inv1.wf
    rw [entryCount_eq w1]
    exact inv1.count
  refine ⟨hcount t inv, ?_, ?_, ?_⟩
  · rw [entryCount_eq w, leafKeys_eq w, List.length_map]
  · intro key val
    obtain ⟨t', added, e, inv', _, _, hadd, hnum⟩ := Put_spec t inv key val
    refine ⟨t', added, e, ?_, ?_⟩
    · have h1 := hcount t' inv'
      have h2 := hcount t inv
      rw [h1, h2] at hnum
      cases added
      · simp only [Bool.false_eq_true, if_false] at hnum ⊢
        omega
      · simp only [if_true] at hnum ⊢
        omega
    · rw [Get_found t inv key, hadd]
      cases (lookupEnt key (ents t.root.items)).isSome <;> simp
  · intro key
    obtain ⟨t', val, found, e, inv', _, _, _, hfound, hnum, _⟩ := Del_spec t inv key
    refine ⟨t', val, found, e, ?_, ?_⟩
    · have h1 := hcount t' inv'
      have h2 := hcount t inv
      rw [h1, h2] at hnum
      have hpos : found = true → 0 < t.root.entryCount := by
        intro hf
        rw [hf] at hfound
        rw [entryCount_eq w]
        cases hl : ents t.root.items with
        | nil => simp [hl] at hfound
        | cons x xs => simp
      cases found
      · simp only [Bool.false_eq_true, if_false] at hnum ⊢
        omega
      · have := hpos rfl
        simp only [if_true] at hnum ⊢
        omega
    · rw [Get_found t inv key, hfound]
      cases (lookupEnt key (ents t.root.items)).isSome <;> simp

/-- The theorem `size_invariant` at the sample tree. -/
theorem size_invariant_witness :
    Reachable demo3 ∧ demo3.NumberOfEntries = (demo3.root.entryCount : Int) ∧
      demo3.root.entryCount = demo3.root.leafKeys.length :=
  ⟨demo3_reachable, (size_invariant demo3 demo3_reachable).1,
    (size_invariant demo3 demo3_reachable).2.1⟩

end Claims2

section Claims3

variable {K V : Type} [LinearOrder K]

/-- C15: empty after deleting everything.  For every order of at least 3,
every list of entries with distinct keys, every permutation `p` of it and
every permutation `q` of its keys: the `Put` calls of `p` on a new tree and
then the `Del` calls of `q` all return and leave a root that is a leaf with no
keys and no values, and `NumberOfEntries()` is 0. -/
theorem empty_after_deleting_all (order : Int) (ho : 3 ≤ order) (l p : List (K × V))
    (q : List K) (hnd : (l.map Prod.fst).Nodup) (hp : p.Perm l)
    (hq : q.Perm (l.map Prod.fst)) :
    ∃ t0 t1 t2 : tree K V, NewBpTree order = some t0 ∧ putEnts t0 p = some t1 ∧
      delEnts t1 q = some t2 ∧ (∃ a c, t2.root = nodeI.leafNodeS a c [] []) ∧
      t2.NumberOfEntries = 0 := by
  obtain ⟨hnew, ho'⟩ := NewBpTree_some (K := K) (V := V) order ho
  have inv0 : Inv (mkTree order.toNat : tree K V) := inv_mkTree ho'
  have hpk : (p.map Prod.fst).Perm (l.map Prod.fst) := hp.map _
  obtain ⟨t1, e1, inv1, _, hout⟩ := putEnts_spec p _ inv0 (hpk.nodup_iff.2 hnd)
  obtain ⟨t2, e2, inv2, hents⟩ := delEnts_spec q t1 inv1
  have hnil : ents t2.root.items = [] := by
    rw [hents, List.filter_eq_nil_iff]
    intro e he
    simp only [decide_not, Bool.not_eq_true', decide_eq_false_iff_not, not_not]
    by_contra hne
    have h1 : e.1 ∉ p.map Prod.fst := fun hm => hne (hq.mem_iff.2 (hpk.mem_iff.1 hm))
    have h2 := hout e.1 h1
    have h3 : lookupEnt e.1 (ents (mkTree order.toNat : tree K V).root.items) = none := by
      simp [mkTree, mkLeaf, items_leaf]
    rw [h3, lookupEnt_eq_none] at h2
    exact h2 e he rfl
  obtain ⟨a, hroot⟩ := root_of_ents_nil inv2 hnil
  refine ⟨_, t1, t2, hnew, e1, e2, ⟨a, _, hroot⟩, ?_⟩
  have := inv2.count
  rw [hnil] at this
  simpa [tree.NumberOfEntries] using this

/-- The theorem `empty_after_deleting_all` at order 3, three entries put in as
`2, 3, 1` and deleted as `3, 1, 2`. -/
theorem empty_after_deleting_all_witness :
    (3 : Int) ≤ 3 ∧ ([(1, 10), (2, 20), (3, 30)].map Prod.fst).Nodup ∧
      List.Perm [(2, 20), (3, 30), (1, 10)] [(1, 10), (2, 20), (3, 30)] ∧
      List.Perm [3, 1, 2] ([(1, 10), (2, 20), (3, 30)].map Prod.fst) ∧
      ∃ t0 t1 t2 : tree Nat Nat, NewBpTree 3 = some t0 ∧
        putEnts t0 [(2, 20), (3, 30), (1, 10)] = some t1 ∧
        delEnts t1 [3, 1, 2] = some t2 ∧ (∃ a c, t2.root = nodeI.leafNodeS a c [] []) ∧
        t2.NumberOfEntries = 0 :=
  ⟨by decide, by decide, by decide, by decide,
    empty_after_deleting_all 3 (by decide) [(1, 10), (2, 20), (3, 30)]
      [(2, 20), (3, 30), (1, 10)] [3, 1, 2] (by decide) (by decide) (by decide)⟩

/-- C16: order-independence of contents.  For every order of at least 3, every
list of entries with distinct keys and every two permutations `p` and `q` of
it: the `Put` calls of `p` on a new tree and the `Put` calls of `q` on a new
tree all return, and the two trees have the same `NumberOfEntries()` and
return the same pair from `Get` for every key. -/
theorem order_independence (order : Int) (ho : 3 ≤ order) (l p q : List (K × V))
    (hnd : (l.map Prod.fst).Nodup) (hp : p.Perm l) (hq : q.Perm l) :
    ∃ t0 tp tq : tree K V, NewBpTree order = some t0 ∧ putEnts t0 p = some tp ∧
      putEnts t0 q = some tq ∧ tp.NumberOfEntries = tq.NumberOfEntries ∧
      ∀ k, tp.Get k = tq.Get k := by
  obtain ⟨hnew, ho'⟩ := NewBpTree_some (K := K) (V := V) order ho
  have inv0 : Inv (mkTree order.toNat : tree K V) := inv_mkTree ho'
  have h0 : ∀ k : K, lookupEnt k (ents (mkTree order.toNat : tree K V).root.items) = none := by
    intro k
    simp [mkTree, mkLeaf, items_leaf]
  have hpk : (p.map Prod.fst).Perm (l.map Prod.fst) := hp.map _
  have hqk : (q.map Prod.fst).Perm (l.map Prod.fst) := hq.map _
  have hpn := hpk.nodup_iff.2 hnd
  have hqn := hqk.nodup_iff.2 hnd
  obtain ⟨tp, ep, invp, hinp, houtp⟩ := putEnts_spec p _ inv0 hpn
  obtain ⟨tq, eq, invq, hinq, houtq⟩ := putEnts_spec q _ inv0 hqn
  refine ⟨_, tp, tq, hnew, ep, eq, ?_, ?_⟩
  · have c1 := putEnts_count p _ tp inv0 hpn (fun e _ => h0 e.1) ep
    have c2 := putEnts_count q _ tq inv0 hqn (fun e _ => h0 e.1) eq
    simp only [tree.NumberOfEntries]
    rw [c1, c2, hp.length_eq, hq.length_eq]
  · intro k
    rw [Get_spec tp invp k, Get_spec tq invq k]
    by_cases hk : k ∈ l.map Prod.fst
    · obtain ⟨e, he, rfl⟩ := List.mem_map.1 hk
      rw [hinp e (hp.mem_iff.2 he), hinq e (hq.mem_iff.2 he)]
    · rw [houtp k (fun hm => hk (hpk.mem_iff.1 hm)), houtq k (fun hm => hk (hqk.mem_iff.1 hm))]

/-- The theorem `order_independence` at order 3 and three entries put in as
`2, 3, 1` and as `3, 1, 2`. -/
theorem order_independence_witness :
    (3 : Int) ≤ 3 ∧ ([(1, 10), (2, 20), (3, 30)].map Prod.fst).Nodup ∧
      List.Perm [(2, 20), (3, 30), (1, 10)] [(1, 10), (2, 20), (3, 30)] ∧
      List.Perm [(3, 30), (1, 10), (2, 20)] [(1, 10), (2, 20), (3, 30)] ∧
      ∃ t0 tp tq : tree Nat Nat, NewBpTree 3 = some t0 ∧
        putEnts t0 [(2, 20), (3, 30), (1, 10)] = some tp ∧
        putEnts t0 [(3, 30), (1, 10), (2, 20)] = some tq ∧
        tp.NumberOfEntries = tq.NumberOfEntries ∧ ∀ k, tp.Get k = tq.Get k :=
  ⟨by decide, by decide, by decide, by decide,
    order_independence 3 (by decide) [(1, 10), (2, 20), (3, 30)]
      [(2, 20), (3, 30), (1, 10)] [(3, 30), (1, 10), (2, 20)] (by decide) (by decide)
      (by decide)⟩

omit [LinearOrder K] in
/-- C17: construction.  `NewBpTree(order)` fails exactly when `order < 3`;
for every order of at least 3 it returns a tree whose `Order()` is `order`,
whose `NumberOfEntries()` is 0 and whose root is a leaf with no keys and no
values. -/
theorem newBpTree_construction (order : Int) :
    ((NewBpTree order : Option (tree K V)) = none ↔ order < 3) ∧
    (3 ≤ order → ∃ t : tree K V, NewBpTree order = some t ∧ t.Order = order ∧
      t.NumberOfEntries = 0 ∧ ∃ a c, t.root = nodeI.leafNodeS a c [] []) := by
  constructor
  · unfold NewBpTree
    by_cases h : order < 3
    · simp [h]
    · simp [h]
  · intro ho
    refine ⟨mkTree order.toNat, ?_, ?_, rfl, 0, order.toNat, rfl⟩
    · unfold NewBpTree
      rw [if_neg (by omega)]
    · simp only [tree.Order, mkTree]
      omega

end Claims3

section Keys

/-- What the loop of `LessThan` answers on slices of equal length: whether
some index holds a smaller byte on the left. -/
theorem lessLoop_eq_true_iff : ∀ (k0 k1 : List Nat), k0.length = k1.length →
    (ByteSliceKey.lessLoop k0 k1 = true ↔ ∃ p ∈ List.zip k0 k1, p.1 < p.2)
  | [], [], _ => by simp [ByteSliceKey.lessLoop]
  | [], _ :: _, h => by simp at h
  | _ :: _, [], h => by simp at h
  | a :: k0, b :: k1, h => by
    have ih := lessLoop_eq_true_iff k0 k1 (by simpa using h)
    by_cases hab : a < b
    · simp [ByteSliceKey.lessLoop, hab]
    · simp [ByteSliceKey.lessLoop, hab, ih]

/-- The loop of `LessThan` answers true wherever the byte at the first
difference is smaller on the left. -/
theorem lessLoop_of_firstDiff : ∀ (k0 k1 : List Nat) (x y : Nat),
    firstDiff k0 k1 = some (x, y) → x < y → ByteSliceKey.lessLoop k0 k1 = true
  | [], _, _, _, h, _ => by simp [firstDiff] at h
  | _ :: _, [], _, _, h, _ => by simp [firstDiff] at h
  | a :: k0, b :: k1, x, y, h, hxy => by
    simp only [firstDiff] at h
    split at h
    · simp only [Option.some.injEq, Prod.mk.injEq] at h
      simp [ByteSliceKey.lessLoop, h.1, h.2, hxy]
    · rename_i hab
      have hab' : a = b := by simpa using hab
      have ih := lessLoop_of_firstDiff k0 k1 x y h hxy
      simp [ByteSliceKey.lessLoop, hab', ih]

/-- `LessThan` answers true wherever the length-first order does. -/
theorem lessThan_of_lengthFirstLess (a b : ByteSliceKey) (h : lengthFirstLess a b = true) :
    ByteSliceKey.LessThan a b = true := by
  unfold lengthFirstLess at h
  unfold ByteSliceKey.LessThan
  by_cases h1 : a.length < b.length
  · simp [h1]
  · simp only [h1, decide_False, Bool.false_or, Bool.and_eq_true, decide_eq_true_eq] at h
    obtain ⟨hlen, hd⟩ := h
    have h2 : ¬ a.length > b.length := by omega
    simp only [h1, h2, if_false]
    split at hd
    · rename_i x y hxy
      exact lessLoop_of_firstDiff a b x y hxy (by simpa using hd)
    · simp at hd

/-- C18: `ByteSliceKey` against the key contract, at the keys where it fails.
For `a = [1, 0]` and `b = [0, 1]` both `a.LessThan(b)` and `b.LessThan(a)`
return true while `a.Equals(b)` returns false, so more than one of the three
holds; and `[1, 1]` is less than `[0, 2]`, `[0, 2]` less than `[1, 0]`, but
`[1, 1]` is not less than `[1, 0]`, so `LessThan` is not transitive. -/
theorem byteSliceKey_contract_fails :
    ByteSliceKey.LessThan [1, 0] [0, 1] = true ∧
    ByteSliceKey.LessThan [0, 1] [1, 0] = true ∧
    ByteSliceKey.Equals [1, 0] [0, 1] = false ∧
    ByteSliceKey.LessThan [1, 1] [0, 2] = true ∧
    ByteSliceKey.LessThan [0, 2] [1, 0] = true ∧
    ByteSliceKey.LessThan [1, 1] [1, 0] = false := by
  decide

/-- C19: `ByteSliceKey.LessThan` against the length-first, then byte-by-byte
order, at a key pair where they differ.  For `a = [1, 0]` and `b = [0, 1]` the
lengths are equal and at the first index where they differ `a` holds the
larger byte, so the order says false; `a.LessThan(b)` returns true. -/
theorem byteSliceKey_lessThan_differs :
    lengthFirstLess [1, 0] [0, 1] = false ∧ firstDiff [1, 0] [0, 1] = some (1, 0) ∧
    ByteSliceKey.LessThan [1, 0] [0, 1] = true := by
  decide

end Keys

section Claims4

variable {K V : Type} [LinearOrder K]

/-- C20: the fatal branches are unreachable.  On every reachable tree `Put`,
`Get` and `Del` return for every key: the embedding answers `none` at every
panic of the package (a node not found among its parent's children, both peers
missing, a separator `swapKeys` does not find, the index `i-1` below zero in
`delUp`, `findLeftMostKey` on an empty leaf, a parent popped from an empty
path) and at every index out of range, so none of them is reached.  Every node
holds fewer keys than the capacity of its key slice, so the reslices of the
two `insert` methods stay within capacity. -/
theorem no_fatal_branch (t : tree K V) (hr : Reachable t) (key : K) (val : V) :
    (t.Put key val).isSome = true ∧ (t.Get key).isSome = true ∧
    (t.Del key).isSome = true ∧
    ∀ n ∈ t.root.nodes, n.order = t.order ∧ n.numKeys < n.order := by
  have inv := hr.inv
  obtain ⟨t1, added, e1, _⟩ := Put_spec t inv key val
  obtain ⟨t2, v, found, e2, _⟩ := Del_spec t inv key
  refine ⟨by rw [e1]; rfl, by rw [Get_spec t inv key]; rfl, by rw [e2]; rfl, ?_⟩
  intro n hn
  obtain ⟨h, w⟩ := inv.wf
  obtain ⟨h', w'⟩ := w.of_mem_nodes n hn
  cases w' with
  | leaf a c keys vals h1 h2 h3 =>
    subst h1
    exact ⟨rfl, h3⟩
  | interior h a c keys vals h1 h2 h3 h4 h5 =>
    subst h1
    exact ⟨rfl, h3⟩

/-- The theorem `no_fatal_branch` at the sample tree, key 1 and value 11. -/
theorem no_fatal_branch_witness :
    Reachable demo3 ∧ (demo3.Put 1 11).isSome = true ∧ (demo3.Get 1).isSome = true ∧
      (demo3.Del 1).isSome = true ∧
      ∀ n ∈ demo3.root.nodes, n.order = demo3.order ∧ n.numKeys < n.order :=
  ⟨demo3_reachable, no_fatal_branch demo3 demo3_reachable 1 11⟩

end Claims4

section Splits

variable {K V : Type}

/-- The right half of a list cut below its length starts with the element at
the cut. -/
theorem drop_head_of_lt {α : Type} (l : List α) (i : Nat) (h : i < l.length) :
    ∃ x, (l.drop i).head? = some x ∧ l[i]? = some x := by
  refine ⟨l[i], ?_, by simp [h]⟩
  rw [List.head?_drop]
  simp [h]

/-- `leafNodeS.split()` on a leaf with at least one key: the receiver keeps the
first `len/2` keys and values, the new leaf takes the rest, and the separator
is the first key of the new leaf. -/
theorem leafSplit_eq (a c newAddr : Nat) (keys : List K) (vals : List V)
    (h1 : 1 ≤ keys.length) (hv : vals.length = keys.length) :
    ∃ s, (keys.drop (keys.length / 2)).head? = some s ∧ keys[keys.length / 2]? = some s ∧
      leafNodeS.split newAddr (nodeI.leafNodeS a c keys vals)
        = some (nodeI.leafNodeS a c (keys.take (keys.length / 2)) (vals.take (keys.length / 2)),
            nodeI.leafNodeS newAddr c (keys.drop (keys.length / 2))
              (vals.drop (keys.length / 2)), s) := by
  obtain ⟨s, hs, hg⟩ := drop_head_of_lt keys (keys.length / 2) (by omega)
  refine ⟨s, hs, hg, ?_⟩
  simp only [leafNodeS.split, hv, hs]

/-- `interiorNodeS.split()` on a node with an odd number of keys. -/
theorem interiorSplit_odd (a c newAddr : Nat) (keys : List K) (vals : List (nodeI K V))
    (hodd : keys.length % 2 = 1) (hv : vals.length = keys.length + 1) :
    ∃ s, keys[keys.length / 2]? = some s ∧
      interiorNodeS.split newAddr (nodeI.interiorNodeS a c keys vals)
        = some (nodeI.interiorNodeS a c (keys.take (keys.length / 2))
              (vals.take (keys.length / 2 + 1)),
            nodeI.interiorNodeS newAddr c (keys.drop (keys.length / 2 + 1))
              (vals.drop (keys.length / 2 + 1)), s) := by
  obtain ⟨s, _, hg⟩ := drop_head_of_lt keys (keys.length / 2) (by omega)
  have hvi : vals.length / 2 = keys.length / 2 + 1 := by omega
  refine ⟨s, hg, ?_⟩
  simp only [interiorNodeS.split, hodd, hvi, hg, if_true]

/-- `interiorNodeS.split()` on a node with an even number of keys, two at
least. -/
theorem interiorSplit_even (a c newAddr : Nat) (keys : List K) (vals : List (nodeI K V))
    (heven : keys.length % 2 = 0) (h2 : 2 ≤ keys.length) (hv : vals.length = keys.length + 1) :
    ∃ s, keys[keys.length / 2 - 1]? = some s ∧
      interiorNodeS.split newAddr (nodeI.interiorNodeS a c keys vals)
        = some (nodeI.interiorNodeS a c (keys.take (keys.length / 2 - 1))
              (vals.take (keys.length / 2)),
            nodeI.interiorNodeS newAddr c (keys.drop (keys.length / 2))
              (vals.drop (keys.length / 2)), s) := by
  obtain ⟨s, _, hg⟩ := drop_head_of_lt keys (keys.length / 2 - 1) (by omega)
  have hvi : vals.length / 2 = keys.length / 2 := by omega
  have h0 : keys.length / 2 ≠ 0 := by omega
  refine ⟨s, hg, ?_⟩
  simp [interiorNodeS.split, heven, hvi, hg, h0]

/-- A list cut at an element: the part before, the element, the part after. -/
theorem take_cons_drop {α : Type} (l : List α) (i : Nat) (x : α) (h : l[i]? = some x) :
    l.take i ++ x :: l.drop (i + 1) = l := by
  have hi : i < l.length := by
    rcases Nat.lt_or_ge i l.length with h1 | h1
    · exact h1
    · rw [List.getElem?_eq_none h1] at h
      cases h
  have hx : l[i] = x := by
    rw [List.getElem?_eq_getElem hi] at h
    exact Option.some.inj h
  rw [← hx, ← List.drop_eq_getElem_cons hi, List.take_append_drop]

end Splits

section Claims5

variable {K V : Type}

/-- C22: a split restores the fill bounds, for every order, even or odd.  For
every order of at least 3: `split()` on a leaf that holds `order` keys and
values returns, and each of the two leaves holds between `ceil((order-1)/2)`
and `order-1` entries (as many keys as values, and at least `halfFullSize()`);
`split()` on an interior node that holds `order` keys and `order+1` children
returns, and each of the two interior nodes has between `ceil(order/2)` and
`order` children (at least `halfFullSize()`) and one key fewer than
children. -/
theorem split_restores_fill (order : Nat) (ho : 3 ≤ order) (a newAddr : Nat) :
    (∀ (keys : List K) (vals : List V), keys.length = order → vals.length = order →
      ∃ l r s, leafNodeS.split newAddr (nodeI.leafNodeS a order keys vals) = some (l, r, s) ∧
        l.isLeaf = true ∧ r.isLeaf = true ∧
        ceilHalf (order - 1) ≤ l.size ∧ l.size ≤ order - 1 ∧ l.numKeys = l.size ∧
        ceilHalf (order - 1) ≤ r.size ∧ r.size ≤ order - 1 ∧ r.numKeys = r.size ∧
        MinFill l ∧ MinFill r) ∧
    (∀ (keys : List K) (vals : List (nodeI K V)), keys.length = order →
      vals.length = order + 1 →
      ∃ l r s, interiorNodeS.split newAddr (nodeI.interiorNodeS a order keys vals)
          = some (l, r, s) ∧
        l.isLeaf = false ∧ r.isLeaf = false ∧
        ceilHalf order ≤ l.size ∧ l.size ≤ order ∧ l.numKeys + 1 = l.size ∧
        ceilHalf order ≤ r.size ∧ r.size ≤ order ∧ r.numKeys + 1 = r.size ∧
        MinFill l ∧ MinFill r) := by
  constructor
  · intro keys vals hk hv
    obtain ⟨s, _, _, e⟩ := leafSplit_eq a order newAddr keys vals (by omega) (by omega)
    refine ⟨_, _, s, e, rfl, rfl, ?_⟩
    simp only [nodeI.size, nodeI.numKeys, MinFill, nodeI.halfFullSize, ceilHalf,
      List.length_take, List.length_drop, hk, hv, Nat.min_def, true_and]
    split_ifs <;> omega
  · intro keys vals hk hv
    rcases Nat.mod_two_eq_zero_or_one keys.length with h0 | h1
    · obtain ⟨s, _, e⟩ := interiorSplit_even a order newAddr keys vals h0 (by omega) (by omega)
      refine ⟨_, _, s, e, rfl, rfl, ?_⟩
      simp only [nodeI.size, nodeI.numKeys, MinFill, nodeI.halfFullSize, ceilHalf,
        List.length_take, List.length_drop, hk, hv, Nat.min_def, true_and]
      split_ifs <;> omega
    · obtain ⟨s, _, e⟩ := interiorSplit_odd a order newAddr keys vals h1 (by omega)
      refine ⟨_, _, s, e, rfl, rfl, ?_⟩
      simp only [nodeI.size, nodeI.numKeys, MinFill, nodeI.halfFullSize, ceilHalf,
        List.length_take, List.length_drop, hk, hv, Nat.min_def, true_and]
      split_ifs <;> omega

/-- The statement C22 at order 3. -/
theorem split_restores_fill_witness :
    (∀ (keys : List Nat) (vals : List Nat), keys.length = 3 → vals.length = 3 →
      ∃ l r s, leafNodeS.split 9 (nodeI.leafNodeS 0 3 keys vals) = some (l, r, s) ∧
        l.isLeaf = true ∧ r.isLeaf = true ∧
        ceilHalf (3 - 1) ≤ l.size ∧ l.size ≤ 3 - 1 ∧ l.numKeys = l.size ∧
        ceilHalf (3 - 1) ≤ r.size ∧ r.size ≤ 3 - 1 ∧ r.numKeys = r.size ∧
        MinFill l ∧ MinFill r) ∧
    (∀ (keys : List Nat) (vals : List (nodeI Nat Nat)), keys.length = 3 →
      vals.length = 3 + 1 →
      ∃ l r s, interiorNodeS.split 9 (nodeI.interiorNodeS 0 3 keys vals)
          = some (l, r, s) ∧
        l.isLeaf = false ∧ r.isLeaf = false ∧
        ceilHalf 3 ≤ l.size ∧ l.size ≤ 3 ∧ l.numKeys + 1 = l.size ∧
        ceilHalf 3 ≤ r.size ∧ r.size ≤ 3 ∧ r.numKeys + 1 = r.size ∧
        MinFill l ∧ MinFill r) :=
  split_restores_fill 3 (by decide) 0 9

end Claims5

section Claims6

variable {K V : Type}

/-- C23: leaf split.  For every leaf with `len ≥ 2` keys and as many values,
and `splitIdx = len/2`: `split()` returns, the receiver keeps the keys and
values at the indices `[0, splitIdx)`, the new leaf holds those at
`[splitIdx, len)` in the same order, and the separator returned is the first
key of the new leaf, `keys[splitIdx]`; it stays in the new leaf, and for odd
`len` the new leaf is the larger one. -/
theorem leaf_split_indices (a c newAddr : Nat) (keys : List K) (vals : List V)
    (h2 : 2 ≤ keys.length) (hv : vals.length = keys.length) :
    ∃ l r s, leafNodeS.split newAddr (nodeI.leafNodeS a c keys vals) = some (l, r, s) ∧
      l = nodeI.leafNodeS a c (keys.take (keys.length / 2)) (vals.take (keys.length / 2)) ∧
      r = nodeI.leafNodeS newAddr c (keys.drop (keys.length / 2))
        (vals.drop (keys.length / 2)) ∧
      r.keys.head? = some s ∧ keys[keys.length / 2]? = some s ∧ s ∈ r.keys ∧
      l.keys ++ r.keys = keys ∧
      (keys.length % 2 = 1 → l.size < r.size) := by
  obtain ⟨s, hs, hg, e⟩ := leafSplit_eq a c newAddr keys vals (by omega) hv
  refine ⟨_, _, s, e, rfl, rfl, hs, hg, ?_, ?_, ?_⟩
  · exact List.mem_of_mem_head? hs
  · simp [nodeI.keys]
  · intro hodd
    simp only [nodeI.size, List.length_take, List.length_drop, hv, Nat.min_def]
    split_ifs <;> omega

/-- The statement C23 at a leaf with three entries: the receiver keeps one,
the new leaf holds two. -/
theorem leaf_split_indices_witness :
    ∃ l r s, leafNodeS.split 4 (nodeI.leafNodeS 3 3 [3, 4, 5] [30, 40, 50]) = some (l, r, s) ∧
      l = nodeI.leafNodeS 3 3 (([3, 4, 5] : List Nat).take (([3, 4, 5] : List Nat).length / 2))
        (([30, 40, 50] : List Nat).take (([3, 4, 5] : List Nat).length / 2)) ∧
      r = nodeI.leafNodeS 4 3 (([3, 4, 5] : List Nat).drop (([3, 4, 5] : List Nat).length / 2))
        (([30, 40, 50] : List Nat).drop (([3, 4, 5] : List Nat).length / 2)) ∧
      r.keys.head? = some s ∧
      ([3, 4, 5] : List Nat)[([3, 4, 5] : List Nat).length / 2]? = some s ∧ s ∈ r.keys ∧
      l.keys ++ r.keys = [3, 4, 5] ∧
      (([3, 4, 5] : List Nat).length % 2 = 1 → l.size < r.size) :=
  leaf_split_indices 3 3 4 [3, 4, 5] [30, 40, 50] (by decide) rfl

/-- C24, as the code has it: interior split, odd key count.  For every
interior node with an odd number `len` of keys and `len+1` children, and
`splitIdx = len(keys)/2`: `split()` returns `keys[splitIdx]` as the separator,
the new right node holds the keys at the indices `(splitIdx, len)` and the
children at `[splitIdx+1, len+1)`, and the receiver keeps the keys at
`[0, splitIdx)` and the children at `[0, splitIdx+1)`: the children are cut at
`len(vals)/2 = splitIdx+1`, so each half has one child more than keys. -/
theorem interior_split_odd (a c newAddr : Nat) (keys : List K) (vals : List (nodeI K V))
    (hodd : keys.length % 2 = 1) (hv : vals.length = keys.length + 1) :
    ∃ l r s, interiorNodeS.split newAddr (nodeI.interiorNodeS a c keys vals)
        = some (l, r, s) ∧ keys[keys.length / 2]? = some s ∧
      l = nodeI.interiorNodeS a c (keys.take (keys.length / 2))
        (vals.take (keys.length / 2 + 1)) ∧
      r = nodeI.interiorNodeS newAddr c (keys.drop (keys.length / 2 + 1))
        (vals.drop (keys.length / 2 + 1)) ∧
      l.numKeys + 1 = l.size ∧ r.numKeys + 1 = r.size := by
  obtain ⟨s, hg, e⟩ := interiorSplit_odd a c newAddr keys vals hodd hv
  refine ⟨_, _, s, e, hg, rfl, rfl, ?_, ?_⟩
  · simp only [nodeI.size, nodeI.numKeys, List.length_take, hv, Nat.min_def]
    split_ifs <;> omega
  · simp only [nodeI.size, nodeI.numKeys, List.length_drop, hv]
    omega

/-- The statement C24 (amended) at the over-full root of `Put(5, 50)` on
`demo4`. -/
theorem interior_split_odd_witness :
    ∃ l r s, interiorNodeS.split 5 demo4Big = some (l, r, s) ∧
      ([2, 3, 4] : List Nat)[([2, 3, 4] : List Nat).length / 2]? = some s ∧
      l = nodeI.interiorNodeS 2 3 (([2, 3, 4] : List Nat).take (([2, 3, 4] : List Nat).length / 2))
        (demo4Big.children.take (([2, 3, 4] : List Nat).length / 2 + 1)) ∧
      r = nodeI.interiorNodeS 5 3
        (([2, 3, 4] : List Nat).drop (([2, 3, 4] : List Nat).length / 2 + 1))
        (demo4Big.children.drop (([2, 3, 4] : List Nat).length / 2 + 1)) ∧
      l.numKeys + 1 = l.size ∧ r.numKeys + 1 = r.size :=
  interior_split_odd 2 3 5 [2, 3, 4] demo4Big.children (by decide) rfl

/-- C24, as stated, fails.  `Put(5, 50)` on `demo4` splits its over-full root
`demo4Big` (three keys, four children, `splitIdx = 1`) into the two children
of the root of `demo5`: the receiver keeps the children at `[0, 2)`, not
those at `[0, splitIdx)`, and the new right node holds the children at
`[2, 4)`, not those at `[splitIdx, 4)`. -/
theorem interior_split_odd_counterexample :
    demo4.Put 5 50 = some (demo5, true) ∧
    demo4Big.isToBig = true ∧ demo4Big.numKeys % 2 = 1 ∧
    demo4Big.children.length = demo4Big.numKeys + 1 ∧
    ∃ l r, interiorNodeS.split 5 demo4Big = some (l, r, 3) ∧
      demo5.root = nodeI.interiorNodeS 6 3 [3] [l, r] ∧
      l.children = demo4Big.children.take 2 ∧
      l.children ≠ demo4Big.children.take (demo4Big.numKeys / 2) ∧
      r.children = demo4Big.children.drop 2 ∧
      r.children ≠ demo4Big.children.drop (demo4Big.numKeys / 2) := by
  refine ⟨rfl, rfl, rfl, rfl, _, _, rfl, rfl, rfl, ?_, rfl, ?_⟩
  · simp [demo4Big, nodeI.children, nodeI.numKeys]
  · simp [demo4Big, nodeI.children, nodeI.numKeys]

/-- C25: interior split, even key count.  For every interior node with an
even number `len ≥ 2` of keys and `len+1` children, and
`splitIdx = len(keys)/2`: `split()` returns `keys[splitIdx-1]` as the
separator, the new right node holds the keys at the indices `[splitIdx, len)`
and the children at `[splitIdx, len+1)`, and the receiver keeps the keys at
`[0, splitIdx-1)` and the children at `[0, splitIdx)`; the right node has one
child more than the receiver. -/
theorem interior_split_even (a c newAddr : Nat) (keys : List K) (vals : List (nodeI K V))
    (heven : keys.length % 2 = 0) (h2 : 2 ≤ keys.length) (hv : vals.length = keys.length + 1) :
    ∃ l r s, interiorNodeS.split newAddr (nodeI.interiorNodeS a c keys vals)
        = some (l, r, s) ∧ keys[keys.length / 2 - 1]? = some s ∧
      l = nodeI.interiorNodeS a c (keys.take (keys.length / 2 - 1))
        (vals.take (keys.length / 2)) ∧
      r = nodeI.interiorNodeS newAddr c (keys.drop (keys.length / 2))
        (vals.drop (keys.length / 2)) ∧
      l.numKeys + 1 = l.size ∧ r.numKeys + 1 = r.size ∧ l.size + 1 = r.size := by
  obtain ⟨s, hg, e⟩ := interiorSplit_even a c newAddr keys vals heven h2 hv
  refine ⟨_, _, s, e, hg, rfl, rfl, ?_⟩
  simp only [nodeI.size, nodeI.numKeys, List.length_take, List.length_drop, hv, Nat.min_def]
  split_ifs <;> omega

/-- The statement C25 at an interior node of order 4 with four keys and five
children. -/
theorem interior_split_even_witness :
    ∃ l r s, interiorNodeS.split 9 (nodeI.interiorNodeS 0 4 [2, 4, 6, 8]
        [mkLeaf 1 4, mkLeaf 2 4, mkLeaf 3 4, mkLeaf 4 4, (mkLeaf 5 4 : nodeI Nat Nat)])
        = some (l, r, s) ∧
      ([2, 4, 6, 8] : List Nat)[([2, 4, 6, 8] : List Nat).length / 2 - 1]? = some s ∧
      l = nodeI.interiorNodeS 0 4
        (([2, 4, 6, 8] : List Nat).take (([2, 4, 6, 8] : List Nat).length / 2 - 1))
        ([mkLeaf 1 4, mkLeaf 2 4, mkLeaf 3 4, mkLeaf 4 4, (mkLeaf 5 4 : nodeI Nat Nat)].take
          (([2, 4, 6, 8] : List Nat).length / 2)) ∧
      r = nodeI.interiorNodeS 9 4
        (([2, 4, 6, 8] : List Nat).drop (([2, 4, 6, 8] : List Nat).length / 2))
        ([mkLeaf 1 4, mkLeaf 2 4, mkLeaf 3 4, mkLeaf 4 4, (mkLeaf 5 4 : nodeI Nat Nat)].drop
          (([2, 4, 6, 8] : List Nat).length / 2)) ∧
      l.numKeys + 1 = l.size ∧ r.numKeys + 1 = r.size ∧ l.size + 1 = r.size :=
  interior_split_even 0 4 9 [2, 4, 6, 8] _ (by decide) (by decide) rfl

/-- C26: interior split promotes, it does not copy.  For every order of at
least 3 and every interior node with strictly increasing keys `ks` of length
`order` and children `cs` of length `order+1`: `split()` returns `(L, R, sep)`
with `L.keys ++ [sep] ++ R.keys = ks` and `L.children ++ R.children = cs`, and
`sep` occurs in neither `L.keys` nor `R.keys`. -/
theorem interior_split_promotes [LinearOrder K] (order a newAddr : Nat) (ks : List K)
    (cs : List (nodeI K V)) (ho : 3 ≤ order) (hk : ks.length = order)
    (hc : cs.length = order + 1) (hs : ks.Pairwise (· < ·)) :
    ∃ L R sep, interiorNodeS.split newAddr (nodeI.interiorNodeS a order ks cs)
        = some (L, R, sep) ∧
      L.keys ++ [sep] ++ R.keys = ks ∧ L.children ++ R.children = cs ∧
      sep ∉ L.keys ∧ sep ∉ R.keys := by
  have hcut : ∀ (L R : nodeI K V) (sep : K), L.keys ++ [sep] ++ R.keys = ks →
      sep ∉ L.keys ∧ sep ∉ R.keys := by
    intro L R sep e
    rw [← e, List.append_assoc, List.pairwise_append] at hs
    obtain ⟨_, h2, h3⟩ := hs
    rw [List.singleton_append, List.pairwise_cons] at h2
    exact ⟨fun hm => lt_irrefl _ (h3 sep hm sep (by simp)),
      fun hm => lt_irrefl _ (h2.1 sep hm)⟩
  rcases Nat.mod_two_eq_zero_or_one ks.length with h0 | h1
  · obtain ⟨s, hg, e⟩ := interiorSplit_even a order newAddr ks cs h0 (by omega) (by omega)
    have hkeys : ks.take (ks.length / 2 - 1) ++ [s] ++ ks.drop (ks.length / 2) = ks := by
      have := take_cons_drop ks (ks.length / 2 - 1) s hg
      have h1 : ks.length / 2 - 1 + 1 = ks.length / 2 := by omega
      rw [h1] at this
      simpa using this
    exact ⟨_, _, s, e, hkeys, by simp [nodeI.children], hcut _ _ s hkeys⟩
  · obtain ⟨s, hg, e⟩ := interiorSplit_odd a order newAddr ks cs h1 (by omega)
    have hkeys : ks.take (ks.length / 2) ++ [s] ++ ks.drop (ks.length / 2 + 1) = ks := by
      have := take_cons_drop ks (ks.length / 2) s hg
      simpa using this
    exact ⟨_, _, s, e, hkeys, by simp [nodeI.children], hcut _ _ s hkeys⟩

/-- The statement C26 at the over-full root of `Put(5, 50)` on `demo4`. -/
theorem interior_split_promotes_witness :
    ∃ L R sep, interiorNodeS.split 5 demo4Big = some (L, R, sep) ∧
      L.keys ++ [sep] ++ R.keys = [2, 3, 4] ∧ L.children ++ R.children = demo4Big.children ∧
      sep ∉ L.keys ∧ sep ∉ R.keys :=
  interior_split_promotes 3 2 5 [2, 3, 4] demo4Big.children (by decide) rfl rfl (by decide)

end Claims6

section PairBlock

variable {K V : Type} [LinearOrder K]

omit [LinearOrder K] in
/-- Keys left of a key of a list without repetitions differ from it. -/
theorem ne_of_nodup_append {lk rk : List K} {s : K} (h : (lk ++ s :: rk).Nodup) :
    ∀ k ∈ lk, k ≠ s := by
  intro k hk e
  rw [List.nodup_append] at h
  exact h.2.2 hk (by simp [e])

omit [LinearOrder K] in
/-- Nodes of one height are all leaves or all interior nodes. -/
theorem isLeaf_of_wf {order h : Nat} {X : nodeI K V} (wX : WF order h X)
    {l : List (nodeI K V)} (hch : ∀ x ∈ l, WF order h x) : ∀ y ∈ l, y.isLeaf = X.isLeaf :=
  fun y hy => WF.isLeaf_eq (hch y hy) wX

/-- The block on the right node `B` of a pair whose left node `A` has more
than its minimum: `B` steals from `A`, and the separator between them becomes
the leftmost key under `B`. -/
theorem pair_stealLeft {order h : Nat} (ho : 3 ≤ order) (a : Nat) (lk rk : List K) (s : K)
    (lv rv : List (nodeI K V)) (A B : nodeI K V) (hl : lv.length = lk.length)
    (wA : WF order h A) (wB : WF order h B) (hch : ∀ x ∈ lv ++ rv, WF order h x)
    (hks : (lk ++ s :: rk).Nodup) (hnd : ((lv ++ A :: B :: rv).map nodeI.addr).Nodup)
    (hB : B.size + 1 = B.halfFullSize) (hA : A.halfFullSize < A.size) :
    ∃ A' B' s', B.stealLeft A = some (B', A') ∧ B'.findLeftMostKey = some s' ∧
      PairSteal order h A s B A' s' B' ∧
      stealOrMerge B (nodeI.interiorNodeS a order (lk ++ s :: rk) (lv ++ A :: B :: rv))
        = some (nodeI.interiorNodeS a order (lk ++ s' :: rk) (lv ++ A' :: B' :: rv), none) := by
  obtain ⟨A', B', s', hst, hkey, ps⟩ := stealLeft_pair ho s wA wB hA hB
  refine ⟨A', B', s', hst, hkey, ps, ?_⟩
  have hleaf : ∀ y ∈ lv ++ A :: B :: rv, y.isLeaf = B.isLeaf := by
    apply isLeaf_of_wf wB
    intro x hx
    simp only [List.mem_append, List.mem_cons] at hx
    rcases hx with hx | rfl | rfl | hx
    · exact hch x (by simp [hx])
    · exact wA
    · exact wB
    · exact hch x (by simp [hx])
  exact stealOrMerge_stealLeft a order lk rk s s' lv rv A B A' B' hl hnd hleaf hA hst hkey
    ps.addrB ps.addrA (ne_of_nodup_append hks)

/-- The block on the left node `A` of a pair whose right node `B` has more
than its minimum, when no left peer of `A` has: `A` steals from `B`, and the
separator between them becomes the leftmost key under `B`. -/
theorem pair_stealRight {order h : Nat} (ho : 3 ≤ order) (a : Nat) (lk rk : List K) (s : K)
    (lv rv : List (nodeI K V)) (A B : nodeI K V) (hl : lv.length = lk.length)
    (hr : rv.length = rk.length)
    (wA : WF order h A) (wB : WF order h B) (hch : ∀ x ∈ lv ++ rv, WF order h x)
    (hks : (lk ++ s :: rk).Nodup) (hnd : ((lv ++ A :: B :: rv).map nodeI.addr).Nodup)
    (hA : A.size + 1 = A.halfFullSize)
    (hleft : ∀ Lf ∈ lv.getLast?, ¬ Lf.halfFullSize < Lf.size)
    (hB : B.halfFullSize < B.size) :
    ∃ A' B' s', A.stealRight B = some (A', B') ∧ B'.findLeftMostKey = some s' ∧
      PairSteal order h A s B A' s' B' ∧
      stealOrMerge A (nodeI.interiorNodeS a order (lk ++ s :: rk) (lv ++ A :: B :: rv))
        = some (nodeI.interiorNodeS a order (lk ++ s' :: rk) (lv ++ A' :: B' :: rv), none) := by
  obtain ⟨A', B', s', hst, hkey, ps⟩ := stealRight_pair ho s wA wB hB hA
  refine ⟨A', B', s', hst, hkey, ps, ?_⟩
  have hleaf : ∀ y ∈ lv ++ A :: B :: rv, y.isLeaf = A.isLeaf := by
    apply isLeaf_of_wf wA
    intro x hx
    simp only [List.mem_append, List.mem_cons] at hx
    rcases hx with hx | rfl | rfl | hx
    · exact hch x (by simp [hx])
    · exact wA
    · exact wB
    · exact hch x (by simp [hx])
  exact stealOrMerge_stealRight a order lk rk s s' lv rv A B A' B' hl hr hnd hleaf hleft hB
    hst hkey ps.addrA ps.addrB (ne_of_nodup_append hks)

/-- The block on the right node `B` of a pair when neither the left node `A`
nor a right peer of `B` has more than its minimum: `A` absorbs `B`, and
`delUp` drops `B` and the separator between them from the parent. -/
theorem pair_mergeLeft {order h : Nat} (ho : 3 ≤ order) (a : Nat) (lk rk : List K) (s : K)
    (lv rv : List (nodeI K V)) (A B : nodeI K V) (hl : lv.length = lk.length)
    (hr : rv.length = rk.length)
    (wA : WF order h A) (wB : WF order h B) (hch : ∀ x ∈ lv ++ rv, WF order h x)
    (hnd : ((lv ++ A :: B :: rv).map nodeI.addr).Nodup)
    (hB : B.size + 1 = B.halfFullSize) (mA : MinFill A) (hA : ¬ A.halfFullSize < A.size)
    (hright : ∀ Rt ∈ rv.head?, ¬ Rt.halfFullSize < Rt.size) :
    ∃ M, A.mergeRight B = some M ∧ PairMerge order h A s B M ∧
      stealOrMerge B (nodeI.interiorNodeS a order (lk ++ s :: rk) (lv ++ A :: B :: rv))
        = some (nodeI.interiorNodeS a order (lk ++ s :: rk) (lv ++ M :: B :: rv),
            some (M, B)) ∧
      removeDead B (nodeI.interiorNodeS a order (lk ++ s :: rk) (lv ++ M :: B :: rv))
        = some (nodeI.interiorNodeS a order (lk ++ rk) (lv ++ M :: rv)) := by
  have hAB : A.size + B.size + 1 = 2 * A.halfFullSize := by
    have := WF.halfFullSize_eq wB wA
    unfold MinFill at mA
    omega
  obtain ⟨M, hm, pm⟩ := mergeRight_pair ho s wA wB hAB
  have hleaf : ∀ y ∈ lv ++ A :: B :: rv, y.isLeaf = B.isLeaf := by
    apply isLeaf_of_wf wB
    intro x hx
    simp only [List.mem_append, List.mem_cons] at hx
    rcases hx with hx | rfl | rfl | hx
    · exact hch x (by simp [hx])
    · exact wA
    · exact wB
    · exact hch x (by simp [hx])
  obtain ⟨e1, e2⟩ := stealOrMerge_mergeLeft a order lk rk s lv rv A B M hl hr hnd hleaf hA
    hright hm pm.addr (WF.isLeaf_eq pm.wf wB)
  exact ⟨M, hm, pm, e1, e2⟩

/-- The block on a leftmost child `A` whose right peer `B` is at its minimum:
`A` absorbs `B`, and `delUp` drops `B` and the separator between them from the
parent. -/
theorem pair_mergeRight {order h : Nat} (ho : 3 ≤ order) (a : Nat) (rk : List K) (s : K)
    (rv : List (nodeI K V)) (A B : nodeI K V) (hr : rv.length = rk.length)
    (wA : WF order h A) (wB : WF order h B) (hch : ∀ x ∈ rv, WF order h x)
    (hnd : ((A :: B :: rv).map nodeI.addr).Nodup)
    (hA : A.size + 1 = A.halfFullSize) (mB : MinFill B) (hB : ¬ B.halfFullSize < B.size) :
    ∃ M, A.mergeRight B = some M ∧ PairMerge order h A s B M ∧
      stealOrMerge A (nodeI.interiorNodeS a order (s :: rk) (A :: B :: rv))
        = some (nodeI.interiorNodeS a order (s :: rk) (M :: B :: rv), some (M, B)) ∧
      removeDead B (nodeI.interiorNodeS a order (s :: rk) (M :: B :: rv))
        = some (nodeI.interiorNodeS a order rk (M :: rv)) := by
  have hAB : A.size + B.size + 1 = 2 * A.halfFullSize := by
    have := WF.halfFullSize_eq wA wB
    unfold MinFill at mB
    omega
  obtain ⟨M, hm, pm⟩ := mergeRight_pair ho s wA wB hAB
  have hleaf : ∀ y ∈ A :: B :: rv, y.isLeaf = A.isLeaf := by
    apply isLeaf_of_wf wA
    intro x hx
    simp only [List.mem_cons] at hx
    rcases hx with rfl | rfl | hx
    · exact wA
    · exact wB
    · exact hch x hx
  obtain ⟨e1, e2⟩ := stealOrMerge_mergeRight a order rk s rv A B M hr hnd hleaf hB hm pm.addr
    (WF.isLeaf_eq pm.wf wA)
  exact ⟨M, hm, pm, e1, e2⟩

end PairBlock

section Claims7

variable {K V : Type} [LinearOrder K]

/-- C28: leaf steal.  The steal-or-merge block that `Del` runs on an under-full
leaf and its parent, for two adjacent leaves `A` (left) and `B` (right) with
the separator `s` between them in a parent whose children have distinct
addresses and whose separators are distinct.  When `B` is under-full and `A`
has more than its minimum, the last entry of `A` becomes the first entry of
`B`; when `A` is under-full, no left peer of `A` has more than its minimum and
`B` has more than its minimum, the first entry of `B` becomes the last entry
of `A`.  Either way one entry moves, the keys and values of the two leaves
read together are as before, the separator `s` becomes the first key of the
right leaf after the steal, and no other separator or child of the parent
changes. -/
theorem leaf_steal {order : Nat} (ho : 3 ≤ order) (a : Nat) (lk rk : List K) (s : K)
    (lv rv : List (nodeI K V)) (aa ba : Nat) (ak bk : List K) (av bv : List V)
    (hl : lv.length = lk.length) (hr : rv.length = rk.length)
    (wA : WF order 0 (nodeI.leafNodeS aa order ak av))
    (wB : WF order 0 (nodeI.leafNodeS ba order bk bv))
    (hch : ∀ x ∈ lv ++ rv, WF order 0 x) (hks : (lk ++ s :: rk).Nodup)
    (hnd : ((lv ++ nodeI.leafNodeS aa order ak av :: nodeI.leafNodeS ba order bk bv :: rv).map
      nodeI.addr).Nodup) :
    ((nodeI.leafNodeS ba order bk bv).size + 1 = (nodeI.leafNodeS ba order bk bv).halfFullSize →
      (nodeI.leafNodeS aa order ak av).halfFullSize < (nodeI.leafNodeS aa order ak av).size →
      ∃ ak' k av' v, ak = ak' ++ [k] ∧ av = av' ++ [v] ∧ ak'.length = av'.length ∧
        stealOrMerge (nodeI.leafNodeS ba order bk bv)
          (nodeI.interiorNodeS a order (lk ++ s :: rk)
            (lv ++ nodeI.leafNodeS aa order ak av :: nodeI.leafNodeS ba order bk bv :: rv))
          = some (nodeI.interiorNodeS a order (lk ++ k :: rk)
            (lv ++ nodeI.leafNodeS aa order ak' av'
              :: nodeI.leafNodeS ba order (k :: bk) (v :: bv) :: rv), none)) ∧
    ((nodeI.leafNodeS aa order ak av).size + 1 = (nodeI.leafNodeS aa order ak av).halfFullSize →
      (∀ Lf ∈ lv.getLast?, ¬ Lf.halfFullSize < Lf.size) →
      (nodeI.leafNodeS ba order bk bv).halfFullSize < (nodeI.leafNodeS ba order bk bv).size →
      ∃ k k' bk' v bv', bk = k :: k' :: bk' ∧ bv = v :: bv' ∧
        stealOrMerge (nodeI.leafNodeS aa order ak av)
          (nodeI.interiorNodeS a order (lk ++ s :: rk)
            (lv ++ nodeI.leafNodeS aa order ak av :: nodeI.leafNodeS ba order bk bv :: rv))
          = some (nodeI.interiorNodeS a order (lk ++ k' :: rk)
            (lv ++ nodeI.leafNodeS aa order (ak ++ [k]) (av ++ [v])
              :: nodeI.leafNodeS ba order (k' :: bk') bv' :: rv), none)) := by
  obtain ⟨_, _, hAl, _⟩ := wA.leaf_inv
  constructor
  · intro hB hA
    obtain ⟨A', B', s', hst, hkey, _, e⟩ :=
      pair_stealLeft ho a lk rk s lv rv _ _ hl wA wB hch hks hnd hB hA
    simp only [nodeI.stealLeft] at hst
    split at hst
    · rename_i k v hk hv
      simp only [Option.some.injEq, Prod.mk.injEq] at hst
      obtain ⟨rfl, rfl⟩ := hst
      obtain ⟨ak', rfl⟩ := List.getLast?_eq_some_iff.1 hk
      obtain ⟨av', rfl⟩ := List.getLast?_eq_some_iff.1 hv
      simp only [nodeI.findLeftMostKey, List.head?_cons, Option.some.injEq] at hkey
      subst hkey
      refine ⟨ak', k, av', v, rfl, rfl, ?_, ?_⟩
      · simp at hAl
        exact hAl
      · rw [e]
        simp
    · simp at hst
  · intro hA hleft hB
    obtain ⟨A', B', s', hst, hkey, _, e⟩ :=
      pair_stealRight ho a lk rk s lv rv _ _ hl hr wA wB hch hks hnd hA hleft hB
    cases bk with
    | nil => simp [nodeI.stealRight] at hst
    | cons k bk1 =>
      cases bv with
      | nil => simp [nodeI.stealRight] at hst
      | cons v bv' =>
        simp only [nodeI.stealRight, Option.some.injEq, Prod.mk.injEq] at hst
        obtain ⟨rfl, rfl⟩ := hst
        simp only [nodeI.findLeftMostKey] at hkey
        cases bk1 with
        | nil => simp at hkey
        | cons k' bk' =>
          simp only [List.head?_cons, Option.some.injEq] at hkey
          subst hkey
          exact ⟨k, k', bk', v, bv', rfl, rfl, e⟩

/-- C29, as the code has it: interior steal and the separator above.  The
steal-or-merge block that `delUp` runs on an under-full interior node and its
parent, for two adjacent interior nodes `A` (left) and `B` (right) with the
separator `s` between them.  When `B` is under-full and steals a child from
`A`, or `A` is under-full and steals a child from `B`, the separator between
them is rewritten to the leftmost leaf key under the right node `B` of the
pair after the steal: the receiver after a steal from the left peer, the
giver after a steal from the right peer. -/
theorem interior_steal_separator {order h : Nat} (ho : 3 ≤ order) (a : Nat) (lk rk : List K)
    (s : K) (lv rv : List (nodeI K V)) (A B : nodeI K V)
    (hl : lv.length = lk.length) (hr : rv.length = rk.length)
    (wA : WF order (h + 1) A) (wB : WF order (h + 1) B)
    (hch : ∀ x ∈ lv ++ rv, WF order (h + 1) x) (hks : (lk ++ s :: rk).Nodup)
    (hnd : ((lv ++ A :: B :: rv).map nodeI.addr).Nodup) :
    (B.size + 1 = B.halfFullSize → A.halfFullSize < A.size →
      ∃ A' B' s', B.stealLeft A = some (B', A') ∧ B'.findLeftMostKey = some s' ∧
        stealOrMerge B (nodeI.interiorNodeS a order (lk ++ s :: rk) (lv ++ A :: B :: rv))
          = some (nodeI.interiorNodeS a order (lk ++ s' :: rk) (lv ++ A' :: B' :: rv),
              none)) ∧
    (A.size + 1 = A.halfFullSize → (∀ Lf ∈ lv.getLast?, ¬ Lf.halfFullSize < Lf.size) →
      B.halfFullSize < B.size →
      ∃ A' B' s', A.stealRight B = some (A', B') ∧ B'.findLeftMostKey = some s' ∧
        stealOrMerge A (nodeI.interiorNodeS a order (lk ++ s :: rk) (lv ++ A :: B :: rv))
          = some (nodeI.interiorNodeS a order (lk ++ s' :: rk) (lv ++ A' :: B' :: rv),
              none)) := by
  constructor
  · intro hB hA
    obtain ⟨A', B', s', hst, hkey, _, e⟩ :=
      pair_stealLeft ho a lk rk s lv rv A B hl wA wB hch hks hnd hB hA
    exact ⟨A', B', s', hst, hkey, e⟩
  · intro hA hleft hB
    obtain ⟨A', B', s', hst, hkey, _, e⟩ :=
      pair_stealRight ho a lk rk s lv rv A B hl hr wA wB hch hks hnd hA hleft hB
    exact ⟨A', B', s', hst, hkey, e⟩

omit [LinearOrder K] in
/-- What `mergeRight` on two interior nodes returns. -/
theorem mergeRight_interior_keys {A B M : nodeI K V} (hA : A.isLeaf = false)
    (hm : A.mergeRight B = some M) :
    ∃ least, B.findLeftMostKey = some least ∧ M.keys = A.keys ++ least :: B.keys ∧
      M.children = A.children ++ B.children ∧ M.addr = A.addr := by
  cases A with
  | leafNodeS _ _ _ _ => simp [nodeI.isLeaf] at hA
  | interiorNodeS la lc lkeys lvals =>
    cases B with
    | leafNodeS _ _ _ _ => simp [nodeI.mergeRight] at hm
    | interiorNodeS ra rc rkeys rvals =>
      simp only [nodeI.mergeRight] at hm
      split at hm
      · rename_i least hleast
        simp only [Option.some.injEq] at hm
        subst hm
        exact ⟨least, by simpa [nodeI.findLeftMostKey] using hleast, rfl, rfl, rfl⟩
      · simp at hm

/-- C27, as the code has it: interior merge.  The steal-or-merge block that
`delUp` runs on an under-full interior node and its parent, for two adjacent
interior nodes `A` (left) and `B` (right) with the separator `s` between them.
When the block merges them (`B` under-full and no peer of `B` above its
minimum, or `A` an under-full leftmost child and `B` at its minimum), it
calls `A.mergeRight(B)`, and the keys of the merged node are the keys of `A`,
then the leftmost leaf key under `B`, then the keys of `B`; its children are
the children of `A`, then those of `B`.  The separator `s` of the parent is
not consulted. -/
theorem interior_merge_keys {order h : Nat} (ho : 3 ≤ order) (a : Nat) (lk rk : List K)
    (s : K) (lv rv : List (nodeI K V)) (A B : nodeI K V)
    (hl : lv.length = lk.length) (hr : rv.length = rk.length)
    (wA : WF order (h + 1) A) (wB : WF order (h + 1) B)
    (hch : ∀ x ∈ lv ++ rv, WF order (h + 1) x)
    (hnd : ((lv ++ A :: B :: rv).map nodeI.addr).Nodup) :
    (B.size + 1 = B.halfFullSize → MinFill A → ¬ A.halfFullSize < A.size →
      (∀ Rt ∈ rv.head?, ¬ Rt.halfFullSize < Rt.size) →
      ∃ M least, A.mergeRight B = some M ∧ B.findLeftMostKey = some least ∧
        M.keys = A.keys ++ least :: B.keys ∧ M.children = A.children ++ B.children ∧
        stealOrMerge B (nodeI.interiorNodeS a order (lk ++ s :: rk) (lv ++ A :: B :: rv))
          = some (nodeI.interiorNodeS a order (lk ++ s :: rk) (lv ++ M :: B :: rv),
              some (M, B))) ∧
    (lv = [] → A.size + 1 = A.halfFullSize → MinFill B → ¬ B.halfFullSize < B.size →
      ∃ M least, A.mergeRight B = some M ∧ B.findLeftMostKey = some least ∧
        M.keys = A.keys ++ least :: B.keys ∧ M.children = A.children ++ B.children ∧
        stealOrMerge A (nodeI.interiorNodeS a order (lk ++ s :: rk) (lv ++ A :: B :: rv))
          = some (nodeI.interiorNodeS a order (lk ++ s :: rk) (lv ++ M :: B :: rv),
              some (M, B))) := by
  constructor
  · intro hB mA hA hright
    obtain ⟨M, hm, _, e, _⟩ :=
      pair_mergeLeft ho a lk rk s lv rv A B hl hr wA wB hch hnd hB mA hA hright
    obtain ⟨least, h1, h2, h3, _⟩ := mergeRight_interior_keys wA.isLeaf_succ hm
    exact ⟨M, least, hm, h1, h2, h3, e⟩
  · intro hlv hA mB hB
    subst hlv
    obtain rfl : lk = [] := by
      cases lk with
      | nil => rfl
      | cons _ _ => simp at hl
    obtain ⟨M, hm, _, e, _⟩ :=
      pair_mergeRight ho a rk s rv A B hr wA wB (fun x hx => hch x (by simpa using hx))
        (by simpa using hnd) hA mB hB
    obtain ⟨least, h1, h2, h3, _⟩ := mergeRight_interior_keys wA.isLeaf_succ hm
    exact ⟨M, least, hm, h1, h2, h3, by simpa using e⟩

end Claims7

section Moves

variable {K V : Type}

/-- The leaf keys under children put side by side. -/
theorem leafKeysList_append (xs ys : List (nodeI K V)) :
    leafKeysList (xs ++ ys) = leafKeysList xs ++ leafKeysList ys := by
  simp [leafKeysList_eq]

/-- A subtree that holds its minimum has a leaf key. -/
theorem leafKeys_ne_nil {order : Nat} (ho : 3 ≤ order) : ∀ {h : Nat} {n : nodeI K V},
    WF order h n → MinFill n → n.leafKeys ≠ [] := by
  intro h n w
  induction w with
  | leaf a c keys vals h1 h2 h3 =>
    intro m
    subst h1
    have := m.leaf_pos (by omega)
    simp only [nodeI.leafKeys]
    intro e
    rw [e] at h2
    simp at h2
    omega
  | interior h a c keys vals h1 h2 h3 h4 h5 ih =>
    intro _
    cases vals with
    | nil => simp at h2
    | cons c0 cs =>
      simp only [nodeI.leafKeys, leafKeysList]
      intro e
      exact ih c0 (by simp) (h5 c0 (by simp)) (List.append_eq_nil.1 e).1

/-- `rNode.stealLeft(lNode)` moves the last entry (of a leaf) or the last
child (of an interior node) of `lNode` to the front of `rNode`: one more in
`rNode`, one less in `lNode`, and the leaf keys that moved are the end of
those under `lNode` and the start of those under `rNode`. -/
theorem stealLeft_moves {order h : Nat} (ho : 3 ≤ order) {X Lf X' Lf' : nodeI K V}
    (wL : WF order h Lf) (hst : X.stealLeft Lf = some (X', Lf')) :
    X'.size = X.size + 1 ∧ Lf'.size + 1 = Lf.size ∧
    ∃ moved, moved ≠ [] ∧ Lf.leafKeys = Lf'.leafKeys ++ moved ∧
      X'.leafKeys = moved ++ X.leafKeys := by
  cases X with
  | leafNodeS ra rc rkeys rvals =>
    cases Lf with
    | interiorNodeS _ _ _ _ => simp [nodeI.stealLeft] at hst
    | leafNodeS la lc lkeys lvals =>
      simp only [nodeI.stealLeft] at hst
      cases hk : lkeys.getLast? with
      | none => simp [hk] at hst
      | some k =>
        cases hv : lvals.getLast? with
        | none => simp [hk, hv] at hst
        | some v =>
          simp only [hk, hv, Option.some.injEq, Prod.mk.injEq] at hst
          obtain ⟨rfl, rfl⟩ := hst
          obtain ⟨ks, rfl⟩ := List.getLast?_eq_some_iff.1 hk
          obtain ⟨vs, rfl⟩ := List.getLast?_eq_some_iff.1 hv
          refine ⟨by simp [nodeI.size], by simp [nodeI.size], [k], by simp, ?_, ?_⟩
          · simp [nodeI.leafKeys]
          · simp [nodeI.leafKeys]
  | interiorNodeS ra rc rkeys rvals =>
    cases Lf with
    | leafNodeS _ _ _ _ => simp [nodeI.stealLeft] at hst
    | interiorNodeS la lc lkeys lvals =>
      simp only [nodeI.stealLeft] at hst
      cases hv : lvals.getLast? with
      | none => simp [hv] at hst
      | some c =>
        cases lkeys with
        | nil => simp [hv] at hst
        | cons k0 lkeys =>
          cases hf : findLeftMostKeyFirst rvals with
          | none => simp [hv, hf] at hst
          | some least =>
            simp only [hv, hf, Option.some.injEq, Prod.mk.injEq] at hst
            obtain ⟨rfl, rfl⟩ := hst
            obtain ⟨vs, rfl⟩ := List.getLast?_eq_some_iff.1 hv
            obtain ⟨h', _, _, _, _, hch, hmf⟩ := wL.interior_inv
            refine ⟨by simp [nodeI.size], by simp [nodeI.size], c.leafKeys,
              leafKeys_ne_nil ho (hch c (by simp)) (hmf c (by simp)), ?_, ?_⟩
            · simp [nodeI.leafKeys, leafKeysList_append, leafKeysList]
            · simp [nodeI.leafKeys, leafKeysList]

/-- `lNode.stealRight(rNode)` moves the first entry (of a leaf) or the first
child (of an interior node) of `rNode` to the end of `lNode`: one more in
`lNode`, one less in `rNode`, and the leaf keys that moved are the start of
those under `rNode` and the end of those under `lNode`. -/
theorem stealRight_moves {order h : Nat} (ho : 3 ≤ order) {X Rt X' Rt' : nodeI K V}
    (wR : WF order h Rt) (hst : X.stealRight Rt = some (X', Rt')) :
    X'.size = X.size + 1 ∧ Rt'.size + 1 = Rt.size ∧
    ∃ moved, moved ≠ [] ∧ Rt.leafKeys = moved ++ Rt'.leafKeys ∧
      X'.leafKeys = X.leafKeys ++ moved := by
  cases X with
  | leafNodeS la lc lkeys lvals =>
    cases Rt with
    | interiorNodeS _ _ _ _ => simp [nodeI.stealRight] at hst
    | leafNodeS ra rc rkeys rvals =>
      cases rkeys with
      | nil => simp [nodeI.stealRight] at hst
      | cons k rkeys =>
        cases rvals with
        | nil => simp [nodeI.stealRight] at hst
        | cons v rvals =>
          simp only [nodeI.stealRight, Option.some.injEq, Prod.mk.injEq] at hst
          obtain ⟨rfl, rfl⟩ := hst
          exact ⟨by simp [nodeI.size], by simp [nodeI.size], [k], by simp,
            by simp [nodeI.leafKeys], by simp [nodeI.leafKeys]⟩
  | interiorNodeS la lc lkeys lvals =>
    cases Rt with
    | leafNodeS _ _ _ _ => simp [nodeI.stealRight] at hst
    | interiorNodeS ra rc rkeys rvals =>
      cases rvals with
      | nil => simp [nodeI.stealRight] at hst
      | cons c rvals =>
        cases rkeys with
        | nil => simp [nodeI.stealRight] at hst
        | cons k0 rkeys =>
          simp only [nodeI.stealRight] at hst
          cases hf : c.findLeftMostKey with
          | none => simp [hf] at hst
          | some least =>
            simp only [hf, Option.some.injEq, Prod.mk.injEq] at hst
            obtain ⟨rfl, rfl⟩ := hst
            obtain ⟨h', _, _, _, _, hch, hmf⟩ := wR.interior_inv
            refine ⟨by simp [nodeI.size], by simp [nodeI.size], c.leafKeys,
              leafKeys_ne_nil ho (hch c (by simp)) (hmf c (by simp)), ?_, ?_⟩
            · simp [nodeI.leafKeys, leafKeysList]
            · simp [nodeI.leafKeys, leafKeysList_append, leafKeysList]

/-- `lNode.mergeRight(rNode)` leaves in `lNode` what it held and, after it,
what `rNode` held: the entries (of a leaf) or the children (of an interior
node) of both, and the leaf keys under both. -/
theorem mergeRight_holds {A B M : nodeI K V} (hm : A.mergeRight B = some M) :
    M.size = A.size + B.size ∧ M.leafKeys = A.leafKeys ++ B.leafKeys ∧
    M.children = A.children ++ B.children := by
  cases A with
  | leafNodeS la lc lkeys lvals =>
    cases B with
    | interiorNodeS _ _ _ _ => simp [nodeI.mergeRight] at hm
    | leafNodeS ra rc rkeys rvals =>
      simp only [nodeI.mergeRight, Option.some.injEq] at hm
      subst hm
      exact ⟨by simp [nodeI.size], rfl, rfl⟩
  | interiorNodeS la lc lkeys lvals =>
    cases B with
    | leafNodeS _ _ _ _ => simp [nodeI.mergeRight] at hm
    | interiorNodeS ra rc rkeys rvals =>
      simp only [nodeI.mergeRight] at hm
      cases hf : findLeftMostKeyFirst rvals with
      | none => simp [hf] at hm
      | some least =>
        simp only [hf, Option.some.injEq] at hm
        subst hm
        exact ⟨by simp [nodeI.size], by simp [nodeI.leafKeys, leafKeysList_append], rfl⟩

end Moves

section Claims8

variable {K V : Type} [LinearOrder K]

omit [LinearOrder K] in
/-- Children left of a node with a last one among them, and the separators
left of the node: both lists end in an element. -/
theorem snoc_of_getLast {lv : List (nodeI K V)} {lk : List K} {Lf : nodeI K V}
    (hl : lv.length = lk.length) (hLf : Lf ∈ lv.getLast?) :
    ∃ lv' lk' s, lv = lv' ++ [Lf] ∧ lk = lk' ++ [s] ∧ lv'.length = lk'.length := by
  obtain ⟨lv', rfl⟩ : ∃ lv', lv = lv' ++ [Lf] := by
    rw [Option.mem_def, List.getLast?_eq_some_iff] at hLf
    exact hLf
  have hp : 0 < lk.length := by
    simp at hl
    omega
  obtain ⟨lk', s, rfl, _⟩ := list_snoc hp
  refine ⟨lv', lk', s, rfl, rfl, ?_⟩
  simp at hl
  omega

omit [LinearOrder K] in
/-- Children right of a node with a first one among them, and the separators
right of the node: both lists start with an element. -/
theorem cons_of_head {rv : List (nodeI K V)} {rk : List K} {Rt : nodeI K V}
    (hr : rv.length = rk.length) (hRt : Rt ∈ rv.head?) :
    ∃ rv' s rk', rv = Rt :: rv' ∧ rk = s :: rk' ∧ rv'.length = rk'.length := by
  cases rv with
  | nil => simp at hRt
  | cons x rv' =>
    simp only [List.head?_cons, Option.mem_def, Option.some.injEq] at hRt
    subst hRt
    cases rk with
    | nil => simp at hr
    | cons s rk' => exact ⟨rv', s, rk', rfl, rfl, by simpa using hr⟩

/-- C30: tie-breaking in underflow repair, at leaf and interior level alike.
The steal-or-merge block of `Del` (on a leaf) and `delUp` (on an interior
node), for an under-full child `X` of a parent whose children have distinct
addresses, hold their minimum and are of one height, and whose separators are
distinct.
(1) When the left peer has more than its minimum, `X` steals from the left
peer, whatever the right peer holds: the last entry (or child) of the left
peer becomes the first of `X`, so `X` has one more and the left peer one
less, both hold their minimum, the separator between them becomes the
leftmost key under `X`, and the children right of `X` stay as they are.
(2) When the left peer is absent or at its minimum and the right peer has
more than its minimum, `X` steals from the right peer: the first entry (or
child) of the right peer becomes the last of `X`, and the separator between
them becomes the leftmost key under the right peer.
(3) When neither peer has more than its minimum and a left peer exists, the
left peer absorbs `X` (`left.mergeRight(X)`): the merged node, at the address
and in the slot of the left peer, holds what the left peer held and after it
what `X` held, `X` is the dead node, and `delUp` drops `X` and the separator
between them from the parent.
(4) When `X` is the leftmost child and its right peer is at its minimum, `X`
absorbs the right peer (`X.mergeRight(right)`): the merged node, at the
address and in the slot of `X`, holds what `X` held and after it what the
right peer held, the right peer is the dead node, and `delUp` drops it and the
separator between them from the parent. -/
theorem tie_breaking {order h : Nat} (ho : 3 ≤ order) (a : Nat) (lk rk : List K)
    (lv rv : List (nodeI K V)) (X : nodeI K V)
    (hl : lv.length = lk.length) (hr : rv.length = rk.length)
    (hch : ∀ x ∈ lv ++ rv, WF order h x ∧ MinFill x) (wX : WF order h X)
    (hX : X.size + 1 = X.halfFullSize) (hks : (lk ++ rk).Nodup)
    (hnd : ((lv ++ X :: rv).map nodeI.addr).Nodup) :
    (∀ Lf ∈ lv.getLast?, Lf.halfFullSize < Lf.size →
      ∃ X' Lf' s s' moved, X.stealLeft Lf = some (X', Lf') ∧
        X'.size = X.size + 1 ∧ Lf'.size + 1 = Lf.size ∧
        moved ≠ [] ∧ Lf.leafKeys = Lf'.leafKeys ++ moved ∧
        X'.leafKeys = moved ++ X.leafKeys ∧
        s ∈ lk.getLast? ∧ X'.findLeftMostKey = some s' ∧
        PairSteal order h Lf s X Lf' s' X' ∧
        stealOrMerge X (nodeI.interiorNodeS a order (lk ++ rk) (lv ++ X :: rv))
          = some (nodeI.interiorNodeS a order (lk.dropLast ++ s' :: rk)
              (lv.dropLast ++ Lf' :: X' :: rv), none)) ∧
    ((∀ Lf ∈ lv.getLast?, ¬ Lf.halfFullSize < Lf.size) →
      ∀ Rt ∈ rv.head?, Rt.halfFullSize < Rt.size →
      ∃ X' Rt' s s' moved, X.stealRight Rt = some (X', Rt') ∧
        X'.size = X.size + 1 ∧ Rt'.size + 1 = Rt.size ∧
        moved ≠ [] ∧ Rt.leafKeys = moved ++ Rt'.leafKeys ∧
        X'.leafKeys = X.leafKeys ++ moved ∧
        s ∈ rk.head? ∧ Rt'.findLeftMostKey = some s' ∧
        PairSteal order h X s Rt X' s' Rt' ∧
        stealOrMerge X (nodeI.interiorNodeS a order (lk ++ rk) (lv ++ X :: rv))
          = some (nodeI.interiorNodeS a order (lk ++ s' :: rk.tail)
              (lv ++ X' :: Rt' :: rv.tail), none)) ∧
    ((∀ Lf ∈ lv.getLast?, ¬ Lf.halfFullSize < Lf.size) →
      (∀ Rt ∈ rv.head?, ¬ Rt.halfFullSize < Rt.size) →
      ∀ Lf ∈ lv.getLast?,
      ∃ M s, Lf.mergeRight X = some M ∧ M.addr = Lf.addr ∧
        M.size = Lf.size + X.size ∧ M.leafKeys = Lf.leafKeys ++ X.leafKeys ∧
        M.children = Lf.children ++ X.children ∧
        s ∈ lk.getLast? ∧ PairMerge order h Lf s X M ∧
        stealOrMerge X (nodeI.interiorNodeS a order (lk ++ rk) (lv ++ X :: rv))
          = some (nodeI.interiorNodeS a order (lk ++ rk) (lv.dropLast ++ M :: X :: rv),
              some (M, X)) ∧
        removeDead X (nodeI.interiorNodeS a order (lk ++ rk) (lv.dropLast ++ M :: X :: rv))
          = some (nodeI.interiorNodeS a order (lk.dropLast ++ rk) (lv.dropLast ++ M :: rv))) ∧
    (lv = [] → (∀ Rt ∈ rv.head?, ¬ Rt.halfFullSize < Rt.size) →
      ∀ Rt ∈ rv.head?,
      ∃ M s, X.mergeRight Rt = some M ∧ M.addr = X.addr ∧
        M.size = X.size + Rt.size ∧ M.leafKeys = X.leafKeys ++ Rt.leafKeys ∧
        M.children = X.children ++ Rt.children ∧
        s ∈ rk.head? ∧ PairMerge order h X s Rt M ∧
        stealOrMerge X (nodeI.interiorNodeS a order (lk ++ rk) (lv ++ X :: rv))
          = some (nodeI.interiorNodeS a order rk (M :: Rt :: rv.tail), some (M, Rt)) ∧
        removeDead Rt (nodeI.interiorNodeS a order rk (M :: Rt :: rv.tail))
          = some (nodeI.interiorNodeS a order rk.tail (M :: rv.tail))) := by
  refine ⟨?_, ?_, ?_, ?_⟩
  · intro Lf hLf hbig
    obtain ⟨lv', lk', s, rfl, rfl, hl'⟩ := snoc_of_getLast hl hLf
    simp only [List.append_assoc, List.singleton_append, List.dropLast_concat] at hch hks hnd ⊢
    obtain ⟨Lf', X', s', hst, hkey, ps, e⟩ :=
      pair_stealLeft ho a lk' rk s lv' rv Lf X hl' (hch Lf (by simp)).1 wX
        (fun x hx => (hch x (by
          simp only [List.mem_append, List.mem_cons] at hx ⊢
          tauto)).1) hks hnd hX hbig
    obtain ⟨m1, m2, moved, m3, m4, m5⟩ := stealLeft_moves ho (hch Lf (by simp)).1 hst
    exact ⟨X', Lf', s, s', moved, hst, m1, m2, m3, m4, m5, by simp, hkey, ps, e⟩
  · intro hleft Rt hRt hbig
    obtain ⟨rv', s, rk', rfl, rfl, hr'⟩ := cons_of_head hr hRt
    obtain ⟨X', Rt', s', hst, hkey, ps, e⟩ :=
      pair_stealRight ho a lk rk' s lv rv' X Rt hl hr' wX (hch Rt (by simp)).1
        (fun x hx => (hch x (by
          simp only [List.mem_append, List.mem_cons] at hx ⊢
          tauto)).1) hks hnd hX hleft hbig
    obtain ⟨m1, m2, moved, m3, m4, m5⟩ := stealRight_moves ho (hch Rt (by simp)).1 hst
    exact ⟨X', Rt', s, s', moved, hst, m1, m2, m3, m4, m5, by simp, hkey, ps, e⟩
  · intro hleft hright Lf hLf
    have hnb := hleft Lf hLf
    obtain ⟨lv', lk', s, rfl, rfl, hl'⟩ := snoc_of_getLast hl hLf
    simp only [List.append_assoc, List.singleton_append, List.dropLast_concat] at hch hks hnd ⊢
    obtain ⟨M, hm, pm, e1, e2⟩ :=
      pair_mergeLeft ho a lk' rk s lv' rv Lf X hl' hr (hch Lf (by simp)).1 wX
        (fun x hx => (hch x (by
          simp only [List.mem_append, List.mem_cons] at hx ⊢
          tauto)).1) hnd hX (hch Lf (by simp)).2 hnb hright
    obtain ⟨m1, m2, m3⟩ := mergeRight_holds hm
    exact ⟨M, s, hm, pm.addr, m1, m2, m3, by simp, pm, e1, e2⟩
  · intro hlv hright Rt hRt
    subst hlv
    obtain rfl : lk = [] := by
      cases lk with
      | nil => rfl
      | cons _ _ => simp at hl
    have hnb := hright Rt hRt
    obtain ⟨rv', s, rk', rfl, rfl, hr'⟩ := cons_of_head hr hRt
    simp only [List.nil_append] at hch hks hnd ⊢
    obtain ⟨M, hm, pm, e1, e2⟩ :=
      pair_mergeRight ho a rk' s rv' X Rt hr' wX (hch Rt (by simp)).1
        (fun x hx => (hch x (by simp [hx])).1) hnd hX (hch Rt (by simp)).2 hnb
    obtain ⟨m1, m2, m3⟩ := mergeRight_holds hm
    exact ⟨M, s, hm, pm.addr, m1, m2, m3, by simp, pm, e1, e2⟩

end Claims8

section Samples

/-- The sample tree `demo4` is built by `Put(4, 40)` on `demo3`. -/
theorem demo4_reachable : Reachable demo4 :=
  Reachable.put demo3 demo4 4 40 true demo3_reachable rfl

/-- The sample tree `demo5` is built by `Put(5, 50)` on `demo4`. -/
theorem demo5_reachable : Reachable demo5 :=
  Reachable.put demo4 demo5 5 50 true demo4_reachable rfl

/-- The sample tree `demo6` is built by `Put(6, 60)` on `demo5`. -/
theorem demo6_reachable : Reachable demo6 :=
  Reachable.put demo5 demo6 6 60 true demo5_reachable rfl

/-- The sample tree `demo7` is built by `Put(7, 70)` on `demo6`. -/
theorem demo7_reachable : Reachable demo7 :=
  Reachable.put demo6 demo7 7 70 true demo6_reachable rfl

/-- The sample tree `demo8` is built by `Del(5)` on `demo7`. -/
theorem demo8_reachable : Reachable demo8 :=
  Reachable.del demo7 demo8 5 (some 50, true) demo7_reachable rfl

/-- A literal leaf with fewer keys than the order and as many values is
well-formed. -/
theorem wf_leaf_lit (order a : Nat) (keys vals : List Nat) (h1 : keys.length = vals.length)
    (h2 : keys.length < order) : WF order 0 (nodeI.leafNodeS a order keys vals) :=
  WF.leaf a order keys vals rfl h1 h2

theorem demo6Under_wf : WF 3 1 demo6Under :=
  WF.interior 0 2 3 [] _ rfl rfl (by decide)
    (by
      intro x hx
      simp only [List.mem_singleton] at hx
      subst hx
      exact wf_leaf_lit 3 0 [2] [20] rfl (by decide))
    (by
      intro x hx
      simp only [List.mem_singleton] at hx
      subst hx
      exact (by decide : 3 / 2 ≤ 1))

theorem demo6Peer_wf : WF 3 1 demo6Peer :=
  WF.interior 0 5 3 [4, 5] _ rfl rfl (by decide)
    (by
      intro x hx
      simp only [List.mem_cons, List.mem_singleton, List.not_mem_nil, or_false] at hx
      rcases hx with rfl | rfl | rfl
      · exact wf_leaf_lit 3 3 [3] [30] rfl (by decide)
      · exact wf_leaf_lit 3 4 [4] [40] rfl (by decide)
      · exact wf_leaf_lit 3 7 [5, 6] [50, 60] rfl (by decide))
    (by
      intro x hx
      simp only [List.mem_cons, List.mem_singleton, List.not_mem_nil, or_false] at hx
      rcases hx with rfl | rfl | rfl
      · exact (by decide : 3 / 2 ≤ 1)
      · exact (by decide : 3 / 2 ≤ 1)
      · exact (by decide : 3 / 2 ≤ 2))

theorem demo8First_wf : WF 3 1 demo8First :=
  WF.interior 0 2 3 [2] _ rfl rfl (by decide)
    (by
      intro x hx
      simp only [List.mem_cons, List.mem_singleton, List.not_mem_nil, or_false] at hx
      rcases hx with rfl | rfl
      · exact wf_leaf_lit 3 0 [1] [10] rfl (by decide)
      · exact wf_leaf_lit 3 1 [2] [20] rfl (by decide))
    (by
      intro x hx
      simp only [List.mem_cons, List.mem_singleton, List.not_mem_nil, or_false] at hx
      rcases hx with rfl | rfl
      · exact (by decide : 3 / 2 ≤ 1)
      · exact (by decide : 3 / 2 ≤ 1))

theorem demo8Left_wf : WF 3 1 demo8Left :=
  WF.interior 0 5 3 [4] _ rfl rfl (by decide)
    (by
      intro x hx
      simp only [List.mem_cons, List.mem_singleton, List.not_mem_nil, or_false] at hx
      rcases hx with rfl | rfl
      · exact wf_leaf_lit 3 3 [3] [30] rfl (by decide)
      · exact wf_leaf_lit 3 4 [4] [40] rfl (by decide))
    (by
      intro x hx
      simp only [List.mem_cons, List.mem_singleton, List.not_mem_nil, or_false] at hx
      rcases hx with rfl | rfl
      · exact (by decide : 3 / 2 ≤ 1)
      · exact (by decide : 3 / 2 ≤ 1))

theorem demo8Under_wf : WF 3 1 demo8Under :=
  WF.interior 0 9 3 [] _ rfl rfl (by decide)
    (by
      intro x hx
      simp only [List.mem_singleton] at hx
      subst hx
      exact wf_leaf_lit 3 7 [6] [60] rfl (by decide))
    (by
      intro x hx
      simp only [List.mem_singleton] at hx
      subst hx
      exact (by decide : 3 / 2 ≤ 1))

end Samples

section Claims9

/-- The statement C28 at `Del(1)` on `demo3`: the first leaf, left empty,
steals the entry of key 2 from its right peer, and the separator 2 of the
root becomes 3, the first key of the right peer after the steal. -/
theorem leaf_steal_witness :
    demo3.Del 1 = some (demo11, some 10, true) ∧
    ∃ k k' bk' v bv', ([2, 3] : List Nat) = k :: k' :: bk' ∧ ([20, 30] : List Nat) = v :: bv' ∧
      stealOrMerge (nodeI.leafNodeS 0 3 [] [])
        (nodeI.interiorNodeS 2 3 [2]
          [nodeI.leafNodeS 0 3 [] [], nodeI.leafNodeS 1 3 [2, 3] [20, 30]])
        = some (nodeI.interiorNodeS 2 3 [k']
          [nodeI.leafNodeS 0 3 [k] [v], nodeI.leafNodeS 1 3 (k' :: bk') bv'], none) :=
  ⟨rfl, (leaf_steal (by decide) 2 [] [] 2 [] [] 0 1 [] [2, 3] [] [20, 30] rfl rfl
    (wf_leaf_lit 3 0 [] [] rfl (by decide)) (wf_leaf_lit 3 1 [2, 3] [20, 30] rfl (by decide))
    (by simp) (by decide) (by decide)).2 rfl (by simp) (by decide)⟩

/-- The statement C29 (amended) at `Del(1)` on `demo6`: the node at address 2
steals a child from its right peer, and the separator between them becomes
the leftmost leaf key under the right peer after the steal. -/
theorem interior_steal_separator_witness :
    ∃ A' B' s', demo6Under.stealRight demo6Peer = some (A', B') ∧
      B'.findLeftMostKey = some s' ∧
      stealOrMerge demo6Under (nodeI.interiorNodeS 6 3 [3] [demo6Under, demo6Peer])
        = some (nodeI.interiorNodeS 6 3 [s'] [A', B'], none) :=
  (interior_steal_separator (by decide) 6 [] [] 3 [] [] demo6Under demo6Peer rfl rfl
    demo6Under_wf demo6Peer_wf (by simp) (by decide) (by decide)).2 rfl (by simp) (by decide)

/-- C29, as stated, fails.  `Del(1)` on the reachable tree `demo6` leaves the
node at address 2 with one child; the node steals the first child of its
right peer, and the separator between them in the root becomes 4, the
leftmost leaf key under the right peer after the steal, while the leftmost
leaf key under the receiving node is 2. -/
theorem interior_steal_separator_counterexample :
    Reachable demo6 ∧ demo6.Del 1 = some (demo9, some 10, true) ∧
    ∃ X' Rt', demo6Under.stealRight demo6Peer = some (X', Rt') ∧
      stealOrMerge demo6Under (nodeI.interiorNodeS 6 3 [3] [demo6Under, demo6Peer])
        = some (nodeI.interiorNodeS 6 3 [4] [X', Rt'], none) ∧
      demo9.root = nodeI.interiorNodeS 6 3 [4] [X', Rt'] ∧
      X'.findLeftMostKey = some 2 ∧ Rt'.findLeftMostKey = some 4 ∧
      X'.findLeftMostKey ≠ some 4 :=
  ⟨demo6_reachable, rfl, _, _, rfl, rfl, rfl, rfl, rfl, by decide⟩

/-- The statement C27 (amended) at `Del(7)` on `demo8`: the node at address 5
absorbs its right peer, and the key that goes between their keys is the
leftmost leaf key under the right peer. -/
theorem interior_merge_keys_witness :
    ∃ M least, demo8Left.mergeRight demo8Under = some M ∧
      demo8Under.findLeftMostKey = some least ∧
      M.keys = demo8Left.keys ++ least :: demo8Under.keys ∧
      M.children = demo8Left.children ++ demo8Under.children ∧
      stealOrMerge demo8Under
          (nodeI.interiorNodeS 6 3 [3, 5] [demo8First, demo8Left, demo8Under])
        = some (nodeI.interiorNodeS 6 3 [3, 5] [demo8First, M, demo8Under],
            some (M, demo8Under)) :=
  (interior_merge_keys (by decide) 6 [3] [] 5 [demo8First] [] demo8Left demo8Under rfl rfl
    demo8Left_wf demo8Under_wf
    (by
      intro x hx
      simp only [List.append_nil, List.mem_singleton] at hx
      subst hx
      exact demo8First_wf)
    (by decide)).1 rfl (by unfold MinFill; decide) (by decide) (by simp)

/-- C27, as stated, fails.  In the reachable tree `demo8` the separator 5 of
the root stands between the nodes at the addresses 5 and 9, and 5 is no
longer a key of the tree.  `Del(7)` merges the two nodes: the keys of the
merged node are `[4, 6]`, the keys of the left node, then 6, the leftmost leaf
key under the right node, and not `[4, 5]`, the keys with the separator of
the parent between them. -/
theorem interior_merge_counterexample :
    Reachable demo8 ∧ demo8.root = nodeI.interiorNodeS 6 3 [3, 5]
      [demo8First, demo8Left,
        nodeI.interiorNodeS 9 3 [7] [nodeI.leafNodeS 7 3 [6] [60], nodeI.leafNodeS 8 3 [7] [70]]] ∧
    demo8.Del 7 = some (demo10, some 70, true) ∧
    ∃ M, demo8Left.mergeRight demo8Under = some M ∧
      stealOrMerge demo8Under
          (nodeI.interiorNodeS 6 3 [3, 5] [demo8First, demo8Left, demo8Under])
        = some (nodeI.interiorNodeS 6 3 [3, 5] [demo8First, M, demo8Under],
            some (M, demo8Under)) ∧
      demo10.root = nodeI.interiorNodeS 6 3 [3] [demo8First, M] ∧
      M.keys = [4, 6] ∧ M.keys ≠ demo8Left.keys ++ [5] ++ demo8Under.keys :=
  ⟨demo8_reachable, rfl, rfl, _, rfl, rfl, rfl, rfl, by decide⟩

/-- The statement C30 at four parents of order 3.
An empty leaf between a left peer and a right peer that both hold two
entries steals from the left peer, and the right peer stays as it is.
The node at address 2 of `demo6` during `Del(1)`, leftmost with one child,
steals the first child of its right peer, which has three.
The node at address 9 of `demo8` during `Del(7)`, with one child, is absorbed
by its left peer at its minimum: the merged node holds three children.
A leftmost node with one child absorbs its right peer at its minimum. -/
theorem tie_breaking_witness :
    (∃ X' Lf' s s' moved,
      (nodeI.leafNodeS 1 3 [] [] : nodeI Nat Nat).stealLeft (nodeI.leafNodeS 0 3 [1, 2] [10, 20])
        = some (X', Lf') ∧
      X'.size = 1 ∧ Lf'.size + 1 = 2 ∧ moved ≠ [] ∧
      [1, 2] = Lf'.leafKeys ++ moved ∧ X'.leafKeys = moved ++ [] ∧
      s ∈ [3].getLast? ∧ X'.findLeftMostKey = some s' ∧
      PairSteal 3 0 (nodeI.leafNodeS 0 3 [1, 2] [10, 20]) s (nodeI.leafNodeS 1 3 [] []) Lf' s'
        X' ∧
      stealOrMerge (nodeI.leafNodeS 1 3 [] [])
          (nodeI.interiorNodeS 9 3 [3, 5]
            [nodeI.leafNodeS 0 3 [1, 2] [10, 20], nodeI.leafNodeS 1 3 [] [],
              nodeI.leafNodeS 2 3 [5, 6] [50, 60]])
        = some (nodeI.interiorNodeS 9 3 [s', 5]
            [Lf', X', nodeI.leafNodeS 2 3 [5, 6] [50, 60]], none)) ∧
    (∃ X' Rt' s s' moved, demo6Under.stealRight demo6Peer = some (X', Rt') ∧
      X'.size = 2 ∧ Rt'.size + 1 = 3 ∧ moved ≠ [] ∧
      [3, 4, 5, 6] = moved ++ Rt'.leafKeys ∧ X'.leafKeys = [2] ++ moved ∧
      s ∈ [3].head? ∧ Rt'.findLeftMostKey = some s' ∧
      PairSteal 3 1 demo6Under s demo6Peer X' s' Rt' ∧
      stealOrMerge demo6Under (nodeI.interiorNodeS 6 3 [3] [demo6Under, demo6Peer])
        = some (nodeI.interiorNodeS 6 3 [s'] [X', Rt'], none)) ∧
    (∃ M s, demo8Left.mergeRight demo8Under = some M ∧ M.addr = 5 ∧ M.size = 3 ∧
      M.leafKeys = [3, 4, 6] ∧ M.children = demo8Left.children ++ demo8Under.children ∧
      s ∈ [3, 5].getLast? ∧ PairMerge 3 1 demo8Left s demo8Under M ∧
      stealOrMerge demo8Under
          (nodeI.interiorNodeS 6 3 [3, 5] [demo8First, demo8Left, demo8Under])
        = some (nodeI.interiorNodeS 6 3 [3, 5] [demo8First, M, demo8Under],
            some (M, demo8Under)) ∧
      removeDead demo8Under (nodeI.interiorNodeS 6 3 [3, 5] [demo8First, M, demo8Under])
        = some (nodeI.interiorNodeS 6 3 [3] [demo8First, M])) ∧
    (∃ M s, demo6Under.mergeRight demo8Left = some M ∧ M.addr = 2 ∧ M.size = 3 ∧
      M.leafKeys = [2, 3, 4] ∧ M.children = demo6Under.children ++ demo8Left.children ∧
      s ∈ [3].head? ∧ PairMerge 3 1 demo6Under s demo8Left M ∧
      stealOrMerge demo6Under (nodeI.interiorNodeS 6 3 [3] [demo6Under, demo8Left])
        = some (nodeI.interiorNodeS 6 3 [3] [M, demo8Left], some (M, demo8Left)) ∧
      removeDead demo8Left (nodeI.interiorNodeS 6 3 [3] [M, demo8Left])
        = some (nodeI.interiorNodeS 6 3 [] [M])) :=
  ⟨(tie_breaking (by decide) 9 [3] [5] [nodeI.leafNodeS 0 3 [1, 2] [10, 20]]
      [nodeI.leafNodeS 2 3 [5, 6] [50, 60]] (nodeI.leafNodeS 1 3 [] []) rfl rfl
      (by
        intro x hx
        simp only [List.singleton_append, List.mem_cons, List.mem_singleton, List.not_mem_nil,
          or_false] at hx
        rcases hx with rfl | rfl
        · exact ⟨wf_leaf_lit 3 0 [1, 2] [10, 20] rfl (by decide), (by decide : 3 / 2 ≤ 2)⟩
        · exact ⟨wf_leaf_lit 3 2 [5, 6] [50, 60] rfl (by decide), (by decide : 3 / 2 ≤ 2)⟩)
      (wf_leaf_lit 3 1 [] [] rfl (by decide)) rfl (by decide) (by decide)).1
      (nodeI.leafNodeS 0 3 [1, 2] [10, 20]) rfl (by decide),
    (tie_breaking (by decide) 6 [] [3] [] [demo6Peer] demo6Under rfl rfl
      (by
        intro x hx
        simp only [List.nil_append, List.mem_singleton] at hx
        subst hx
        exact ⟨demo6Peer_wf, by unfold MinFill; decide⟩)
      demo6Under_wf rfl (by decide) (by decide)).2.1 (by simp) demo6Peer rfl (by decide),
    (tie_breaking (by decide) 6 [3, 5] [] [demo8First, demo8Left] [] demo8Under rfl rfl
      (by
        intro x hx
        simp only [List.append_nil, List.mem_cons, List.mem_singleton, List.not_mem_nil,
          or_false] at hx
        rcases hx with rfl | rfl
        · exact ⟨demo8First_wf, by unfold MinFill; decide⟩
        · exact ⟨demo8Left_wf, by unfold MinFill; decide⟩)
      demo8Under_wf rfl (by decide) (by decide)).2.2.1
      (by
        intro Lf hLf
        simp only [List.getLast?, List.getLast, Option.mem_def, Option.some.injEq] at hLf
        subst hLf
        decide)
      (by simp) demo8Left rfl,
    (tie_breaking (by decide) 6 [] [3] [] [demo8Left] demo6Under rfl rfl
      (by
        intro x hx
        simp only [List.nil_append, List.mem_singleton] at hx
        subst hx
        exact ⟨demo8Left_wf, by unfold MinFill; decide⟩)
      demo6Under_wf rfl (by decide) (by decide)).2.2.2 rfl
      (by
        intro Rt hRt
        simp only [List.head?_cons, Option.mem_def, Option.some.injEq] at hRt
        subst hRt
        decide)
      demo8Left rfl⟩

end Claims9

section Height

variable {K V : Type}

/-- The height of a well-formed subtree is the depth of its leaves. -/
theorem WF.height_eq {order : Nat} : ∀ {h : Nat} {n : nodeI K V}, WF order h n →
    n.height = h := by
  intro h n w
  induction w with
  | leaf a c keys vals h1 h2 h3 => simp [nodeI.height]
  | interior h a c keys vals h1 h2 h3 h4 h5 ih =>
    cases vals with
    | nil => simp at h2
    | cons c0 cs =>
      simp only [nodeI.height, heightFirst]
      rw [ih c0 (by simp)]

/-- `leafNodeS.split()` leaves the receiver at its address. -/
theorem leafSplit_addr {next : Nat} {n l r : nodeI K V} {s : K}
    (h : leafNodeS.split next n = some (l, r, s)) : l.addr = n.addr := by
  cases n with
  | interiorNodeS _ _ _ _ => simp [leafNodeS.split] at h
  | leafNodeS a c keys vals =>
    simp only [leafNodeS.split] at h
    split at h
    · simp at h
    · simp only [Option.some.injEq, Prod.mk.injEq] at h
      rw [← h.1]
      rfl

/-- `interiorNodeS.split()` leaves the receiver at its address. -/
theorem interiorSplit_addr {next : Nat} {n l r : nodeI K V} {s : K}
    (h : interiorNodeS.split next n = some (l, r, s)) : l.addr = n.addr := by
  cases n with
  | leafNodeS _ _ _ _ => simp [interiorNodeS.split] at h
  | interiorNodeS a c keys vals =>
    simp only [interiorNodeS.split] at h
    split at h
    · split at h
      · simp at h
      · simp only [Option.some.injEq, Prod.mk.injEq] at h
        rw [← h.1]
        rfl
    · split at h
      · simp at h
      · split at h
        · simp at h
        · simp only [Option.some.injEq, Prod.mk.injEq] at h
          rw [← h.1]
          rfl

/-- What `leafSplitIfBig` hands up is the outcome of a split, at the address of
the leaf. -/
theorem leafSplitIfBig_splitOf {next next' : Nat} {n : nodeI K V} {out : PutOut K V}
    (h : leafSplitIfBig next n = some (out, next')) : SplitOf out ∧ out.1.addr = n.addr := by
  unfold leafSplitIfBig at h
  by_cases hb : n.isToBig = true
  · simp only [hb, if_true, Option.map_eq_some'] at h
    obtain ⟨⟨l, r, s⟩, hs, e⟩ := h
    simp only [Prod.mk.injEq] at e
    obtain ⟨rfl, _⟩ := e
    have ha := leafSplit_addr hs
    refine ⟨?_, ha⟩
    intro s' r' e'
    simp only [Option.some.injEq, Prod.mk.injEq] at e'
    obtain ⟨rfl, rfl⟩ := e'
    exact ⟨n, next, hb, ha.symm, Or.inl hs⟩
  · simp only [hb, Bool.false_eq_true, if_false, Option.some.injEq, Prod.mk.injEq] at h
    obtain ⟨rfl, _⟩ := h
    exact ⟨fun s r e => by simp at e, rfl⟩

/-- What `splitIfBig` hands up is the outcome of a split, at the address of the
node. -/
theorem splitIfBig_splitOf {next next' : Nat} {n : nodeI K V} {out : PutOut K V}
    (h : splitIfBig next n = some (out, next')) : SplitOf out ∧ out.1.addr = n.addr := by
  unfold splitIfBig at h
  by_cases hb : n.isToBig = true
  · simp only [hb, if_true, Option.map_eq_some'] at h
    obtain ⟨⟨l, r, s⟩, hs, e⟩ := h
    simp only [Prod.mk.injEq] at e
    obtain ⟨rfl, _⟩ := e
    have ha := interiorSplit_addr hs
    refine ⟨?_, ha⟩
    intro s' r' e'
    simp only [Option.some.injEq, Prod.mk.injEq] at e'
    obtain ⟨rfl, rfl⟩ := e'
    exact ⟨n, next, hb, ha.symm, Or.inr hs⟩
  · simp only [hb, Bool.false_eq_true, if_false, Option.some.injEq, Prod.mk.injEq] at h
    obtain ⟨rfl, _⟩ := h
    exact ⟨fun s r e => by simp at e, rfl⟩

/-- The parent keeps its address when it sees a changed child. -/
theorem store_addr (p c : nodeI K V) : (p.store c).addr = p.addr := by
  cases p <;> rfl

/-- `interiorNodeS.insert` leaves the receiver at its address. -/
theorem interiorInsert_addr [LinearOrder K] {s : K} {r p p' : nodeI K V}
    (h : interiorNodeS.insert s r p = some p') : p'.addr = p.addr := by
  cases p with
  | leafNodeS _ _ _ _ => simp [interiorNodeS.insert] at h
  | interiorNodeS a c keys vals =>
    simp only [interiorNodeS.insert] at h
    split at h
    · split at h
      · simp only [Option.some.injEq] at h
        rw [← h]
        rfl
      · simp at h
    · simp only [Option.some.injEq] at h
      rw [← h]
      rfl

/-- `leafNodeS.insert` leaves the receiver at its address. -/
theorem leafInsert_addr [LinearOrder K] {key : K} {val : V} {n n' : nodeI K V} {added : Bool}
    (h : leafNodeS.insert key val n = some (n', added)) : n'.addr = n.addr := by
  cases n with
  | interiorNodeS _ _ _ _ => simp [leafNodeS.insert] at h
  | leafNodeS a c keys vals =>
    simp only [leafNodeS.insert] at h
    split at h
    · split at h
      · simp only [Option.some.injEq, Prod.mk.injEq] at h
        rw [← h.1]
        rfl
      · simp at h
    · split at h
      · simp only [Option.some.injEq, Prod.mk.injEq] at h
        rw [← h.1]
        rfl
      · simp at h
    · simp only [Option.some.injEq, Prod.mk.injEq] at h
      rw [← h.1]
      rfl

/-- The way up of `Put` ends at the node at the bottom of the path, at its
address, unless that node split: then the root is a new node over the node at
the bottom of the path and the right node its split made. -/
theorem putUp_root [LinearOrder K] (t : tree K V) : ∀ (path : pathT K V) (out : PutOut K V)
    (next next' : Nat) (root : nodeI K V),
    t.putUp out path next = some (root, next') → SplitOf out →
    root.addr = pathT.bottomAddr path out.1.addr ∨
      ∃ a l r s, root = t.newNode a s l r ∧ l.addr = pathT.bottomAddr path out.1.addr ∧
        SplitOf (l, some (s, r))
  | [], out, next, next', root, h, hs => by
    obtain ⟨n, _ | ⟨s, r⟩⟩ := out
    · simp only [tree.putUp, Option.some.injEq, Prod.mk.injEq] at h
      exact Or.inl (by rw [← h.1]; rfl)
    · simp only [tree.putUp, Option.some.injEq, Prod.mk.injEq] at h
      exact Or.inr ⟨next, n, r, s, h.1.symm, rfl, hs⟩
  | p :: path, out, next, next', root, h, hs => by
    obtain ⟨n, _ | ⟨s, r⟩⟩ := out
    · simp only [tree.putUp] at h
      have := putUp_root t path (p.store n, none) next next' root h
        (fun s r e => by simp at e)
      simpa [pathT.bottomAddr, store_addr] using this
    · simp only [tree.putUp] at h
      cases hi : interiorNodeS.insert s r (p.store n) with
      | none => simp [hi] at h
      | some p' =>
        simp only [hi] at h
        cases hsp : splitIfBig next p' with
        | none => simp [hsp] at h
        | some o =>
          obtain ⟨out', next1⟩ := o
          simp only [hsp] at h
          obtain ⟨hs', ha'⟩ := splitIfBig_splitOf hsp
          have := putUp_root t path out' next1 next' root h hs'
          rw [ha', interiorInsert_addr hi, store_addr] at this
          simpa [pathT.bottomAddr] using this

/-- The path `findLeaf` builds below a subtree starts at the subtree: the
bottom of the path is where the path was before, or the subtree. -/
theorem findLeafFrom_bottom [LinearOrder K] (key : K) {order : Nat} :
    ∀ {h : Nat} {X : nodeI K V}, WF order h X → ∀ (p0 path : pathT K V) (leaf : nodeI K V),
    findLeafFrom key X p0 = some (leaf, path) →
    pathT.bottomAddr path leaf.addr = pathT.bottomAddr p0 X.addr := by
  intro h X w
  induction w with
  | leaf a c keys vals h1 h2 h3 =>
    intro p0 path leaf e
    simp only [findLeafFrom, Option.some.injEq, Prod.mk.injEq] at e
    rw [← e.1, ← e.2]
  | interior h a c keys vals h1 h2 h3 h4 h5 ih =>
    intro p0 path leaf e
    obtain ⟨lk, rk, lv, X, rv, rfl, rfl, hl, hr, hlk, hrk, hget⟩ := descent_cut key h2
    rw [findLeafFrom_interior key a c _ _ p0 X hget] at e
    rw [ih X (by simp) _ path leaf e]
    rfl

end Height

section HeightOps

variable {K V : Type} [LinearOrder K]

omit [LinearOrder K] in
/-- `leafNodeS.split()` is called on a leaf and leaves a leaf. -/
theorem leafSplit_isLeaf {next : Nat} {n l r : nodeI K V} {s : K}
    (h : leafNodeS.split next n = some (l, r, s)) : l.isLeaf = n.isLeaf := by
  cases n with
  | interiorNodeS _ _ _ _ => simp [leafNodeS.split] at h
  | leafNodeS a c keys vals =>
    simp only [leafNodeS.split] at h
    split at h
    · simp at h
    · simp only [Option.some.injEq, Prod.mk.injEq] at h
      rw [← h.1]
      rfl

omit [LinearOrder K] in
/-- `interiorNodeS.split()` is called on an interior node and leaves an
interior node. -/
theorem interiorSplit_isLeaf {next : Nat} {n l r : nodeI K V} {s : K}
    (h : interiorNodeS.split next n = some (l, r, s)) : l.isLeaf = n.isLeaf := by
  cases n with
  | leafNodeS _ _ _ _ => simp [interiorNodeS.split] at h
  | interiorNodeS a c keys vals =>
    simp only [interiorNodeS.split] at h
    split at h
    · split at h
      · simp at h
      · simp only [Option.some.injEq, Prod.mk.injEq] at h
        rw [← h.1]
        rfl
    · split at h
      · simp at h
      · split at h
        · simp at h
        · simp only [Option.some.injEq, Prod.mk.injEq] at h
          rw [← h.1]
          rfl

/-- `Put` on a tree that meets the invariant keeps the height, or installs a
new root over the two halves of the old root, which split. -/
theorem Put_height (t : tree K V) (inv : Inv t) (key : K) (val : V) :
    ∃ t' added, t.Put key val = some (t', added) ∧
      (t'.root.height = t.root.height ∨
        (t'.root.height = t.root.height + 1 ∧
          ∃ big next a l r s, t.isRoot big = some true ∧ big.isToBig = true ∧
            (leafNodeS.split next big = some (l, r, s) ∨
              interiorNodeS.split next big = some (l, r, s)) ∧
            l.addr = t.root.addr ∧ t'.root = nodeI.interiorNodeS a t.order [s] [l, r])) := by
  obtain ⟨h, w⟩ := inv.wf
  obtain ⟨leaf, path, leaf', added, out0, nextL, out, next1, e1, e2, e3, e4, post⟩ :=
    put_main inv.order_ge t key val w [] t.nextAddr inv.sorted inv.nodup inv.fresh
  rw [Put_eq, e1]
  simp only [e2, e3]
  rcases out with ⟨n, _ | ⟨s, r⟩⟩
  · refine ⟨{ t with root := n, numEnts := if added then t.numEnts + 1 else t.numEnts,
                       nextAddr := next1 }, added, by rw [e4]; simp only [tree.putUp], Or.inl ?_⟩
    show n.height = t.root.height
    rw [WF.height_eq (post.wf n (by simp [PutOut.nodes])), WF.height_eq w]
  · have hup : t.putUp out0 path nextL = some (t.newNode next1 s n r, next1 + 1) := by
      rw [e4]
      simp only [tree.putUp]
    have wn := post.wf n (by simp [PutOut.nodes])
    refine ⟨{ t with root := t.newNode next1 s n r,
                     numEnts := if added then t.numEnts + 1 else t.numEnts,
                     nextAddr := next1 + 1 }, added, by rw [hup], Or.inr ⟨?_, ?_⟩⟩
    · show (t.newNode next1 s n r).height = t.root.height + 1
      rw [newNode_eq, WF.height_eq w]
      simp only [nodeI.height, heightFirst]
      rw [WF.height_eq wn]
    · obtain ⟨hs0, ha0⟩ := leafSplitIfBig_splitOf e3
      have hbot := findLeafFrom_bottom key w [] path leaf e1
      rw [← leafInsert_addr e2, ← ha0] at hbot
      simp only [pathT.bottomAddr] at hbot
      rcases putUp_root t path out0 nextL _ _ hup hs0 with h1 | ⟨a, l, r', s', e, hl, hsp⟩
      · exfalso
        rw [hbot, newNode_eq] at h1
        have h1' : next1 = t.root.addr := h1
        have h2 := inv.fresh _ (addr_mem_addrs t.root)
        have h3 := post.next_le
        omega
      · rw [newNode_eq, newNode_eq] at e
        simp only [nodeI.interiorNodeS.injEq, List.cons.injEq, and_true, true_and] at e
        obtain ⟨rfl, rfl, rfl, rfl⟩ := e
        obtain ⟨big, next, hb, hba, hsplit⟩ := hsp s r rfl
        simp only at hba hsplit
        rw [hbot] at hl
        refine ⟨big, next, next1, n, r, s, ?_, hb, hsplit, hl, by rw [newNode_eq]⟩
        apply isRoot_self t big _ (by rw [hba, hl])
        rw [← WF.isLeaf_eq wn w]
        rcases hsplit with hsplit | hsplit
        · exact leafSplit_isLeaf hsplit
        · exact interiorSplit_isLeaf hsplit

/-- `Del` on a tree that meets the invariant keeps the height, or replaces an
interior root left without separators by its one child. -/
theorem Del_height (t : tree K V) (inv : Inv t) (key : K) :
    ∃ t' res, t.Del key = some (t', res) ∧
      (t'.root.height = t.root.height ∨
        (t'.root.height + 1 = t.root.height ∧
          ∃ parent, t.isRoot parent = some true ∧ parent.isLeaf = false ∧
            parent.numKeys = 0 ∧ parent.children = [t'.root] ∧
            shrinkRoot parent = some t'.root)) := by
  obtain ⟨h, w⟩ := inv.wf
  obtain ⟨leaf, path, la, lc, lkeys, lvals, val, found, X', e1, e2, e3, post⟩ :=
    del_main inv.order_ge t key w [] (Or.inl ⟨rfl, rfl, inv.rootFill, rfl⟩) inv.sorted
      inv.nodup
  have hir : t.isRoot X' = some true :=
    isRoot_self t X' (WF.isLeaf_eq w post.wf) post.addr.symm
  rw [Del_eq, e1]
  simp only [e2, e3]
  rw [delFix_eq]
  simp only [hir]
  have hpw := post.wf
  rcases X' with ⟨a, c, keys, vals⟩ | ⟨a, c, keys, vals⟩
  · refine ⟨_, (val, found), rfl, Or.inl ?_⟩
    show (nodeI.leafNodeS a c keys vals).height = t.root.height
    rw [WF.height_eq hpw, WF.height_eq w]
  · obtain ⟨h', rfl, rfl, hlen, hkl, hch, hmf⟩ := hpw.interior_inv
    by_cases hk : keys.length = 0
    · obtain rfl : keys = [] := List.length_eq_zero.1 hk
      obtain ⟨c0, rfl⟩ : ∃ c0, vals = [c0] := by
        match vals, hlen with
        | [c0], _ => exact ⟨c0, rfl⟩
      refine ⟨{ t with root := c0, numEnts := if found then t.numEnts - 1 else t.numEnts },
        (val, found), by simp [rootAfter, shrinkRoot], Or.inr ⟨?_, ?_⟩⟩
      · show c0.height + 1 = t.root.height
        rw [WF.height_eq (hch c0 (by simp)), WF.height_eq w]
      · exact ⟨_, hir, rfl, rfl, rfl, by simp [shrinkRoot]⟩
    · refine ⟨{ t with root := nodeI.interiorNodeS a t.order keys vals,
                         numEnts := if found then t.numEnts - 1 else t.numEnts },
        (val, found), by simp [rootAfter, shrinkRoot, hk], Or.inl ?_⟩
      show (nodeI.interiorNodeS a t.order keys vals).height = t.root.height
      rw [WF.height_eq hpw, WF.height_eq w]

end HeightOps

section PutTrace

variable {K V : Type} [LinearOrder K]

omit [LinearOrder K] in
/-- The root seen through a path stands at the address of the bottom of the
path. -/
theorem commit_addr : ∀ (path : pathT K V) (n : nodeI K V),
    (pathT.commit path n).addr = pathT.bottomAddr path n.addr
  | [], _ => rfl
  | p :: path, n => by
    simp only [pathT.commit, pathT.bottomAddr]
    rw [commit_addr path (p.store n), store_addr]

/-- The loop of `Put` against its run up to the last split: they fail
together; when no new root is installed the root stays at the address of the
bottom of the path; otherwise the new root stands over the two nodes that
`split()` made of the node found. -/
theorem putLoopRoot_spec (t : tree K V) : ∀ (path : pathT K V) (parent : nodeI K V)
    (next : Nat),
    (t.putLoopRoot parent path next = none → t.putLoop parent path next = none) ∧
    (t.putLoopRoot parent path next = some none →
      ∃ root nx, t.putLoop parent path next = some (root, nx) ∧
        root.addr = pathT.bottomAddr path parent.addr) ∧
    (∀ big nx, t.putLoopRoot parent path next = some (some (big, nx)) →
      next ≤ nx ∧ big.isToBig = true ∧ big.addr = pathT.bottomAddr path parent.addr ∧
      ∃ l r s, interiorNodeS.split nx big = some (l, r, s) ∧
        t.putLoop parent path next = some (t.newNode (nx + 1) s l r, nx + 2))
  | [], parent, next => by
    unfold tree.putLoopRoot tree.putLoop
    by_cases hb : parent.isToBig = true
    · simp only [hb, if_true]
      cases hsp : interiorNodeS.split next parent with
      | none => simp
      | some x =>
        obtain ⟨l, r, s⟩ := x
        simp only [Option.some.injEq, Prod.mk.injEq, reduceCtorEq, false_implies, true_and,
          and_imp]
        intro big nx e1 e2
        subst e1 e2
        exact ⟨le_refl _, hb, rfl, l, r, s, hsp, rfl, rfl⟩
    · simp only [hb, Bool.false_eq_true, if_false]
      simp [pathT.commit, pathT.bottomAddr]
  | gp :: path, parent, next => by
    unfold tree.putLoopRoot tree.putLoop
    by_cases hb : parent.isToBig = true
    · simp only [hb, if_true]
      cases hsp : interiorNodeS.split next parent with
      | none => simp
      | some x =>
        obtain ⟨l, r, s⟩ := x
        simp only
        cases hi : interiorNodeS.insert s r (gp.store l) with
        | none => simp
        | some gp' =>
          simp only
          obtain ⟨h1, h2, h3⟩ := putLoopRoot_spec t path gp' (next + 1)
          have ha : gp'.addr = gp.addr := by rw [interiorInsert_addr hi, store_addr]
          refine ⟨h1, ?_, ?_⟩
          · intro e
            obtain ⟨root, nx, e1, e2⟩ := h2 e
            exact ⟨root, nx, e1, by rw [e2, ha]; rfl⟩
          · intro big nx e
            obtain ⟨g1, g2, g3, g4⟩ := h3 big nx e
            exact ⟨by omega, g2, by rw [g3, ha]; rfl, g4⟩
    · simp only [hb, Bool.false_eq_true, if_false]
      refine ⟨by simp, ?_, by simp⟩
      intro _
      exact ⟨_, _, rfl, commit_addr (gp :: path) parent⟩

/-- `Put` against its run up to the last split: they fail together; when no
new root is installed the root stays at the address of the bottom of the
path; otherwise the new root stands over the two nodes that `split()` made of
the node found. -/
theorem PutRoot_spec (t : tree K V) (key : K) (val : V) :
    (t.PutRoot key val = none → t.Put key val = none) ∧
    (t.PutRoot key val = some none →
      ∃ leaf path t' added, findLeafFrom key t.root [] = some (leaf, path) ∧
        t.Put key val = some (t', added) ∧
        t'.root.addr = pathT.bottomAddr path leaf.addr) ∧
    (∀ big nx, t.PutRoot key val = some (some (big, nx)) →
      ∃ leaf path, findLeafFrom key t.root [] = some (leaf, path) ∧
        t.nextAddr ≤ nx ∧ big.isToBig = true ∧ big.addr = pathT.bottomAddr path leaf.addr ∧
        ∃ l r s t' added, (leafNodeS.split nx big = some (l, r, s) ∨
            interiorNodeS.split nx big = some (l, r, s)) ∧
          t.Put key val = some (t', added) ∧ t'.root = t.newNode (nx + 1) s l r) := by
  unfold tree.PutRoot tree.Put tree.findLeaf newPathT
  cases hf : findLeafFrom key t.root [] with
  | none => simp
  | some x =>
    obtain ⟨leaf, path⟩ := x
    simp only
    cases hins : leafNodeS.insert key val leaf with
    | none => simp
    | some y =>
      obtain ⟨leaf', added⟩ := y
      have hla := leafInsert_addr hins
      simp only
      by_cases hb : leaf'.isToBig = true
      · simp only [hb, if_true]
        cases hsp : leafNodeS.split t.nextAddr leaf' with
        | none => simp
        | some z =>
          obtain ⟨l, r, s⟩ := z
          simp only
          cases path with
          | nil =>
            simp only [Option.some.injEq, Prod.mk.injEq, reduceCtorEq, false_implies,
              true_and, and_imp]
            intro big nx e1 e2
            subst e1 e2
            exact ⟨_, _, ⟨rfl, rfl⟩, le_refl _, hb, hla, l, r, s, _, added, Or.inl hsp, ⟨rfl, rfl⟩, rfl⟩
          | cons parent path =>
            simp only
            cases hi : interiorNodeS.insert s r (parent.store l) with
            | none => simp
            | some parent' =>
              simp only
              obtain ⟨h1, h2, h3⟩ := putLoopRoot_spec t path parent' (t.nextAddr + 1)
              have ha : parent'.addr = parent.addr := by
                rw [interiorInsert_addr hi, store_addr]
              refine ⟨?_, ?_, ?_⟩
              · intro e
                rw [h1 e]
              · intro e
                obtain ⟨root, nx, e1, e2⟩ := h2 e
                refine ⟨_, _, _, added, rfl, by rw [e1], ?_⟩
                rw [e2, ha]
                rfl
              · intro big nx e
                obtain ⟨g1, g2, g3, l', r', s', g4, g5⟩ := h3 big nx e
                refine ⟨_, _, rfl, by omega, g2, by rw [g3, ha]; rfl, l', r', s', _, added,
                  Or.inr g4, by rw [g5], rfl⟩
      · simp only [hb, Bool.false_eq_true, if_false]
        refine ⟨by simp, ?_, by simp⟩
        intro _
        refine ⟨_, _, _, added, rfl, rfl, ?_⟩
        show (pathT.commit path leaf').addr = _
        rw [commit_addr, hla]

end PutTrace

section PutTrace2

variable {K V : Type} [LinearOrder K]

/-- `Put` on a tree that meets the invariant: the run ends without
`t.root = t.newNode(...)` and the tree keeps its root address and its height,
or the run splits the root itself and installs a new root over the two nodes
of that split, and the tree is one higher. -/
theorem Put_trace (t : tree K V) (inv : Inv t) (key : K) (val : V) :
    ∃ t' added, t.Put key val = some (t', added) ∧
      ((t.PutRoot key val = some none ∧ t'.root.height = t.root.height ∧
          t'.root.addr = t.root.addr) ∨
        (t'.root.height = t.root.height + 1 ∧
          ∃ big next l r s, t.PutRoot key val = some (some (big, next)) ∧
            t.isRoot big = some true ∧ big.isToBig = true ∧
            (leafNodeS.split next big = some (l, r, s) ∨
              interiorNodeS.split next big = some (l, r, s)) ∧
            l.addr = t.root.addr ∧ r.height = t.root.height ∧
            t'.root = nodeI.interiorNodeS (next + 1) t.order [s] [l, r])) := by
  obtain ⟨h, w⟩ := inv.wf
  obtain ⟨leaf, path, leaf', added, out0, nextL, out, next1, e1, e2, e3, e4, post⟩ :=
    put_main inv.order_ge t key val w [] t.nextAddr inv.sorted inv.nodup inv.fresh
  have hbot : pathT.bottomAddr path leaf.addr = t.root.addr :=
    findLeafFrom_bottom key w [] path leaf e1
  have hfresh := inv.fresh _ (addr_mem_addrs t.root)
  have hnext := post.next_le
  obtain ⟨p1, p2, p3⟩ := PutRoot_spec t key val
  have hput : ∃ t', t.Put key val = some (t', added) ∧
      ((out.2 = none ∧ t'.root = out.1) ∨
        ∃ s r, out.2 = some (s, r) ∧ t'.root = t.newNode next1 s out.1 r) := by
    rw [Put_eq, e1]
    simp only [e2, e3]
    rcases out with ⟨n, _ | ⟨s, r⟩⟩
    · exact ⟨{ t with root := n, numEnts := if added then t.numEnts + 1 else t.numEnts,
                       nextAddr := next1 }, by rw [e4]; simp only [tree.putUp],
        Or.inl ⟨rfl, rfl⟩⟩
    · exact ⟨{ t with root := t.newNode next1 s n r,
                       numEnts := if added then t.numEnts + 1 else t.numEnts,
                       nextAddr := next1 + 1 }, by rw [e4]; simp only [tree.putUp],
        Or.inr ⟨s, r, rfl, rfl⟩⟩
  obtain ⟨t', hP, hroot⟩ := hput
  refine ⟨t', added, hP, ?_⟩
  have wn := post.wf out.1 (by
    rcases out with ⟨n, _ | ⟨s, r⟩⟩ <;> simp [PutOut.nodes])
  have han : out.1.addr = t.root.addr := post.addr
  cases hp : t.PutRoot key val with
  | none =>
    rw [p1 hp] at hP
    simp at hP
  | some tr =>
    cases tr with
    | none =>
      obtain ⟨leaf0, path0, t0, added0, f1, f2, f3⟩ := p2 hp
      rw [e1] at f1
      simp only [Option.some.injEq, Prod.mk.injEq] at f1
      obtain ⟨rfl, rfl⟩ := f1
      rw [hP] at f2
      simp only [Option.some.injEq, Prod.mk.injEq] at f2
      obtain ⟨rfl, rfl⟩ := f2
      rw [hbot] at f3
      rcases hroot with ⟨_, hr⟩ | ⟨s, r, _, hr⟩
      · exact Or.inl ⟨rfl, by rw [hr, WF.height_eq wn, WF.height_eq w], f3⟩
      · exfalso
        rw [hr, newNode_eq] at f3
        have f3' : next1 = t.root.addr := f3
        omega
    | some bn =>
      obtain ⟨big, nx⟩ := bn
      obtain ⟨leaf0, path0, f1, hnx, hb, hba, l, r, s, t0, added0, hsplit, f2, f3⟩ :=
        p3 big nx hp
      rw [e1] at f1
      simp only [Option.some.injEq, Prod.mk.injEq] at f1
      obtain ⟨rfl, rfl⟩ := f1
      rw [hP] at f2
      simp only [Option.some.injEq, Prod.mk.injEq] at f2
      obtain ⟨rfl, rfl⟩ := f2
      rw [hbot] at hba
      rcases hroot with ⟨_, hr⟩ | ⟨s1, r1, ho, hr⟩
      · exfalso
        rw [hr] at f3
        rw [f3, newNode_eq] at han
        have han' : nx + 1 = t.root.addr := han
        omega
      · rw [hr, newNode_eq, newNode_eq] at f3
        simp only [nodeI.interiorNodeS.injEq, List.cons.injEq, and_true, true_and] at f3
        obtain ⟨rfl, rfl, hl, rfl⟩ := f3
        have wr : WF t.order h r1 := post.wf r1 (by
          rcases out with ⟨n, _ | ⟨s, r⟩⟩
          · simp at ho
          · simp only [Option.some.injEq, Prod.mk.injEq] at ho
            simp [PutOut.nodes, ho.2])
        have hla : l.addr = big.addr := by
          rcases hsplit with hsplit | hsplit
          · exact leafSplit_addr hsplit
          · exact interiorSplit_addr hsplit
        have hll : l.isLeaf = big.isLeaf := by
          rcases hsplit with hsplit | hsplit
          · exact leafSplit_isLeaf hsplit
          · exact interiorSplit_isLeaf hsplit
        rw [← hl] at hll hla hsplit
        refine Or.inr ⟨?_, big, nx, out.1, r1, s1, rfl, ?_, hb, hsplit, han,
          by rw [WF.height_eq wr, WF.height_eq w], by rw [hr, newNode_eq]⟩
        · rw [hr, newNode_eq, WF.height_eq w]
          simp only [nodeI.height, heightFirst]
          rw [WF.height_eq wn]
        · apply isRoot_self t big _ (by rw [hba])
          rw [← hll]
          exact (WF.isLeaf_eq wn w).symm

end PutTrace2

section DelTrace

variable {K V : Type} [DecidableEq K]

/-- The way up of `Del` up to the root test, one level unfolded. -/
theorem delTop_eq (t : tree K V) (n : nodeI K V) (path : pathT K V) :
    t.delTop n path =
    match t.isRoot n with
    | none => none
    | some true => some (some n)
    | some false =>
      if n.size ≥ n.halfFullSize then some none
      else
        match path with
        | [] => none
        | p :: path =>
          match stealOrMerge n (p.store n) with
          | none => none
          | some (_, none) => some none
          | some (p', some (_, d)) =>
            match removeDead d p' with
            | none => none
            | some p'' => tree.delTop t p'' path := by
  cases path with
  | nil =>
    delta tree.delTop
    dsimp only [nodeI.brecOn_1]
  | cons p path =>
    delta tree.delTop
    dsimp only [nodeI.brecOn_1]

/-- The body of `delUp`, run up to the root test. -/
theorem delUpRoot_unfold (t : tree K V) (parent m deadNode : nodeI K V) (path : pathT K V) :
    t.delUpRoot parent m deadNode path =
    match removeDead deadNode parent with
    | none => none
    | some parent =>
      match t.isRoot parent with
      | none => none
      | some true => some (some parent)
      | some false =>
        if parent.size ≥ parent.halfFullSize then some none
        else
          match path with
          | [] => none
          | grandParent :: path =>
            match stealOrMerge parent (grandParent.store parent) with
            | none => none
            | some (_, none) => some none
            | some (grandParent, some (mNode, dNode)) =>
              tree.delUpRoot t grandParent mNode dNode path := by
  cases path with
  | nil =>
    delta tree.delUpRoot
    dsimp only [nodeI.brecOn_1]
  | cons p path =>
    delta tree.delUpRoot
    dsimp only [nodeI.brecOn_1]

/-- The recursion of `delUp` up to the root test is the way up of `Del` from
the parent, the dead node removed. -/
theorem delUpRoot_eq (t : tree K V) : ∀ (path : pathT K V) (parent m d : nodeI K V),
    t.delUpRoot parent m d path = match removeDead d parent with
      | none => none
      | some p => t.delTop p path
  | [], parent, m, d => by
    rw [delUpRoot_unfold]
    cases hrd : removeDead d parent with
    | none => rfl
    | some p =>
      simp only
      rw [delTop_eq]
  | gp :: path, parent, m, d => by
    rw [delUpRoot_unfold]
    cases hrd : removeDead d parent with
    | none => rfl
    | some p =>
      simp only
      rw [delTop_eq]
      cases t.isRoot p with
      | none => rfl
      | some b =>
        cases b with
        | true => rfl
        | false =>
          simp only
          split
          · rfl
          · cases stealOrMerge p (gp.store p) with
            | none => rfl
            | some r =>
              obtain ⟨gp', _ | ⟨m', d'⟩⟩ := r
              · rfl
              · simp only
                rw [delUpRoot_eq t path gp' m' d']

end DelTrace

section DelTrace2

variable {K V : Type} [LinearOrder K]

/-- `Del` up to the root test of `delUp` is the descent, the removal at the
leaf and the way up; the root test on the leaf comes before `delUp`. -/
theorem DelRoot_eq (t : tree K V) (key : K) :
    t.DelRoot key = match findLeafFrom key t.root [] with
      | none => none
      | some (leaf, path) =>
        match leafNodeS.remove key leaf with
        | none => none
        | some (leaf', _, _) =>
          match t.isRoot leaf' with
          | none => none
          | some true => some none
          | some false => t.delTop leaf' path := by
  unfold tree.DelRoot tree.findLeaf newPathT
  cases findLeafFrom key t.root [] with
  | none => rfl
  | some r =>
    obtain ⟨leaf, path⟩ := r
    simp only
    cases hrm : leafNodeS.remove key leaf with
    | none => rfl
    | some r2 =>
      obtain ⟨leaf', val, found⟩ := r2
      simp only
      rw [delTop_eq]
      cases t.isRoot leaf' with
      | none => rfl
      | some b =>
        cases b with
        | true => rfl
        | false =>
          simp only
          split
          · rfl
          · cases path with
            | nil => rfl
            | cons parent path =>
              simp only
              cases stealOrMerge leaf' (parent.store leaf') with
              | none => rfl
              | some r3 =>
                obtain ⟨p', _ | ⟨m', d'⟩⟩ := r3
                · rfl
                · simp only
                  rw [delUpRoot_eq]

/-- One level of the way up of `Del`, with the run: the level returns
without going on to the parent and the node keeps its size, or it merged the
under-full child and goes on with the parent. -/
theorem del_step_trace {order h : Nat} (ho : 3 ≤ order) (t : tree K V) (key : K) (a : Nat)
    (lk rk : List K) (lv rv : List (nodeI K V)) (X X' : nodeI K V) (val : Option V)
    (found : Bool) (p0 : pathT K V)
    (hl : lv.length = lk.length) (hr : rv.length = rk.length)
    (wP : WF order (h + 1) (nodeI.interiorNodeS a order (lk ++ rk) (lv ++ X :: rv)))
    (hsort : (nodeI.interiorNodeS a order (lk ++ rk) (lv ++ X :: rv)).items.Pairwise Item.lt)
    (hlk : ∀ k ∈ lk, k ≤ key) (hrk : ∀ k ∈ rk.head?, key < k)
    (hnd : (nodeI.interiorNodeS a order (lk ++ rk) (lv ++ X :: rv)).addrs.Nodup)
    (pos : Pos t (nodeI.interiorNodeS a order (lk ++ rk) (lv ++ X :: rv)) p0)
    (post : DelPost order h key X X' val found) :
    ∃ P', t.delFix X' (nodeI.interiorNodeS a order (lk ++ rk) (lv ++ X :: rv) :: p0)
        = t.delFix P' p0 ∧
      DelPost order (h + 1) key (nodeI.interiorNodeS a order (lk ++ rk) (lv ++ X :: rv)) P'
        val found ∧
      ((t.delTop X' (nodeI.interiorNodeS a order (lk ++ rk) (lv ++ X :: rv) :: p0) = some none ∧
          P'.size = (lv ++ X :: rv).length) ∨
        (t.delTop X' (nodeI.interiorNodeS a order (lk ++ rk) (lv ++ X :: rv) :: p0)
            = t.delTop P' p0 ∧ X'.size < X.size)) := by
  obtain ⟨h', eh, _, hlen, hkeys, hch, hmf⟩ := wP.interior_inv
  obtain rfl : h = h' := by omega
  obtain ⟨hst, rel0⟩ := del_store key a order lk rk lv rv X X' val found hl hr hsort hlk hrk hnd
    post.toDelRel
  obtain ⟨hroot, hra⟩ := pos.child hnd
  have hra' : t.root.addr ≠ X'.addr := by
    rw [post.addr]
    intro e
    exact hra (e ▸ addr_mem_addrs X)
  have hir := isRoot_below t X' hroot hra'
  have hP2 := pos.two ho wP
  have wXo : WF order h X := hch X (by simp)
  have mXo : MinFill X := hmf X (by simp)
  by_cases hfill : X'.size ≥ X'.halfFullSize
  · have wP0 : WF order (h + 1) (nodeI.interiorNodeS a order (lk ++ rk) (lv ++ X' :: rv)) := by
      refine WF.interior h a order _ _ rfl (by simpa using hlen) hkeys ?_ ?_
      · intro x hx
        simp only [List.mem_append, List.mem_cons] at hx
        rcases hx with hx | rfl | hx
        · exact hch x (by simp [hx])
        · exact post.wf
        · exact hch x (by simp [hx])
      · intro x hx
        simp only [List.mem_append, List.mem_cons] at hx
        rcases hx with hx | rfl | hx
        · exact hmf x (by simp [hx])
        · exact hfill
        · exact hmf x (by simp [hx])
    refine ⟨_, ?_, { toDelRel := rel0, wf := wP0, size := by simp [nodeI.size] }, Or.inl ⟨?_, ?_⟩⟩
    · rw [delFix_done t _ _ p0 pos wP0 rfl rfl (by simp [nodeI.size]) rfl, delFix_eq]
      simp only [hir, hfill, if_true, pathT.commit, hst]
    · rw [delTop_eq]
      simp only [hir, hfill, if_true]
    · simp [nodeI.size]
  · have hfound : found = true := by
      cases hf : found with
      | true => rfl
      | false =>
        have := post.unchanged hf
        rw [this] at hfill
        exact absurd mXo hfill
    have hX : X'.size + 1 = X'.halfFullSize := by
      have h1 := post.size
      have h2 := WF.halfFullSize_eq post.wf wXo
      unfold MinFill at mXo
      omega
    have hlt : X'.size < X.size := by
      have h2 := WF.halfFullSize_eq post.wf wXo
      unfold MinFill at mXo
      omega
    obtain ⟨P', wP', same, hcase⟩ := stealOrMerge_spec ho a lk rk lv rv X' hl hr hkeys
      (fun x hx => ⟨hch x (by
          simp only [List.mem_append, List.mem_cons] at hx ⊢
          tauto), hmf x (by
          simp only [List.mem_append, List.mem_cons] at hx ⊢
          tauto)⟩)
      post.wf hX (rel0.refines.pairwise hsort) (rel0.addrs_nodup hnd) (by
        simp only [nodeI.size] at hP2
        simpa using hP2)
    refine ⟨P', ?_, { toDelRel := rel0.same same hfound, wf := wP', size := ?_ }, ?_⟩
    · rcases hcase with ⟨e, hs⟩ | ⟨P1, M, D, e, e2, hs⟩
      · rw [delFix_done t _ P' p0 pos wP' (same.addr.trans rel0.addr)
          ((WF.isLeaf_succ wP').trans (WF.isLeaf_succ wP).symm)
          (by rw [hs]; simp [nodeI.size]) (WF.halfFullSize_eq wP' wP), delFix_eq]
        simp only [hir, hfill, if_false, hst, e]
      · rw [delFix_eq]
        simp only [hir, hfill, if_false, hst, e, e2]
    · rcases hcase with ⟨e, hs⟩ | ⟨P1, M, D, e, e2, hs⟩
      · rw [hs]
        simp [nodeI.size]
      · show (lv ++ X :: rv).length ≤ P'.size + 1
        simp only [List.length_append, List.length_cons] at hs ⊢
        omega
    · rcases hcase with ⟨e, hs⟩ | ⟨P1, M, D, e, e2, hs⟩
      · refine Or.inl ⟨?_, by rw [hs]; simp⟩
        rw [delTop_eq]
        simp only [hir, hfill, if_false, hst, e]
      · refine Or.inr ⟨?_, hlt⟩
        rw [delTop_eq]
        simp only [hir, hfill, if_false, hst, e, e2]

/-- The way of `Del` down to the leaf and up again from a subtree, with the
run: the way up from the leaf reaches the subtree, or it returned below it
and the subtree keeps its size. -/
theorem del_main_trace {order : Nat} (ho : 3 ≤ order) (t : tree K V) (key : K) :
    ∀ {h : Nat} {X : nodeI K V}, WF order h X → ∀ (p0 : pathT K V), Pos t X p0 →
    X.items.Pairwise Item.lt → X.addrs.Nodup →
    ∃ leaf path la lc lkeys lvals val found X',
      findLeafFrom key X p0 = some (leaf, path) ∧
      leafNodeS.remove key leaf = some (nodeI.leafNodeS la lc lkeys lvals, val, found) ∧
      t.delFix (nodeI.leafNodeS la lc lkeys lvals) path = t.delFix X' p0 ∧
      DelPost order h key X X' val found ∧
      (X.isLeaf = true → nodeI.leafNodeS la lc lkeys lvals = X') ∧
      (t.delTop (nodeI.leafNodeS la lc lkeys lvals) path = t.delTop X' p0 ∨
        (t.delTop (nodeI.leafNodeS la lc lkeys lvals) path = some none ∧
          X.size ≤ X'.size)) := by
  intro h X w
  induction w with
  | leaf a c keys vals h1 h2 h3 =>
    intro p0 _ hs _
    subst h1
    obtain ⟨keys', vals', val, found, e1, post⟩ :=
      del_leaf key a keys vals (WF.leaf _ _ _ _ rfl h2 h3) hs
    exact ⟨_, p0, a, c, keys', vals', val, found, _, by simp [findLeafFrom], e1, rfl, post,
      fun _ => rfl, Or.inl rfl⟩
  | interior h a c keys vals h1 h2 h3 h4 h5 ih =>
    intro p0 pos hs hnd
    subst h1
    obtain ⟨lk, rk, lv, X, rv, rfl, rfl, hl, hr, hlk, hrk, hget⟩ := descent_cut key h2
    have hXs : X.items.Pairwise Item.lt := by
      have := hs
      rw [items_zoom a c lk rk lv rv X hl hr] at this
      exact (pairwise_mid this).2.1
    obtain ⟨_, _, hXnd, _⟩ := sibling_addr_ne hnd
    obtain ⟨hroot, hra⟩ := pos.child hnd
    obtain ⟨leaf, path, la, lc, lkeys, lvals, val, found, X', e1, e2, e3, post, _, tr⟩ :=
      ih X (by simp) (nodeI.interiorNodeS a c (lk ++ rk) (lv ++ X :: rv) :: p0)
        (Or.inr ⟨hroot, hra, h5 X (by simp)⟩) hXs hXnd
    obtain ⟨P', e4, post', tr'⟩ := del_step_trace ho t key a lk rk lv rv X X' val found p0 hl hr
      (WF.interior h a c _ _ rfl h2 h3 h4 h5) hs hlk hrk hnd pos post
    refine ⟨leaf, path, la, lc, lkeys, lvals, val, found, P', ?_, e2, ?_, post', ?_, ?_⟩
    · rw [findLeafFrom_interior key a c _ _ p0 X hget]
      exact e1
    · rw [e3, e4]
    · intro hleaf
      simp [nodeI.isLeaf] at hleaf
    · rcases tr' with ⟨t1, t2⟩ | ⟨t1, t2⟩
      · refine Or.inr ⟨?_, by rw [t2]; simp [nodeI.size]⟩
        rcases tr with tr | ⟨tr, _⟩
        · rw [tr, t1]
        · exact tr
      · rcases tr with tr | ⟨tr, hsz⟩
        · exact Or.inl (by rw [tr, t1])
        · omega

end DelTrace2

section DelTrace3

variable {K V : Type} [LinearOrder K]

omit [LinearOrder K] in
/-- A leaf is not the root of a tree whose root is an interior node. -/
theorem isRoot_leaf (t : tree K V) (hr : t.root.isLeaf = false) (a c : Nat) (keys : List K)
    (vals : List V) : t.isRoot (nodeI.leafNodeS a c keys vals) = some false := by
  unfold tree.isRoot
  cases hroot : t.root with
  | leafNodeS _ _ _ _ => simp [hroot, nodeI.isLeaf] at hr
  | interiorNodeS _ _ _ _ => rfl

/-- `Del` on a tree that meets the invariant: the run ends without
`t.root = parent.vals[0]` and the tree keeps its root address and its height
(the run returned before the root test of `delUp`, or that test found a root
that still has a separator), or the root test of `delUp` found the root
without a separator and its one child became the root, and the tree is one
lower. -/
theorem Del_trace (t : tree K V) (inv : Inv t) (key : K) :
    ∃ t' res, t.Del key = some (t', res) ∧
      ((t'.root.height = t.root.height ∧ t'.root.addr = t.root.addr ∧
          (t.DelRoot key = some none ∨
            ∃ parent, t.DelRoot key = some (some parent) ∧ parent.numKeys ≠ 0 ∧
              t'.root = parent)) ∨
        (t'.root.height + 1 = t.root.height ∧
          ∃ parent, t.DelRoot key = some (some parent) ∧ t.isRoot parent = some true ∧
            parent.isLeaf = false ∧ parent.numKeys = 0 ∧ parent.children = [t'.root] ∧
            shrinkRoot parent = some t'.root)) := by
  obtain ⟨h, w⟩ := inv.wf
  obtain ⟨leaf, path, la, lc, lkeys, lvals, val, found, X', e1, e2, e3, post, hleaf, tr⟩ :=
    del_main_trace inv.order_ge t key w [] (Or.inl ⟨rfl, rfl, inv.rootFill, rfl⟩) inv.sorted
      inv.nodup
  have hir : t.isRoot X' = some true :=
    isRoot_self t X' (WF.isLeaf_eq w post.wf) post.addr.symm
  have htop : t.delTop X' [] = some (some X') := by
    rw [delTop_eq]
    simp only [hir]
  have hil := WF.isLeaf_eq w post.wf
  have hroot : t.DelRoot key = match t.isRoot (nodeI.leafNodeS la lc lkeys lvals) with
      | none => none
      | some true => some none
      | some false => t.delTop (nodeI.leafNodeS la lc lkeys lvals) path := by
    rw [DelRoot_eq, e1]
    simp only [e2]
  rw [Del_eq, e1]
  simp only [e2, e3]
  rw [delFix_eq]
  simp only [hir]
  have hpw := post.wf
  have hpa := post.addr
  rcases X' with ⟨a, c, keys, vals⟩ | ⟨a, c, keys, vals⟩
  · refine ⟨_, (val, found), rfl, Or.inl ⟨?_, hpa, Or.inl ?_⟩⟩
    · show (nodeI.leafNodeS a c keys vals).height = t.root.height
      rw [WF.height_eq hpw, WF.height_eq w]
    · rw [hroot, hleaf hil, hir]
  · have hri : t.root.isLeaf = false := hil
    rw [isRoot_leaf t hri] at hroot
    simp only at hroot
    have h2 : 2 ≤ t.root.size := by
      rcases inv.rootFill with hf | hf
      · rw [hri] at hf
        simp at hf
      · exact hf
    obtain ⟨h', rfl, rfl, hlen, hkl, hch, hmf⟩ := hpw.interior_inv
    by_cases hk : keys.length = 0
    · obtain rfl : keys = [] := List.length_eq_zero.1 hk
      obtain ⟨c0, rfl⟩ : ∃ c0, vals = [c0] := by
        match vals, hlen with
        | [c0], _ => exact ⟨c0, rfl⟩
      refine ⟨{ t with root := c0, numEnts := if found then t.numEnts - 1 else t.numEnts },
        (val, found), by simp [rootAfter, shrinkRoot], Or.inr ⟨?_, ?_⟩⟩
      · show c0.height + 1 = t.root.height
        rw [WF.height_eq (hch c0 (by simp)), WF.height_eq w]
      · refine ⟨_, ?_, hir, rfl, rfl, rfl, by simp [shrinkRoot]⟩
        rcases tr with tr | ⟨_, hsz⟩
        · rw [hroot, tr, htop]
        · have h1 : (nodeI.interiorNodeS a t.order ([] : List K) [c0]).size = 1 := rfl
          rw [h1] at hsz
          omega
    · refine ⟨{ t with root := nodeI.interiorNodeS a t.order keys vals,
                         numEnts := if found then t.numEnts - 1 else t.numEnts },
        (val, found), by simp [rootAfter, shrinkRoot, hk], Or.inl ⟨?_, hpa, ?_⟩⟩
      · show (nodeI.interiorNodeS a t.order keys vals).height = t.root.height
        rw [WF.height_eq hpw, WF.height_eq w]
      · rcases tr with tr | ⟨tr, _⟩
        · exact Or.inr ⟨nodeI.interiorNodeS a t.order keys vals, by rw [hroot, tr, htop], hk,
            rfl⟩
        · exact Or.inl (by rw [hroot, tr])

/-- The sample tree `demo11` is built by `Del(1)` on `demo3`. -/
theorem demo11_reachable : Reachable demo11 :=
  Reachable.del demo3 demo11 1 (some 10, true) demo3_reachable rfl

end DelTrace3

section Samples2

/-- The run of `Put(5, 50)` on `demo4` reaches `t.root = t.newNode(...)` after
the split of the root, over-full with three separators. -/
theorem demo4_PutRoot : demo4.PutRoot 5 50 = some (some (demo4Big, 5)) := rfl

/-- The run of `Del(2)` on `demo11` reaches the root test of `delUp` with the
root left without a separator over the merged leaf. -/
theorem demo11_DelRoot : demo11.DelRoot 2
    = some (some (nodeI.interiorNodeS 2 3 [] [nodeI.leafNodeS 0 3 [3] [30]])) := rfl

/-- The run of `Del(1)` on `demo3` ends with a steal, before `delUp`. -/
theorem demo3_DelRoot : demo3.DelRoot 1 = some none := rfl

/-- The run of `Put(4, 40)` on `demo3` ends without a new root. -/
theorem demo3_PutRoot : demo3.PutRoot 4 40 = some none := rfl

end Samples2

section Claims10

variable {K V : Type} [LinearOrder K]

/-- C21: height changes only at the root.  On every reachable tree all leaves
are `height` levels below the root, and: `Put` returns and leaves a tree of
the same height or one higher.  It leaves the same height, and the root at its
address, when the run ends without `t.root = t.newNode(...)`; it leaves one
more when the run reaches that statement, and then the node it split last is
the root itself, over-full, and the new root holds the one separator and the
two nodes that `split()` returned (the old root, at its address, and its new
right half, of the same height).  `Del` returns and leaves a tree of the same
height or one lower.  It leaves the same height, and the root at its address,
when the run returns before the root test of `delUp` or that test finds the
root with a separator left; it leaves one less when that test finds the root,
an interior node, with no separator left, and then the one child of the root
is the new root. -/
theorem height_changes_at_root (t : tree K V) (hr : Reachable t) (key : K) (val : V) :
    (∀ d ∈ t.root.leafDepths, d = t.root.height) ∧
    (∃ t' added, t.Put key val = some (t', added) ∧
      ((t.PutRoot key val = some none ∧ t'.root.height = t.root.height ∧
          t'.root.addr = t.root.addr) ∨
        (t'.root.height = t.root.height + 1 ∧
          ∃ big next l r s, t.PutRoot key val = some (some (big, next)) ∧
            t.isRoot big = some true ∧ big.isToBig = true ∧
            (leafNodeS.split next big = some (l, r, s) ∨
              interiorNodeS.split next big = some (l, r, s)) ∧
            l.addr = t.root.addr ∧ r.height = t.root.height ∧
            t'.root = nodeI.interiorNodeS (next + 1) t.order [s] [l, r]))) ∧
    (∃ t' res, t.Del key = some (t', res) ∧
      ((t'.root.height = t.root.height ∧ t'.root.addr = t.root.addr ∧
          (t.DelRoot key = some none ∨
            ∃ parent, t.DelRoot key = some (some parent) ∧ parent.numKeys ≠ 0 ∧
              t'.root = parent)) ∨
        (t'.root.height + 1 = t.root.height ∧
          ∃ parent, t.DelRoot key = some (some parent) ∧ t.isRoot parent = some true ∧
            parent.isLeaf = false ∧ parent.numKeys = 0 ∧ parent.children = [t'.root] ∧
            shrinkRoot parent = some t'.root))) := by
  have inv := hr.inv
  obtain ⟨h, w⟩ := inv.wf
  refine ⟨?_, Put_trace t inv key val, Del_trace t inv key⟩
  intro d hd
  rw [leafDepths_eq w d hd, WF.height_eq w]

/-- The statement C21 at two sample trees.  At `demo4`, where `Put(5, 50)`
splits the root and installs a new root; at `demo11`, where `Del(2)` merges
the two leaves and leaves the root without a separator. -/
theorem height_changes_at_root_witness :
    ((∀ d ∈ demo4.root.leafDepths, d = demo4.root.height) ∧
    (∃ t' added, demo4.Put 5 50 = some (t', added) ∧
      ((demo4.PutRoot 5 50 = some none ∧ t'.root.height = demo4.root.height ∧
          t'.root.addr = demo4.root.addr) ∨
        (t'.root.height = demo4.root.height + 1 ∧
          ∃ big next l r s, demo4.PutRoot 5 50 = some (some (big, next)) ∧
            demo4.isRoot big = some true ∧ big.isToBig = true ∧
            (leafNodeS.split next big = some (l, r, s) ∨
              interiorNodeS.split next big = some (l, r, s)) ∧
            l.addr = demo4.root.addr ∧ r.height = demo4.root.height ∧
            t'.root = nodeI.interiorNodeS (next + 1) demo4.order [s] [l, r]))) ∧
    (∃ t' res, demo4.Del 5 = some (t', res) ∧
      ((t'.root.height = demo4.root.height ∧ t'.root.addr = demo4.root.addr ∧
          (demo4.DelRoot 5 = some none ∨
            ∃ parent, demo4.DelRoot 5 = some (some parent) ∧ parent.numKeys ≠ 0 ∧
              t'.root = parent)) ∨
        (t'.root.height + 1 = demo4.root.height ∧
          ∃ parent, demo4.DelRoot 5 = some (some parent) ∧ demo4.isRoot parent = some true ∧
            parent.isLeaf = false ∧ parent.numKeys = 0 ∧ parent.children = [t'.root] ∧
            shrinkRoot parent = some t'.root)))) ∧
    ((∀ d ∈ demo11.root.leafDepths, d = demo11.root.height) ∧
    (∃ t' added, demo11.Put 2 0 = some (t', added) ∧
      ((demo11.PutRoot 2 0 = some none ∧ t'.root.height = demo11.root.height ∧
          t'.root.addr = demo11.root.addr) ∨
        (t'.root.height = demo11.root.height + 1 ∧
          ∃ big next l r s, demo11.PutRoot 2 0 = some (some (big, next)) ∧
            demo11.isRoot big = some true ∧ big.isToBig = true ∧
            (leafNodeS.split next big = some (l, r, s) ∨
              interiorNodeS.split next big = some (l, r, s)) ∧
            l.addr = demo11.root.addr ∧ r.height = demo11.root.height ∧
            t'.root = nodeI.interiorNodeS (next + 1) demo11.order [s] [l, r]))) ∧
    (∃ t' res, demo11.Del 2 = some (t', res) ∧
      ((t'.root.height = demo11.root.height ∧ t'.root.addr = demo11.root.addr ∧
          (demo11.DelRoot 2 = some none ∨
            ∃ parent, demo11.DelRoot 2 = some (some parent) ∧ parent.numKeys ≠ 0 ∧
              t'.root = parent)) ∨
        (t'.root.height + 1 = demo11.root.height ∧
          ∃ parent, demo11.DelRoot 2 = some (some parent) ∧
            demo11.isRoot parent = some true ∧
            parent.isLeaf = false ∧ parent.numKeys = 0 ∧ parent.children = [t'.root] ∧
            shrinkRoot parent = some t'.root)))) :=
  ⟨height_changes_at_root demo4 demo4_reachable 5 50,
    height_changes_at_root demo11 demo11_reachable 2 0⟩

end Claims10

section InsertOps

variable {K V : Type} [LinearOrder K]

/-- The boolean apart, `insertBool` is `interiorNodeS.insert`, the function
`Put` is written with. -/
theorem insertBool_eq (key : K) (val n : nodeI K V) :
    interiorNodeS.insertBool key val n = (interiorNodeS.insert key val n).map fun r => (r, true) := by
  cases n with
  | leafNodeS _ _ _ _ => rfl
  | interiorNodeS a c keys vals =>
    simp only [interiorNodeS.insertBool, interiorNodeS.insert]
    split
    · split <;> rfl
    · rfl

/-- The index the loop of `interiorNodeS.insert` and of `findLeaf` stops at is
the smallest index whose key is above `key`, the number of keys when there is
none. -/
theorem ltIndex_least (key : K) (keys : List K) :
    ltIndex key keys ≤ keys.length ∧
    (∀ j s, j < ltIndex key keys → keys[j]? = some s → ¬ key < s) ∧
    (∀ s, keys[ltIndex key keys]? = some s → key < s) := by
  obtain ⟨lk, rk, rfl, hl, h1, h2⟩ := ltIndex_spec key keys
  refine ⟨ltIndex_le key _, ?_, ?_⟩
  · intro j s hj hs
    rw [← hl] at hj
    rw [List.getElem?_append_left hj] at hs
    exact not_lt.2 (h1 s (List.getElem?_mem hs))
  · intro s hs
    rw [← hl, List.getElem?_append_right (le_refl _), Nat.sub_self] at hs
    apply h2 s
    cases rk with
    | nil => simp at hs
    | cons x rk => simpa using hs

end InsertOps

section Claims11

variable {K V : Type} [LinearOrder K]

/-- C33: interior insert.  For every interior node with `len` keys and
`len+1` children and every separator `s` and node `newChild`:
`insert(s, newChild)` returns true, and with `i` the smallest index with
`s < keys[i]`, or `len` when there is none, the keys after the call are the
keys before with `s` put in at index `i`, the children after the call are the
children before with `newChild` put in at index `i+1`; the former keys and
children stay in their order, and the node holds `len+1` keys and `len+2`
children. -/
theorem interior_insert (a c : Nat) (keys : List K) (vals : List (nodeI K V)) (s : K)
    (newChild : nodeI K V) (hv : vals.length = keys.length + 1) :
    ∃ i keys' vals', i ≤ keys.length ∧ (∀ j x, j < i → keys[j]? = some x → ¬ s < x) ∧
      (∀ x, keys[i]? = some x → s < x) ∧
      interiorNodeS.insertBool s newChild (nodeI.interiorNodeS a c keys vals)
        = some (nodeI.interiorNodeS a c keys' vals', true) ∧
      keys' = keys.take i ++ s :: keys.drop i ∧
      vals' = vals.take (i + 1) ++ newChild :: vals.drop (i + 1) ∧
      keys'[i]? = some s ∧ vals'[i + 1]? = some newChild ∧
      keys'.eraseIdx i = keys ∧ vals'.eraseIdx (i + 1) = vals ∧
      keys'.length = keys.length + 1 ∧ vals'.length = keys.length + 2 := by
  obtain ⟨h1, h2, h3⟩ := ltIndex_least s keys
  refine ⟨ltIndex s keys, _, _, h1, h2, h3, ?_, rfl, rfl, ?_, ?_, ?_, ?_, ?_, ?_⟩
  · simp only [interiorNodeS.insertBool]
    split
    · rw [if_pos (by omega)]
    · have : ltIndex s keys = keys.length := by omega
      rw [this, List.take_of_length_le (le_refl _), List.drop_of_length_le (le_refl _),
        List.take_of_length_le (by omega), List.drop_of_length_le (by omega)]
  · rw [List.getElem?_append_right (by simp [h1])]
    simp [Nat.min_eq_left h1]
  · rw [List.getElem?_append_right (by simp)]
    simp [Nat.min_eq_left (by omega : ltIndex s keys + 1 ≤ vals.length)]
  · rw [List.eraseIdx_append_of_length_le (by simp)]
    simp [Nat.min_eq_left h1]
  · rw [List.eraseIdx_append_of_length_le (by simp)]
    simp [Nat.min_eq_left (by omega : ltIndex s keys + 1 ≤ vals.length)]
  · simp only [List.length_append, List.length_take, List.length_cons, List.length_drop]
    omega
  · simp only [List.length_append, List.length_take, List.length_cons, List.length_drop]
    omega

end Claims11

section LeafInsert

variable {K V : Type} [LinearOrder K]

/-- In a strictly increasing list a key stands at one index only. -/
theorem index_unique {keys : List K} (hs : keys.Pairwise (· < ·)) {i j : Nat} {k : K}
    (hi : keys[i]? = some k) (hj : keys[j]? = some k) : i = j := by
  have hnd : keys.Nodup := hs.imp (fun h => ne_of_lt h)
  have hlt : i < keys.length := by
    rcases Nat.lt_or_ge i keys.length with h | h
    · exact h
    · rw [List.getElem?_eq_none h] at hi
      cases hi
  exact List.getElem?_inj hlt hnd (hi.trans hj.symm)

/-- What `leafNodeS.insert` does on a leaf with strictly increasing keys, by
the case of the scan: the key stands at an index, or the scan stops at the
first larger key, or it runs off the end. -/
theorem leafInsert_cases (a c : Nat) (keys : List K) (vals : List V) (k : K) (v : V)
    (hs : keys.Pairwise (· < ·)) (hv : vals.length = keys.length) :
    (∃ i, keys[i]? = some k ∧ i < vals.length ∧
      leafNodeS.insert k v (nodeI.leafNodeS a c keys vals)
        = some (nodeI.leafNodeS a c keys (vals.set i v), false)) ∨
    (k ∉ keys ∧ ∃ i, i ≤ keys.length ∧ (∀ j x, j < i → keys[j]? = some x → x < k) ∧
      (∀ j x, i ≤ j → keys[j]? = some x → k < x) ∧
      leafNodeS.insert k v (nodeI.leafNodeS a c keys vals)
        = some (nodeI.leafNodeS a c (keys.take i ++ k :: keys.drop i)
            (vals.take i ++ v :: vals.drop i), true)) := by
  rcases insertScan_cases k keys hs with ⟨lk, rk, rfl, e, h1, h2⟩ |
      ⟨lk, r0, rk, rfl, e, h1, h0, h2⟩ | ⟨e, h1⟩
  · have hlt : lk.length < vals.length := by
      simp at hv
      omega
    exact Or.inl ⟨lk.length,
      by rw [List.getElem?_append_right (le_refl _), Nat.sub_self, List.getElem?_cons_zero], hlt,
      by simp [leafNodeS.insert, e, hlt]⟩
  · have hle : lk.length ≤ vals.length := by
      simp at hv
      omega
    refine Or.inr ⟨?_, lk.length, by simp, ?_, ?_, by simp [leafNodeS.insert, e, hle]⟩
    · intro hm
      simp only [List.mem_append, List.mem_cons] at hm
      rcases hm with hm | rfl | hm
      · exact lt_irrefl _ (h1 k hm)
      · exact lt_irrefl _ h0
      · exact lt_irrefl _ (h2 k hm)
    · intro j x hj hx
      rw [List.getElem?_append_left hj] at hx
      exact h1 x (List.getElem?_mem hx)
    · intro j x hj hx
      rw [List.getElem?_append_right hj] at hx
      have := List.getElem?_mem hx
      simp only [List.mem_cons] at this
      rcases this with rfl | this
      · exact h0
      · exact h2 x this
  · refine Or.inr ⟨fun hm => lt_irrefl _ (h1 k hm), keys.length, le_refl _, ?_, ?_, ?_⟩
    · intro j x _ hx
      exact h1 x (List.getElem?_mem hx)
    · intro j x hj hx
      rw [List.getElem?_eq_none hj] at hx
      cases hx
    · rw [List.take_of_length_le (le_refl _), List.drop_of_length_le (le_refl _),
        List.take_of_length_le (by omega), List.drop_of_length_le (by omega)]
      simp [leafNodeS.insert, e]

end LeafInsert

section Claims12

variable {K V : Type} [LinearOrder K]

/-- C32: leaf insert.  For every leaf with strictly increasing keys and as
many values, every key `k` and value `v`: `insert(k, v)` returns; when `k`
stands at an index `i` it returns false, the keys are as before and the values
are as before but for `vals[i] = v`; when `k` is not a key of the leaf it
returns true and `(k, v)` went in at the first index `i` with `k < keys[i]`,
at the end when there is none.  Either way the keys stay strictly increasing,
there are as many values as keys, `k` is bound to `v`, and every other key is
bound as before. -/
theorem leaf_insert (a c : Nat) (keys : List K) (vals : List V) (k : K) (v : V)
    (hs : keys.Pairwise (· < ·)) (hv : vals.length = keys.length) :
    ∃ keys' vals' added,
      leafNodeS.insert k v (nodeI.leafNodeS a c keys vals)
        = some (nodeI.leafNodeS a c keys' vals', added) ∧
      (∀ i, keys[i]? = some k → added = false ∧ keys' = keys ∧ vals' = vals.set i v) ∧
      (k ∉ keys → added = true ∧ ∃ i, i ≤ keys.length ∧
        (∀ j x, j < i → keys[j]? = some x → ¬ k < x) ∧ (∀ x, keys[i]? = some x → k < x) ∧
        keys' = keys.take i ++ k :: keys.drop i ∧ vals' = vals.take i ++ v :: vals.drop i) ∧
      keys'.Pairwise (· < ·) ∧ vals'.length = keys'.length ∧
      lookupEnt k (List.zip keys' vals') = some v ∧
      (∀ k', k' ≠ k → lookupEnt k' (List.zip keys' vals') = lookupEnt k' (List.zip keys vals)) := by
  obtain ⟨keys', vals', added, e1, hlen', _, hzip, _, href⟩ :=
    leafInsert_spec k v a c keys vals hv.symm hs
  have hsorted : keys'.Pairwise (· < ·) := by
    have := href [] [] (by simpa using (pairwise_zipWith_ent hv.symm).2 hs) (by simp) (by simp)
    exact (pairwise_zipWith_ent hlen').1 (by simpa using this)
  refine ⟨keys', vals', added, e1, ?_, ?_, hsorted, hlen'.symm, ?_, ?_⟩
  · intro i hi
    rcases leafInsert_cases a c keys vals k v hs hv with ⟨i', hi', _, e⟩ | ⟨hn, _⟩
    · rw [e1] at e
      simp only [Option.some.injEq, Prod.mk.injEq, nodeI.leafNodeS.injEq, true_and] at e
      obtain ⟨⟨rfl, rfl⟩, rfl⟩ := e
      rw [index_unique hs hi hi']
      exact ⟨rfl, rfl, rfl⟩
    · exact absurd (List.getElem?_mem hi) hn
  · intro hn
    rcases leafInsert_cases a c keys vals k v hs hv with ⟨i', hi', _, _⟩ | ⟨_, i, h1, h2, h3, e⟩
    · exact absurd (List.getElem?_mem hi') hn
    · rw [e1] at e
      simp only [Option.some.injEq, Prod.mk.injEq, nodeI.leafNodeS.injEq, true_and] at e
      obtain ⟨⟨rfl, rfl⟩, rfl⟩ := e
      exact ⟨rfl, i, h1, fun j x hj hx => not_lt.2 (le_of_lt (h2 j x hj hx)),
        fun x hx => h3 i x (le_refl _) hx, rfl, rfl⟩
  · rw [hzip, lookupEnt_insertSpec_self]
  · intro k' hk'
    rw [hzip, lookupEnt_insertSpec_ne v _ hk']

/-- The statement C32 at the leaf `[1, 3]` and the key 2. -/
theorem leaf_insert_witness :
    ∃ keys' vals' added,
      leafNodeS.insert 2 20 (nodeI.leafNodeS 0 3 [1, 3] [10, 30])
        = some (nodeI.leafNodeS 0 3 keys' vals', added) ∧
      (∀ i, ([1, 3] : List Nat)[i]? = some 2 →
        added = false ∧ keys' = [1, 3] ∧ vals' = ([10, 30] : List Nat).set i 20) ∧
      (2 ∉ ([1, 3] : List Nat) → added = true ∧ ∃ i, i ≤ ([1, 3] : List Nat).length ∧
        (∀ j x, j < i → ([1, 3] : List Nat)[j]? = some x → ¬ 2 < x) ∧
        (∀ x, ([1, 3] : List Nat)[i]? = some x → 2 < x) ∧
        keys' = ([1, 3] : List Nat).take i ++ 2 :: ([1, 3] : List Nat).drop i ∧
        vals' = ([10, 30] : List Nat).take i ++ 20 :: ([10, 30] : List Nat).drop i) ∧
      keys'.Pairwise (· < ·) ∧ vals'.length = keys'.length ∧
      lookupEnt 2 (List.zip keys' vals') = some 20 ∧
      (∀ k', k' ≠ 2 →
        lookupEnt k' (List.zip keys' vals') = lookupEnt k' (List.zip [1, 3] [10, 30])) :=
  leaf_insert 0 3 [1, 3] [10, 30] 2 20 (by decide) rfl

/-- The statement C33 at the root of `demo4` taking in the separator 4 and the
new right leaf of `Put(5, 50)`: the result is the over-full node `demo4Big`. -/
theorem interior_insert_witness :
    ∃ i keys' vals', i ≤ ([2, 3] : List Nat).length ∧
      (∀ j x, j < i → ([2, 3] : List Nat)[j]? = some x → ¬ 4 < x) ∧
      (∀ x, ([2, 3] : List Nat)[i]? = some x → 4 < x) ∧
      interiorNodeS.insertBool 4 (nodeI.leafNodeS 4 3 [4, 5] [40, 50])
          (nodeI.interiorNodeS 2 3 [2, 3]
            [nodeI.leafNodeS 0 3 [1] [10], nodeI.leafNodeS 1 3 [2] [20],
              nodeI.leafNodeS 3 3 [3] [30]])
        = some (nodeI.interiorNodeS 2 3 keys' vals', true) ∧
      keys' = ([2, 3] : List Nat).take i ++ 4 :: ([2, 3] : List Nat).drop i ∧
      vals' = [nodeI.leafNodeS 0 3 [1] [10], nodeI.leafNodeS 1 3 [2] [20],
          nodeI.leafNodeS 3 3 [3] [30]].take (i + 1)
        ++ nodeI.leafNodeS 4 3 [4, 5] [40, 50] ::
          [nodeI.leafNodeS 0 3 [1] [10], nodeI.leafNodeS 1 3 [2] [20],
            nodeI.leafNodeS 3 3 [3] [30]].drop (i + 1) ∧
      keys'[i]? = some 4 ∧ vals'[i + 1]? = some (nodeI.leafNodeS 4 3 [4, 5] [40, 50]) ∧
      keys'.eraseIdx i = [2, 3] ∧
      vals'.eraseIdx (i + 1) = [nodeI.leafNodeS 0 3 [1] [10], nodeI.leafNodeS 1 3 [2] [20],
        nodeI.leafNodeS 3 3 [3] [30]] ∧
      keys'.length = ([2, 3] : List Nat).length + 1 ∧
      vals'.length = ([2, 3] : List Nat).length + 2 :=
  interior_insert 2 3 [2, 3] _ 4 (nodeI.leafNodeS 4 3 [4, 5] [40, 50]) rfl

end Claims12

section DescentPath

variable {K V : Type} [LinearOrder K]

/-- The loop of `findLeaf` below a well-formed subtree returns: it ends at a
leaf, the nodes it pushed are the interior nodes on the documented way, the
first visited pushed first, and there are as many as the subtree is high. -/
theorem findLeaf_descent (key : K) {order : Nat} : ∀ {h : Nat} {X : nodeI K V},
    WF order h X → ∀ (p0 : pathT K V),
    ∃ leaf visited, findLeafFrom key X p0 = some (leaf, visited.reverse ++ p0) ∧
      Descent key X visited leaf ∧ leaf.isLeaf = true ∧ visited.length = h := by
  intro h X w
  induction w with
  | leaf a c keys vals h1 h2 h3 =>
    intro p0
    exact ⟨_, [], by simp [findLeafFrom], Descent.leaf a c keys vals, rfl, rfl⟩
  | interior h a c keys vals h1 h2 h3 h4 h5 ih =>
    intro p0
    obtain ⟨lk, rk, lv, C, rv, hk, hvs, hl, hr, hlk, hrk, hget⟩ := descent_cut key h2
    obtain ⟨g1, g2, g3⟩ := ltIndex_least key keys
    obtain ⟨leaf, visited, e, d, hleaf, hlen⟩ :=
      ih C (by rw [hvs]; simp) (nodeI.interiorNodeS a c keys vals :: p0)
    refine ⟨leaf, nodeI.interiorNodeS a c keys vals :: visited, ?_,
      Descent.step a c keys vals _ C visited leaf g1 g2 g3 hget d, hleaf, by simp [hlen]⟩
    rw [findLeafFrom_interior key a c keys vals p0 C hget, e]
    simp

/-- A descent without interior nodes starts at the leaf it ends at. -/
theorem Descent.nil_eq {key : K} {X leaf : nodeI K V}
    (d : Descent key X [] leaf) : X = leaf := by
  cases d
  rfl

/-- The last interior node of a descent holds the leaf among its children. -/
theorem Descent.parent {key : K} {X leaf : nodeI K V}
    {visited : List (nodeI K V)} (d : Descent key X visited leaf) :
    ∀ p ∈ visited.getLast?, leaf ∈ p.children := by
  induction d with
  | leaf a c keys vals =>
    intro p hp
    simp at hp
  | step a c keys vals i child visited leaf h1 h2 h3 h4 d ih =>
    intro p hp
    cases visited with
    | nil =>
      simp only [List.getLast?_singleton, Option.mem_def, Option.some.injEq] at hp
      subst hp
      rw [← d.nil_eq]
      exact List.getElem?_mem h4
    | cons x xs =>
      rw [List.getLast?_cons_cons] at hp
      exact ih p hp

/-- The scan of a leaf finds a key only among the keys of the leaf. -/
theorem leafGet_mem {key : K} {leaf : nodeI K V} {v : Option V}
    (h : leafNodeS.get key leaf = some (v, true)) : key ∈ leaf.keys := by
  cases leaf with
  | interiorNodeS _ _ _ _ => simp [leafNodeS.get] at h
  | leafNodeS a c keys vals =>
    by_contra hn
    have : keyIndex key keys = none :=
      keyIndex_eq_none (fun k (hk : k ∈ keys) (e : k = key) => hn (e ▸ hk))
    simp [leafNodeS.get, this] at h

/-- A key stored in a leaf of an ordered well-formed subtree is stored in the
leaf `findLeaf` ends at. -/
theorem findLeaf_holds (key : K) {order h : Nat} {X : nodeI K V} (w : WF order h X)
    (hs : X.items.Pairwise Item.lt) (p0 path : pathT K V) (leaf : nodeI K V)
    (e : findLeafFrom key X p0 = some (leaf, path)) (hk : key ∈ X.leafKeys) :
    key ∈ leaf.keys := by
  obtain ⟨leaf', path', e1, e2⟩ := get_main key w p0 hs
  rw [e] at e1
  simp only [Option.some.injEq, Prod.mk.injEq] at e1
  obtain ⟨rfl, rfl⟩ := e1
  rw [leafKeys_eq w, List.mem_map] at hk
  obtain ⟨⟨k, v⟩, hm, rfl⟩ := hk
  cases hlook : lookupEnt k (ents X.items) with
  | none => exact absurd rfl (lookupEnt_eq_none.1 hlook (k, v) hm)
  | some v' =>
    rw [hlook] at e2
    exact leafGet_mem e2

end DescentPath

section Claims13

variable {K V : Type} [LinearOrder K]

/-- C31: descent.  For every reachable tree and key, `findLeaf` returns a
leaf; the way to it goes, at every interior node, into the child at the
smallest index whose separator is above the key, the last child when there is
none; the path holds the interior nodes visited, the root pushed first and the
parent of the leaf on top; the path is empty exactly when the root is a leaf;
and a key stored in any leaf of the tree is a key of the leaf returned. -/
theorem descent (t : tree K V) (hr : Reachable t) (key : K) :
    ∃ leaf path, t.findLeaf key newPathT = some (leaf, path) ∧ leaf.isLeaf = true ∧
      Descent key t.root path.reverse leaf ∧
      (∀ p, (pathT.pop path).1 = some p → leaf ∈ p.children) ∧
      (path.isEmpty = true ↔ t.root.isLeaf = true) ∧
      (key ∈ t.root.leafKeys → key ∈ leaf.keys) := by
  have inv := hr.inv
  obtain ⟨h, w⟩ := inv.wf
  obtain ⟨leaf, visited, e, d, hleaf, hlen⟩ := findLeaf_descent key w []
  rw [List.append_nil] at e
  refine ⟨leaf, visited.reverse, e, hleaf, by rwa [List.reverse_reverse], ?_, ?_, ?_⟩
  · intro p hp
    apply d.parent p
    rw [← List.head?_reverse]
    cases hv : visited.reverse with
    | nil => simp [hv, pathT.pop] at hp
    | cons x xs =>
      rw [hv] at hp
      simpa [pathT.pop] using hp
  · cases h with
    | zero =>
      have : visited = [] := List.length_eq_zero.1 hlen
      simp [this, pathT.isEmpty, w.isLeaf_zero]
    | succ h =>
      have hne : visited ≠ [] := by
        intro hv
        rw [hv] at hlen
        simp at hlen
      simp [pathT.isEmpty, w.isLeaf_succ, hne]
  · exact findLeaf_holds key w inv.sorted [] _ leaf e

/-- The statement C31 at the sample tree `demo7` and the key 6. -/
theorem descent_witness :
    ∃ leaf path, demo7.findLeaf 6 newPathT = some (leaf, path) ∧ leaf.isLeaf = true ∧
      Descent 6 demo7.root path.reverse leaf ∧
      (∀ p, (pathT.pop path).1 = some p → leaf ∈ p.children) ∧
      (path.isEmpty = true ↔ demo7.root.isLeaf = true) ∧
      (6 ∈ demo7.root.leafKeys → 6 ∈ leaf.keys) :=
  descent demo7 demo7_reachable 6

end Claims13

section Count

variable {K V : Type}

/-- Children that each hold `b` entries or more hold `len * b` together. -/
theorem entryCountList_ge (b : Nat) : ∀ (vals : List (nodeI K V)),
    (∀ x ∈ vals, b ≤ x.entryCount) → vals.length * b ≤ entryCountList vals
  | [], _ => by simp [entryCountList]
  | c :: cs, h => by
    have h1 := h c (by simp)
    have h2 := entryCountList_ge b cs (fun x hx => h x (by simp [hx]))
    simp only [entryCountList, List.length_cons, Nat.add_mul, Nat.one_mul]
    omega

/-- A subtree of height `h` whose top node holds its minimum stores at least
`ceil(order/2)^h * floor(order/2)` entries. -/
theorem entryCount_ge {order : Nat} : ∀ {h : Nat} {X : nodeI K V}, WF order h X →
    MinFill X → ceilHalf order ^ h * (order / 2) ≤ X.entryCount := by
  intro h X w
  induction w with
  | leaf a c keys vals h1 h2 h3 =>
    intro m
    subst h1
    simpa [MinFill, nodeI.halfFullSize, nodeI.size, nodeI.entryCount] using m
  | interior h a c keys vals h1 h2 h3 h4 h5 ih =>
    intro m
    subst h1
    have hm : ceilHalf c ≤ vals.length := by
      simpa [MinFill, nodeI.halfFullSize, nodeI.size, ceilHalf] using m
    have hb := entryCountList_ge (ceilHalf c ^ h * (c / 2)) vals (fun x hx => ih x hx (h5 x hx))
    simp only [nodeI.entryCount]
    calc ceilHalf c ^ (h + 1) * (c / 2) = ceilHalf c * (ceilHalf c ^ h * (c / 2)) := by
          rw [pow_succ]
          ring
      _ ≤ vals.length * (ceilHalf c ^ h * (c / 2)) := Nat.mul_le_mul_right _ hm
      _ ≤ entryCountList vals := hb

/-- A tree of height `h` with at least one entry, whose interior root has two
children or more, stores at least `ceil(order/2)^h` entries. -/
theorem root_entryCount_ge {order : Nat} {h : Nat} {X : nodeI K V}
    (w : WF order h X) (rf : RootFill X) (h1 : 1 ≤ X.entryCount) :
    ceilHalf order ^ h ≤ X.entryCount := by
  cases w with
  | leaf a c keys vals e1 e2 e3 => simpa using h1
  | interior h a c keys vals e1 e2 e3 e4 e5 =>
    have h2 : 2 ≤ vals.length := by
      rcases rf with rf | rf
      · simp [nodeI.isLeaf] at rf
      · simpa [nodeI.size] using rf
    have hb := entryCountList_ge (ceilHalf order ^ h * (order / 2)) vals
      (fun x hx => entryCount_ge (e4 x hx) (e5 x hx))
    have hc : ceilHalf order ≤ 2 * (order / 2) := by
      unfold ceilHalf
      omega
    simp only [nodeI.entryCount]
    calc ceilHalf order ^ (h + 1) = ceilHalf order ^ h * ceilHalf order := pow_succ _ _
      _ ≤ ceilHalf order ^ h * (2 * (order / 2)) := Nat.mul_le_mul_left _ hc
      _ = 2 * (ceilHalf order ^ h * (order / 2)) := by ring
      _ ≤ vals.length * (ceilHalf order ^ h * (order / 2)) := Nat.mul_le_mul_right _ h2
      _ ≤ entryCountList vals := hb

end Count

section Claims14

variable {K V : Type} [LinearOrder K]

/-- C35: height bound.  For every tree reachable from `NewBpTree(order)` (its
order is at least 3) that holds `N ≥ 1` entries, and every key: `findLeaf`
returns, every leaf is as many levels below the root as the path is long, and
the length `h` of the path satisfies `ceil(order/2)^h ≤ N`, that is
`h ≤ log N` to the base `ceil(order/2)`. -/
theorem height_bound (t : tree K V) (hr : Reachable t) (hN : 1 ≤ t.NumberOfEntries)
    (key : K) :
    3 ≤ t.order ∧
    ∃ leaf path, t.findLeaf key newPathT = some (leaf, path) ∧
      (∀ d ∈ t.root.leafDepths, d = path.length) ∧
      ((ceilHalf t.order ^ path.length : Nat) : Int) ≤ t.NumberOfEntries ∧
      path.length ≤ Nat.log (ceilHalf t.order) t.NumberOfEntries.toNat := by
  have inv := hr.inv
  obtain ⟨h, w⟩ := inv.wf
  obtain ⟨leaf, visited, e, _, _, hlen⟩ := findLeaf_descent key w []
  rw [List.append_nil] at e
  have hcount : t.NumberOfEntries = (t.root.entryCount : Int) := by
    rw [entryCount_eq w]
    exact inv.count
  have h1 : 1 ≤ t.root.entryCount := by
    rw [hcount] at hN
    exact_mod_cast hN
  have hpow := root_entryCount_ge w inv.rootFill h1
  have hpl : visited.reverse.length = h := by rw [List.length_reverse, hlen]
  refine ⟨inv.order_ge, leaf, visited.reverse, e, ?_, ?_, ?_⟩
  · intro d hd
    rw [hpl]
    exact leafDepths_eq w d hd
  · rw [hpl, hcount]
    exact_mod_cast hpow
  · rw [hpl, hcount, Int.toNat_ofNat]
    apply (Nat.pow_le_iff_le_log ?_ (by omega)).1 hpow
    have := inv.order_ge
    unfold ceilHalf
    omega

/-- The statement C35 at the sample tree `demo7`: seven entries, order 3,
paths of length 2. -/
theorem height_bound_witness :
    3 ≤ demo7.order ∧
    ∃ leaf path, demo7.findLeaf 6 newPathT = some (leaf, path) ∧
      (∀ d ∈ demo7.root.leafDepths, d = path.length) ∧
      ((ceilHalf demo7.order ^ path.length : Nat) : Int) ≤ demo7.NumberOfEntries ∧
      path.length ≤ Nat.log (ceilHalf demo7.order) demo7.NumberOfEntries.toNat :=
  height_bound demo7 demo7_reachable (by decide) 6

end Claims14

section Replace

variable {K V : Type}

/-- A node whose one value was replaced keeps the addresses of all its nodes
and the key sequence of every node. -/
theorem ValueReplaced.keeps {key : K} {val : V} {n n' : nodeI K V}
    (r : ValueReplaced key val n n') :
    n'.addr = n.addr ∧ n'.addrs = n.addrs ∧
      n'.nodes.map nodeI.keys = n.nodes.map nodeI.keys ∧ n'.leafKeys = n.leafKeys := by
  induction r with
  | leaf a c keys vals i h1 h2 =>
    simp [nodeI.addr, nodeI.addrs, nodeI.nodes, nodeI.keys, nodeI.leafKeys]
  | interior a c keys lv rv X X' r ih =>
    obtain ⟨_, h2, h3, h4⟩ := ih
    refine ⟨rfl, ?_, ?_, ?_⟩
    · simp only [nodeI.addrs, addrsList_eq, List.map_append, List.map_cons, h2]
    · simp only [nodeI.nodes, nodesList_eq, List.map_append, List.map_cons, List.flatten_append,
        List.flatten_cons, nodeI.keys, h3]
    · simp only [nodeI.leafKeys, leafKeysList_eq, List.map_append, List.map_cons, h4]

variable [LinearOrder K]

/-- `Put` of a key the subtree `X` binds, below and at `X`: the descent ends at
the leaf that holds the key, the leaf replaces the value and stays as large as
it was, and the subtree seen through the path is `X` with that one value
replaced. -/
theorem replace_main {order : Nat} (key : K) (val : V) :
    ∀ {h : Nat} {X : nodeI K V}, WF order h X → ∀ (p0 : pathT K V),
    X.items.Pairwise Item.lt → X.addrs.Nodup →
    (lookupEnt key (ents X.items)).isSome = true →
    ∃ leaf path leaf' X', findLeafFrom key X p0 = some (leaf, path) ∧
      leafNodeS.insert key val leaf = some (leaf', false) ∧ leaf'.isToBig = false ∧
      pathT.commit path leaf' = pathT.commit p0 X' ∧ ValueReplaced key val X X' := by
  intro h X w
  induction w with
  | leaf a c keys vals h1 h2 h3 =>
    intro p0 hs _ hk
    rw [items_leaf] at hs
    have hks := (pairwise_zipWith_ent h2).1 hs
    rw [items_leaf, ents_zipWith] at hk
    rcases leafInsert_cases a c keys vals key val hks h2.symm with ⟨i, hi, hlt, e⟩ | ⟨hn, _⟩
    · refine ⟨_, p0, _, _, by simp [findLeafFrom], e, ?_, rfl,
        ValueReplaced.leaf a c keys vals i hi hlt⟩
      simp only [nodeI.isToBig, beq_eq_false_iff_ne, ne_eq]
      omega
    · have : lookupEnt key (List.zip keys vals) = none :=
        lookupEnt_eq_none.2 (fun e he ek => hn (ek ▸ (List.of_mem_zip he).1))
      rw [this] at hk
      simp at hk
  | interior h a c keys vals h1 h2 h3 h4 h5 ih =>
    intro p0 hs hnd hk
    obtain ⟨lk, rk, lv, X, rv, rfl, rfl, hl, hr, hlk, hrk, hget⟩ := descent_cut key h2
    have hXs : X.items.Pairwise Item.lt := by
      have := hs
      rw [items_zoom a c lk rk lv rv X hl hr] at this
      exact (pairwise_mid this).2.1
    obtain ⟨hsl, hsr, hXnd, _⟩ := sibling_addr_ne hnd
    rw [lookup_zoom key a c lk rk lv rv X hl hr hs hlk hrk] at hk
    obtain ⟨leaf, path, leaf', X', e1, e2, e3, e4, r⟩ :=
      ih X (by simp) (nodeI.interiorNodeS a c (lk ++ rk) (lv ++ X :: rv) :: p0) hXs hXnd hk
    have ha : X'.addr = X.addr := r.keeps.1
    refine ⟨leaf, path, leaf', nodeI.interiorNodeS a c (lk ++ rk) (lv ++ X' :: rv), ?_, e2, e3,
      ?_, ValueReplaced.interior a c _ lv rv X X' r⟩
    · rw [findLeafFrom_interior key a c _ _ p0 X hget]
      exact e1
    · rw [e4]
      simp only [pathT.commit]
      rw [store_append a c (lk ++ rk) lv rv X X' ha.symm (fun y hy => ha ▸ hsl y hy)
        (fun y hy => ha ▸ hsr y hy)]

end Replace

section Claims15

variable {K V : Type} [LinearOrder K]

/-- C34: replace is structure-preserving.  For every reachable tree `t`, every
key `k` stored in a leaf of `t` and every value `v'`: `Put(k, v')` returns
false; the leaf `findLeaf` ends at replaces the value and is not over-full, so
nothing splits and no node is allocated; the root after the call is the root
before with the one value beside `k` replaced, so every node keeps its
address and its keys; every other key is bound as before, `k` is bound to
`v'`, and the order and `NumberOfEntries()` are as before. -/
theorem replace_preserves_structure (t : tree K V) (hr : Reachable t) (k : K) (v' : V)
    (hk : k ∈ t.root.leafKeys) :
    ∃ t' leaf path leaf', t.Put k v' = some (t', false) ∧
      t.findLeaf k newPathT = some (leaf, path) ∧
      leafNodeS.insert k v' leaf = some (leaf', false) ∧ leaf'.isToBig = false ∧
      t'.root = pathT.commit path leaf' ∧ ValueReplaced k v' t.root t'.root ∧
      t'.root.addrs = t.root.addrs ∧
      t'.root.nodes.map nodeI.keys = t.root.nodes.map nodeI.keys ∧
      t'.order = t.order ∧ t'.nextAddr = t.nextAddr ∧
      t'.NumberOfEntries = t.NumberOfEntries ∧
      lookupEnt k (ents t'.root.items) = some v' ∧
      (∀ k', k' ≠ k →
        lookupEnt k' (ents t'.root.items) = lookupEnt k' (ents t.root.items)) := by
  have inv := hr.inv
  obtain ⟨h, w⟩ := inv.wf
  have hsome : (lookupEnt k (ents t.root.items)).isSome = true := by
    rw [leafKeys_eq w, List.mem_map] at hk
    obtain ⟨⟨k0, v⟩, hm, rfl⟩ := hk
    cases hlook : lookupEnt k0 (ents t.root.items) with
    | none => exact absurd rfl (lookupEnt_eq_none.1 hlook (k0, v) hm)
    | some _ => rfl
  obtain ⟨leaf, path, leaf', X', e1, e2, e3, e4, r⟩ :=
    replace_main k v' w [] inv.sorted inv.nodup hsome
  obtain ⟨t1, added, p1, _, _, hents, _, _⟩ := Put_spec t inv k v'
  have hput : t.Put k v' = some ({ t with root := X' }, false) := by
    rw [Put_eq, e1]
    simp only [e2, leafSplitIfBig, e3, Bool.false_eq_true, if_false, putUp_none, e4,
      pathT.commit]
  rw [hput] at p1
  simp only [Option.some.injEq, Prod.mk.injEq] at p1
  obtain ⟨rfl, _⟩ := p1
  refine ⟨{ t with root := X' }, leaf, path, leaf', hput, e1, e2, e3, e4.symm, r, r.keeps.2.1,
    r.keeps.2.2.1, rfl, rfl, rfl, ?_, ?_⟩
  · rw [hents, lookupEnt_insertSpec_self]
  · intro k' hk'
    rw [hents, lookupEnt_insertSpec_ne v' _ hk']

/-- The statement C34 at the sample tree `demo7` and its key 6. -/
theorem replace_preserves_structure_witness :
    ∃ t' leaf path leaf', demo7.Put 6 66 = some (t', false) ∧
      demo7.findLeaf 6 newPathT = some (leaf, path) ∧
      leafNodeS.insert 6 66 leaf = some (leaf', false) ∧ leaf'.isToBig = false ∧
      t'.root = pathT.commit path leaf' ∧ ValueReplaced 6 66 demo7.root t'.root ∧
      t'.root.addrs = demo7.root.addrs ∧
      t'.root.nodes.map nodeI.keys = demo7.root.nodes.map nodeI.keys ∧
      t'.order = demo7.order ∧ t'.nextAddr = demo7.nextAddr ∧
      t'.NumberOfEntries = demo7.NumberOfEntries ∧
      lookupEnt 6 (ents t'.root.items) = some 66 ∧
      (∀ k', k' ≠ 6 →
        lookupEnt k' (ents t'.root.items) = lookupEnt k' (ents demo7.root.items)) :=
  replace_preserves_structure demo7 demo7_reachable 6 66 (by decide)

end Claims15

section Scenario

variable {K V : Type} [LinearOrder K]

/-- The block on the emptied first leaf of the scenario: no left peer, the
right peer gives its first entry, the separator becomes the key after it. -/
theorem scenario_steal (ra la lb : Nat) (kb kc : K) (vb vc : V) (hne : la ≠ lb) :
    stealOrMerge (nodeI.leafNodeS la 3 [] [])
        (nodeI.interiorNodeS ra 3 [kb]
          [nodeI.leafNodeS la 3 [] [], nodeI.leafNodeS lb 3 [kb, kc] [vb, vc]])
      = some (nodeI.interiorNodeS ra 3 [kc]
          [nodeI.leafNodeS la 3 [kb] [vb], nodeI.leafNodeS lb 3 [kc] [vc]], none) := by
  have hne' : ¬ lb = la := fun e => hne e.symm
  simp [stealOrMerge, nodeI.findPeerLeft, nodeI.findPeerRight, nodeIndex, nodeI.equals,
    Option.filter, nodeI.size, nodeI.halfFullSize, nodeI.stealRight, nodeI.findLeftMostKey,
    interiorNodeS.swapKeys, keyIndex, nodeI.store, nodeI.addr, hne, hne']

/-- The block on the emptied first leaf after the steal: no peer can give, the
leaf absorbs its right peer. -/
theorem scenario_merge (ra la lb : Nat) (kc : K) (vc : V) (hne : la ≠ lb) :
    stealOrMerge (nodeI.leafNodeS la 3 [] [])
        (nodeI.interiorNodeS ra 3 [kc]
          [nodeI.leafNodeS la 3 [] [], nodeI.leafNodeS lb 3 [kc] [vc]])
      = some (nodeI.interiorNodeS ra 3 [kc]
          [nodeI.leafNodeS la 3 [kc] [vc], nodeI.leafNodeS lb 3 [kc] [vc]],
          some (nodeI.leafNodeS la 3 [kc] [vc], nodeI.leafNodeS lb 3 [kc] [vc])) := by
  have hne' : ¬ lb = la := fun e => hne e.symm
  simp [stealOrMerge, nodeI.findPeerLeft, nodeI.findPeerRight, nodeIndex, nodeI.equals,
    Option.filter, nodeI.size, nodeI.halfFullSize, nodeI.mergeRight, nodeI.store, nodeI.addr,
    hne, hne']

omit [LinearOrder K] in
/-- The head of `delUp` after the merge of the scenario: the dead right leaf
and the separator leave the root. -/
theorem scenario_removeDead (ra la lb : Nat) (kc : K) (vc : V) (hne : la ≠ lb) :
    removeDead (nodeI.leafNodeS lb 3 [kc] [vc])
        (nodeI.interiorNodeS ra 3 [kc]
          [nodeI.leafNodeS la 3 [kc] [vc], nodeI.leafNodeS lb 3 [kc] [vc]])
      = some (nodeI.interiorNodeS ra 3 [] [nodeI.leafNodeS la 3 [kc] [vc]]) := by
  have hb : (lb == la) = false := by simpa using fun e : lb = la => hne e.symm
  simp [removeDead, nodeIndex, nodeI.equals, hb]

end Scenario

section Claims16

variable {K V : Type} [LinearOrder K]

/-- C36: the steal-then-merge scenario.  In the tree of order 3 whose root is
an interior node with the separator `kb` over the leaves `[ka]` and
`[kb, kc]`, `ka < kb < kc`: `Del(ka)` returns the value of `ka`; the emptied
leaf has no left peer and steals `kb` from the right leaf, the leaves become
`[kb]` and `[kc]` and the separator of the root becomes `kc`.  `Del(kb)` on
that tree returns the value of `kb`; the emptied leaf absorbs the right leaf,
and the tree is left with the single leaf `[kc]` as its root and
`NumberOfEntries() = 1`. -/
theorem steal_then_merge (ra la lb next : Nat) (ka kb kc : K) (va vb vc : V)
    (hab : ka < kb) (hbc : kb < kc) (hne : la ≠ lb) :
    ∃ t1 t2, (scenarioTree ra la lb next ka kb kc va vb vc).Del ka = some (t1, some va, true) ∧
      (nodeI.leafNodeS la 3 [] [] : nodeI K V).findPeerLeft
          (nodeI.interiorNodeS ra 3 [kb]
            [nodeI.leafNodeS la 3 [] [], nodeI.leafNodeS lb 3 [kb, kc] [vb, vc]])
        = some none ∧
      (nodeI.leafNodeS la 3 [] [] : nodeI K V).stealRight
          (nodeI.leafNodeS lb 3 [kb, kc] [vb, vc])
        = some (nodeI.leafNodeS la 3 [kb] [vb], nodeI.leafNodeS lb 3 [kc] [vc]) ∧
      t1.root = nodeI.interiorNodeS ra 3 [kc]
        [nodeI.leafNodeS la 3 [kb] [vb], nodeI.leafNodeS lb 3 [kc] [vc]] ∧
      t1.NumberOfEntries = 2 ∧
      t1.Del kb = some (t2, some vb, true) ∧
      (nodeI.leafNodeS la 3 [] [] : nodeI K V).mergeRight (nodeI.leafNodeS lb 3 [kc] [vc])
        = some (nodeI.leafNodeS la 3 [kc] [vc]) ∧
      t2.root = nodeI.leafNodeS la 3 [kc] [vc] ∧ t2.NumberOfEntries = 1 := by
  have hne' : ¬ lb = la := fun e => hne e.symm
  refine ⟨{ root := nodeI.interiorNodeS ra 3 [kc]
              [nodeI.leafNodeS la 3 [kb] [vb], nodeI.leafNodeS lb 3 [kc] [vc]],
            order := 3, numEnts := 2, nextAddr := next },
    { root := nodeI.leafNodeS la 3 [kc] [vc], order := 3, numEnts := 1, nextAddr := next },
    ?_, ?_, ?_, rfl, rfl, ?_, rfl, rfl, rfl⟩
  · rw [Del_eq]
    simp only [scenarioTree, findLeafFrom, findLeafAt, ltIndex, hab, if_true, pathT.push,
      leafNodeS.remove, keyIndex, List.getElem?_cons_zero, List.take_zero, List.drop_succ_cons,
      List.drop_zero, List.nil_append, Nat.zero_add]
    rw [delFix_eq]
    simp [tree.isRoot, nodeI.equals, nodeI.size, nodeI.halfFullSize, nodeI.store, nodeI.addr,
      hne', scenario_steal ra la lb kb kc vb vc hne, pathT.commit]
  · simp [nodeI.findPeerLeft, nodeIndex, nodeI.equals]
  · simp [nodeI.stealRight]
  · rw [Del_eq]
    simp only [findLeafFrom, findLeafAt, ltIndex, hbc, if_true, pathT.push,
      leafNodeS.remove, keyIndex, List.getElem?_cons_zero, List.take_zero, List.drop_succ_cons,
      List.drop_zero, List.nil_append, Nat.zero_add]
    rw [delFix_eq]
    simp only [tree.isRoot, nodeI.equals, nodeI.size, nodeI.halfFullSize, nodeI.store,
      nodeI.addr, hne', List.map_cons, List.map_nil, if_true, if_false, List.length_nil,
      scenario_merge ra la lb kc vc hne]
    rw [scenario_removeDead ra la lb kc vc hne]
    simp only [delFix_eq, tree.isRoot, nodeI.equals, beq_self_eq_true, rootAfter, shrinkRoot,
      List.length_nil, if_true, List.head?_cons]
    have h32 : ¬ (0 ≥ 3 / 2) := by decide
    rw [if_neg h32]
    rfl

/-- The statement C36 at the reachable sample tree `demo3`: the keys 1, 2, 3. -/
theorem steal_then_merge_witness :
    Reachable (scenarioTree 2 0 1 3 1 2 3 10 20 30) ∧
    ∃ t1 t2, (scenarioTree 2 0 1 3 1 2 3 10 20 30).Del 1 = some (t1, some 10, true) ∧
      (nodeI.leafNodeS 0 3 [] [] : nodeI Nat Nat).findPeerLeft
          (nodeI.interiorNodeS 2 3 [2]
            [nodeI.leafNodeS 0 3 [] [], nodeI.leafNodeS 1 3 [2, 3] [20, 30]])
        = some none ∧
      (nodeI.leafNodeS 0 3 [] [] : nodeI Nat Nat).stealRight
          (nodeI.leafNodeS 1 3 [2, 3] [20, 30])
        = some (nodeI.leafNodeS 0 3 [2] [20], nodeI.leafNodeS 1 3 [3] [30]) ∧
      t1.root = nodeI.interiorNodeS 2 3 [3]
        [nodeI.leafNodeS 0 3 [2] [20], nodeI.leafNodeS 1 3 [3] [30]] ∧
      t1.NumberOfEntries = 2 ∧
      t1.Del 2 = some (t2, some 20, true) ∧
      (nodeI.leafNodeS 0 3 [] [] : nodeI Nat Nat).mergeRight (nodeI.leafNodeS 1 3 [3] [30])
        = some (nodeI.leafNodeS 0 3 [3] [30]) ∧
      t2.root = nodeI.leafNodeS 0 3 [3] [30] ∧ t2.NumberOfEntries = 1 :=
  ⟨demo3_reachable, steal_then_merge 2 0 1 3 1 2 3 10 20 30 (by decide) (by decide) (by decide)⟩

end Claims16

end bptree
